import Mathlib

/-!
# khmer `Hashtable` (lib/hashtable.cc): k-mer counting, graph walks, partitions

A shallow embedding of the counting part of `lib/hashtable.cc` with
`consume_fasta`, of the walk `calc_connected_graph_size` with `trim_graphs`, of
the partition table (`assign_partition_id`, `_reassign_partition_ids`,
`_checkpoint_partitionmap`, `_load_partitionmap`), of the search
`partition_find_all_tags` with `do_truncated_partition`, and of
`partition_set_id` with `do_exact_partition`.

* `HashIntoType` is `unsigned long long`: hashes, keys and bounds are naturals,
  and every operation that can leave 64 bits is reduced `% 2 ^ 64`.
* `BoundedCounterType` is `unsigned char`: counters are naturals, an increment
  is reduced `% 256`.
* a `std::string` is a `List Char`; `c_str` reads the terminated buffer. The
  source keeps string lengths, positions and the tally `n_consumed` in
  `unsigned int`: strings are taken to be shorter than `2 ^ 32` characters, so
  that these variables hold their values exactly.
* the member array `_counts` is a function from the bin index to the counter;
  the source only ever indexes it with `... % _tablesize`.
* the members `_ksize`, `_tablesize`, `_counts` drop their leading underscore.
* `uniqify_rc`, the canonical key of khmer.hh, lies outside lib/hashtable.cc;
  every operation takes it as its first argument, and the two candidates the
  specification names are `uniqify_rc_min` and `uniqify_rc_xor`.
* the write lock that `consume_string` takes and releases has no effect on a
  single thread and is left out.
* the recursion of `calc_connected_graph_size` is not structural: the function
  takes the depth to which calls may nest and gives `none` beyond it; the
  theorems show that a depth above `4 ^ k` is enough. The `SeenSet` is the
  ascending list of its members. `count` (`unsigned long long`) is not reduced:
  a walk inserts fewer than `2 ^ 64` keys.
* a `std::map` is the list of its entries, a `std::set` the list of its
  members; the lemmas on them hold for every list.
* the heap of `PartitionID` cells is a map from addresses to values, address 0
  being the null pointer; the tagged k-mers of a call are a list in the order
  of iteration. A `PartitionID` is `unsigned int`: fewer than `2 ^ 32` ids are
  taken to be handed out, so `next_partition_id++` is not reduced.
* a function that dereferences a null or unallocated pointer, or fails an
  `assert`, gives `none`.
* a file is the list of its bytes; `memcpy` of an integer writes and reads its
  bytes least significant first.
* the parser of `consume_fasta`, `do_truncated_partition` and
  `do_exact_partition` is the list of the reads it delivers, each a name and a
  sequence; fewer than `2 ^ 32` reads are taken to be delivered. The callbacks,
  which only report progress, are left out.
* the loop of `partition_find_all_tags` takes the number of turns it may make;
  the function gives it `PARTITION_MAX_TAG_EXAMINED + 1`, which the theorems
  show to be enough. The queue is the list of its entries, front first.
* `partition_set_id` takes the depth to which calls may nest, as
  `calc_connected_graph_size` does; it gives `Failure.depth` beyond it and
  `Failure.assertion` when an `assert` fails.
* `calc_connected_graph_size_tally` is `calc_connected_graph_size` with one
  more variable, which counts the calls that go on to their neighbours; a
  theorem shows that the two agree on `count` and the seen set.
* `_hash` of ktable.cc lies outside lib/hashtable.cc. `hash_init` is its value
  on a buffer whose first k characters are bases, which is all that the
  theorems on valid reads need; `hash_init_checked` keeps its failure on any
  other buffer, and `get_min_count_checked` and `get_max_count_checked` are the
  two query functions with that failure.
-/

namespace khmer

/-! ## khmer.hh: types, constants and macros -/

/-- Modelled from the spec: the constant `MAX_COUNT` of khmer.hh, which is not
among the sources; "`MAX_COUNT` = 255". -/
def MAX_COUNT : Nat := 255

/-- Modelled from the spec: the macro `twobit_repr` of khmer.hh, which is not
among the sources; the two-bit code `twobit(b)` of a base. The specification
fixes no numbering; A, T, C, G are numbered 0, 1, 2, 3 and, as a macro made of
conditionals does, every other character falls into the last case. -/
def twobit_repr (ch : Char) : Nat :=
  if ch = 'A' then 0 else if ch = 'T' then 1 else if ch = 'C' then 2 else 3

/-- Modelled from the spec: the macro `twobit_comp` of khmer.hh, which is not
among the sources; `twobit_comp(b)` is the two-bit code of the complementary
base (A with T, C with G). -/
def twobit_comp (ch : Char) : Nat :=
  if ch = 'A' then 1 else if ch = 'T' then 0 else if ch = 'C' then 3 else 2

/-- Modelled from the spec: the macro `is_valid_dna` of khmer.hh, which is not
among the sources; "only the four bases A, C, G, T are valid". -/
def is_valid_dna (ch : Char) : Bool :=
  ch = 'A' || ch = 'C' || ch = 'G' || ch = 'T'

/-- Modelled from the spec: one candidate for the macro `uniqify_rc` of
khmer.hh, which is not among the sources; the canonical key `min(f, r)`. -/
def uniqify_rc_min (f r : Nat) : Nat :=
  if f < r then f else r

/-- Modelled from the spec: the other candidate for the macro `uniqify_rc` of
khmer.hh, which is not among the sources; the canonical key `f XOR r`. -/
def uniqify_rc_xor (f r : Nat) : Nat :=
  f ^^^ r

/-- The character `s.c_str()[i]`: the characters of the string, then NUL. -/
def c_str (s : List Char) (i : Nat) : Char :=
  s.getD i (Char.ofNat 0)

/-- Modelled from the spec: `_hash(kmer, k, h, r)` of ktable.cc, which is not
among the sources (`hash_init` in the specification): it reads the first `k`
characters of the buffer and yields the forward two-bit packing `h` (first base
in the most significant position), the packing `r` of the reverse complement
(complement of the last base in the most significant position), and the
canonical key `uniqify_rc(h, r)`. The result is `(key, h, r)`. This is the
value for a buffer whose first `k` characters are bases; that the call fails
on any other buffer is kept in `hash_init_checked`. -/
def hash_init (uniqify_rc : Nat → Nat → Nat)
    (kmer : List Char) (k : Nat) : Nat × Nat × Nat :=
  let window := (List.range k).map (c_str kmer)
  let h := window.foldl (fun h ch => ((h <<< 2) % 2 ^ 64) ||| twobit_repr ch) 0
  let r := window.reverse.foldl (fun r ch => ((r <<< 2) % 2 ^ 64) ||| twobit_comp ch) 0
  (uniqify_rc h r, h, r)

/-! ## The table -/

/-- The members of `Hashtable` the counting code uses. -/
structure Hashtable where
  ksize : Nat
  tablesize : Nat
  counts : Nat → Nat

/-- Modelled from the spec: the member `bitmask`, set by the constructor in
hashtable.hh, which is not among the sources; "`mask = (1 << 2k) − 1`". -/
def Hashtable.bitmask (ht : Hashtable) : Nat :=
  (1 <<< (2 * ht.ksize)) - 1

/-- Modelled from the spec: `get_count(HashIntoType)` of hashtable.hh, which is
not among the sources; "`get_count_by_key(key)` returns `counts[key mod T]`". -/
def Hashtable.get_count (ht : Hashtable) (khash : Nat) : Nat :=
  ht.counts (khash % ht.tablesize)

/-- Modelled from the spec: `get_count(const char *)` of hashtable.hh, which is
not among the sources; "`get_count_by_sequence(kmer_string)` returns
`counts[canonical(hash_init(kmer_string)) mod T]`". -/
def Hashtable.get_count_kmer (uniqify_rc : Nat → Nat → Nat)
    (ht : Hashtable) (kmer : List Char) : Nat :=
  ht.get_count (hash_init uniqify_rc kmer ht.ksize).1

/-- The rolling update that `consume_string`, `get_min_count` and
`get_max_count` each spell out in their loop body (hashtable.cc 534-544,
591-601, 638-648): from `(h, r)` and the next character to the next `(h, r)`. -/
def Hashtable.roll (ht : Hashtable) (h r : Nat) (ch : Char) :
    Nat × Nat :=
  let h := (h <<< 2) % 2 ^ 64
  let h := h ||| twobit_repr ch
  let h := h &&& ht.bitmask
  let r := r >>> 2
  let r := r ||| ((twobit_comp ch <<< (ht.ksize * 2 - 2)) % 2 ^ 64)
  (h, r)

/-- The test `!bounded || (bin >= lower_bound && bin < upper_bound)`. -/
def in_bounds (bounded : Bool) (lower_bound upper_bound bin : Nat) : Bool :=
  !bounded || (decide (lower_bound ≤ bin) && decide (bin < upper_bound))

/-- The flag `bounded`: true unless `lower_bound == upper_bound && upper_bound == 0`. -/
def is_bounded (lower_bound upper_bound : Nat) : Bool :=
  if lower_bound = upper_bound ∧ upper_bound = 0 then false else true

/-! ## consume_string (hashtable.cc 504-564) -/

/-- The local variables of `consume_string` that change: `h`, `r`, the array
`_counts` and `n_consumed`. -/
structure ConsumeState where
  h : Nat
  r : Nat
  counts : Nat → Nat
  n_consumed : Nat

/-- The guarded block of `consume_string` (524-530 and 548-554): when the key
passes the bounds, the bin `bin % _tablesize` goes up by one unless it holds
`MAX_COUNT`, and `n_consumed` goes up by one. -/
def Hashtable.consume_bin (ht : Hashtable) (bounded : Bool)
    (lower_bound upper_bound bin : Nat)
    (counts : Nat → Nat) (n_consumed : Nat) :
    (Nat → Nat) × Nat :=
  if in_bounds bounded lower_bound upper_bound bin then
    let bin := bin % ht.tablesize
    let counts := if counts bin ≠ MAX_COUNT
      then (fun j => if j = bin then (counts bin + 1) % 256 else counts j)
      else counts
    (counts, n_consumed + 1)
  else (counts, n_consumed)

/-- The state before the loop: `_hash` of the first window, then the guarded
block on its key. -/
def Hashtable.consume_string_init (uniqify_rc : Nat → Nat → Nat)
    (ht : Hashtable) (s : List Char) (lower_bound upper_bound : Nat) :
    ConsumeState :=
  let hs := hash_init uniqify_rc s ht.ksize
  let cn := ht.consume_bin (is_bounded lower_bound upper_bound) lower_bound upper_bound
    hs.1 ht.counts 0
  { h := hs.2.1, r := hs.2.2, counts := cn.1, n_consumed := cn.2 }

/-- One pass through the body of the loop `for (i = _ksize; i < length; i++)`,
at the character `sp[i]`. -/
def Hashtable.consume_string_body (uniqify_rc : Nat → Nat → Nat)
    (ht : Hashtable) (lower_bound upper_bound : Nat)
    (st : ConsumeState) (ch : Char) : ConsumeState :=
  let hr := ht.roll st.h st.r ch
  let bin := uniqify_rc hr.1 hr.2
  let cn := ht.consume_bin (is_bounded lower_bound upper_bound) lower_bound upper_bound
    bin st.counts st.n_consumed
  { h := hr.1, r := hr.2, counts := cn.1, n_consumed := cn.2 }

/-- The state of `consume_string` after `n` passes through its loop (all of
them when the loop makes fewer): the loop visits `sp[_ksize]`, `sp[_ksize+1]`,
... in order. -/
def Hashtable.consume_string_steps (uniqify_rc : Nat → Nat → Nat)
    (ht : Hashtable) (s : List Char) (lower_bound upper_bound : Nat) (n : Nat) :
    ConsumeState :=
  ((s.drop ht.ksize).take n).foldl (ht.consume_string_body uniqify_rc lower_bound upper_bound)
    (ht.consume_string_init uniqify_rc s lower_bound upper_bound)

/-- The function `consume_string`: the value returned and the table left. The
loop `for (i = _ksize; i < length; i++)` reads the characters of `s` from
position `_ksize` on, in order. -/
def Hashtable.consume_string (uniqify_rc : Nat → Nat → Nat)
    (ht : Hashtable) (s : List Char) (lower_bound upper_bound : Nat) :
    Nat × Hashtable :=
  let st := (s.drop ht.ksize).foldl (ht.consume_string_body uniqify_rc lower_bound upper_bound)
    (ht.consume_string_init uniqify_rc s lower_bound upper_bound)
  (st.n_consumed, { ht with counts := st.counts })

/-! ## get_min_count and get_max_count (hashtable.cc 567-660) -/

/-- The local variables of `get_min_count` (or `get_max_count`) that change:
`h`, `r` and the running `min_count` (or `max_count`). -/
structure FoldState where
  h : Nat
  r : Nat
  acc : Nat

/-- The state of `get_min_count` before its loop: `min_count` starts at
`MAX_COUNT` and takes the count of the first key when that key passes the bounds. -/
def Hashtable.get_min_count_init (uniqify_rc : Nat → Nat → Nat)
    (ht : Hashtable) (s : List Char) (lower_bound upper_bound : Nat) : FoldState :=
  let hs := hash_init uniqify_rc s ht.ksize
  let min_count := MAX_COUNT
  let min_count :=
    if in_bounds (is_bounded lower_bound upper_bound) lower_bound upper_bound hs.1
    then ht.get_count hs.1 else min_count
  { h := hs.2.1, r := hs.2.2, acc := min_count }

/-- One pass through the loop body of `get_min_count`. -/
def Hashtable.get_min_count_body (uniqify_rc : Nat → Nat → Nat)
    (ht : Hashtable) (lower_bound upper_bound : Nat)
    (st : FoldState) (ch : Char) : FoldState :=
  let hr := ht.roll st.h st.r ch
  let bin := uniqify_rc hr.1 hr.2
  let min_count :=
    if in_bounds (is_bounded lower_bound upper_bound) lower_bound upper_bound bin then
      let count := ht.get_count bin
      if count < st.acc then count else st.acc
    else st.acc
  { h := hr.1, r := hr.2, acc := min_count }

/-- The function `get_min_count`: the value returned and the table, which the
function never assigns to. -/
def Hashtable.get_min_count (uniqify_rc : Nat → Nat → Nat)
    (ht : Hashtable) (s : List Char) (lower_bound upper_bound : Nat) :
    Nat × Hashtable :=
  let st := (s.drop ht.ksize).foldl (ht.get_min_count_body uniqify_rc lower_bound upper_bound)
    (ht.get_min_count_init uniqify_rc s lower_bound upper_bound)
  (st.acc, ht)

/-- The state of `get_max_count` before its loop: `max_count` starts at 0 and
takes the count of the first key when that key passes the bounds. -/
def Hashtable.get_max_count_init (uniqify_rc : Nat → Nat → Nat)
    (ht : Hashtable) (s : List Char) (lower_bound upper_bound : Nat) : FoldState :=
  let hs := hash_init uniqify_rc s ht.ksize
  let max_count := 0
  let max_count :=
    if in_bounds (is_bounded lower_bound upper_bound) lower_bound upper_bound hs.1
    then ht.get_count hs.1 else max_count
  { h := hs.2.1, r := hs.2.2, acc := max_count }

/-- One pass through the loop body of `get_max_count`. -/
def Hashtable.get_max_count_body (uniqify_rc : Nat → Nat → Nat)
    (ht : Hashtable) (lower_bound upper_bound : Nat)
    (st : FoldState) (ch : Char) : FoldState :=
  let hr := ht.roll st.h st.r ch
  let bin := uniqify_rc hr.1 hr.2
  let max_count :=
    if in_bounds (is_bounded lower_bound upper_bound) lower_bound upper_bound bin then
      let count := ht.get_count bin
      if count > st.acc then count else st.acc
    else st.acc
  { h := hr.1, r := hr.2, acc := max_count }

/-- The function `get_max_count`: the value returned and the table, which the
function never assigns to. -/
def Hashtable.get_max_count (uniqify_rc : Nat → Nat → Nat)
    (ht : Hashtable) (s : List Char) (lower_bound upper_bound : Nat) :
    Nat × Hashtable :=
  let st := (s.drop ht.ksize).foldl (ht.get_max_count_body uniqify_rc lower_bound upper_bound)
    (ht.get_max_count_init uniqify_rc s lower_bound upper_bound)
  (st.acc, ht)

/-! ## check_read (hashtable.cc 382-400) -/

/-- The loop of `check_read`: `return 0` at the first character that is not
valid DNA, and `is_valid`, still true, after the last one. -/
def check_read_loop : List Char → Bool
  | [] => true
  | ch :: rest => if !is_valid_dna ch then false else check_read_loop rest

/-- The function `check_read`. -/
def Hashtable.check_read (ht : Hashtable) (read : List Char) : Bool :=
  if read.length < ht.ksize then false
  else check_read_loop read

/-! ## Words of the specification -/

/-- The string is over the alphabet A, C, G, T. -/
def is_acgt (s : List Char) : Prop :=
  ∀ ch ∈ s, ch = 'A' ∨ ch = 'C' ∨ ch = 'G' ∨ ch = 'T'

instance (s : List Char) : Decidable (is_acgt s) := by
  unfold is_acgt; infer_instance

/-- The canonical key of the window `s[i .. i+k)`, hashed from scratch. -/
def window_key (uniqify_rc : Nat → Nat → Nat)
    (k : Nat) (s : List Char) (i : Nat) : Nat :=
  (hash_init uniqify_rc (s.drop i) k).1

/-- The bounds filter as the specification words it: the bounds are inactive
(`lo = hi = 0`) or `lo ≤ key < hi`. -/
def passes_bounds (lo hi key : Nat) : Bool :=
  (decide (lo = 0) && decide (hi = 0)) || (decide (lo ≤ key) && decide (key < hi))

/-- The table with every counter at zero. -/
def empty_table (k T : Nat) : Hashtable :=
  { ksize := k, tablesize := T, counts := fun _ => 0 }

/-- The two-bit packing of a word under the code `t`, as arithmetic: the first
character in the most significant position. -/
def pack (t : Char → Nat) (w : List Char) : Nat :=
  w.foldl (fun h ch => 4 * h + t ch) 0

/-- The canonical keys of all the windows of `s`, left to right. -/
def window_keys (uniqify_rc : Nat → Nat → Nat)
    (k : Nat) (s : List Char) : List Nat :=
  (List.range (s.length - k + 1)).map (window_key uniqify_rc k s)

/-- The complementary base: A with T, C with G. -/
def complement (ch : Char) : Char :=
  if ch = 'A' then 'T' else if ch = 'T' then 'A' else if ch = 'C' then 'G'
  else if ch = 'G' then 'C' else ch

/-- The reverse complement of a k-mer string. -/
def reverse_complement (x : List Char) : List Char :=
  (x.map complement).reverse

/-- The guarded block of `consume_string` as a step on the pair
(`_counts`, `n_consumed`), for folding over a list of keys. -/
def consume_fold (ht : Hashtable) (lo hi : Nat)
    (cn : (Nat → Nat) × Nat) (key : Nat) :
    (Nat → Nat) × Nat :=
  ht.consume_bin (is_bounded lo hi) lo hi key cn.1 cn.2

/-- The read of scenario 1 of the specification, "AAAACCCCGGGGTTTT". -/
def scenario_read : List Char :=
  ['A', 'A', 'A', 'A', 'C', 'C', 'C', 'C', 'G', 'G', 'G', 'G', 'T', 'T', 'T', 'T']

/-- The counts read for the 13 windows of the scenario read, in a table with
k = 4. -/
def scenario_counts (uniqify_rc : Nat → Nat → Nat) (ht : Hashtable) : List Nat :=
  (List.range 13).map (fun i => ht.get_count_kmer uniqify_rc ((scenario_read.drop i).take 4))

/-- A table with k = 1 and a single bin that holds 7. -/
def one_bin_table : Hashtable :=
  { ksize := 1, tablesize := 1, counts := fun _ => 7 }

/-! ## std::map and std::set -/

/-- The lookup `m.find(k)` in a `std::map` with integer keys, kept as the list
of its entries in ascending key order: the value, or `none` for `m.end()`. -/
def map_find {β : Type} (k : Nat) : List (Nat × β) → Option β
  | [] => none
  | e :: rest => if e.1 = k then some e.2 else map_find k rest

/-- The assignment `m[k] = v` in a `std::map`: the entry is replaced when the
key is present and inserted at its place in the order when it is not. -/
def map_set {β : Type} (k : Nat) (v : β) : List (Nat × β) → List (Nat × β)
  | [] => [(k, v)]
  | e :: rest =>
    if k < e.1 then (k, v) :: e :: rest
    else if k = e.1 then (k, v) :: rest
    else e :: map_set k v rest

/-- The call `m.erase(k)` on a `std::map`. -/
def map_erase {β : Type} (k : Nat) : List (Nat × β) → List (Nat × β)
  | [] => []
  | e :: rest => if e.1 = k then map_erase k rest else e :: map_erase k rest

/-- The call `s.insert(a)` on a `std::set` of integers, kept as the list of its
members in ascending order. -/
def set_insert (a : Nat) : List Nat → List Nat
  | [] => [a]
  | b :: rest =>
    if a < b then a :: b :: rest
    else if a = b then b :: rest
    else b :: set_insert a rest


/-! ## check_and_process_read (hashtable.cc 366-376) -/

/-- The function `check_and_process_read`: the value returned, the flag
`is_valid` it sets through its reference parameter, and the table left. -/
def Hashtable.check_and_process_read (uniqify_rc : Nat → Nat → Nat)
    (ht : Hashtable) (read : List Char) (lower_bound upper_bound : Nat) :
    Nat × Bool × Hashtable :=
  let is_valid := ht.check_read read
  if !is_valid then (0, is_valid, ht)
  else
    let rs := ht.consume_string uniqify_rc read lower_bound upper_bound
    (rs.1, is_valid, rs.2)

/-! ## calc_connected_graph_size (hashtable.cc 839-915) -/

/-- The two assignments before each of the four calls under `// NEXT.`
(874-888), for the base `ch`. -/
def Hashtable.next_pair (ht : Hashtable) (kmer_f kmer_r : Nat) (ch : Char) : Nat × Nat :=
  let rc_left_shift := ht.ksize * 2 - 2
  let f := (((kmer_f <<< 2) % 2 ^ 64) &&& ht.bitmask) ||| twobit_repr ch
  let r := (kmer_r >>> 2) ||| ((twobit_comp ch <<< rc_left_shift) % 2 ^ 64)
  (f, r)

/-- The two assignments before each of the four calls under `// PREVIOUS.`
(892-906), for the base `ch`. -/
def Hashtable.previous_pair (ht : Hashtable) (kmer_f kmer_r : Nat) (ch : Char) : Nat × Nat :=
  let rc_left_shift := ht.ksize * 2 - 2
  let r := (((kmer_r <<< 2) % 2 ^ 64) &&& ht.bitmask) ||| twobit_comp ch
  let f := (kmer_f >>> 2) ||| ((twobit_repr ch <<< rc_left_shift) % 2 ^ 64)
  (f, r)

/-- The arguments `(f, r)` of the eight recursive calls of
`calc_connected_graph_size`, in the order of the source. -/
def Hashtable.neighbour_pairs (ht : Hashtable) (kmer_f kmer_r : Nat) : List (Nat × Nat) :=
  [ht.next_pair kmer_f kmer_r 'A', ht.next_pair kmer_f kmer_r 'C',
   ht.next_pair kmer_f kmer_r 'G', ht.next_pair kmer_f kmer_r 'T',
   ht.previous_pair kmer_f kmer_r 'A', ht.previous_pair kmer_f kmer_r 'C',
   ht.previous_pair kmer_f kmer_r 'G', ht.previous_pair kmer_f kmer_r 'T']

/-- The function `calc_connected_graph_size(kmer_f, kmer_r, count, keeper,
threshold)`: the values of `count` and `keeper` on return, from their values at
the call. The first argument bounds the depth of the recursion: `none` when the
calls nest deeper. `count` is an `unsigned long long`; a walk inserts fewer
than `2 ^ 64` keys, so the increment is not reduced. -/
def Hashtable.calc_connected_graph_size (uniqify_rc : Nat → Nat → Nat)
    (ht : Hashtable) (threshold : Nat) :
    Nat → Nat → Nat → Nat × List Nat → Option (Nat × List Nat)
  | 0, _, _, _ => none
  | depth + 1, kmer_f, kmer_r, (count, keeper) =>
    let kmer := uniqify_rc kmer_f kmer_r
    let val := ht.counts (kmer % ht.tablesize)
    if val = 0 then some (count, keeper)
    else if kmer ∈ keeper then some (count, keeper)
    else
      let keeper := set_insert kmer keeper
      let count := count + 1
      if threshold ≠ 0 ∧ count ≥ threshold then some (count, keeper)
      else
        (ht.neighbour_pairs kmer_f kmer_r).foldlM
          (fun ck fr => Hashtable.calc_connected_graph_size uniqify_rc ht threshold depth
            fr.1 fr.2 ck)
          (count, keeper)

/-- Modelled from the spec: the overload `calc_connected_graph_size(const char
* kmer, count, keeper, threshold)` of hashtable.hh, which is not among the
sources; the walk of 4.3.1 started at the k-mer, whose pair `_hash` gives. -/
def Hashtable.calc_connected_graph_size_kmer (uniqify_rc : Nat → Nat → Nat)
    (ht : Hashtable) (threshold depth : Nat) (kmer : List Char)
    (ck : Nat × List Nat) : Option (Nat × List Nat) :=
  let hs := hash_init uniqify_rc kmer ht.ksize
  ht.calc_connected_graph_size uniqify_rc threshold depth hs.2.1 hs.2.2 ck

/-! ## trim_graphs (hashtable.cc 917-970) -/

/-- The body of the loop of `trim_graphs` for one read `(name, seq)`: the
records written to the output file, kept as the list of the reads written.
`none` when the walk nests deeper than `depth`. The callback, which only
reports progress, is left out. -/
def Hashtable.trim_graphs_read (uniqify_rc : Nat → Nat → Nat)
    (ht : Hashtable) (depth min_size : Nat) (read : String × List Char) :
    Option (List (String × List Char)) :=
  let seq := read.2
  let is_valid := ht.check_read seq
  if is_valid then
    let first_kmer := seq.take ht.ksize
    match ht.calc_connected_graph_size_kmer uniqify_rc min_size depth first_kmer (0, []) with
    | none => none
    | some (clustersize, _) =>
      if clustersize ≥ min_size then some [read] else some []
  else some []

/-- The function `trim_graphs` on the reads the parser delivers: the reads
written to the output file, in order. -/
def Hashtable.trim_graphs (uniqify_rc : Nat → Nat → Nat)
    (ht : Hashtable) (depth : Nat) (reads : List (String × List Char)) (min_size : Nat) :
    Option (List (String × List Char)) :=
  reads.foldlM
    (fun outfile read =>
      (ht.trim_graphs_read uniqify_rc depth min_size read).map (fun written => outfile ++ written))
    []

/-! ## Words of the specification: the graph of k-mers -/

/-- The pair `(f, r)` of a k-mer string: its forward two-bit packing and the
packing of its reverse complement. -/
def kmer_pair (w : List Char) : Nat × Nat :=
  (pack twobit_repr w, pack twobit_comp w.reverse)

/-- The canonical key of a k-mer string: `canonical(f, r)` of its pair. -/
def kmer_key (uniqify_rc : Nat → Nat → Nat) (w : List Char) : Nat :=
  uniqify_rc (kmer_pair w).1 (kmer_pair w).2

/-- All the k-mers of length `k` over A, C, G, T. -/
def all_kmers : Nat → List (List Char)
  | 0 => [[]]
  | k + 1 => (all_kmers k).flatMap (fun w => ['A' :: w, 'C' :: w, 'G' :: w, 'T' :: w])

/-- "A vertex `v` is present iff `counts[canonical(v) mod T] > 0`." -/
def Hashtable.present (uniqify_rc : Nat → Nat → Nat) (ht : Hashtable) (w : List Char) : Prop :=
  ht.counts (kmer_key uniqify_rc w % ht.tablesize) ≠ 0

instance (uniqify_rc : Nat → Nat → Nat) (ht : Hashtable) (w : List Char) :
    Decidable (ht.present uniqify_rc w) := by
  unfold Hashtable.present; infer_instance

/-- "Edges are the 8 single-base extensions (4 forward, 4 backward)": the
k-mers that overlap `w` by k-1 bases. -/
def kmer_neighbours (w : List Char) : List (List Char) :=
  [w.tail ++ ['A'], w.tail ++ ['C'], w.tail ++ ['G'], w.tail ++ ['T'],
   'A' :: w.dropLast, 'C' :: w.dropLast, 'G' :: w.dropLast, 'T' :: w.dropLast]

/-- The k-mers reachable from `start` through present vertices: the connected
component of `start`, empty when `start` is not present. -/
inductive Hashtable.connected (uniqify_rc : Nat → Nat → Nat) (ht : Hashtable)
    (start : List Char) : List Char → Prop
  | start : ht.present uniqify_rc start → Hashtable.connected uniqify_rc ht start start
  | step (w w' : List Char) : Hashtable.connected uniqify_rc ht start w →
      w' ∈ kmer_neighbours w → ht.present uniqify_rc w' →
      Hashtable.connected uniqify_rc ht start w'

/-- The component of `start` has at least `n` vertices: `n` k-mers connected
to `start` with `n` different canonical keys (a k-mer and its reverse
complement are one vertex). -/
def Hashtable.component_at_least (uniqify_rc : Nat → Nat → Nat) (ht : Hashtable)
    (start : List Char) (n : Nat) : Prop :=
  ∃ ws : List (List Char), ws.length = n
    ∧ (∀ w ∈ ws, ht.connected uniqify_rc start w)
    ∧ (ws.map (kmer_key uniqify_rc)).Nodup

/-- The canonical key is symmetric: `canonical(f, r) = canonical(r, f)`. -/
def key_symmetric (uniqify_rc : Nat → Nat → Nat) : Prop :=
  ∀ f r, uniqify_rc f r = uniqify_rc r f

/-- The canonical key separates the k-mers of length `k`: two k-mers with the
same key are equal or reverse complements of each other. -/
def key_separates (uniqify_rc : Nat → Nat → Nat) (k : Nat) : Prop :=
  ∀ w w' : List Char, w.length = k → w'.length = k → is_acgt w → is_acgt w' →
    kmer_key uniqify_rc w = kmer_key uniqify_rc w' → w' = w ∨ w' = reverse_complement w

/-- The values `(count, keeper)` on return from a call of
`calc_connected_graph_size` against the values `s` at the call, in a walk whose
keys come from the component of `start`: the seen set has grown by keys of
k-mers connected to `start`, `count` has grown by as much as the seen set, and,
unless the threshold has been reached, every k-mer whose key is new to the
seen set has the keys of all its present neighbours in the seen set. -/
structure Walked (uniqify_rc : Nat → Nat → Nat) (ht : Hashtable) (threshold : Nat)
    (start : List Char) (s s' : Nat × List Nat) : Prop where
  mono : ∀ x ∈ s.2, x ∈ s'.2
  count_le : s.1 ≤ s'.1
  count_eq : s'.1 + s.2.length = s.1 + s'.2.length
  nodup : s.2.Nodup → s'.2.Nodup
  sound : ∀ x ∈ s'.2, x ∈ s.2 ∨ ∃ w, ht.connected uniqify_rc start w ∧ kmer_key uniqify_rc w = x
  closed : (threshold = 0 ∨ s'.1 < threshold) →
    ∀ x : List Char, x.length = ht.ksize → is_acgt x →
      kmer_key uniqify_rc x ∈ s'.2 → kmer_key uniqify_rc x ∉ s.2 →
      ∀ y ∈ kmer_neighbours x, ht.present uniqify_rc y → kmer_key uniqify_rc y ∈ s'.2

/-- The number of canonical keys of k-mers of length `k` that are not in the
seen set `keeper`. -/
def unseen_keys (uniqify_rc : Nat → Nat → Nat) (k : Nat) (keeper : List Nat) : Nat :=
  ((((all_kmers k).map (kmer_key uniqify_rc)).toFinset) \ keeper.toFinset).card

/-- The table with k = 2 and 1000003 bins after the read "CAAG" has been
ingested: the k-mers CA, AA and AG, and their reverse complements, are present. -/
def walk_table (uniqify_rc : Nat → Nat → Nat) : Hashtable :=
  ((empty_table 2 1000003).consume_string uniqify_rc ['C', 'A', 'A', 'G'] 0 0).2

/-- The table with k = 4 and 1000003 bins after the read "AAACAGA" has been
ingested under the key `f XOR r`. -/
def xor_walk_table : Hashtable :=
  ((empty_table 4 1000003).consume_string uniqify_rc_xor
    ['A', 'A', 'A', 'C', 'A', 'G', 'A'] 0 0).2

/-- The table with k = 4 and 1000003 bins after the read "AAACGTC" has been
ingested under the key `f XOR r`. -/
def xor_trim_table : Hashtable :=
  ((empty_table 4 1000003).consume_string uniqify_rc_xor
    ['A', 'A', 'A', 'C', 'G', 'T', 'C'] 0 0).2

/-! ## The partition state -/

/-- The members of `Hashtable` that hold the partitions, with the heap cells
they point to.

* `cells` is the heap of `PartitionID` cells made by `new unsigned int`: the
  address of a cell and the value it holds. Address 0 is the null pointer.
* `partition_map` is the `PartitionMap`: forward encoding to cell address.
* `reverse_pmap` is the `ReversePartitionMap`: a `PartitionID` to the
  `PartitionPtrSet` its pointer leads to (`none` for a null pointer); each set
  belongs to one entry only, so the set stands in the place of its pointer.
* `next_partition_id` and `surrender_set` are the members of these names. -/
structure PartitionState where
  cells : List (Nat × Nat)
  partition_map : List (Nat × Nat)
  reverse_pmap : List (Nat × Option (List Nat))
  next_partition_id : Nat
  surrender_set : List Nat

/-- The address `new unsigned int` returns: not null and not the address of a
cell that is allocated (cells are never freed). -/
def fresh_addr (cells : List (Nat × Nat)) : Nat :=
  (cells.map Prod.fst).foldl max 0 + 1

/-- Modelled from the spec: the state the constructor of hashtable.hh, which is
not among the sources, leaves: no cells, empty maps, an empty surrender set,
and 1 as the first `PartitionID` ("a positive `PartitionID`"). -/
def empty_partition_state : PartitionState :=
  { cells := [], partition_map := [], reverse_pmap := [], next_partition_id := 1,
    surrender_set := [] }

/-! ## _reassign_partition_ids (hashtable.cc 1320-1372) -/

/-- The first loop of `_reassign_partition_ids` (1332-1337), over the tagged
k-mers after the first: the smallest `PartitionID` the cells of the tags hold.
`none` when `partition_map[*it]` is a null pointer, which the loop dereferences. -/
def min_partition_loop (cells partition_map : List (Nat × Nat)) :
    List Nat → Nat → Option Nat
  | [], min_partition_id => some min_partition_id
  | t :: rest, min_partition_id =>
    match map_find t partition_map with
    | none => none
    | some p =>
      match map_find p cells with
      | none => none
      | some pid =>
        min_partition_loop cells partition_map rest
          (if pid < min_partition_id then pid else min_partition_id)

/-- The inner loop (1347-1352 and 1362-1367) over the cells of the set `s`:
`*pp2 = min_partition_id; master->insert(pp2)`. -/
def merge_cells (min_partition_id : Nat) (s : List Nat)
    (cells : List (Nat × Nat)) (master : List Nat) : List (Nat × Nat) × List Nat :=
  s.foldl (fun cm pp2 => (map_set pp2 min_partition_id cm.1, set_insert pp2 cm.2))
    (cells, master)

/-- The block guarded by `*partition_p != min_partition_id` (1343-1353 and
1358-1368) for the old id `*partition_p`: its set `s` is taken out of
`reverse_pmap` and every cell of `s` is set to `min_partition_id` and put into
the set `master` of `reverse_pmap[min_partition_id]`. `none` when `s` is a null
pointer, or when `master` is one and `s` has a cell to insert. -/
def merge_partition (min_partition_id old : Nat)
    (cells : List (Nat × Nat)) (reverse_pmap : List (Nat × Option (List Nat))) :
    Option (List (Nat × Nat) × List (Nat × Option (List Nat))) :=
  match map_find old reverse_pmap with
  | some (some s) =>
    let reverse_pmap := map_erase old reverse_pmap
    match s with
    | [] => some (cells, reverse_pmap)
    | _ :: _ =>
      match map_find min_partition_id reverse_pmap with
      | some (some master) =>
        let cm := merge_cells min_partition_id s cells master
        some (cm.1, map_set min_partition_id (some cm.2) reverse_pmap)
      | _ => none
  | _ => none

/-- The second loop of `_reassign_partition_ids` (1340-1355), over all the
tagged k-mers. `none` on a null pointer that is dereferenced. -/
def merge_loop (min_partition_id : Nat) (partition_map : List (Nat × Nat)) :
    List Nat → List (Nat × Nat) → List (Nat × Option (List Nat)) →
    Option (List (Nat × Nat) × List (Nat × Option (List Nat)))
  | [], cells, reverse_pmap => some (cells, reverse_pmap)
  | t :: rest, cells, reverse_pmap =>
    match map_find t partition_map with
    | none => none
    | some partition_p =>
      match map_find partition_p cells with
      | none => none
      | some pid =>
        if pid ≠ min_partition_id then
          match merge_partition min_partition_id pid cells reverse_pmap with
          | none => none
          | some cr => merge_loop min_partition_id partition_map rest cr.1 cr.2
        else merge_loop min_partition_id partition_map rest cells reverse_pmap

/-- The function `_reassign_partition_ids`: the value returned and the state
left, or `none` when the run ends in the failed `assert` or dereferences a
null or unallocated pointer. The tagged k-mers come in the order of the
iteration over the `SeenSet`. -/
def reassign_partition_ids (st : PartitionState) (tagged_kmers : List Nat) (kmer_f : Nat) :
    Option (Nat × PartitionState) :=
  match tagged_kmers with
  | [] => none
  | t0 :: rest =>
    match map_find t0 st.partition_map with
    | none => none
    | some this_partition_p =>
      let partition_map := map_set kmer_f this_partition_p st.partition_map
      if this_partition_p = 0 then none
      else
        match map_find this_partition_p st.cells with
        | none => none
        | some first_id =>
          match min_partition_loop st.cells partition_map rest first_id with
          | none => none
          | some min_partition_id =>
            let reverse_pmap :=
              match map_find min_partition_id st.reverse_pmap with
              | none => map_set min_partition_id none st.reverse_pmap
              | some _ => st.reverse_pmap
            match merge_loop min_partition_id partition_map (t0 :: rest) st.cells
                reverse_pmap with
            | none => none
            | some cr =>
              match map_find this_partition_p cr.1 with
              | none => none
              | some this_id =>
                let last :=
                  if this_id ≠ min_partition_id
                  then merge_partition min_partition_id this_id cr.1 cr.2
                  else some cr
                match last with
                | none => none
                | some cr2 =>
                  match map_find this_partition_p cr2.1 with
                  | none => none
                  | some return_val =>
                    some (return_val,
                      { st with cells := cr2.1, partition_map := partition_map,
                                reverse_pmap := cr2.2 })

/-! ## assign_partition_id (hashtable.cc 1290-1318) -/

/-- The function `assign_partition_id`: the value returned and the state left,
or `none` when `_reassign_partition_ids` does not return. -/
def assign_partition_id (st : PartitionState) (kmer_f : Nat) (tagged_kmers : List Nat)
    (surrender : Bool) : Option (Nat × PartitionState) :=
  let result :=
    if tagged_kmers.length ≥ 1 then reassign_partition_ids st tagged_kmers kmer_f
    else
      let this_partition_p := fresh_addr st.cells
      let cells := map_set this_partition_p st.next_partition_id st.cells
      let partition_map := map_set kmer_f this_partition_p st.partition_map
      let reverse_pmap := map_set st.next_partition_id (some [this_partition_p]) st.reverse_pmap
      some (st.next_partition_id,
        { st with cells := cells, partition_map := partition_map, reverse_pmap := reverse_pmap,
                  next_partition_id := st.next_partition_id + 1 })
  match result with
  | none => none
  | some rs =>
    if surrender then
      some (rs.1, { rs.2 with surrender_set := set_insert rs.1 rs.2.surrender_set })
    else some rs

/-! ## The invariants of the partition state -/

/-- The `PartitionID` a key resolves to, `*partition_map[x]`; `none` when the
key is absent or its pointer leads to no cell. -/
def pid_of (st : PartitionState) (x : Nat) : Option Nat :=
  (map_find x st.partition_map).bind (fun c => map_find c st.cells)

/-- Invariant I1: for every key `x` of the partition map,
`reverse_pmap[*partition_map[x]]` contains `partition_map[x]`. -/
def I1 (st : PartitionState) : Prop :=
  ∀ x c, map_find x st.partition_map = some c →
    c ≠ 0 ∧ ∃ p s, map_find c st.cells = some p
      ∧ map_find p st.reverse_pmap = some (some s) ∧ c ∈ s

/-- Invariant I2: for every `pid` of `reverse_pmap`, every cell in its set has
the value `pid`. -/
def I2 (st : PartitionState) : Prop :=
  ∀ p s c, map_find p st.reverse_pmap = some (some s) → c ∈ s →
    map_find c st.cells = some p

/-- Invariant I3: every `PartitionID` of `surrender_set` is live, that is a key
of `reverse_pmap`. -/
def I3 (st : PartitionState) : Prop :=
  ∀ p ∈ st.surrender_set, ∃ s, map_find p st.reverse_pmap = some s

/-- The state of the second loop of `_reassign_partition_ids` against the state
it started from, when the sets of the ids in `Q` have been merged into the set
of `m`. -/
structure Merged (m : Nat) (Q : Nat → Prop)
    (cells0 : List (Nat × Nat)) (rmap0 : List (Nat × Option (List Nat)))
    (cells : List (Nat × Nat)) (rmap : List (Nat × Option (List Nat))) : Prop where
  cell_merged : ∀ c q s, Q q → map_find q rmap0 = some (some s) → c ∈ s →
    map_find c cells = some m
  cell_kept : ∀ c, (∀ q s, Q q → map_find q rmap0 = some (some s) → c ∉ s) →
    map_find c cells = map_find c cells0
  erased : ∀ q, Q q → map_find q rmap = none
  kept : ∀ p, ¬ Q p → p ≠ m → map_find p rmap = map_find p rmap0
  master : ∃ master0 master, map_find m rmap0 = some (some master0)
    ∧ map_find m rmap = some (some master)
    ∧ ∀ x, x ∈ master ↔ (x ∈ master0 ∨ ∃ q s, Q q ∧ map_find q rmap0 = some (some s) ∧ x ∈ s)

/-- The states reached from the empty state by calls of `assign_partition_id`
that return, each with a tag set of keys of the partition map. -/
inductive Reachable : PartitionState → Prop
  | empty : Reachable empty_partition_state
  | assign (st st' : PartitionState) (kmer_f : Nat) (tagged_kmers : List Nat) (surrender : Bool)
      (return_val : Nat) :
      Reachable st →
      (∀ t ∈ tagged_kmers, ∃ c, map_find t st.partition_map = some c) →
      assign_partition_id st kmer_f tagged_kmers surrender = some (return_val, st') →
      Reachable st'

/-- A check of I1 that runs: every entry of the partition map leads to a cell
that is in the set of its id. -/
def check_I1 (st : PartitionState) : Bool :=
  st.partition_map.all (fun e =>
    e.2 != 0 &&
    match map_find e.2 st.cells with
    | none => false
    | some p =>
      match map_find p st.reverse_pmap with
      | some (some s) => s.contains e.2
      | _ => false)

/-- A check of I2 that runs: every cell in the set of an entry of
`reverse_pmap` holds the id of the entry. -/
def check_I2 (st : PartitionState) : Bool :=
  st.reverse_pmap.all (fun e =>
    match e.2 with
    | none => true
    | some s => s.all (fun c => map_find c st.cells == some e.1))

/-! ## _load_partitionmap (hashtable.cc 1437-1511) -/

/-- The integer that `memcpy` reads from bytes, least significant byte first. -/
def le_value (bytes : List Nat) : Nat :=
  bytes.foldr (fun b acc => b + 256 * acc) 0

/-- The loop `for (i = 0; i < n_bytes;)` of the first two passes over the
`n_bytes` bytes one `read` delivered: each turn takes the 8 bytes of a
`HashIntoType` and the 4 bytes of a `PartitionID`. `none` when a turn reads
past the bytes delivered. -/
def scan_records {σ : Type} (step : σ → Nat → Nat → σ) : List Nat → σ → Option σ
  | [], st => some st
  | k0 :: k1 :: k2 :: k3 :: k4 :: k5 :: k6 :: k7 :: p0 :: p1 :: p2 :: p3 :: rest, st =>
    scan_records step rest
      (step st (le_value [k0, k1, k2, k3, k4, k5, k6, k7]) (le_value [p0, p1, p2, p3]))
  | _, _ => none

/-- The loop `while (!infile.eof())` over reads of 1000000 bytes from the start
of the file: the read that comes up short, the last one, sets `eof`. -/
def scan_file {σ : Type} (step : σ → Nat → Nat → σ) (file : List Nat) (init : σ) : Option σ :=
  (List.range (file.length / 1000000 + 1)).foldl
    (fun st j => st.bind (scan_records step ((file.drop (j * 1000000)).take 1000000)))
    (some init)

/-- The loop over the set `partitions` (1467-1477): a new cell and a new
singleton set for each id; `ppmap` keeps the cell of each id. -/
def load_cells (partitions : List Nat) (cells : List (Nat × Nat))
    (reverse_pmap : List (Nat × Option (List Nat))) :
    List (Nat × Nat) × List (Nat × Nat) × List (Nat × Option (List Nat)) :=
  partitions.foldl
    (fun acc pid =>
      let p := fresh_addr acc.1
      (map_set p pid acc.1, map_set pid p acc.2.1, map_set pid (some [p]) acc.2.2))
    (cells, [], reverse_pmap)

/-- The function `_load_partitionmap` on the bytes of the two files. The third
loop tests `infile.eof()`, which the second pass has left true: its body never
runs and the surrender file is not read. `none` when a pass reads past the
bytes delivered. -/
def load_partitionmap (st : PartitionState) (infile _surrenderfile : List Nat) :
    Option PartitionState :=
  match scan_file (fun partitions _ p_id => set_insert p_id partitions) infile [] with
  | none => none
  | some partitions =>
    let loaded := load_cells partitions st.cells st.reverse_pmap
    match scan_file
        (fun partition_map kmer p_id =>
          map_set kmer ((map_find p_id loaded.2.1).getD 0) partition_map)
        infile st.partition_map with
    | none => none
    | some partition_map =>
      some { st with cells := loaded.1, partition_map := partition_map,
                     reverse_pmap := loaded.2.2 }

/-- A checkpoint file with the single record (k-mer 5, id 1). -/
def one_record_file : List Nat :=
  [5, 0, 0, 0, 0, 0, 0, 0, 1, 0, 0, 0]

/-- The state `_load_partitionmap` leaves when it loads `one_record_file` into
the empty state. -/
def loaded_state : PartitionState :=
  { cells := [(1, 1)], partition_map := [(5, 1)], reverse_pmap := [(1, some [1])],
    next_partition_id := 1, surrender_set := [] }

/-- What holds in every reachable state: I1, I2, every key of `reverse_pmap`
and every member of `surrender_set` is an id that has been handed out. -/
def allocated_ids (st : PartitionState) : Prop :=
  I1 st ∧ I2 st ∧ 1 ≤ st.next_partition_id
    ∧ (∀ p v, map_find p st.reverse_pmap = some v → 1 ≤ p ∧ p < st.next_partition_id)
    ∧ (∀ p ∈ st.surrender_set, 1 ≤ p ∧ p < st.next_partition_id)

/-- Three partitions of one key each, as three calls of `assign_partition_id`
with no tags leave them: key 20 has id 1, key 10 has id 2, key 25 has id 3. -/
def three_partitions : PartitionState :=
  { cells := [(1, 1), (2, 2), (3, 3)], partition_map := [(10, 2), (20, 1), (25, 3)],
    reverse_pmap := [(1, some [1]), (2, some [2]), (3, some [3])],
    next_partition_id := 4, surrender_set := [] }

/-- Two partitions: key 10 has id 1, the keys 20 and 30 share the cell of id 2. -/
def shared_cell_state : PartitionState :=
  { cells := [(1, 1), (2, 2)], partition_map := [(10, 1), (20, 2), (30, 2)],
    reverse_pmap := [(1, some [1]), (2, some [2])],
    next_partition_id := 3, surrender_set := [] }

/-- The state after `assign_partition_id(10, {}, false)`,
`assign_partition_id(20, {}, true)` and `assign_partition_id(30, {10, 20}, false)`
from the empty state. -/
def merged_surrender_state : PartitionState :=
  { cells := [(1, 1), (2, 1)], partition_map := [(10, 1), (20, 2), (30, 1)],
    reverse_pmap := [(1, some [1, 2])],
    next_partition_id := 3, surrender_set := [2] }

/-- Two partitions of one key each: key 10 has id 1 and key 20 has id 2. -/
def two_partitions : PartitionState :=
  { cells := [(1, 1), (2, 2)], partition_map := [(10, 1), (20, 2)],
    reverse_pmap := [(1, some [1]), (2, some [2])],
    next_partition_id := 3, surrender_set := [] }

/-- The PartitionIDs the tagged k-mers resolve to. -/
def tag_ids (st : PartitionState) (tags : List Nat) : List Nat :=
  tags.filterMap (pid_of st)

/-- The id a union gives to a cell that held `p`: `m` when `p` is one of the
ids of the tags, `p` otherwise. -/
def relabel (ids : List Nat) (m p : Nat) : Nat :=
  if p ∈ ids then m else p

/-- The id `m` is the smallest member of `ids`. -/
def is_min_id (ids : List Nat) (m : Nat) : Prop :=
  m ∈ ids ∧ ∀ p ∈ ids, m ≤ p

/-! ## consume_fasta (hashtable.cc 406-498) -/

/-- Modelled from the spec: the constructor `ReadMaskTable(n)` of readmask.hh,
which is not among the sources; a mask of `n` bits, all set ("allocate one of
size `total_reads` with the accumulated invalid-read bits cleared"). -/
def readmask_new (n : Nat) : List Bool :=
  List.replicate n true

/-- Modelled from the spec: `ReadMaskTable::get(i)` of readmask.hh, which is
not among the sources; the bit `i` of the mask. -/
def readmask_get (mask : List Bool) (i : Nat) : Bool :=
  mask.getD i false

/-- Modelled from the spec: `ReadMaskTable::set(i, b)` of readmask.hh, which is
not among the sources; the mask with bit `i` set to `b`. -/
def readmask_set (mask : List Bool) (i : Nat) (b : Bool) : List Bool :=
  mask.set i b

/-- The variables of `consume_fasta` that change in its loop: the table,
`total_reads`, `n_consumed`, the mask `readmask` points to (`none` for a null
pointer) and `masklist`. -/
structure FastaState where
  ht : Hashtable
  total_reads : Nat
  n_consumed : Nat
  readmask : Option (List Bool)
  masklist : List Nat

/-- One pass through the loop of `consume_fasta` (442-481), for the read the
parser delivers. The callback, which only reports progress, is left out. -/
def consume_fasta_read (uniqify_rc : Nat → Nat → Nat) (lower_bound upper_bound : Nat)
    (update_readmask : Bool) (st : FastaState) (read : String × List Char) : FastaState :=
  let currSeq := read.2
  let process :=
    match st.readmask with
    | none => true
    | some mask => readmask_get mask st.total_reads
  let st :=
    if process then
      let res := st.ht.check_and_process_read uniqify_rc currSeq lower_bound upper_bound
      let this_n_consumed := res.1
      let is_valid := res.2.1
      let st := { st with ht := res.2.2 }
      if !is_valid && update_readmask then
        match st.readmask with
        | some mask => { st with readmask := some (readmask_set mask st.total_reads false) }
        | none => { st with masklist := st.masklist ++ [st.total_reads] }
      else { st with n_consumed := st.n_consumed + this_n_consumed }
    else st
  { st with total_reads := st.total_reads + 1 }

/-- The function `consume_fasta` on the reads the parser delivers: the table
left, `total_reads`, `n_consumed`, and what `*orig_readmask` holds on return.
The argument `orig_readmask` is `none` for a null pointer, `some none` for a
pointer to a null pointer (no mask supplied) and `some (some mask)` for a
pointer to a mask. -/
def Hashtable.consume_fasta (uniqify_rc : Nat → Nat → Nat) (ht : Hashtable)
    (reads : List (String × List Char)) (lower_bound upper_bound : Nat)
    (orig_readmask : Option (Option (List Bool))) (update_readmask : Bool) :
    Hashtable × Nat × Nat × Option (Option (List Bool)) :=
  let readmask : Option (List Bool) :=
    match orig_readmask with
    | some (some mask) => some mask
    | _ => none
  let st := reads.foldl (consume_fasta_read uniqify_rc lower_bound upper_bound update_readmask)
    { ht := ht, total_reads := 0, n_consumed := 0, readmask := readmask, masklist := [] }
  let orig_readmask :=
    match orig_readmask with
    | none => none
    | some orig =>
      match st.readmask with
      | some mask => some (some mask)
      | none =>
        if update_readmask then
          some (some (st.masklist.foldl (fun mask i => readmask_set mask i false)
            (readmask_new st.total_reads)))
        else some orig
  (st.ht, st.total_reads, st.n_consumed, orig_readmask)

/-! ## _checkpoint_partitionmap (hashtable.cc 1383-1434) -/

/-- The `n` bytes that `memcpy` writes for an integer, least significant byte
first. -/
def le_bytes : Nat → Nat → List Nat
  | 0, _ => []
  | n + 1, x => x % 256 :: le_bytes n (x / 256)

/-- The end of a turn of either loop of `_checkpoint_partitionmap`: the buffer
is written out and emptied when `n_bytes >= limit`. The pair is the bytes
written to the file so far and the buffer. -/
def checkpoint_flush (limit : Nat) (file_buf : List Nat × List Nat) : List Nat × List Nat :=
  if file_buf.2.length ≥ limit then (file_buf.1 ++ file_buf.2, []) else file_buf

/-- The write after either loop: `if (n_bytes) write(buf, n_bytes)`. -/
def checkpoint_close (file_buf : List Nat × List Nat) : List Nat :=
  if file_buf.2.length ≠ 0 then file_buf.1 ++ file_buf.2 else file_buf.1

/-- One turn of the first loop of `_checkpoint_partitionmap` (1392-1408), at
the entry `pi` of the partition map: the 8 bytes of the key and the 4 bytes of
the `PartitionID` go to the buffer. `none` when the cell is a null or
unallocated pointer, which `*(pi->second)` dereferences. -/
def checkpoint_record (cells : List (Nat × Nat)) (file_buf : List Nat × List Nat)
    (pi : Nat × Nat) : Option (List Nat × List Nat) :=
  let kmer := pi.1
  match map_find pi.2 cells with
  | none => none
  | some p_id =>
    some (checkpoint_flush (1000000 - 8 - 4)
      (file_buf.1, file_buf.2 ++ le_bytes 8 kmer ++ le_bytes 4 p_id))

/-- One turn of the second loop of `_checkpoint_partitionmap` (1418-1428), at
the member `p_id` of the surrender set. -/
def checkpoint_surrender (file_buf : List Nat × List Nat) (p_id : Nat) :
    List Nat × List Nat :=
  checkpoint_flush (1000000 - 4) (file_buf.1, file_buf.2 ++ le_bytes 4 p_id)

/-- The function `_checkpoint_partitionmap`: the bytes of the two files it
writes. -/
def checkpoint_partitionmap (st : PartitionState) : Option (List Nat × List Nat) :=
  match st.partition_map.foldlM (checkpoint_record st.cells) ([], []) with
  | none => none
  | some file_buf =>
    let surrenderfile := st.surrender_set.foldl checkpoint_surrender ([], [])
    some (checkpoint_close file_buf, checkpoint_close surrenderfile)

/-- The checkpoint format of the specification: "concatenated `(u64
forward_encoding, u32 partition_id)` pairs", least significant byte first. -/
def encode_records (records : List (Nat × Nat)) : List Nat :=
  records.flatMap (fun e => le_bytes 8 e.1 ++ le_bytes 4 e.2)

/-- The records of a partition state: each key with the `PartitionID` its cell
holds. -/
def partition_records (st : PartitionState) : List (Nat × Nat) :=
  st.partition_map.map (fun e => (e.1, (map_find e.2 st.cells).getD 0))

/-- A state with the `n` keys 0 .. n - 1, all with the one cell of id 1. -/
def one_partition_state (n : Nat) : PartitionState :=
  { cells := [(1, 1)], partition_map := (List.range n).map (fun x => (x, 1)),
    reverse_pmap := [(1, some [1])], next_partition_id := 2, surrender_set := [] }

/-- The partition file `_checkpoint_partitionmap` writes for
`merged_surrender_state`: the records (10, 1), (20, 1) and (30, 1). -/
def merged_surrender_file : List Nat :=
  [10, 0, 0, 0, 0, 0, 0, 0, 1, 0, 0, 0,
   20, 0, 0, 0, 0, 0, 0, 0, 1, 0, 0, 0,
   30, 0, 0, 0, 0, 0, 0, 0, 1, 0, 0, 0]

/-! ## partition_find_all_tags (hashtable.cc 1512-1647) -/

/-- The macro `PARTITION_ALL_TAG_DEPTH` (hashtable.cc 10). -/
def PARTITION_ALL_TAG_DEPTH : Nat := 500

/-- The macro `PARTITION_MAX_TAG_EXAMINED` (hashtable.cc 11), defined as the
floating-point literal `1e6`; the test `total > PARTITION_MAX_TAG_EXAMINED`
compares the `unsigned int` with it, as `total > 1000000` does. -/
def PARTITION_MAX_TAG_EXAMINED : Nat := 1000000

/-- The function `_do_continue`: the key is not in `keeper`. -/
def do_continue (kmer : Nat) (keeper : List Nat) : Bool :=
  decide (kmer ∉ keeper)

/-- The function `_is_tagged_kmer`: `some tagged_kmer` when it returns true,
with the value it leaves in `tagged_kmer`; `none` when it returns false. -/
def is_tagged_kmer (partition_map : List (Nat × Nat)) (kmer_f kmer_r : Nat) : Option Nat :=
  match map_find kmer_f partition_map with
  | some _ => some kmer_f
  | none =>
    match map_find kmer_r partition_map with
    | some _ => some kmer_r
    | none => none

/-- The variables of the search in `partition_find_all_tags`: the queue
`node_q` (its entries front first), `keeper`, `tagged_kmers`, `first`, `total`
and `surrender`. -/
structure FindTagsState where
  node_q : List Nat
  keeper : List Nat
  tagged_kmers : List Nat
  first : Bool
  total : Nat
  surrender : Bool

/-- The pushes of one turn of the loop (1595-1643): for each of the eight
neighbours with a non-zero count, `f` and then `r` go to the back of the
queue. -/
def Hashtable.push_neighbours (uniqify_rc : Nat → Nat → Nat) (ht : Hashtable)
    (kmer_f kmer_r : Nat) (node_q : List Nat) : List Nat :=
  (ht.neighbour_pairs kmer_f kmer_r).foldl
    (fun q fr => if ht.get_count (uniqify_rc fr.1 fr.2) ≠ 0 then q ++ [fr.1, fr.2] else q)
    node_q

/-- One turn of the loop of `partition_find_all_tags` after the test of the
budgets (1571-1645), with `total` already incremented. `none` when `front()`
is called on an empty queue. -/
def Hashtable.find_tags_turn (uniqify_rc : Nat → Nat → Nat) (ht : Hashtable)
    (partition_map : List (Nat × Nat)) (st : FindTagsState) : Option FindTagsState :=
  match st.node_q with
  | kmer_f :: kmer_r :: node_q =>
    let kmer := uniqify_rc kmer_f kmer_r
    if !do_continue kmer st.keeper then some { st with node_q := node_q }
    else
      let keeper := set_insert kmer st.keeper
      match (if !st.first then is_tagged_kmer partition_map kmer_f kmer_r else none) with
      | some tagged_kmer =>
        some { st with node_q := node_q, keeper := keeper,
                       tagged_kmers := set_insert tagged_kmer st.tagged_kmers }
      | none =>
        some { st with node_q := ht.push_neighbours uniqify_rc kmer_f kmer_r node_q,
                       keeper := keeper, first := false }
  | _ => none

/-- The loop `while(!node_q.empty())` of `partition_find_all_tags`; the first
argument bounds the number of turns, `none` when more are needed. -/
def Hashtable.find_tags_loop (uniqify_rc : Nat → Nat → Nat) (ht : Hashtable)
    (partition_map : List (Nat × Nat)) : Nat → FindTagsState → Option FindTagsState
  | 0, _ => none
  | turns + 1, st =>
    if st.node_q = [] then some st
    else
      let st := { st with total := st.total + 1 }
      if st.total > PARTITION_MAX_TAG_EXAMINED ∨ st.node_q.length > PARTITION_ALL_TAG_DEPTH then
        some { st with surrender := true }
      else
        match ht.find_tags_turn uniqify_rc partition_map st with
        | none => none
        | some st => Hashtable.find_tags_loop uniqify_rc ht partition_map turns st

/-- The variables of the search before the loop (1548-1562). -/
def find_tags_init (kmer_f kmer_r : Nat) (tagged_kmers : List Nat) (surrender : Bool) :
    FindTagsState :=
  { node_q := [kmer_f, kmer_r], keeper := [], tagged_kmers := tagged_kmers, first := true,
    total := 0, surrender := surrender }

/-- The function `partition_find_all_tags`: `tagged_kmers` and `surrender` on
return, from their values at the call. The loop makes at most
`PARTITION_MAX_TAG_EXAMINED + 1` turns. -/
def Hashtable.partition_find_all_tags (uniqify_rc : Nat → Nat → Nat) (ht : Hashtable)
    (partition_map : List (Nat × Nat)) (kmer_f kmer_r : Nat) (tagged_kmers : List Nat)
    (surrender : Bool) : Option (List Nat × Bool) :=
  match is_tagged_kmer partition_map kmer_f kmer_r with
  | some tagged_kmer => some (set_insert tagged_kmer tagged_kmers, surrender)
  | none =>
    (ht.find_tags_loop uniqify_rc partition_map (PARTITION_MAX_TAG_EXAMINED + 1)
      (find_tags_init kmer_f kmer_r tagged_kmers surrender)).map
      (fun st => (st.tagged_kmers, st.surrender))

/-- The variables of the search at the top of the loop after `n` turns (after
fewer when the loop has ended before). -/
def Hashtable.find_tags_after (uniqify_rc : Nat → Nat → Nat) (ht : Hashtable)
    (partition_map : List (Nat × Nat)) : Nat → FindTagsState → Option FindTagsState
  | 0, st => some st
  | n + 1, st =>
    if st.node_q = [] then some st
    else
      let st1 := { st with total := st.total + 1 }
      if st1.total > PARTITION_MAX_TAG_EXAMINED ∨ st1.node_q.length > PARTITION_ALL_TAG_DEPTH then
        some st
      else
        match ht.find_tags_turn uniqify_rc partition_map st1 with
        | none => none
        | some st => Hashtable.find_tags_after uniqify_rc ht partition_map n st

/-! ## do_truncated_partition (hashtable.cc 1166-1224) -/

/-- One pass through the loop of `do_truncated_partition`, for one read: the
table and the partition state left. `none` when `partition_find_all_tags` or
`assign_partition_id` does not return. `check_and_process_read` is called with
the default bounds 0 and 0 of hashtable.hh. -/
def do_truncated_partition_read (uniqify_rc : Nat → Nat → Nat)
    (hs : Hashtable × PartitionState) (read : String × List Char) :
    Option (Hashtable × PartitionState) :=
  let seq := read.2
  let res := hs.1.check_and_process_read uniqify_rc seq 0 0
  let is_valid := res.2.1
  let ht := res.2.2
  if is_valid then
    let first_kmer := seq.take ht.ksize
    let h := hash_init uniqify_rc first_kmer ht.ksize
    let kmer_f := h.2.1
    let kmer_r := h.2.2
    match ht.partition_find_all_tags uniqify_rc hs.2.partition_map kmer_f kmer_r [] false with
    | none => none
    | some (tagged_kmers, surrender) =>
      match assign_partition_id hs.2 kmer_f tagged_kmers surrender with
      | none => none
      | some (_, st) => some (ht, st)
  else some (ht, hs.2)

/-- The function `do_truncated_partition` on the reads the parser delivers. -/
def do_truncated_partition (uniqify_rc : Nat → Nat → Nat) (ht : Hashtable)
    (st : PartitionState) (reads : List (String × List Char)) :
    Option (Hashtable × PartitionState) :=
  reads.foldlM (do_truncated_partition_read uniqify_rc) (ht, st)

/-! ## partition_set_id and do_exact_partition (hashtable.cc 1000-1164) -/

/-- How a run of `do_exact_partition` can fail to return: an `assert` fails, or
the recursion of `partition_set_id` nests deeper than the depth allowed. -/
inductive Failure where
  | assertion
  | depth
  deriving DecidableEq

/-- The block of `partition_set_id` for one of `kmer_f`, `kmer_r` (1027-1046):
when the k-mer is a key of the partition map, its cell is set to `partition_id`
if it is null and must be `partition_id` if it is not. `none` when the `assert`
fails. -/
def tag_cell (partition_map : List (Nat × Nat)) (kmer partition_id : Nat) :
    Option (List (Nat × Nat)) :=
  match map_find kmer partition_map with
  | none => some partition_map
  | some existing =>
    if existing ≠ 0 then
      if existing = partition_id then some partition_map else none
    else some (map_set kmer partition_id partition_map)

/-- The function `partition_set_id(kmer_f, kmer_r, keeper, partition_id)`:
`keeper` and the partition map on return, from their values at the call. The
first argument after `partition_id` bounds the depth of the recursion. -/
def Hashtable.partition_set_id (uniqify_rc : Nat → Nat → Nat) (ht : Hashtable)
    (partition_id : Nat) :
    Nat → Nat → Nat → List Nat × List (Nat × Nat) →
      Except Failure (List Nat × List (Nat × Nat))
  | 0, _, _, _ => Except.error Failure.depth
  | depth + 1, kmer_f, kmer_r, (keeper, partition_map) =>
    let kmer := uniqify_rc kmer_f kmer_r
    let val := ht.counts (kmer % ht.tablesize)
    if val = 0 then Except.ok (keeper, partition_map)
    else if kmer ∈ keeper then Except.ok (keeper, partition_map)
    else
      let keeper := set_insert kmer keeper
      match tag_cell partition_map kmer_f partition_id with
      | none => Except.error Failure.assertion
      | some partition_map =>
        match tag_cell partition_map kmer_r partition_id with
        | none => Except.error Failure.assertion
        | some partition_map =>
          (ht.neighbour_pairs kmer_f kmer_r).foldlM
            (fun kp fr => Hashtable.partition_set_id uniqify_rc ht partition_id depth
              fr.1 fr.2 kp)
            (keeper, partition_map)

/-- Modelled from the spec: `_hash_forward(kmer, k)` of ktable.cc, which is not
among the sources; the forward encoding that `_hash` computes. -/
def hash_forward (kmer : List Char) (k : Nat) : Nat :=
  (hash_init (fun f _ => f) kmer k).2.1

/-- Modelled from the spec: the inverse of `twobit_repr`, of khmer.hh, which is
not among the sources. -/
def revtwobit_repr (n : Nat) : Char :=
  if n = 0 then 'A' else if n = 1 then 'T' else if n = 2 then 'C' else 'G'

/-- Modelled from the spec: `_revhash(hash, k)` of ktable.cc, which is not
among the sources; "`decode(f, k) → string`", the k-mer whose forward encoding
is `hash`. -/
def revhash : Nat → Nat → List Char
  | _, 0 => []
  | hash, k + 1 => revhash (hash >>> 2) k ++ [revtwobit_repr (hash &&& 3)]

/-- The first loop of `do_exact_partition` (1107-1133) for one read: the read
is counted and the forward encoding of its first k-mer becomes a key of the
partition map with a null cell. The pair is the table and the partition map. -/
def do_exact_partition_read (uniqify_rc : Nat → Nat → Nat)
    (hp : Hashtable × List (Nat × Nat)) (read : String × List Char) :
    Hashtable × List (Nat × Nat) :=
  let seq := read.2
  let res := hp.1.check_and_process_read uniqify_rc seq 0 0
  let is_valid := res.2.1
  let ht := res.2.2
  if is_valid then
    let first_kmer := seq.take ht.ksize
    let kmer_f := hash_forward first_kmer ht.ksize
    (ht, map_set kmer_f 0 hp.2)
  else (ht, hp.2)

/-- The variables of the second loop of `do_exact_partition`: the heap of
cells, the partition map and the local `next_partition_id`. -/
structure ExactState where
  cells : List (Nat × Nat)
  partition_map : List (Nat × Nat)
  next_partition_id : Nat

/-- One pass through the second loop of `do_exact_partition` (1143-1161), at
the key `kmer_f` of the partition map. -/
def Hashtable.do_exact_partition_key (uniqify_rc : Nat → Nat → Nat) (ht : Hashtable)
    (depth : Nat) (st : ExactState) (kmer_f : Nat) : Except Failure ExactState :=
  match map_find kmer_f st.partition_map with
  | some 0 =>
    let kmer_s := revhash kmer_f ht.ksize
    let h := hash_init uniqify_rc kmer_s ht.ksize
    let partition_id := fresh_addr st.cells
    let cells := map_set partition_id st.next_partition_id st.cells
    let next_partition_id := st.next_partition_id + 1
    match ht.partition_set_id uniqify_rc partition_id depth h.2.1 h.2.2
        ([], st.partition_map) with
    | Except.error e => Except.error e
    | Except.ok kp =>
      Except.ok { cells := cells, partition_map := kp.2, next_partition_id := next_partition_id }
  | _ => Except.ok st

/-- The function `do_exact_partition` on the reads the parser delivers, from a
table and a partition map: the value returned, the table, the heap of cells and
the partition map left. The iteration over the partition map visits its keys in
ascending order; `partition_set_id` changes cells of the map, not its keys. -/
def do_exact_partition (uniqify_rc : Nat → Nat → Nat) (ht : Hashtable)
    (st : PartitionState) (depth : Nat) (reads : List (String × List Char)) :
    Except Failure (Nat × Hashtable × List (Nat × Nat) × List (Nat × Nat)) :=
  let hp := reads.foldl (do_exact_partition_read uniqify_rc) (ht, st.partition_map)
  match (hp.2.map Prod.fst).foldlM (hp.1.do_exact_partition_key uniqify_rc depth)
      { cells := st.cells, partition_map := hp.2, next_partition_id := 1 } with
  | Except.error e => Except.error e
  | Except.ok es => Except.ok (es.next_partition_id - 1, hp.1, es.cells, es.partition_map)

/-! ## Words for the search of partition_find_all_tags -/

/-- The entries of the queue for a list of k-mers: `f` and then `r` of each. -/
def queue_of (ys : List (List Char)) : List Nat :=
  ys.flatMap (fun y => [(kmer_pair y).1, (kmer_pair y).2])

/-- The tag of a k-mer: what `_is_tagged_kmer` finds for its pair, `none` when
neither its forward nor its reverse encoding is a key of the partition map. -/
def kmer_tag (partition_map : List (Nat × Nat)) (w : List Char) : Option Nat :=
  is_tagged_kmer partition_map (kmer_pair w).1 (kmer_pair w).2

/-- The k-mers the search from `start` comes to: those reached from `start` by
steps to neighbours with a non-zero count that leave `start` or a k-mer that is
not tagged. -/
inductive Hashtable.search_reaches (uniqify_rc : Nat → Nat → Nat) (ht : Hashtable)
    (partition_map : List (Nat × Nat)) (start : List Char) : List Char → Prop
  | first (w : List Char) : w ∈ kmer_neighbours start → ht.present uniqify_rc w →
      Hashtable.search_reaches uniqify_rc ht partition_map start w
  | step (v w : List Char) : Hashtable.search_reaches uniqify_rc ht partition_map start v →
      kmer_tag partition_map v = none → w ∈ kmer_neighbours v → ht.present uniqify_rc w →
      Hashtable.search_reaches uniqify_rc ht partition_map start w

/-- What holds of the variables of the search from `start` at the top of the
loop, when the queue holds the pairs of the k-mers `ys`: a tagged k-mer whose
key is in `keeper` has its tag in `tagged_kmers`, and the present neighbours of
an untagged k-mer whose key is in `keeper` have their keys in `keeper` or
in the queue. -/
structure SearchInv (uniqify_rc : Nat → Nat → Nat) (ht : Hashtable)
    (partition_map : List (Nat × Nat)) (start : List Char) (st : FindTagsState)
    (ys : List (List Char)) : Prop where
  kmers : ∀ y ∈ ys, y.length = ht.ksize ∧ is_acgt y
  queue : st.node_q = queue_of ys
  first : st.first = true → ∀ y ∈ ys, kmer_tag partition_map y = none
  start_seen : kmer_key uniqify_rc start ∈ st.keeper
    ∨ ∃ y ∈ ys, kmer_key uniqify_rc y = kmer_key uniqify_rc start
  recorded : ∀ v : List Char, v.length = ht.ksize → is_acgt v →
    kmer_key uniqify_rc v ∈ st.keeper → kmer_tag partition_map v ≠ none →
    ∃ t ∈ st.tagged_kmers, (t = (kmer_pair v).1 ∨ t = (kmer_pair v).2)
      ∧ (map_find t partition_map).isSome
  covered : ∀ v : List Char, v.length = ht.ksize → is_acgt v →
    kmer_key uniqify_rc v ∈ st.keeper → kmer_tag partition_map v = none →
    ∀ w ∈ kmer_neighbours v, ht.present uniqify_rc w →
      kmer_key uniqify_rc w ∈ st.keeper
        ∨ ∃ y ∈ ys, kmer_key uniqify_rc y = kmer_key uniqify_rc w

/-- The table with k = 6 and a single bin after the read "AAAAAA" has been
ingested: every k-mer has the count of the one bin, 1. -/
def one_bin_walk_table (uniqify_rc : Nat → Nat → Nat) : Hashtable :=
  ((empty_table 6 1).consume_string uniqify_rc ['A', 'A', 'A', 'A', 'A', 'A'] 0 0).2

/-- The table with k = 3 and 1000003 bins after the reads "AAA", "ACA" and
"ATGTT" have been ingested. -/
def split_table (uniqify_rc : Nat → Nat → Nat) : Hashtable :=
  (((((empty_table 3 1000003).consume_string uniqify_rc ['A', 'A', 'A'] 0 0).2).consume_string
    uniqify_rc ['A', 'C', 'A'] 0 0).2.consume_string uniqify_rc ['A', 'T', 'G', 'T', 'T'] 0 0).2

/-! ## Words for exact partitioning -/

/-- Two k-mers lie in the same connected component of the count graph: a k-mer
with the key of `w'` is reached from `w` through k-mers with a non-zero count (a
k-mer and its reverse complement are one vertex). -/
def Hashtable.same_component (uniqify_rc : Nat → Nat → Nat) (ht : Hashtable)
    (w w' : List Char) : Prop :=
  ∃ v, ht.connected uniqify_rc w v ∧ kmer_key uniqify_rc v = kmer_key uniqify_rc w'

/-- The first k-mers of the valid reads of a list, in the order of the reads. -/
def first_kmers (ht : Hashtable) (reads : List (String × List Char)) : List (List Char) :=
  (reads.filter (fun read => ht.check_read read.2)).map (fun read => read.2.take ht.ksize)

/-- The values `(keeper, partition_map)` on return from a call of
`partition_set_id` with the cell `partition_id` against the values `s` at the
call, in a walk whose keys come from the component of `start`: the seen set has
grown by keys of k-mers connected to `start`, every k-mer whose key is new to
the seen set has the keys of all its present neighbours in the seen set, the
partition map has the same keys, a value of the map has changed only from null
to `partition_id` and only at the forward or reverse encoding of a k-mer whose
key is new, and the encodings of such k-mers that are keys of the map all have
the value `partition_id`. -/
structure SetWalked (uniqify_rc : Nat → Nat → Nat) (ht : Hashtable) (partition_id : Nat)
    (start : List Char) (s s' : List Nat × List (Nat × Nat)) : Prop where
  mono : ∀ x ∈ s.1, x ∈ s'.1
  sound : ∀ x ∈ s'.1, x ∈ s.1
    ∨ ∃ w, ht.connected uniqify_rc start w ∧ kmer_key uniqify_rc w = x
  closed : ∀ x : List Char, x.length = ht.ksize → is_acgt x →
    kmer_key uniqify_rc x ∈ s'.1 → kmer_key uniqify_rc x ∉ s.1 →
    ∀ y ∈ kmer_neighbours x, ht.present uniqify_rc y → kmer_key uniqify_rc y ∈ s'.1
  absent : ∀ x, map_find x s.2 = none → map_find x s'.2 = none
  values : ∀ x c, map_find x s.2 = some c →
    map_find x s'.2 = some c ∨ (c = 0 ∧ map_find x s'.2 = some partition_id
      ∧ ∃ v : List Char, v.length = ht.ksize ∧ is_acgt v ∧ kmer_key uniqify_rc v ∈ s'.1
          ∧ kmer_key uniqify_rc v ∉ s.1 ∧ (x = (kmer_pair v).1 ∨ x = (kmer_pair v).2))
  tagged : ∀ v : List Char, v.length = ht.ksize → is_acgt v →
    kmer_key uniqify_rc v ∈ s'.1 → kmer_key uniqify_rc v ∉ s.1 →
    ∀ x, (x = (kmer_pair v).1 ∨ x = (kmer_pair v).2) →
      ∀ c, map_find x s.2 = some c → map_find x s'.2 = some partition_id

/-- The value `do_exact_partition` returns, from the empty partition state;
`none` when it does not return. -/
def exact_partitions (uniqify_rc : Nat → Nat → Nat) (ht : Hashtable) (depth : Nat)
    (reads : List (String × List Char)) : Option Nat :=
  match do_exact_partition uniqify_rc ht empty_partition_state depth reads with
  | Except.ok result => some result.1
  | Except.error _ => none

/-- How `do_exact_partition` fails, from the empty partition state; `none`
when it returns. -/
def exact_failure (uniqify_rc : Nat → Nat → Nat) (ht : Hashtable) (depth : Nat)
    (reads : List (String × List Char)) : Option Failure :=
  match do_exact_partition uniqify_rc ht empty_partition_state depth reads with
  | Except.ok _ => none
  | Except.error e => some e

/-- The reads of scenario 3 of the specification, "AAAAAAAAAA" and
"CCCCCCCCCC". -/
def scenario_reads : List (String × List Char) :=
  [("read1", ['A', 'A', 'A', 'A', 'A', 'A', 'A', 'A', 'A', 'A']),
   ("read2", ['C', 'C', 'C', 'C', 'C', 'C', 'C', 'C', 'C', 'C'])]

/-- What holds of the variables of the second loop of `do_exact_partition`
between two turns, against the partition map `pm0` at the start of the loop:
the keys are those of `pm0`; a cell that is not null is allocated; the k-mers of
a component have all null cells or all the same cell; k-mers with the same cell
are in one component; and `next_partition_id - 1` is the number of components
with a cell, counted by a list `reps` of one k-mer from each. -/
structure ExactInv (uniqify_rc : Nat → Nat → Nat) (ht : Hashtable) (pm0 : List (Nat × Nat))
    (es : ExactState) : Prop where
  keys : ∀ x, map_find x es.partition_map = none ↔ map_find x pm0 = none
  allocated : ∀ x c, map_find x es.partition_map = some c → c ≠ 0 →
    ∃ p, map_find c es.cells = some p
  closed : ∀ w w' : List Char, w.length = ht.ksize → is_acgt w →
    w'.length = ht.ksize → is_acgt w' →
    ∀ c, map_find (kmer_pair w).1 es.partition_map = some c → c ≠ 0 →
    ht.same_component uniqify_rc w w' →
    ∀ c', map_find (kmer_pair w').1 es.partition_map = some c' → c' = c
  sound : ∀ w w' : List Char, w.length = ht.ksize → is_acgt w →
    w'.length = ht.ksize → is_acgt w' →
    ∀ c, map_find (kmer_pair w).1 es.partition_map = some c →
    map_find (kmer_pair w').1 es.partition_map = some c → c ≠ 0 →
    ht.same_component uniqify_rc w w'
  count : ∃ reps : List (List Char), reps.length + 1 = es.next_partition_id
    ∧ (∀ r ∈ reps, r.length = ht.ksize ∧ is_acgt r
        ∧ ∃ c, map_find (kmer_pair r).1 es.partition_map = some c ∧ c ≠ 0)
    ∧ reps.Pairwise (fun a b => ¬ ht.same_component uniqify_rc a b)
    ∧ (∀ w : List Char, w.length = ht.ksize → is_acgt w →
        ∀ c, map_find (kmer_pair w).1 es.partition_map = some c → c ≠ 0 →
        ∃ r ∈ reps, ht.same_component uniqify_rc r w)

/-! ## Words for the termination of calc_connected_graph_size -/

/-- The number of canonical keys of k-mers with a non-zero count that are not
in the seen set `keeper`. -/
def Hashtable.unseen_present (uniqify_rc : Nat → Nat → Nat) (ht : Hashtable)
    (keeper : List Nat) : Nat :=
  (((((all_kmers ht.ksize).filter (fun w => decide (ht.present uniqify_rc w))).map
    (kmer_key uniqify_rc)).toFinset) \ keeper.toFinset).card

/-- The function `calc_connected_graph_size` with a tally beside `count` and
`keeper`: the number of calls that have inserted their key and gone on to the
eight calls for their neighbours. The tally is not a variable of the source; it
counts the calls that recurse, and without it the function is
`Hashtable.calc_connected_graph_size`. -/
def Hashtable.calc_connected_graph_size_tally (uniqify_rc : Nat → Nat → Nat)
    (ht : Hashtable) (threshold : Nat) :
    Nat → Nat → Nat → (Nat × List Nat) × Nat → Option ((Nat × List Nat) × Nat)
  | 0, _, _, _ => none
  | depth + 1, kmer_f, kmer_r, ((count, keeper), tally) =>
    let kmer := uniqify_rc kmer_f kmer_r
    let val := ht.counts (kmer % ht.tablesize)
    if val = 0 then some ((count, keeper), tally)
    else if kmer ∈ keeper then some ((count, keeper), tally)
    else
      let keeper := set_insert kmer keeper
      let count := count + 1
      if threshold ≠ 0 ∧ count ≥ threshold then some ((count, keeper), tally)
      else
        (ht.neighbour_pairs kmer_f kmer_r).foldlM
          (fun ckt fr => Hashtable.calc_connected_graph_size_tally uniqify_rc ht threshold depth
            fr.1 fr.2 ckt)
          ((count, keeper), tally + 1)

/-- The values `((count, keeper), tally)` on return from a call of
`calc_connected_graph_size` against the values `s` at the call: the seen set
and `count` have grown, `count` by as much as the seen set, every key inserted
was a key with a non-zero count that was not seen, and the tally has grown by
no more than `count`. -/
structure Tallied (uniqify_rc : Nat → Nat → Nat) (ht : Hashtable)
    (s s' : (Nat × List Nat) × Nat) : Prop where
  mono : ∀ x ∈ s.1.2, x ∈ s'.1.2
  count_le : s.1.1 ≤ s'.1.1
  count_eq : s'.1.1 + s.1.2.length = s.1.1 + s'.1.2.length
  unseen_eq : s'.1.1 + ht.unseen_present uniqify_rc s'.1.2
    = s.1.1 + ht.unseen_present uniqify_rc s.1.2
  tally_le : s'.2 + s.1.1 ≤ s.2 + s'.1.1
  tally_mono : s.2 ≤ s'.2

/-! ## Words for the partitions of do_truncated_partition -/

/-- The k-mers `w` and `w'` lie in one connected component of the graph of
present k-mers, in which a k-mer and its reverse complement are one vertex:
`w'` or its reverse complement is reachable from `w` through present
k-mers. -/
def Hashtable.joined (uniqify_rc : Nat → Nat → Nat) (ht : Hashtable) (w w' : List Char) : Prop :=
  ht.connected uniqify_rc w w' ∨ ht.connected uniqify_rc w (reverse_complement w')

/-- What the search of `partition_find_all_tags` from the k-mer `start` has
found when `t` is in `tagged_kmers`: `t` is a key of the partition map and the
forward or the reverse encoding of a k-mer connected to `start`. -/
def Hashtable.found_tag (uniqify_rc : Nat → Nat → Nat) (ht : Hashtable)
    (partition_map : List (Nat × Nat)) (start : List Char) (t : Nat) : Prop :=
  (map_find t partition_map).isSome
    ∧ ∃ v : List Char, v.length = ht.ksize ∧ is_acgt v ∧ ht.connected uniqify_rc start v
      ∧ (t = (kmer_pair v).1 ∨ t = (kmer_pair v).2)

/-- What holds of the table and the partition state between two reads of
`do_truncated_partition`: the ids are as `assign_partition_id` leaves them, no
count is above 255, every key of the partition map is the forward encoding of
a present k-mer, and two k-mers whose keys resolve to one `PartitionID` lie in
one component. -/
structure TruncatedInv (uniqify_rc : Nat → Nat → Nat) (ht : Hashtable)
    (st : PartitionState) : Prop where
  ids : allocated_ids st
  counts : ∀ b, ht.counts b ≤ 255
  keys : ∀ x c, map_find x st.partition_map = some c →
    ∃ w : List Char, w.length = ht.ksize ∧ is_acgt w ∧ ht.present uniqify_rc w
      ∧ (kmer_pair w).1 = x
  sound : ∀ (w w' : List Char) (p : Nat), w.length = ht.ksize → is_acgt w →
    w'.length = ht.ksize → is_acgt w' →
    pid_of st (kmer_pair w).1 = some p → pid_of st (kmer_pair w').1 = some p →
    ht.joined uniqify_rc w w'

/-! ## get_min_count and get_max_count when `_hash` fails -/

/-- Modelled from the spec: `_hash(kmer, k, h, r)` of ktable.cc, which is not
among the sources, with its failure: "`hash_init(seq, k)`: encode the first
k-mer of a string; fails if any base is not in `{A,C,G,T}`". `none` when one of
the first `k` characters of the buffer is not a base; the terminator of the
string is not a base, and neither is what lies beyond it, which is outside the
buffer. -/
def hash_init_checked (uniqify_rc : Nat → Nat → Nat) (kmer : List Char) (k : Nat) :
    Option (Nat × Nat × Nat) :=
  if (List.range k).all (fun i => is_valid_dna (c_str kmer i)) then
    some (hash_init uniqify_rc kmer k)
  else none

/-- The function `get_min_count` (hashtable.cc 567-612) with the failure of
`_hash`: `none` when the call `_hash(sp, _ksize, h, r)`, which the function
makes before any test of the length, fails; otherwise the value returned. -/
def Hashtable.get_min_count_checked (uniqify_rc : Nat → Nat → Nat)
    (ht : Hashtable) (s : List Char) (lower_bound upper_bound : Nat) : Option Nat :=
  match hash_init_checked uniqify_rc s ht.ksize with
  | none => none
  | some hs =>
    let min_count := MAX_COUNT
    let min_count :=
      if in_bounds (is_bounded lower_bound upper_bound) lower_bound upper_bound hs.1
      then ht.get_count hs.1 else min_count
    let st := (s.drop ht.ksize).foldl (ht.get_min_count_body uniqify_rc lower_bound upper_bound)
      { h := hs.2.1, r := hs.2.2, acc := min_count }
    some st.acc

/-- The function `get_max_count` (hashtable.cc 614-660) with the failure of
`_hash`: `none` when the call `_hash(sp, _ksize, h, r)`, which the function
makes before any test of the length, fails; otherwise the value returned. -/
def Hashtable.get_max_count_checked (uniqify_rc : Nat → Nat → Nat)
    (ht : Hashtable) (s : List Char) (lower_bound upper_bound : Nat) : Option Nat :=
  match hash_init_checked uniqify_rc s ht.ksize with
  | none => none
  | some hs =>
    let max_count := 0
    let max_count :=
      if in_bounds (is_bounded lower_bound upper_bound) lower_bound upper_bound hs.1
      then ht.get_count hs.1 else max_count
    let st := (s.drop ht.ksize).foldl (ht.get_max_count_body uniqify_rc lower_bound upper_bound)
      { h := hs.2.1, r := hs.2.2, acc := max_count }
    some st.acc

/-! ## Theorems -/

/-! ## Packing as arithmetic -/

theorem twobit_repr_lt (ch : Char) : (twobit_repr ch : Nat) < 4 := by
  unfold twobit_repr; split_ifs <;> decide

theorem twobit_comp_lt (ch : Char) : (twobit_comp ch : Nat) < 4 := by
  unfold twobit_comp; split_ifs <;> decide

theorem foldl_pack_acc (t : Char → Nat) (w : List Char) (a : Nat) :
    w.foldl (fun h ch => 4 * h + t ch) a = a * 4 ^ w.length + pack t w := by
  induction w generalizing a with
  | nil => simp [pack]
  | cons c w ih =>
    simp only [List.foldl_cons, List.length_cons, pack]
    rw [ih (4 * a + t c), ih (4 * 0 + t c)]
    simp only [pack]
    ring

theorem pack_cons (t : Char → Nat) (c : Char) (w : List Char) :
    pack t (c :: w) = t c * 4 ^ w.length + pack t w := by
  have h := foldl_pack_acc t w (4 * 0 + t c)
  simp only [pack, List.foldl_cons] at h ⊢
  rw [h]; ring

theorem pack_append_singleton (t : Char → Nat) (w : List Char) (c : Char) :
    pack t (w ++ [c]) = 4 * pack t w + t c := by
  simp [pack, List.foldl_append]

theorem pack_lt (t : Char → Nat) (ht : ∀ c, t c < 4) (w : List Char) :
    pack t w < 4 ^ w.length := by
  induction w with
  | nil => simp [pack]
  | cons c w ih =>
    rw [pack_cons, List.length_cons, pow_succ]
    have := ht c
    nlinarith [ih, this]

theorem pack_reverse_cons (t : Char → Nat) (c : Char) (w : List Char) :
    pack t (c :: w).reverse = 4 * pack t w.reverse + t c := by
  rw [List.reverse_cons, pack_append_singleton]

theorem pack_reverse_append_singleton (t : Char → Nat) (w : List Char) (c : Char) :
    pack t (w ++ [c]).reverse = t c * 4 ^ w.length + pack t w.reverse := by
  rw [List.reverse_append, List.reverse_singleton, List.singleton_append, pack_cons,
    List.length_reverse]

/-- One 64-bit step `(h << 2) | code` is `4 * h + code` while `4 * h` fits. -/
theorem shift_or_eq (h a : Nat) (ha : a < 4) (hh : 4 * h < 2 ^ 64) :
    ((h <<< 2) % 2 ^ 64) ||| a = 4 * h + a := by
  rw [Nat.shiftLeft_eq, Nat.mod_eq_of_lt (by omega)]
  have := Nat.mul_add_lt_is_or (i := 2) (b := a) (by omega) h
  rw [show h * 2 ^ 2 = 2 ^ 2 * h by ring, ← this]

theorem foldl_hash_eq (t : Char → Nat) (ht : ∀ c, t c < 4) (w : List Char) (a : Nat)
    (hw : w.length ≤ 32) (ha : a < 4 ^ (32 - w.length)) :
    w.foldl (fun h ch => ((h <<< 2) % 2 ^ 64) ||| t ch) a
      = w.foldl (fun h ch => 4 * h + t ch) a := by
  induction w generalizing a with
  | nil => rfl
  | cons c w ih =>
    simp only [List.foldl_cons]
    simp only [List.length_cons] at hw ha
    have hc := ht c
    have hpow : 4 ^ (32 - w.length) = 4 * 4 ^ (32 - (w.length + 1)) := by
      rw [← pow_succ', show 32 - (w.length + 1) + 1 = 32 - w.length by omega]
    have hle : 4 ^ (32 - w.length) ≤ 4 ^ 32 := Nat.pow_le_pow_right (by omega) (by omega)
    have h4 : 4 * a < 2 ^ 64 := by
      have : (2:Nat) ^ 64 = 4 ^ 32 := by norm_num
      omega
    rw [shift_or_eq a (t c) hc h4]
    exact ih (4 * a + t c) (by omega) (by omega)

theorem map_c_str_range (t : List Char) (k : Nat) (hk : k ≤ t.length) :
    (List.range k).map (c_str t) = t.take k := by
  apply List.ext_getElem
  · simp [hk]
  · intro i h1 h2
    simp only [List.length_map, List.length_range] at h1
    simp [c_str, List.getD_eq_getElem?_getD, List.getElem?_eq_getElem (show i < t.length by omega)]

/-- The hash of the first window is the arithmetic packing of that window. -/
theorem hash_init_eq (u : Nat → Nat → Nat) (t : List Char) (k : Nat)
    (hk : k ≤ 32) (hlen : k ≤ t.length) :
    hash_init u t k
      = (u (pack twobit_repr (t.take k)) (pack twobit_comp (t.take k).reverse),
          pack twobit_repr (t.take k), pack twobit_comp (t.take k).reverse) := by
  have hl : (t.take k).length = k := by simp [hlen]
  have h1 := foldl_hash_eq twobit_repr twobit_repr_lt (t.take k) 0 (by omega)
    (Nat.pos_pow_of_pos _ (by omega))
  have h2 := foldl_hash_eq twobit_comp twobit_comp_lt (t.take k).reverse 0
    (by rw [List.length_reverse]; omega) (Nat.pos_pow_of_pos _ (by omega))
  simp only [hash_init, map_c_str_range t k hlen, h1, h2, pack]

theorem four_pow_eq (n : Nat) : (4:Nat) ^ n = 2 ^ (2 * n) := by
  rw [pow_mul]; norm_num

theorem four_pow_dvd (n : Nat) (hn : n ≤ 32) : (4:Nat) ^ n ∣ 2 ^ 64 := by
  rw [four_pow_eq]; exact Nat.pow_dvd_pow 2 (by omega)

/-- The forward half of the rolling update, on numbers. -/
theorem roll_forward_arith (n x P a : Nat) (hn : n + 1 ≤ 32) (hP : P < 4 ^ n) (ha : a < 4) :
    ((((x * 4 ^ n + P) <<< 2) % 2 ^ 64) ||| a) &&& ((1 <<< (2 * (n + 1))) - 1)
      = 4 * P + a := by
  have hdvd := four_pow_dvd (n + 1) hn
  rw [Nat.shiftLeft_eq, Nat.shiftLeft_eq, one_mul, Nat.and_pow_two_sub_one_eq_mod,
    ← four_pow_eq]
  have h1 : (x * 4 ^ n + P) * 2 ^ 2 % 2 ^ 64 = 2 ^ 2 * ((x * 4 ^ n + P) % 2 ^ 62) := by
    rw [show (2:Nat) ^ 64 = 2 ^ 2 * 2 ^ 62 by norm_num, mul_comm _ (2 ^ 2),
      Nat.mul_mod_mul_left]
  rw [h1, ← Nat.mul_add_lt_is_or (by omega : a < 2 ^ 2), ← h1]
  rw [Nat.add_mod, Nat.mod_mod_of_dvd _ hdvd, ← Nat.add_mod]
  have h2 : (x * 4 ^ n + P) * 2 ^ 2 + a = (4 * P + a) + 4 ^ (n + 1) * x := by ring
  rw [h2, Nat.add_mul_mod_self_left, Nat.mod_eq_of_lt]
  rw [pow_succ]; omega

/-- The reverse half of the rolling update, on numbers. -/
theorem roll_reverse_arith (n y Q b : Nat) (hn : n + 1 ≤ 32) (hy : y < 4) (hQ : Q < 4 ^ n)
    (hb : b < 4) :
    ((4 * Q + y) >>> 2) ||| ((b <<< ((n + 1) * 2 - 2)) % 2 ^ 64) = b * 4 ^ n + Q := by
  have hle : (4:Nat) ^ (n + 1) ≤ 2 ^ 64 := Nat.le_of_dvd (by norm_num) (four_pow_dvd (n + 1) hn)
  have hpos : 0 < (4:Nat) ^ n := Nat.pos_pow_of_pos _ (by omega)
  rw [Nat.shiftRight_eq_div_pow, Nat.shiftLeft_eq,
    show (n + 1) * 2 - 2 = 2 * n by omega, ← four_pow_eq]
  have h1 : (4 * Q + y) / 2 ^ 2 = Q := by omega
  have h2 : b * 4 ^ n < 2 ^ 64 := by
    have : b * 4 ^ n < 4 * 4 ^ n := Nat.mul_lt_mul_of_pos_right hb hpos
    rw [pow_succ] at hle; omega
  rw [h1, Nat.mod_eq_of_lt h2, Nat.lor_comm, four_pow_eq, mul_comm b,
    ← Nat.mul_add_lt_is_or (by rw [← four_pow_eq]; exact hQ)]

/-- The rolling update on the packing of a window gives the packing of the
window moved one character to the right. -/
theorem roll_eq (ht : Hashtable) (c0 : Char) (w : List Char) (c : Char)
    (hlen : w.length + 1 = ht.ksize) (hk : ht.ksize ≤ 32) :
    ht.roll (pack twobit_repr (c0 :: w)) (pack twobit_comp (c0 :: w).reverse) c
      = (pack twobit_repr (w ++ [c]), pack twobit_comp (w ++ [c]).reverse) := by
  have hP := pack_lt twobit_repr twobit_repr_lt w
  have hQ := pack_lt twobit_comp twobit_comp_lt w.reverse
  rw [List.length_reverse] at hQ
  simp only [Hashtable.roll, Hashtable.bitmask, Prod.mk.injEq, ← hlen]
  constructor
  · rw [pack_cons, pack_append_singleton]
    exact roll_forward_arith w.length _ _ _ (by omega) hP (twobit_repr_lt c)
  · rw [pack_reverse_cons, pack_reverse_append_singleton]
    exact roll_reverse_arith w.length _ _ _ (by omega) (twobit_comp_lt c0) hQ (twobit_comp_lt c)

theorem window_key_eq (u : Nat → Nat → Nat) (k : Nat) (s : List Char)
    (i : Nat) (hk : k ≤ 32) (hi : i + k ≤ s.length) :
    window_key u k s i
      = u (pack twobit_repr ((s.drop i).take k)) (pack twobit_comp ((s.drop i).take k).reverse) := by
  unfold window_key
  rw [hash_init_eq u (s.drop i) k hk (by rw [List.length_drop]; omega)]

theorem window_key_cons (u : Nat → Nat → Nat) (k : Nat) (c : Char)
    (s : List Char) (i : Nat) :
    window_key u k (c :: s) (i + 1) = window_key u k s i := by
  simp [window_key]

/-- A loop that rolls `(h, r)` over the characters `rest` and feeds each new
canonical key to `g` has fed it the keys of the windows 1, 2, ... of
`w ++ rest`, when it starts from the packing of the window `w`. -/
theorem foldl_roll {σ α : Type} (u : Nat → Nat → Nat)
    (ht : Hashtable) (hk1 : 1 ≤ ht.ksize) (hk : ht.ksize ≤ 32)
    (body : σ → Char → σ) (hr : σ → Nat × Nat) (acc : σ → α)
    (g : α → Nat → α)
    (hbody_hr : ∀ st c, hr (body st c) = ht.roll (hr st).1 (hr st).2 c)
    (hbody_acc : ∀ st c, acc (body st c)
      = g (acc st) (u (ht.roll (hr st).1 (hr st).2 c).1 (ht.roll (hr st).1 (hr st).2 c).2))
    (rest w : List Char) (st : σ) (hw : w.length = ht.ksize)
    (hst : hr st = (pack twobit_repr w, pack twobit_comp w.reverse)) :
    hr (rest.foldl body st)
        = (pack twobit_repr ((w ++ rest).drop rest.length),
            pack twobit_comp ((w ++ rest).drop rest.length).reverse)
      ∧ acc (rest.foldl body st)
        = ((List.range rest.length).map
            (fun i => window_key u ht.ksize (w ++ rest) (i + 1))).foldl g (acc st) := by
  induction rest generalizing w st with
  | nil => simp [hst]
  | cons c rest ih =>
    obtain ⟨c0, w', rfl⟩ : ∃ c0 w', w = c0 :: w' := by
      cases w with
      | nil => simp at hw; omega
      | cons c0 w' => exact ⟨c0, w', rfl⟩
    have hlen : w'.length + 1 = ht.ksize := by simpa using hw
    have hroll := roll_eq ht c0 w' c hlen hk
    have h1 : hr (body st c)
        = (pack twobit_repr (w' ++ [c]), pack twobit_comp (w' ++ [c]).reverse) := by
      rw [hbody_hr, hst]; exact hroll
    have h2 := ih (w' ++ [c]) (body st c) (by simp [hlen]) h1
    have hkey : window_key u ht.ksize (w' ++ [c] ++ rest) 0
        = u (pack twobit_repr (w' ++ [c])) (pack twobit_comp (w' ++ [c]).reverse) := by
      rw [window_key_eq u _ _ 0 hk (by simp; omega)]
      simp only [List.drop_zero]
      rw [List.take_left' (by simp [hlen])]
    refine ⟨?_, ?_⟩
    · rw [List.foldl_cons, h2.1]
      simp [List.append_assoc]
    · rw [List.foldl_cons, h2.2, hbody_acc, hst, hroll]
      simp only [List.length_cons, List.range_succ_eq_map, List.map_cons, List.map_map,
        List.foldl_cons, List.cons_append, window_key_cons]
      rw [← hkey]
      simp [Function.comp_def, List.append_assoc, window_key_cons]

theorem in_bounds_eq_passes (lo hi key : Nat) :
    in_bounds (is_bounded lo hi) lo hi key = passes_bounds lo hi key := by
  unfold in_bounds is_bounded passes_bounds
  by_cases h1 : lo = 0 <;> by_cases h2 : hi = 0 <;> by_cases h3 : lo = hi <;>
    simp_all

theorem consume_fold_spec (ht : Hashtable) (lo hi : Nat)
    (cn : (Nat → Nat) × Nat) (key : Nat)
    (hc : ∀ j, cn.1 j ≤ 255) :
    (∀ j, (consume_fold ht lo hi cn key).1 j ≤ 255)
    ∧ (∀ j, (consume_fold ht lo hi cn key).1 j
        = min 255 (cn.1 j + if (passes_bounds lo hi key && decide (key % ht.tablesize = j)) = true
            then 1 else 0))
    ∧ (consume_fold ht lo hi cn key).2 = cn.2 + if passes_bounds lo hi key = true then 1 else 0 := by
  unfold consume_fold Hashtable.consume_bin
  rw [in_bounds_eq_passes]
  by_cases hp : passes_bounds lo hi key = true
  · simp only [hp, if_true, Bool.true_and, decide_eq_true_eq, MAX_COUNT]
    by_cases hm : cn.1 (key % ht.tablesize) = 255
    · simp only [hm, ne_eq, not_true_eq_false, if_false]
      refine ⟨hc, fun j => ?_, trivial⟩
      have := hc j
      by_cases hj : key % ht.tablesize = j
      · subst hj; simp only [if_true]; omega
      · simp only [hj, if_false]; omega
    · simp only [ne_eq, hm, not_false_eq_true, if_true]
      have hb := hc (key % ht.tablesize)
      refine ⟨fun j => ?_, fun j => ?_, trivial⟩
      · have := hc j
        by_cases hj : j = key % ht.tablesize
        · simp only [hj, if_true]; omega
        · simp only [hj, if_false]; omega
      · have := hc j
        by_cases hj : key % ht.tablesize = j
        · subst hj; simp only [if_true]; omega
        · have hj' : ¬ j = key % ht.tablesize := fun h => hj h.symm
          simp only [hj, hj', if_false]; omega
  · have hp' : passes_bounds lo hi key = false := by simpa using hp
    simp only [hp', Bool.false_and, Bool.false_eq_true, if_false]
    refine ⟨hc, fun j => ?_, rfl⟩
    have := hc j
    omega

theorem foldl_consume_fold (ht : Hashtable) (lo hi : Nat) (ks : List Nat)
    (cn : (Nat → Nat) × Nat) (hc : ∀ j, cn.1 j ≤ 255) :
    (∀ j, (ks.foldl (consume_fold ht lo hi) cn).1 j
        = min 255 (cn.1 j + ks.countP
            (fun key => passes_bounds lo hi key && decide (key % ht.tablesize = j)))) := by
  induction ks generalizing cn with
  | nil => intro j; have := hc j; simp; omega
  | cons key ks ih =>
    intro j
    obtain ⟨h1, h2, -⟩ := consume_fold_spec ht lo hi cn key hc
    rw [List.foldl_cons, ih _ h1 j, h2 j, List.countP_cons]
    have := hc j
    split_ifs <;> omega

theorem foldl_consume_fold_snd (ht : Hashtable) (lo hi : Nat) (ks : List Nat)
    (cn : (Nat → Nat) × Nat) :
    (ks.foldl (consume_fold ht lo hi) cn).2 = cn.2 + ks.countP (fun key => passes_bounds lo hi key) := by
  induction ks generalizing cn with
  | nil => simp
  | cons key ks ih =>
    rw [List.foldl_cons, ih, List.countP_cons]
    have : (consume_fold ht lo hi cn key).2
        = cn.2 + if passes_bounds lo hi key = true then 1 else 0 := by
      unfold consume_fold Hashtable.consume_bin
      rw [in_bounds_eq_passes]
      split_ifs <;> simp
    rw [this]; split_ifs <;> omega

theorem window_keys_eq_cons (u : Nat → Nat → Nat) (k : Nat)
    (s : List Char) :
    window_keys u k s
      = (hash_init u s k).1 :: (List.range (s.length - k)).map (fun i => window_key u k s (i + 1)) := by
  simp [window_keys, List.range_succ_eq_map, window_key, Function.comp_def]

/-- The loop of `consume_string` feeds the guarded block the canonical keys of
the windows of `s`, in order. -/
theorem consume_string_fold (u : Nat → Nat → Nat) (ht : Hashtable)
    (s : List Char) (lo hi : Nat) (hk1 : 1 ≤ ht.ksize) (hk : ht.ksize ≤ 32)
    (hlen : ht.ksize ≤ s.length) :
    ht.consume_string u s lo hi
      = (((window_keys u ht.ksize s).foldl (consume_fold ht lo hi) (ht.counts, 0)).2,
          { ht with counts := ((window_keys u ht.ksize s).foldl (consume_fold ht lo hi)
              (ht.counts, 0)).1 }) := by
  have hinit := hash_init_eq u s ht.ksize hk hlen
  have h := (foldl_roll u ht hk1 hk (ht.consume_string_body u lo hi) (fun st => (st.h, st.r))
    (fun st => (st.counts, st.n_consumed)) (consume_fold ht lo hi)
    (fun st c => rfl) (fun st c => rfl) (s.drop ht.ksize) (s.take ht.ksize)
    (ht.consume_string_init u s lo hi) (by simp [hlen])
    (by simp only [Hashtable.consume_string_init, hinit])).2
  rw [List.take_append_drop, List.length_drop] at h
  have hacc : (fun st : ConsumeState => (st.counts, st.n_consumed))
      (ht.consume_string_init u s lo hi)
      = consume_fold ht lo hi (ht.counts, 0) (hash_init u s ht.ksize).1 := rfl
  simp only [hacc] at h
  rw [window_keys_eq_cons, List.foldl_cons, ← h]
  rfl

theorem hash_init_take (u : Nat → Nat → Nat) (t : List Char) (k : Nat)
    (hk : k ≤ 32) (hlen : k ≤ t.length) :
    hash_init u (t.take k) k = hash_init u t k := by
  rw [hash_init_eq u t k hk hlen, hash_init_eq u (t.take k) k hk (by simp [hlen]),
    List.take_take, Nat.min_self]

/-- The counter of bin `j` after `consume_string`, in closed form. -/
theorem consume_string_counts_eq (u : Nat → Nat → Nat) (ht : Hashtable) (s : List Char)
    (lo hi j : Nat) (hk1 : 1 ≤ ht.ksize) (hk : ht.ksize ≤ 32)
    (hc : ∀ b, ht.counts b ≤ 255) (hlen : ht.ksize ≤ s.length) :
    (ht.consume_string u s lo hi).2.counts j
      = min 255 (ht.counts j + (List.range (s.length - ht.ksize + 1)).countP
          (fun i => passes_bounds lo hi (window_key u ht.ksize s i)
            && decide (window_key u ht.ksize s i % ht.tablesize = j))) := by
  have h := foldl_consume_fold ht lo hi (window_keys u ht.ksize s) (ht.counts, 0) hc j
  rw [consume_string_fold u ht s lo hi hk1 hk hlen]
  simp only [window_keys, List.countP_map, Function.comp_def] at h ⊢
  exact h

/-- C1: for every table size T >= 1, every k with 1 <= k <= 32, every counts
array (of 8-bit counters) and every ACGT string `s` of length L >= k, after
`consume_string(s, lo, hi)` each bin `j` holds `min(255, old[j] + m_j)`, where
`m_j` is the number of window positions `i` in `[0, L-k]` whose canonical key
passes the bounds (`lo = hi = 0`, or `lo <= key < hi`) and has
`key mod T = j`; a bin with `m_j = 0` is unchanged. -/
theorem consume_string_counts (uniqify_rc : Nat → Nat → Nat) (ht : Hashtable) (s : List Char)
    (lo hi j : Nat) (_hT : 1 ≤ ht.tablesize) (hk1 : 1 ≤ ht.ksize) (hk : ht.ksize ≤ 32)
    (hc : ∀ b, ht.counts b ≤ 255) (_hs : is_acgt s) (hlen : ht.ksize ≤ s.length) :
    (ht.consume_string uniqify_rc s lo hi).2.counts j
        = min 255 (ht.counts j + (List.range (s.length - ht.ksize + 1)).countP
            (fun i => passes_bounds lo hi (window_key uniqify_rc ht.ksize s i)
              && decide (window_key uniqify_rc ht.ksize s i % ht.tablesize = j)))
      ∧ ((List.range (s.length - ht.ksize + 1)).countP
            (fun i => passes_bounds lo hi (window_key uniqify_rc ht.ksize s i)
              && decide (window_key uniqify_rc ht.ksize s i % ht.tablesize = j)) = 0
          → (ht.consume_string uniqify_rc s lo hi).2.counts j = ht.counts j) := by
  have h := consume_string_counts_eq uniqify_rc ht s lo hi j hk1 hk hc hlen
  refine ⟨h, fun h0 => ?_⟩
  rw [h, h0]
  have := hc j
  omega

theorem consume_string_counts_witness :
    1 ≤ (empty_table 2 5).tablesize ∧ 1 ≤ (empty_table 2 5).ksize ∧ (empty_table 2 5).ksize ≤ 32
      ∧ (∀ b, (empty_table 2 5).counts b ≤ 255) ∧ is_acgt ['A', 'C', 'G', 'T']
      ∧ (empty_table 2 5).ksize ≤ ['A', 'C', 'G', 'T'].length
      ∧ ((empty_table 2 5).consume_string uniqify_rc_min ['A', 'C', 'G', 'T'] 0 0).2.counts 2
        = min 255 ((empty_table 2 5).counts 2
            + (List.range (['A', 'C', 'G', 'T'].length - (empty_table 2 5).ksize + 1)).countP
              (fun i => passes_bounds 0 0
                  (window_key uniqify_rc_min (empty_table 2 5).ksize ['A', 'C', 'G', 'T'] i)
                && decide (window_key uniqify_rc_min (empty_table 2 5).ksize
                  ['A', 'C', 'G', 'T'] i % (empty_table 2 5).tablesize = 2))) :=
  ⟨by decide, by decide, by decide, fun _ => Nat.zero_le _, by decide, by decide,
    (consume_string_counts uniqify_rc_min (empty_table 2 5) ['A', 'C', 'G', 'T'] 0 0 2
      (by decide) (by decide) (by decide) (fun _ => Nat.zero_le _) (by decide) (by decide)).1⟩

/-- C2: for every ACGT string `s` of length L >= k, `consume_string(s, lo, hi)`
returns the number of window positions whose canonical key passes the bounds
filter: exactly `L - k + 1` when `lo = hi = 0`, and otherwise the number of
positions `i` with `lo <= key_i < hi`. No assumption is made on the counters, so
a position counts also when its counter already holds 255. -/
theorem consume_string_returns (uniqify_rc : Nat → Nat → Nat) (ht : Hashtable) (s : List Char)
    (lo hi : Nat) (hk1 : 1 ≤ ht.ksize) (hk : ht.ksize ≤ 32) (_hs : is_acgt s)
    (hlen : ht.ksize ≤ s.length) :
    (ht.consume_string uniqify_rc s lo hi).1
        = (List.range (s.length - ht.ksize + 1)).countP
            (fun i => passes_bounds lo hi (window_key uniqify_rc ht.ksize s i))
      ∧ (lo = 0 ∧ hi = 0 → (ht.consume_string uniqify_rc s lo hi).1 = s.length - ht.ksize + 1)
      ∧ (¬ (lo = 0 ∧ hi = 0) → (ht.consume_string uniqify_rc s lo hi).1
          = (List.range (s.length - ht.ksize + 1)).countP
            (fun i => decide (lo ≤ window_key uniqify_rc ht.ksize s i
              ∧ window_key uniqify_rc ht.ksize s i < hi))) := by
  have h := foldl_consume_fold_snd ht lo hi (window_keys uniqify_rc ht.ksize s) (ht.counts, 0)
  rw [consume_string_fold uniqify_rc ht s lo hi hk1 hk hlen]
  simp only [window_keys, List.countP_map, Function.comp_def, Nat.zero_add] at h ⊢
  refine ⟨h, fun h0 => ?_, fun h0 => ?_⟩
  · rw [h]
    obtain ⟨rfl, rfl⟩ := h0
    simp [passes_bounds]
  · rw [h]
    congr 1
    funext i
    unfold passes_bounds
    by_cases h1 : lo = 0 <;> by_cases h2 : hi = 0 <;> simp_all

theorem consume_string_returns_witness :
    1 ≤ (empty_table 2 5).ksize ∧ (empty_table 2 5).ksize ≤ 32 ∧ is_acgt ['A', 'C', 'G', 'T']
      ∧ (empty_table 2 5).ksize ≤ ['A', 'C', 'G', 'T'].length
      ∧ ((empty_table 2 5).consume_string uniqify_rc_min ['A', 'C', 'G', 'T'] 0 0).1 = 3 :=
  ⟨by decide, by decide, by decide, by decide,
    (consume_string_returns uniqify_rc_min (empty_table 2 5) ['A', 'C', 'G', 'T'] 0 0
      (by decide) (by decide) (by decide) (by decide)).2.1 ⟨rfl, rfl⟩⟩

/-- C3: for every ACGT string `s` of length >= k and every initial table (of
8-bit counters), after one call `consume_string(s)` with inactive bounds the
count read back for every length-k window `s[i..i+k)` is at least 1. -/
theorem consume_string_kmers_counted (uniqify_rc : Nat → Nat → Nat) (ht : Hashtable)
    (s : List Char) (i : Nat) (_hT : 1 ≤ ht.tablesize) (hk1 : 1 ≤ ht.ksize) (hk : ht.ksize ≤ 32)
    (hc : ∀ b, ht.counts b ≤ 255) (_hs : is_acgt s) (hi : i + ht.ksize ≤ s.length) :
    1 ≤ (ht.consume_string uniqify_rc s 0 0).2.get_count_kmer uniqify_rc
          ((s.drop i).take ht.ksize) := by
  have hlen : ht.ksize ≤ s.length := by omega
  have h := consume_string_counts_eq uniqify_rc ht s 0 0
    (window_key uniqify_rc ht.ksize s i % ht.tablesize) hk1 hk hc hlen
  have hkeep : (ht.consume_string uniqify_rc s 0 0).2.ksize = ht.ksize
      ∧ (ht.consume_string uniqify_rc s 0 0).2.tablesize = ht.tablesize := ⟨rfl, rfl⟩
  unfold Hashtable.get_count_kmer Hashtable.get_count
  rw [hkeep.1, hkeep.2, hash_init_take uniqify_rc (s.drop i) ht.ksize hk
    (by rw [List.length_drop]; omega)]
  change 1 ≤ (ht.consume_string uniqify_rc s 0 0).2.counts
    (window_key uniqify_rc ht.ksize s i % ht.tablesize)
  rw [h]
  have hpos : 0 < (List.range (s.length - ht.ksize + 1)).countP
      (fun i' => passes_bounds 0 0 (window_key uniqify_rc ht.ksize s i')
        && decide (window_key uniqify_rc ht.ksize s i' % ht.tablesize
          = window_key uniqify_rc ht.ksize s i % ht.tablesize)) := by
    rw [List.countP_pos_iff]
    exact ⟨i, List.mem_range.mpr (by omega), by simp [passes_bounds]⟩
  omega

theorem consume_string_kmers_counted_witness :
    1 ≤ (empty_table 2 5).tablesize ∧ 1 ≤ (empty_table 2 5).ksize ∧ (empty_table 2 5).ksize ≤ 32
      ∧ (∀ b, (empty_table 2 5).counts b ≤ 255) ∧ is_acgt ['A', 'C', 'G', 'T']
      ∧ 1 + (empty_table 2 5).ksize ≤ ['A', 'C', 'G', 'T'].length
      ∧ 1 ≤ ((empty_table 2 5).consume_string uniqify_rc_min ['A', 'C', 'G', 'T'] 0 0).2.get_count_kmer
          uniqify_rc_min ((['A', 'C', 'G', 'T'].drop 1).take (empty_table 2 5).ksize) :=
  ⟨by decide, by decide, by decide, fun _ => Nat.zero_le _, by decide, by decide,
    consume_string_kmers_counted uniqify_rc_min (empty_table 2 5) ['A', 'C', 'G', 'T'] 1
      (by decide) (by decide) (by decide) (fun _ => Nat.zero_le _) (by decide) (by decide)⟩

theorem pack_congr (t t' : Char → Nat) (w : List Char) (h : ∀ c ∈ w, t c = t' c) :
    pack t w = pack t' w := by
  unfold pack
  apply List.foldl_ext
  intro a b hb
  rw [h b hb]

theorem pack_map (t : Char → Nat) (f : Char → Char) (w : List Char) :
    pack t (w.map f) = pack (fun c => t (f c)) w := by
  unfold pack
  rw [List.foldl_map]

theorem twobit_repr_complement (c : Char)
    (hc : c = 'A' ∨ c = 'C' ∨ c = 'G' ∨ c = 'T') :
    twobit_repr (complement c) = twobit_comp c := by
  rcases hc with rfl | rfl | rfl | rfl <;> decide

theorem twobit_comp_complement (c : Char)
    (hc : c = 'A' ∨ c = 'C' ∨ c = 'G' ∨ c = 'T') :
    twobit_comp (complement c) = twobit_repr c := by
  rcases hc with rfl | rfl | rfl | rfl <;> decide

theorem uniqify_rc_min_comm (f r : Nat) : uniqify_rc_min f r = uniqify_rc_min r f := by
  unfold uniqify_rc_min; split_ifs <;> omega

theorem uniqify_rc_xor_comm (f r : Nat) : uniqify_rc_xor f r = uniqify_rc_xor r f := by
  unfold uniqify_rc_xor; exact Nat.xor_comm f r

/-- Hashing the reverse complement of a k-mer swaps `h` and `r`. -/
theorem hash_init_reverse_complement (u : Nat → Nat → Nat) (x : List Char) (k : Nat)
    (hk : k ≤ 32) (hx : x.length = k) (hs : is_acgt x) :
    hash_init u (reverse_complement x) k
      = (u (hash_init u x k).2.2 (hash_init u x k).2.1, (hash_init u x k).2.2,
          (hash_init u x k).2.1) := by
  have h1 := hash_init_eq u x k hk (by omega)
  have h2 := hash_init_eq u (reverse_complement x) k hk (by simp [reverse_complement, hx])
  rw [List.take_of_length_le (by omega)] at h1
  rw [List.take_of_length_le (by simp [reverse_complement, hx])] at h2
  have e1 : pack twobit_repr (reverse_complement x) = pack twobit_comp x.reverse := by
    unfold reverse_complement
    rw [← List.map_reverse, pack_map]
    exact pack_congr _ _ _ (fun c hc => twobit_repr_complement c (hs c (List.mem_reverse.mp hc)))
  have e2 : pack twobit_comp (reverse_complement x).reverse = pack twobit_repr x := by
    unfold reverse_complement
    rw [List.reverse_reverse, pack_map]
    exact pack_congr _ _ _ (fun c hc => twobit_comp_complement c (hs c hc))
  rw [h2, h1, e1, e2]

/-- One call of `consume_string` on a string of exactly `k` characters, with
inactive bounds: only the bin of its key moves. -/
theorem consume_string_kmer (u : Nat → Nat → Nat) (ht : Hashtable) (x : List Char)
    (hx : x.length = ht.ksize) :
    (ht.consume_string u x 0 0).2
      = { ht with counts :=
            if ht.counts ((hash_init u x ht.ksize).1 % ht.tablesize) ≠ MAX_COUNT
            then (fun j => if j = (hash_init u x ht.ksize).1 % ht.tablesize
              then (ht.counts ((hash_init u x ht.ksize).1 % ht.tablesize) + 1) % 256
              else ht.counts j)
            else ht.counts } := by
  unfold Hashtable.consume_string
  rw [List.drop_of_length_le (by omega)]
  simp [Hashtable.consume_string_init, Hashtable.consume_bin, in_bounds, is_bounded]

/-- The count of a k-mer `y` after one call of `consume_string` on a k-mer `x`
with the same canonical key: one more, unless it was `MAX_COUNT`. -/
theorem consume_string_kmer_count (u : Nat → Nat → Nat) (ht : Hashtable) (x y : List Char)
    (hx : x.length = ht.ksize)
    (hkey : (hash_init u x ht.ksize).1 = (hash_init u y ht.ksize).1) :
    (ht.consume_string u x 0 0).2.get_count_kmer u y
      = if ht.get_count_kmer u y ≠ MAX_COUNT then (ht.get_count_kmer u y + 1) % 256
        else ht.get_count_kmer u y := by
  rw [consume_string_kmer u ht x hx]
  unfold Hashtable.get_count_kmer Hashtable.get_count
  simp only [hkey]
  split_ifs <;> simp

theorem consume_string_ksize (u : Nat → Nat → Nat) (ht : Hashtable) (s : List Char)
    (lo hi : Nat) : (ht.consume_string u s lo hi).2.ksize = ht.ksize := rfl

theorem consume_string_tablesize (u : Nat → Nat → Nat) (ht : Hashtable) (s : List Char)
    (lo hi : Nat) : (ht.consume_string u s lo hi).2.tablesize = ht.tablesize := rfl

/-- C4: the canonical key is strand-symmetric, `canonical(f, r) = canonical(r, f)`
for all pairs (for `min(f, r)` and for `f XOR r`), so for every k-mer `x` the
count read for `x` equals the count read for its reverse complement in every
table state; with k = 4, ingesting "AAAA" and then "TTTT" into an empty table
leaves the counter of AAAA, which is that of TTTT, at 2. -/
theorem canonical_strand_symmetric (uniqify_rc : Nat → Nat → Nat)
    (hu : uniqify_rc = uniqify_rc_min ∨ uniqify_rc = uniqify_rc_xor) :
    (∀ f r, uniqify_rc f r = uniqify_rc r f)
      ∧ (∀ (ht : Hashtable) (x : List Char), ht.ksize ≤ 32 → x.length = ht.ksize → is_acgt x →
          ht.get_count_kmer uniqify_rc x = ht.get_count_kmer uniqify_rc (reverse_complement x))
      ∧ (∀ T : Nat, 1 ≤ T →
          ((((empty_table 4 T).consume_string uniqify_rc ['A', 'A', 'A', 'A'] 0 0).2.consume_string
              uniqify_rc ['T', 'T', 'T', 'T'] 0 0).2.get_count_kmer uniqify_rc ['A', 'A', 'A', 'A'] = 2
            ∧ (((empty_table 4 T).consume_string uniqify_rc ['A', 'A', 'A', 'A'] 0 0).2.consume_string
              uniqify_rc ['T', 'T', 'T', 'T'] 0 0).2.get_count_kmer uniqify_rc ['T', 'T', 'T', 'T']
                = 2)) := by
  have hsym : ∀ f r, uniqify_rc f r = uniqify_rc r f := by
    rcases hu with rfl | rfl
    · exact uniqify_rc_min_comm
    · exact uniqify_rc_xor_comm
  have hcount : ∀ (ht : Hashtable) (x : List Char), ht.ksize ≤ 32 → x.length = ht.ksize →
      is_acgt x →
      ht.get_count_kmer uniqify_rc x = ht.get_count_kmer uniqify_rc (reverse_complement x) := by
    intro ht x hk hx hs
    unfold Hashtable.get_count_kmer
    rw [hash_init_reverse_complement uniqify_rc x ht.ksize hk hx hs]
    have h1 := hash_init_eq uniqify_rc x ht.ksize hk (by omega)
    rw [h1]
    simp only
    rw [hsym]
  refine ⟨hsym, hcount, ?_⟩
  intro T _
  have hrc : reverse_complement ['A', 'A', 'A', 'A'] = ['T', 'T', 'T', 'T'] := by decide
  have hkey : (hash_init uniqify_rc ['T', 'T', 'T', 'T'] 4).1
      = (hash_init uniqify_rc ['A', 'A', 'A', 'A'] 4).1 := by
    rw [← hrc, hash_init_reverse_complement uniqify_rc _ 4 (by decide) (by decide) (by decide),
      hash_init_eq uniqify_rc _ 4 (by decide) (by decide)]
    simp only
    rw [hsym]
  have h0 : (empty_table 4 T).get_count_kmer uniqify_rc ['A', 'A', 'A', 'A'] = 0 := rfl
  have h1 : ((empty_table 4 T).consume_string uniqify_rc ['A', 'A', 'A', 'A'] 0
      0).2.get_count_kmer uniqify_rc ['A', 'A', 'A', 'A'] = 1 := by
    rw [consume_string_kmer_count uniqify_rc (empty_table 4 T) ['A', 'A', 'A', 'A']
      ['A', 'A', 'A', 'A'] rfl rfl, h0]
    decide
  have h2 : (((empty_table 4 T).consume_string uniqify_rc ['A', 'A', 'A', 'A'] 0 0).2.consume_string
      uniqify_rc ['T', 'T', 'T', 'T'] 0 0).2.get_count_kmer uniqify_rc ['A', 'A', 'A', 'A'] = 2 := by
    rw [consume_string_kmer_count uniqify_rc
      ((empty_table 4 T).consume_string uniqify_rc ['A', 'A', 'A', 'A'] 0 0).2
      ['T', 'T', 'T', 'T'] ['A', 'A', 'A', 'A'] rfl hkey, h1]
    decide
  refine ⟨h2, ?_⟩
  have h3 := hcount (((empty_table 4 T).consume_string uniqify_rc ['A', 'A', 'A', 'A'] 0
    0).2.consume_string uniqify_rc ['T', 'T', 'T', 'T'] 0 0).2 ['A', 'A', 'A', 'A']
    (by show 4 ≤ 32; omega) rfl (by decide)
  rw [hrc] at h3
  rw [← h3]
  exact h2

theorem canonical_strand_symmetric_witness :
    (uniqify_rc_min = uniqify_rc_min ∨ uniqify_rc_min = uniqify_rc_xor)
      ∧ (∀ f r, uniqify_rc_min f r = uniqify_rc_min r f)
      ∧ ((((empty_table 4 1000000).consume_string uniqify_rc_min ['A', 'A', 'A', 'A'] 0
            0).2.consume_string uniqify_rc_min ['T', 'T', 'T', 'T'] 0 0).2.get_count_kmer
              uniqify_rc_min ['A', 'A', 'A', 'A'] = 2) :=
  ⟨Or.inl rfl, (canonical_strand_symmetric uniqify_rc_min (Or.inl rfl)).1,
    ((canonical_strand_symmetric uniqify_rc_min (Or.inl rfl)).2.2 1000000 (by decide)).1⟩

/-- C5: for every k with 1 <= k <= 32 and every ACGT string `s` of length >= k,
the pair `(h, r)` that the rolling update of `consume_string` holds after `i`
passes through the loop (loop index `i + k - 1`, window `s[i .. i+k)`) equals
the pair obtained by hashing that window from scratch, hence the canonical keys
agree for every window; the state after all `L - k` passes is the one
`consume_string` returns from. -/
theorem consume_string_rolling (uniqify_rc : Nat → Nat → Nat) (ht : Hashtable) (s : List Char)
    (lo hi i : Nat) (hk1 : 1 ≤ ht.ksize) (hk : ht.ksize ≤ 32) (_hs : is_acgt s)
    (hwin : i + ht.ksize ≤ s.length) :
    ((ht.consume_string_steps uniqify_rc s lo hi i).h,
        (ht.consume_string_steps uniqify_rc s lo hi i).r)
        = (hash_init uniqify_rc ((s.drop i).take ht.ksize) ht.ksize).2
      ∧ uniqify_rc (ht.consume_string_steps uniqify_rc s lo hi i).h
          (ht.consume_string_steps uniqify_rc s lo hi i).r
        = (hash_init uniqify_rc ((s.drop i).take ht.ksize) ht.ksize).1
      ∧ ht.consume_string uniqify_rc s lo hi
        = ((ht.consume_string_steps uniqify_rc s lo hi (s.length - ht.ksize)).n_consumed,
            { ht with counts :=
                (ht.consume_string_steps uniqify_rc s lo hi (s.length - ht.ksize)).counts }) := by
  have hlen : ht.ksize ≤ s.length := by omega
  have hinit := hash_init_eq uniqify_rc s ht.ksize hk hlen
  have h := (foldl_roll uniqify_rc ht hk1 hk (ht.consume_string_body uniqify_rc lo hi)
    (fun st => (st.h, st.r)) (fun st => (st.counts, st.n_consumed)) (consume_fold ht lo hi)
    (fun st c => rfl) (fun st c => rfl) ((s.drop ht.ksize).take i) (s.take ht.ksize)
    (ht.consume_string_init uniqify_rc s lo hi) (by simp [hlen])
    (by simp only [Hashtable.consume_string_init, hinit])).1
  have hl : ((s.drop ht.ksize).take i).length = i := by
    rw [List.length_take, List.length_drop]; omega
  have hw : (s.take ht.ksize ++ (s.drop ht.ksize).take i).drop i = (s.drop i).take ht.ksize := by
    rw [← List.take_add, List.drop_take, Nat.add_sub_cancel]
  rw [hl, hw] at h
  have hscr := hash_init_eq uniqify_rc ((s.drop i).take ht.ksize) ht.ksize hk
    (by rw [List.length_take, List.length_drop]; omega)
  rw [List.take_take, Nat.min_self] at hscr
  have hpair : ((ht.consume_string_steps uniqify_rc s lo hi i).h,
      (ht.consume_string_steps uniqify_rc s lo hi i).r)
      = (pack twobit_repr ((s.drop i).take ht.ksize),
          pack twobit_comp ((s.drop i).take ht.ksize).reverse) := h
  have hh := congrArg Prod.fst hpair
  have hr := congrArg Prod.snd hpair
  simp only at hh hr
  refine ⟨?_, ?_, ?_⟩
  · rw [hpair, hscr]
  · rw [hh, hr, hscr]
  · unfold Hashtable.consume_string Hashtable.consume_string_steps
    rw [List.take_of_length_le (by rw [List.length_drop])]

theorem consume_string_rolling_witness :
    1 ≤ (empty_table 2 5).ksize ∧ (empty_table 2 5).ksize ≤ 32 ∧ is_acgt ['A', 'C', 'G', 'T']
      ∧ 2 + (empty_table 2 5).ksize ≤ ['A', 'C', 'G', 'T'].length
      ∧ (((empty_table 2 5).consume_string_steps uniqify_rc_min ['A', 'C', 'G', 'T'] 0 0 2).h,
          ((empty_table 2 5).consume_string_steps uniqify_rc_min ['A', 'C', 'G', 'T'] 0 0 2).r)
        = (hash_init uniqify_rc_min ((['A', 'C', 'G', 'T'].drop 2).take (empty_table 2 5).ksize)
            (empty_table 2 5).ksize).2 :=
  ⟨by decide, by decide, by decide, by decide,
    (consume_string_rolling uniqify_rc_min (empty_table 2 5) ['A', 'C', 'G', 'T'] 0 0 2
      (by decide) (by decide) (by decide) (by decide)).1⟩

/-- C6, as stated, fails: with k = 4 and tablesize = 1,000,000, after ingesting
"AAAACCCCGGGGTTTT" into an empty table the count of AAAA, which shares its
counter with TTTT, is 2 with `min(f, r)` as canonical key and 4 with
`f XOR r`, so it is not the case that every one of the 13 k-mers has count
exactly 1. -/
theorem scenario_counts_not_all_one :
    ((empty_table 4 1000000).consume_string uniqify_rc_min scenario_read 0 0).2.get_count_kmer
        uniqify_rc_min ['A', 'A', 'A', 'A'] = 2
      ∧ ((empty_table 4 1000000).consume_string uniqify_rc_xor scenario_read 0 0).2.get_count_kmer
        uniqify_rc_xor ['A', 'A', 'A', 'A'] = 4
      ∧ ¬ (∀ i, i < 13 →
        ((empty_table 4 1000000).consume_string uniqify_rc_min scenario_read 0 0).2.get_count_kmer
          uniqify_rc_min ((scenario_read.drop i).take 4) = 1)
      ∧ ¬ (∀ i, i < 13 →
        ((empty_table 4 1000000).consume_string uniqify_rc_xor scenario_read 0 0).2.get_count_kmer
          uniqify_rc_xor ((scenario_read.drop i).take 4) = 1) := by
  refine ⟨by decide, by decide, ?_, ?_⟩
  · intro h
    have h0 := h 0 (by decide)
    revert h0
    decide
  · intro h
    have h0 := h 0 (by decide)
    revert h0
    decide

/-- C6, amended: with k = 4 and tablesize = 1,000,000, ingesting
"AAAACCCCGGGGTTTT" into an empty table processes 13 k-mer positions; a k-mer
shares its counter with its reverse complement and the read is its own reverse
complement, so the counts of the 13 k-mers are 2 except for the
self-complementary CCGG, which has 1, under `min(f, r)` (and 4, 4, 2, 4, 4, 2,
1, 2, 4, 4, 2, 4, 4 under `f XOR r`, where further keys coincide); a second
ingest of the same read doubles every count. -/
theorem scenario_counts_amended :
    ((empty_table 4 1000000).consume_string uniqify_rc_min scenario_read 0 0).1 = 13
      ∧ scenario_counts uniqify_rc_min
          ((empty_table 4 1000000).consume_string uniqify_rc_min scenario_read 0 0).2
        = [2, 2, 2, 2, 2, 2, 1, 2, 2, 2, 2, 2, 2]
      ∧ scenario_counts uniqify_rc_min
          (((empty_table 4 1000000).consume_string uniqify_rc_min scenario_read 0 0).2.consume_string
            uniqify_rc_min scenario_read 0 0).2
        = [4, 4, 4, 4, 4, 4, 2, 4, 4, 4, 4, 4, 4]
      ∧ ((empty_table 4 1000000).consume_string uniqify_rc_xor scenario_read 0 0).1 = 13
      ∧ scenario_counts uniqify_rc_xor
          ((empty_table 4 1000000).consume_string uniqify_rc_xor scenario_read 0 0).2
        = [4, 4, 2, 4, 4, 2, 1, 2, 4, 4, 2, 4, 4]
      ∧ scenario_counts uniqify_rc_xor
          (((empty_table 4 1000000).consume_string uniqify_rc_xor scenario_read 0 0).2.consume_string
            uniqify_rc_xor scenario_read 0 0).2
        = [8, 8, 4, 8, 8, 4, 2, 4, 8, 8, 4, 8, 8] := by
  refine ⟨?_, ?_, ?_, ?_, ?_, ?_⟩ <;> decide

theorem iterate_consume_string_ksize (u : Nat → Nat → Nat) (x : List Char) (n : Nat)
    (ht : Hashtable) :
    ((fun t : Hashtable => (t.consume_string u x 0 0).2)^[n] ht).ksize = ht.ksize := by
  induction n with
  | zero => rfl
  | succ n ih => rw [Function.iterate_succ_apply', consume_string_ksize, ih]

/-- The counter of a k-mer after `n` calls of `consume_string` on it. -/
theorem iterate_consume_string_count (u : Nat → Nat → Nat) (x : List Char) (n : Nat)
    (ht : Hashtable) (hx : x.length = ht.ksize) (hc : ht.get_count_kmer u x ≤ 255) :
    ((fun t : Hashtable => (t.consume_string u x 0 0).2)^[n] ht).get_count_kmer u x
      = min 255 (ht.get_count_kmer u x + n) := by
  induction n with
  | zero => simp only [Function.iterate_zero, id_eq]; omega
  | succ n ih =>
    rw [Function.iterate_succ_apply',
      consume_string_kmer_count u _ x x (by rw [iterate_consume_string_ksize]; exact hx) rfl, ih]
    unfold MAX_COUNT
    split_ifs <;> omega

/-- C7: counters saturate instead of wrapping: for every string `x` of length k
and every table in which the counter of `x` is zero, after `n` calls of
`consume_string(x)` with `n >= 255` (in particular `n = 256`) the counter of
`x` is exactly 255, never 0. -/
theorem consume_string_saturates (uniqify_rc : Nat → Nat → Nat) (ht : Hashtable)
    (x : List Char) (n : Nat) (hx : x.length = ht.ksize)
    (h0 : ht.get_count_kmer uniqify_rc x = 0) (hn : 255 ≤ n) :
    ((fun t : Hashtable => (t.consume_string uniqify_rc x 0 0).2)^[n] ht).get_count_kmer
        uniqify_rc x = MAX_COUNT
      ∧ ((fun t : Hashtable => (t.consume_string uniqify_rc x 0 0).2)^[n] ht).get_count_kmer
        uniqify_rc x ≠ 0 := by
  have h := iterate_consume_string_count uniqify_rc x n ht hx (by omega)
  rw [h, h0]
  unfold MAX_COUNT
  omega

theorem consume_string_saturates_witness :
    ['A', 'C', 'G', 'T'].length = (empty_table 4 7).ksize
      ∧ (empty_table 4 7).get_count_kmer uniqify_rc_min ['A', 'C', 'G', 'T'] = 0 ∧ 255 ≤ 256
      ∧ ((fun t : Hashtable => (t.consume_string uniqify_rc_min ['A', 'C', 'G', 'T'] 0 0).2)^[256]
          (empty_table 4 7)).get_count_kmer uniqify_rc_min ['A', 'C', 'G', 'T'] = MAX_COUNT :=
  ⟨rfl, rfl, by decide,
    (consume_string_saturates uniqify_rc_min (empty_table 4 7) ['A', 'C', 'G', 'T'] 256 rfl rfl
      (by decide)).1⟩

theorem foldl_min_spec (f : Nat → Nat) (ks : List Nat) (a : Nat) :
    ks.foldl (fun acc key => if f key < acc then f key else acc) a ≤ a
      ∧ (∀ key ∈ ks, ks.foldl (fun acc key => if f key < acc then f key else acc) a ≤ f key)
      ∧ (ks.foldl (fun acc key => if f key < acc then f key else acc) a = a
          ∨ ∃ key ∈ ks, ks.foldl (fun acc key => if f key < acc then f key else acc) a = f key) := by
  induction ks generalizing a with
  | nil => simp
  | cons key ks ih =>
    simp only [List.foldl_cons, List.mem_cons, forall_eq_or_imp, exists_eq_or_imp]
    have hb : (if f key < a then f key else a) ≤ a ∧ (if f key < a then f key else a) ≤ f key
        ∧ ((if f key < a then f key else a) = a ∨ (if f key < a then f key else a) = f key) := by
      split_ifs <;> omega
    generalize (if f key < a then f key else a) = b at hb
    obtain ⟨h1, h2, h3⟩ := ih b
    refine ⟨by omega, ⟨by omega, h2⟩, ?_⟩
    rcases h3 with h3 | ⟨key', hk', h3⟩
    · rcases hb.2.2 with hb' | hb'
      · exact Or.inl (by omega)
      · exact Or.inr (Or.inl (by omega))
    · exact Or.inr (Or.inr ⟨key', hk', h3⟩)

theorem foldl_max_spec (f : Nat → Nat) (ks : List Nat) (a : Nat) :
    a ≤ ks.foldl (fun acc key => if f key > acc then f key else acc) a
      ∧ (∀ key ∈ ks, f key ≤ ks.foldl (fun acc key => if f key > acc then f key else acc) a)
      ∧ (ks.foldl (fun acc key => if f key > acc then f key else acc) a = a
          ∨ ∃ key ∈ ks, ks.foldl (fun acc key => if f key > acc then f key else acc) a = f key) := by
  induction ks generalizing a with
  | nil => simp
  | cons key ks ih =>
    simp only [List.foldl_cons, List.mem_cons, forall_eq_or_imp, exists_eq_or_imp]
    have hb : a ≤ (if f key > a then f key else a) ∧ f key ≤ (if f key > a then f key else a)
        ∧ ((if f key > a then f key else a) = a ∨ (if f key > a then f key else a) = f key) := by
      split_ifs <;> omega
    generalize (if f key > a then f key else a) = b at hb
    obtain ⟨h1, h2, h3⟩ := ih b
    refine ⟨by omega, ⟨by omega, h2⟩, ?_⟩
    rcases h3 with h3 | ⟨key', hk', h3⟩
    · rcases hb.2.2 with hb' | hb'
      · exact Or.inl (by omega)
      · exact Or.inr (Or.inl (by omega))
    · exact Or.inr (Or.inr ⟨key', hk', h3⟩)

theorem in_bounds_inactive (key : Nat) : in_bounds (is_bounded 0 0) 0 0 key = true := by
  simp [in_bounds, is_bounded]

/-- With inactive bounds `get_min_count` folds the counts of the windows of `s`. -/
theorem get_min_count_fold (u : Nat → Nat → Nat) (ht : Hashtable) (s : List Char)
    (hk1 : 1 ≤ ht.ksize) (hk : ht.ksize ≤ 32) (hlen : ht.ksize ≤ s.length) :
    (ht.get_min_count u s 0 0).1
      = ((List.range (s.length - ht.ksize)).map (fun i => window_key u ht.ksize s (i + 1))).foldl
          (fun acc key => if ht.get_count key < acc then ht.get_count key else acc)
          (ht.get_count (window_key u ht.ksize s 0)) := by
  have hinit := hash_init_eq u s ht.ksize hk hlen
  have h := (foldl_roll u ht hk1 hk (ht.get_min_count_body u 0 0) (fun st => (st.h, st.r))
    (fun st => st.acc)
    (fun acc key => if ht.get_count key < acc then ht.get_count key else acc)
    (fun st c => rfl)
    (fun st c => by simp only [Hashtable.get_min_count_body, in_bounds_inactive, if_true])
    (s.drop ht.ksize) (s.take ht.ksize)
    (ht.get_min_count_init u s 0 0) (by simp [hlen])
    (by simp only [Hashtable.get_min_count_init, hinit])).2
  rw [List.take_append_drop, List.length_drop] at h
  have hacc : (ht.get_min_count_init u s 0 0).acc = ht.get_count (window_key u ht.ksize s 0) := by
    simp only [Hashtable.get_min_count_init, in_bounds_inactive, if_true, window_key,
      List.drop_zero]
  simp only [hacc] at h
  exact h

/-- With inactive bounds `get_max_count` folds the counts of the windows of `s`. -/
theorem get_max_count_fold (u : Nat → Nat → Nat) (ht : Hashtable) (s : List Char)
    (hk1 : 1 ≤ ht.ksize) (hk : ht.ksize ≤ 32) (hlen : ht.ksize ≤ s.length) :
    (ht.get_max_count u s 0 0).1
      = ((List.range (s.length - ht.ksize)).map (fun i => window_key u ht.ksize s (i + 1))).foldl
          (fun acc key => if ht.get_count key > acc then ht.get_count key else acc)
          (ht.get_count (window_key u ht.ksize s 0)) := by
  have hinit := hash_init_eq u s ht.ksize hk hlen
  have h := (foldl_roll u ht hk1 hk (ht.get_max_count_body u 0 0) (fun st => (st.h, st.r))
    (fun st => st.acc)
    (fun acc key => if ht.get_count key > acc then ht.get_count key else acc)
    (fun st c => rfl)
    (fun st c => by simp only [Hashtable.get_max_count_body, in_bounds_inactive, if_true])
    (s.drop ht.ksize) (s.take ht.ksize)
    (ht.get_max_count_init u s 0 0) (by simp [hlen])
    (by simp only [Hashtable.get_max_count_init, hinit])).2
  rw [List.take_append_drop, List.length_drop] at h
  have hacc : (ht.get_max_count_init u s 0 0).acc = ht.get_count (window_key u ht.ksize s 0) := by
    simp only [Hashtable.get_max_count_init, in_bounds_inactive, if_true, window_key,
      List.drop_zero]
  simp only [hacc] at h
  exact h

/-- C8: for every ACGT string `s` of length >= k and inactive bounds
(`lo = hi = 0`), `get_min_count(s)` is the minimum and `get_max_count(s)` the
maximum of `get_count` over the canonical keys of all `L - k + 1` windows of
`s` (a bound for every window, attained at one of them), and neither call
changes the table. -/
theorem get_min_max_count_spec (uniqify_rc : Nat → Nat → Nat) (ht : Hashtable) (s : List Char)
    (hk1 : 1 ≤ ht.ksize) (hk : ht.ksize ≤ 32) (_hs : is_acgt s) (hlen : ht.ksize ≤ s.length) :
    (∀ i, i + ht.ksize ≤ s.length →
        (ht.get_min_count uniqify_rc s 0 0).1 ≤ ht.get_count (window_key uniqify_rc ht.ksize s i))
      ∧ (∃ i, i + ht.ksize ≤ s.length ∧
        (ht.get_min_count uniqify_rc s 0 0).1 = ht.get_count (window_key uniqify_rc ht.ksize s i))
      ∧ (∀ i, i + ht.ksize ≤ s.length →
        ht.get_count (window_key uniqify_rc ht.ksize s i) ≤ (ht.get_max_count uniqify_rc s 0 0).1)
      ∧ (∃ i, i + ht.ksize ≤ s.length ∧
        (ht.get_max_count uniqify_rc s 0 0).1 = ht.get_count (window_key uniqify_rc ht.ksize s i))
      ∧ (ht.get_min_count uniqify_rc s 0 0).2 = ht
      ∧ (ht.get_max_count uniqify_rc s 0 0).2 = ht := by
  have hmin := get_min_count_fold uniqify_rc ht s hk1 hk hlen
  have hmax := get_max_count_fold uniqify_rc ht s hk1 hk hlen
  obtain ⟨a1, a2, a3⟩ := foldl_min_spec ht.get_count
    ((List.range (s.length - ht.ksize)).map (fun i => window_key uniqify_rc ht.ksize s (i + 1)))
    (ht.get_count (window_key uniqify_rc ht.ksize s 0))
  obtain ⟨b1, b2, b3⟩ := foldl_max_spec ht.get_count
    ((List.range (s.length - ht.ksize)).map (fun i => window_key uniqify_rc ht.ksize s (i + 1)))
    (ht.get_count (window_key uniqify_rc ht.ksize s 0))
  rw [← hmin] at a1 a2 a3
  rw [← hmax] at b1 b2 b3
  have hmem : ∀ i, i + 1 + ht.ksize ≤ s.length → window_key uniqify_rc ht.ksize s (i + 1)
      ∈ (List.range (s.length - ht.ksize)).map
          (fun i => window_key uniqify_rc ht.ksize s (i + 1)) := fun i hi =>
    List.mem_map.mpr ⟨i, List.mem_range.mpr (by omega), rfl⟩
  refine ⟨?_, ?_, ?_, ?_, rfl, rfl⟩
  · intro i hi
    cases i with
    | zero => exact a1
    | succ i => exact a2 _ (hmem i hi)
  · rcases a3 with a3 | ⟨key, hkey, a3⟩
    · exact ⟨0, by omega, a3⟩
    · obtain ⟨i, hi, rfl⟩ := List.mem_map.mp hkey
      exact ⟨i + 1, by have := List.mem_range.mp hi; omega, a3⟩
  · intro i hi
    cases i with
    | zero => exact b1
    | succ i => exact b2 _ (hmem i hi)
  · rcases b3 with b3 | ⟨key, hkey, b3⟩
    · exact ⟨0, by omega, b3⟩
    · obtain ⟨i, hi, rfl⟩ := List.mem_map.mp hkey
      exact ⟨i + 1, by have := List.mem_range.mp hi; omega, b3⟩

theorem get_min_max_count_spec_witness :
    1 ≤ (empty_table 2 5).ksize ∧ (empty_table 2 5).ksize ≤ 32 ∧ is_acgt ['A', 'C', 'G', 'T']
      ∧ (empty_table 2 5).ksize ≤ ['A', 'C', 'G', 'T'].length
      ∧ ((empty_table 2 5).get_min_count uniqify_rc_min ['A', 'C', 'G', 'T'] 0 0).2
          = empty_table 2 5
      ∧ ((empty_table 2 5).get_max_count uniqify_rc_min ['A', 'C', 'G', 'T'] 0 0).1
          ≥ (empty_table 2 5).get_count (window_key uniqify_rc_min (empty_table 2 5).ksize
              ['A', 'C', 'G', 'T'] 1) :=
  ⟨by decide, by decide, by decide, by decide,
    (get_min_max_count_spec uniqify_rc_min (empty_table 2 5) ['A', 'C', 'G', 'T']
      (by decide) (by decide) (by decide) (by decide)).2.2.2.2.1,
    (get_min_max_count_spec uniqify_rc_min (empty_table 2 5) ['A', 'C', 'G', 'T']
      (by decide) (by decide) (by decide) (by decide)).2.2.1 1 (by decide)⟩

theorem is_valid_dna_iff (ch : Char) :
    is_valid_dna ch = true ↔ (ch = 'A' ∨ ch = 'C' ∨ ch = 'G' ∨ ch = 'T') := by
  simp [is_valid_dna, or_assoc]

theorem check_read_loop_iff (read : List Char) :
    check_read_loop read = true ↔ is_acgt read := by
  induction read with
  | nil => simp [check_read_loop, is_acgt]
  | cons ch rest ih =>
    unfold check_read_loop
    by_cases hv : is_valid_dna ch = true
    · have hch := (is_valid_dna_iff ch).mp hv
      simp only [hv, Bool.not_true, Bool.false_eq_true, if_false, ih]
      unfold is_acgt
      constructor
      · intro h c hc
        rcases List.mem_cons.mp hc with rfl | hc
        · exact hch
        · exact h c hc
      · intro h c hc
        exact h c (List.mem_cons_of_mem _ hc)
    · have hch : ¬ (ch = 'A' ∨ ch = 'C' ∨ ch = 'G' ∨ ch = 'T') :=
        fun h => hv ((is_valid_dna_iff ch).mpr h)
      have hv' : is_valid_dna ch = false := by simpa using hv
      simp only [hv', Bool.not_false, if_true, Bool.false_eq_true, false_iff]
      intro h
      exact hch (h ch (List.mem_cons_self _ _))

/-- C10: `check_read(read)` returns true if and only if the read has length
>= k and every one of its characters is one of the four bases A, C, G, T. -/
theorem check_read_iff (ht : Hashtable) (read : List Char) :
    ht.check_read read = true ↔ (ht.ksize ≤ read.length ∧ is_acgt read) := by
  unfold Hashtable.check_read
  by_cases hlen : read.length < ht.ksize
  · simp only [hlen, if_true, Bool.false_eq_true, false_iff]
    intro h
    omega
  · simp only [hlen, if_false, check_read_loop_iff]
    constructor
    · intro h
      exact ⟨by omega, h⟩
    · intro h
      exact h.2

/-! ## std::map, std::set and the cells of a merge -/

theorem map_find_set_eq {β : Type} (k : Nat) (v : β) (m : List (Nat × β)) :
    map_find k (map_set k v m) = some v := by
  induction m with
  | nil => simp [map_set, map_find]
  | cons e rest ih =>
    unfold map_set
    by_cases h1 : k < e.1
    · simp [h1, map_find]
    · by_cases h2 : k = e.1
      · simp [h1, h2, map_find]
      · have h3 : ¬ e.1 = k := fun h => h2 h.symm
        simp [h1, h2, map_find, h3, ih]

theorem map_find_set_ne {β : Type} (k k' : Nat) (v : β) (m : List (Nat × β)) (h : k' ≠ k) :
    map_find k' (map_set k v m) = map_find k' m := by
  have hk : ¬ k = k' := fun e => h e.symm
  induction m with
  | nil => simp [map_set, map_find, hk]
  | cons e rest ih =>
    unfold map_set
    by_cases h1 : k < e.1
    · simp [h1, map_find, hk]
    · by_cases h2 : k = e.1
      · have h3 : ¬ e.1 = k' := fun e' => hk (h2.trans e')
        simp [h1, h2, map_find, hk, h3]
      · simp only [h1, h2, if_false, map_find, ih]

theorem map_find_erase_eq {β : Type} (k : Nat) (m : List (Nat × β)) :
    map_find k (map_erase k m) = none := by
  induction m with
  | nil => rfl
  | cons e rest ih =>
    unfold map_erase
    by_cases h : e.1 = k
    · simp [h, ih]
    · simp [h, map_find, ih]

theorem map_find_erase_ne {β : Type} (k k' : Nat) (m : List (Nat × β)) (h : k' ≠ k) :
    map_find k' (map_erase k m) = map_find k' m := by
  induction m with
  | nil => rfl
  | cons e rest ih =>
    unfold map_erase
    by_cases h1 : e.1 = k
    · have h2 : ¬ e.1 = k' := fun e' => h (e'.symm.trans h1)
      have h3 : ¬ k = k' := fun e' => h e'.symm
      simp [h1, map_find, h3, ih]
    · simp [h1, map_find, ih]

theorem mem_set_insert (a x : Nat) (l : List Nat) :
    x ∈ set_insert a l ↔ x = a ∨ x ∈ l := by
  induction l with
  | nil => simp [set_insert]
  | cons b rest ih =>
    unfold set_insert
    by_cases h1 : a < b
    · simp [h1]
    · by_cases h2 : a = b
      · subst h2; simp
      · simp only [h1, h2, if_false, List.mem_cons, ih]
        tauto

theorem foldl_max_ge (l : List Nat) (a : Nat) : a ≤ l.foldl max a ∧ ∀ x ∈ l, x ≤ l.foldl max a := by
  induction l generalizing a with
  | nil => simp
  | cons b rest ih =>
    obtain ⟨h1, h2⟩ := ih (max a b)
    simp only [List.foldl_cons, List.mem_cons, forall_eq_or_imp]
    exact ⟨by omega, by omega, h2⟩

theorem map_find_some_mem {β : Type} (k : Nat) (v : β) (m : List (Nat × β))
    (h : map_find k m = some v) : k ∈ m.map Prod.fst := by
  induction m with
  | nil => simp [map_find] at h
  | cons e rest ih =>
    unfold map_find at h
    by_cases h1 : e.1 = k
    · simp [h1]
    · simp only [h1, if_false] at h
      simp [ih h]

theorem fresh_addr_pos (cells : List (Nat × Nat)) : fresh_addr cells ≠ 0 := by
  unfold fresh_addr; omega

theorem map_find_fresh_addr (cells : List (Nat × Nat)) :
    map_find (fresh_addr cells) cells = none := by
  cases h : map_find (fresh_addr cells) cells with
  | none => rfl
  | some v =>
    have hm := map_find_some_mem _ _ _ h
    have := (foldl_max_ge (cells.map Prod.fst) 0).2 _ hm
    unfold fresh_addr at this
    omega

/-- The cells and the master set after the inner loop. -/
theorem merge_cells_spec (m : Nat) (s : List Nat) (cells : List (Nat × Nat)) (master : List Nat) :
    (∀ c, map_find c (merge_cells m s cells master).1
        = if c ∈ s then some m else map_find c cells)
      ∧ (∀ x, x ∈ (merge_cells m s cells master).2 ↔ x ∈ s ∨ x ∈ master) := by
  unfold merge_cells
  induction s generalizing cells master with
  | nil => simp
  | cons a rest ih =>
    obtain ⟨h1, h2⟩ := ih (map_set a m cells) (set_insert a master)
    simp only [List.foldl_cons]
    refine ⟨fun c => ?_, fun x => ?_⟩
    · rw [h1 c]
      by_cases hc : c ∈ rest
      · simp [hc]
      · by_cases hca : c = a
        · subst hca; simp [map_find_set_eq]
        · simp [hc, hca, map_find_set_ne _ _ _ _ hca]
    · rw [h2 x, mem_set_insert]
      simp only [List.mem_cons]
      tauto

/-! ## The NEXT and PREVIOUS steps on k-mers -/

/-- The forward half of the NEXT step (and the reverse half of the PREVIOUS
step), on numbers: the mask is applied before the new code is put in. -/
theorem next_forward_arith (n x P a : Nat) (hn : n + 1 ≤ 32) (hP : P < 4 ^ n) (ha : a < 4) :
    ((((x * 4 ^ n + P) <<< 2) % 2 ^ 64) &&& ((1 <<< (2 * (n + 1))) - 1)) ||| a
      = 4 * P + a := by
  have hdvd := four_pow_dvd (n + 1) hn
  rw [Nat.shiftLeft_eq, Nat.shiftLeft_eq, one_mul, Nat.and_pow_two_sub_one_eq_mod,
    ← four_pow_eq, Nat.mod_mod_of_dvd _ hdvd]
  have h2 : (x * 4 ^ n + P) * 2 ^ 2 = 4 * P + 4 ^ (n + 1) * x := by ring
  have h3 : 4 * P < 4 ^ (n + 1) := by rw [pow_succ]; omega
  rw [h2, Nat.add_mul_mod_self_left, Nat.mod_eq_of_lt h3]
  exact (Nat.mul_add_lt_is_or (by omega : a < 2 ^ 2) P).symm

theorem next_pair_cons (ht : Hashtable) (c0 : Char) (w : List Char) (c : Char)
    (hlen : w.length + 1 = ht.ksize) (hk : ht.ksize ≤ 32) :
    ht.next_pair (kmer_pair (c0 :: w)).1 (kmer_pair (c0 :: w)).2 c = kmer_pair (w ++ [c]) := by
  have hP := pack_lt twobit_repr twobit_repr_lt w
  have hQ := pack_lt twobit_comp twobit_comp_lt w.reverse
  rw [List.length_reverse] at hQ
  simp only [Hashtable.next_pair, Hashtable.bitmask, kmer_pair, Prod.mk.injEq, ← hlen]
  constructor
  · rw [pack_cons, pack_append_singleton]
    exact next_forward_arith w.length _ _ _ (by omega) hP (twobit_repr_lt c)
  · rw [pack_reverse_cons, pack_reverse_append_singleton]
    exact roll_reverse_arith w.length _ _ _ (by omega) (twobit_comp_lt c0) hQ (twobit_comp_lt c)

theorem previous_pair_append (ht : Hashtable) (w : List Char) (cl c : Char)
    (hlen : w.length + 1 = ht.ksize) (hk : ht.ksize ≤ 32) :
    ht.previous_pair (kmer_pair (w ++ [cl])).1 (kmer_pair (w ++ [cl])).2 c
      = kmer_pair (c :: w) := by
  have hP := pack_lt twobit_repr twobit_repr_lt w
  have hQ := pack_lt twobit_comp twobit_comp_lt w.reverse
  rw [List.length_reverse] at hQ
  simp only [Hashtable.previous_pair, Hashtable.bitmask, kmer_pair, Prod.mk.injEq, ← hlen]
  constructor
  · rw [pack_append_singleton, pack_cons]
    exact roll_reverse_arith w.length _ _ _ (by omega) (twobit_repr_lt cl) hP (twobit_repr_lt c)
  · rw [pack_reverse_append_singleton, pack_reverse_cons]
    exact next_forward_arith w.length _ _ _ (by omega) hQ (twobit_comp_lt c)

/-- The NEXT step on the pair of a k-mer gives the pair of the k-mer moved one
base to the right. -/
theorem next_pair_kmer (ht : Hashtable) (w : List Char) (c : Char)
    (hw : w.length = ht.ksize) (hk1 : 1 ≤ ht.ksize) (hk : ht.ksize ≤ 32) :
    ht.next_pair (kmer_pair w).1 (kmer_pair w).2 c = kmer_pair (w.tail ++ [c]) := by
  cases w with
  | nil => simp at hw; omega
  | cons c0 w => exact next_pair_cons ht c0 w c (by simpa using hw) hk

/-- The PREVIOUS step on the pair of a k-mer gives the pair of the k-mer moved
one base to the left. -/
theorem previous_pair_kmer (ht : Hashtable) (w : List Char) (c : Char)
    (hw : w.length = ht.ksize) (hk1 : 1 ≤ ht.ksize) (hk : ht.ksize ≤ 32) :
    ht.previous_pair (kmer_pair w).1 (kmer_pair w).2 c = kmer_pair (c :: w.dropLast) := by
  have hne : w ≠ [] := by
    intro e; rw [e] at hw; simp at hw; omega
  have hsplit := List.dropLast_append_getLast hne
  have hlen : w.dropLast.length + 1 = ht.ksize := by
    rw [List.length_dropLast]; omega
  have h := previous_pair_append ht w.dropLast (w.getLast hne) c hlen hk
  rw [hsplit] at h
  exact h

/-- The eight recursive calls of `calc_connected_graph_size` at the pair of a
k-mer go to the pairs of its eight neighbours. -/
theorem neighbour_pairs_kmer (ht : Hashtable) (w : List Char)
    (hw : w.length = ht.ksize) (hk1 : 1 ≤ ht.ksize) (hk : ht.ksize ≤ 32) :
    ht.neighbour_pairs (kmer_pair w).1 (kmer_pair w).2 = (kmer_neighbours w).map kmer_pair := by
  simp only [Hashtable.neighbour_pairs, kmer_neighbours, List.map_cons, List.map_nil,
    next_pair_kmer ht w _ hw hk1 hk, previous_pair_kmer ht w _ hw hk1 hk]

/-! ## k-mers and their reverse complements -/

theorem is_acgt_complement (c : Char) (hc : c = 'A' ∨ c = 'C' ∨ c = 'G' ∨ c = 'T') :
    complement c = 'A' ∨ complement c = 'C' ∨ complement c = 'G' ∨ complement c = 'T' := by
  rcases hc with rfl | rfl | rfl | rfl <;> decide

theorem complement_complement (c : Char) (hc : c = 'A' ∨ c = 'C' ∨ c = 'G' ∨ c = 'T') :
    complement (complement c) = c := by
  rcases hc with rfl | rfl | rfl | rfl <;> decide

theorem length_reverse_complement (w : List Char) : (reverse_complement w).length = w.length := by
  simp [reverse_complement]

theorem is_acgt_reverse_complement (w : List Char) (hs : is_acgt w) :
    is_acgt (reverse_complement w) := by
  intro c hc
  unfold reverse_complement at hc
  rw [List.mem_reverse, List.mem_map] at hc
  obtain ⟨a, ha, rfl⟩ := hc
  exact is_acgt_complement a (hs a ha)

theorem reverse_complement_involutive (w : List Char) (hs : is_acgt w) :
    reverse_complement (reverse_complement w) = w := by
  unfold reverse_complement
  rw [List.map_reverse, List.reverse_reverse, List.map_map]
  conv_rhs => rw [← List.map_id w]
  apply List.map_congr_left
  intro c hc
  exact complement_complement c (hs c hc)

theorem kmer_pair_reverse_complement (w : List Char) (hs : is_acgt w) :
    kmer_pair (reverse_complement w) = ((kmer_pair w).2, (kmer_pair w).1) := by
  have e1 : pack twobit_repr (reverse_complement w) = pack twobit_comp w.reverse := by
    unfold reverse_complement
    rw [← List.map_reverse, pack_map]
    exact pack_congr _ _ _ (fun c hc => twobit_repr_complement c (hs c (List.mem_reverse.mp hc)))
  have e2 : pack twobit_comp (reverse_complement w).reverse = pack twobit_repr w := by
    unfold reverse_complement
    rw [List.reverse_reverse, pack_map]
    exact pack_congr _ _ _ (fun c hc => twobit_comp_complement c (hs c hc))
  simp only [kmer_pair, e1, e2]

/-- A k-mer and its reverse complement have the same key under a symmetric
canonical key. -/
theorem kmer_key_reverse_complement (u : Nat → Nat → Nat) (hu : key_symmetric u)
    (w : List Char) (hs : is_acgt w) :
    kmer_key u (reverse_complement w) = kmer_key u w := by
  unfold kmer_key
  rw [kmer_pair_reverse_complement w hs]
  exact hu _ _

theorem is_acgt_tail (w : List Char) (hs : is_acgt w) : is_acgt w.tail :=
  fun c hc => hs c (List.mem_of_mem_tail hc)

theorem is_acgt_dropLast (w : List Char) (hs : is_acgt w) : is_acgt w.dropLast :=
  fun c hc => hs c (List.mem_of_mem_dropLast hc)

/-- A neighbour of a k-mer is a k-mer of the same length. -/
theorem kmer_neighbours_kmer (w y : List Char) (k : Nat) (hk1 : 1 ≤ k) (hw : w.length = k)
    (hs : is_acgt w) (hy : y ∈ kmer_neighbours w) : y.length = k ∧ is_acgt y := by
  have ht := is_acgt_tail w hs
  have hd := is_acgt_dropLast w hs
  have hnext : ∀ b : Char, (b = 'A' ∨ b = 'C' ∨ b = 'G' ∨ b = 'T') →
      (w.tail ++ [b]).length = k ∧ is_acgt (w.tail ++ [b]) := by
    intro b hb
    refine ⟨by simp; omega, ?_⟩
    intro c hc
    rcases List.mem_append.mp hc with h | h
    · exact ht c h
    · rw [List.mem_singleton.mp h]; exact hb
  have hprev : ∀ b : Char, (b = 'A' ∨ b = 'C' ∨ b = 'G' ∨ b = 'T') →
      (b :: w.dropLast).length = k ∧ is_acgt (b :: w.dropLast) := by
    intro b hb
    refine ⟨by simp; omega, ?_⟩
    intro c hc
    rcases List.mem_cons.mp hc with h | h
    · rw [h]; exact hb
    · exact hd c h
  simp only [kmer_neighbours, List.mem_cons, List.mem_singleton, List.not_mem_nil, or_false] at hy
  rcases hy with rfl | rfl | rfl | rfl | rfl | rfl | rfl | rfl
  · exact hnext 'A' (by decide)
  · exact hnext 'C' (by decide)
  · exact hnext 'G' (by decide)
  · exact hnext 'T' (by decide)
  · exact hprev 'A' (by decide)
  · exact hprev 'C' (by decide)
  · exact hprev 'G' (by decide)
  · exact hprev 'T' (by decide)

theorem mem_kmer_neighbours (w y : List Char) :
    y ∈ kmer_neighbours w ↔ ∃ b : Char, (b = 'A' ∨ b = 'C' ∨ b = 'G' ∨ b = 'T')
      ∧ (y = w.tail ++ [b] ∨ y = b :: w.dropLast) := by
  simp only [kmer_neighbours, List.mem_cons, List.mem_singleton, List.not_mem_nil, or_false]
  constructor
  · rintro (h | h | h | h | h | h | h | h)
    · exact ⟨'A', by decide, Or.inl h⟩
    · exact ⟨'C', by decide, Or.inl h⟩
    · exact ⟨'G', by decide, Or.inl h⟩
    · exact ⟨'T', by decide, Or.inl h⟩
    · exact ⟨'A', by decide, Or.inr h⟩
    · exact ⟨'C', by decide, Or.inr h⟩
    · exact ⟨'G', by decide, Or.inr h⟩
    · exact ⟨'T', by decide, Or.inr h⟩
  · rintro ⟨b, hb, h | h⟩
    · rcases hb with rfl | rfl | rfl | rfl <;> simp [h]
    · rcases hb with rfl | rfl | rfl | rfl <;> simp [h]

/-- The neighbours of the reverse complement are the reverse complements of
the neighbours. -/
theorem kmer_neighbours_reverse_complement (w y : List Char)
    (hy : y ∈ kmer_neighbours w) :
    reverse_complement y ∈ kmer_neighbours (reverse_complement w) := by
  rw [mem_kmer_neighbours] at hy ⊢
  obtain ⟨b, hb, h | h⟩ := hy
  · refine ⟨complement b, is_acgt_complement b hb, Or.inr ?_⟩
    rw [h]
    simp [reverse_complement, List.map_tail, List.dropLast_reverse]
  · refine ⟨complement b, is_acgt_complement b hb, Or.inl ?_⟩
    rw [h]
    simp [reverse_complement, List.map_dropLast, List.tail_reverse]

/-! ## The seen set -/

theorem set_insert_perm (a : Nat) (l : List Nat) (h : a ∉ l) :
    (set_insert a l).Perm (a :: l) := by
  induction l with
  | nil => exact List.Perm.refl _
  | cons b rest ih =>
    have hab : a ≠ b := fun e => h (by rw [e]; exact List.mem_cons_self _ _)
    have hrest : a ∉ rest := fun hm => h (List.mem_cons_of_mem _ hm)
    unfold set_insert
    by_cases h1 : a < b
    · rw [if_pos h1]
    · rw [if_neg h1, if_neg hab]
      exact ((ih hrest).cons b).trans (List.Perm.swap a b rest)

theorem length_set_insert (a : Nat) (l : List Nat) (h : a ∉ l) :
    (set_insert a l).length = l.length + 1 := by
  rw [(set_insert_perm a l h).length_eq, List.length_cons]

theorem nodup_set_insert (a : Nat) (l : List Nat) (h : a ∉ l) (hl : l.Nodup) :
    (set_insert a l).Nodup :=
  (set_insert_perm a l h).nodup_iff.mpr (List.nodup_cons.mpr ⟨h, hl⟩)

/-! ## Loops over a list that may fail -/

/-- A loop whose every turn relates the state before to the state after by a
preorder `R`, and establishes for its element a property `Q` that later turns
keep. -/
theorem foldlM_walk {σ α : Type} (step : σ → α → Option σ) (R : σ → σ → Prop)
    (Q : α → σ → Prop) (hrefl : ∀ s, R s s) (htrans : ∀ a b c, R a b → R b c → R a c)
    (hQ : ∀ a s s', Q a s → R s s' → Q a s') (l : List α)
    (hstep : ∀ a ∈ l, ∀ s s', step s a = some s' → R s s' ∧ Q a s') :
    ∀ s s', l.foldlM step s = some s' → R s s' ∧ ∀ a ∈ l, Q a s' := by
  induction l with
  | nil =>
    intro s s' h
    simp only [List.foldlM_nil] at h
    cases h
    exact ⟨hrefl s, fun a ha => by cases ha⟩
  | cons a rest ih =>
    intro s s' h
    rw [List.foldlM_cons] at h
    cases h1 : step s a with
    | none => rw [h1] at h; cases h
    | some s1 =>
      rw [h1] at h
      have hfirst := hstep a (List.mem_cons_self _ _) s s1 h1
      have hrest := ih (fun b hb => hstep b (List.mem_cons_of_mem _ hb)) s1 s' h
      refine ⟨htrans _ _ _ hfirst.1 hrest.1, ?_⟩
      intro b hb
      rcases List.mem_cons.mp hb with rfl | hb
      · exact hQ _ _ _ hfirst.2 hrest.1
      · exact hrest.2 b hb

/-- A loop whose every turn returns from a state that satisfies `I`, and keeps
`I`, returns. -/
theorem foldlM_returns {σ α : Type} (step : σ → α → Option σ) (I : σ → Prop) (l : List α)
    (hstep : ∀ a ∈ l, ∀ s, I s → ∃ s', step s a = some s' ∧ I s') :
    ∀ s, I s → ∃ s', l.foldlM step s = some s' := by
  induction l with
  | nil => intro s _; exact ⟨s, rfl⟩
  | cons a rest ih =>
    intro s hs
    obtain ⟨s1, h1, hI1⟩ := hstep a (List.mem_cons_self _ _) s hs
    obtain ⟨s', h'⟩ := ih (fun b hb => hstep b (List.mem_cons_of_mem _ hb)) s1 hI1
    exact ⟨s', by rw [List.foldlM_cons, h1]; exact h'⟩

/-! ## The relation of a walk -/

theorem Walked.refl (u : Nat → Nat → Nat) (ht : Hashtable) (threshold : Nat)
    (start : List Char) (s : Nat × List Nat) : Walked u ht threshold start s s :=
  { mono := fun _ h => h
    count_le := le_refl _
    count_eq := rfl
    nodup := fun h => h
    sound := fun _ h => Or.inl h
    closed := fun _ _ _ _ h hn => absurd h hn }

theorem Walked.trans {u : Nat → Nat → Nat} {ht : Hashtable} {threshold : Nat}
    {start : List Char} {a b c : Nat × List Nat}
    (h1 : Walked u ht threshold start a b) (h2 : Walked u ht threshold start b c) :
    Walked u ht threshold start a c :=
  { mono := fun x hx => h2.mono x (h1.mono x hx)
    count_le := le_trans h1.count_le h2.count_le
    count_eq := by have := h1.count_eq; have := h2.count_eq; omega
    nodup := fun h => h2.nodup (h1.nodup h)
    sound := fun x hx => by
      rcases h2.sound x hx with h | h
      · exact h1.sound x h
      · exact Or.inr h
    closed := fun hc x hxl hxs hx hxn y hy hp => by
      have hc1 : threshold = 0 ∨ b.1 < threshold := by
        rcases hc with h | h
        · exact Or.inl h
        · exact Or.inr (lt_of_le_of_lt h2.count_le h)
      by_cases hxb : kmer_key u x ∈ b.2
      · exact h2.mono _ (h1.closed hc1 x hxl hxs hxb hxn y hy hp)
      · exact h2.closed hc x hxl hxs hx hxb y hy hp }

/-- One call of `calc_connected_graph_size`, unfolded. -/
theorem calc_connected_graph_size_succ (u : Nat → Nat → Nat) (ht : Hashtable)
    (threshold depth kmer_f kmer_r count : Nat) (keeper : List Nat) :
    ht.calc_connected_graph_size u threshold (depth + 1) kmer_f kmer_r (count, keeper)
      = if ht.counts (u kmer_f kmer_r % ht.tablesize) = 0 then some (count, keeper)
        else if u kmer_f kmer_r ∈ keeper then some (count, keeper)
        else if threshold ≠ 0 ∧ count + 1 ≥ threshold
          then some (count + 1, set_insert (u kmer_f kmer_r) keeper)
        else (ht.neighbour_pairs kmer_f kmer_r).foldlM
          (fun ck fr => ht.calc_connected_graph_size u threshold depth fr.1 fr.2 ck)
          (count + 1, set_insert (u kmer_f kmer_r) keeper) := by
  rfl

/-- A path from `start` to `w` goes on along a path from `w`. -/
theorem connected_kmer (u : Nat → Nat → Nat) (ht : Hashtable) (start w : List Char)
    (hk1 : 1 ≤ ht.ksize) (hlen : start.length = ht.ksize) (hs : is_acgt start)
    (h : ht.connected u start w) : w.length = ht.ksize ∧ is_acgt w := by
  induction h with
  | start _ => exact ⟨hlen, hs⟩
  | step w w' _ hmem _ ih => exact kmer_neighbours_kmer w w' ht.ksize hk1 ih.1 ih.2 hmem

/-- What a call of `calc_connected_graph_size` at the pair of a k-mer does to
`(count, keeper)` when it returns. -/
theorem calc_walked (u : Nat → Nat → Nat) (ht : Hashtable) (threshold : Nat)
    (start : List Char) (hsym : key_symmetric u) (hsep : key_separates u ht.ksize)
    (hk1 : 1 ≤ ht.ksize) (hk : ht.ksize ≤ 32) :
    ∀ (depth : Nat) (w : List Char) (s s' : Nat × List Nat),
      w.length = ht.ksize → is_acgt w → (ht.present u w → ht.connected u start w) →
      ht.calc_connected_graph_size u threshold depth (kmer_pair w).1 (kmer_pair w).2 s = some s' →
      Walked u ht threshold start s s'
        ∧ ((threshold = 0 ∨ s'.1 < threshold) → ht.present u w → kmer_key u w ∈ s'.2) := by
  intro depth
  induction depth with
  | zero =>
    intro w s s' _ _ _ h
    cases h
  | succ depth ih =>
    intro w s s' hwl hws hwc h
    obtain ⟨count, keeper⟩ := s
    rw [calc_connected_graph_size_succ] at h
    have hkey : u (kmer_pair w).1 (kmer_pair w).2 = kmer_key u w := rfl
    rw [hkey] at h
    by_cases hval : ht.counts (kmer_key u w % ht.tablesize) = 0
    · rw [if_pos hval] at h
      cases h
      exact ⟨Walked.refl _ _ _ _ _, fun _ hp => absurd hval hp⟩
    · rw [if_neg hval] at h
      have hpres : ht.present u w := hval
      have hconn := hwc hpres
      by_cases hseen : kmer_key u w ∈ keeper
      · rw [if_pos hseen] at h
        cases h
        exact ⟨Walked.refl _ _ _ _ _, fun _ _ => hseen⟩
      · rw [if_neg hseen] at h
        have hins : ∀ x, x ∈ set_insert (kmer_key u w) keeper ↔ x = kmer_key u w ∨ x ∈ keeper :=
          fun x => mem_set_insert _ _ _
        have hlen := length_set_insert _ _ hseen
        by_cases hthr : threshold ≠ 0 ∧ count + 1 ≥ threshold
        · rw [if_pos hthr] at h
          cases h
          refine ⟨?_, fun _ _ => (hins _).mpr (Or.inl rfl)⟩
          exact
            { mono := fun x hx => (hins x).mpr (Or.inr hx)
              count_le := Nat.le_succ _
              count_eq := by show count + 1 + keeper.length = count + _; rw [hlen]; omega
              nodup := fun hn => nodup_set_insert _ _ hseen hn
              sound := fun x hx => by
                rcases (hins x).mp hx with e | hx
                · exact Or.inr ⟨w, hconn, e.symm⟩
                · exact Or.inl hx
              closed := fun hc => by
                exfalso
                have h1 : count + 1 < threshold ∨ threshold = 0 := by
                  rcases hc with e | e
                  · exact Or.inr e
                  · exact Or.inl e
                rcases h1 with e | e
                · exact absurd hthr.2 (by omega)
                · exact hthr.1 e }
        · rw [if_neg hthr, neighbour_pairs_kmer ht w hwl hk1 hk, List.foldlM_map] at h
          -- the eight calls
          have hfold := foldlM_walk
            (fun ck y => ht.calc_connected_graph_size u threshold depth
              (kmer_pair y).1 (kmer_pair y).2 ck)
            (Walked u ht threshold start)
            (fun y s' => (threshold = 0 ∨ s'.1 < threshold) → ht.present u y →
              kmer_key u y ∈ s'.2)
            (Walked.refl u ht threshold start) (fun _ _ _ => Walked.trans)
            (fun y s1 s2 hq hW hc hp => by
              have hc1 : threshold = 0 ∨ s1.1 < threshold := by
                rcases hc with e | e
                · exact Or.inl e
                · exact Or.inr (lt_of_le_of_lt hW.count_le e)
              exact hW.mono _ (hq hc1 hp))
            (kmer_neighbours w)
            (fun y hy s1 s2 hrun => by
              obtain ⟨hyl, hys⟩ := kmer_neighbours_kmer w y ht.ksize hk1 hwl hws hy
              exact ih y s1 s2 hyl hys
                (fun hp => Hashtable.connected.step w y hconn hy hp) hrun)
            _ s' h
          obtain ⟨hW, hQ⟩ := hfold
          have hmemw : kmer_key u w ∈ s'.2 := hW.mono _ ((hins _).mpr (Or.inl rfl))
          refine ⟨?_, fun _ _ => hmemw⟩
          exact
            { mono := fun x hx => hW.mono x ((hins x).mpr (Or.inr hx))
              count_le := le_trans (Nat.le_succ _) hW.count_le
              count_eq := by
                have := hW.count_eq
                simp only at this ⊢
                rw [hlen] at this
                omega
              nodup := fun hn => hW.nodup (nodup_set_insert _ _ hseen hn)
              sound := fun x hx => by
                rcases hW.sound x hx with hx | hx
                · rcases (hins x).mp hx with e | hx
                  · exact Or.inr ⟨w, hconn, e.symm⟩
                  · exact Or.inl hx
                · exact Or.inr hx
              closed := fun hc x hxl hxs hx hxn y hy hp => by
                by_cases hx1 : kmer_key u x ∈ set_insert (kmer_key u w) keeper
                · have hxw : kmer_key u x = kmer_key u w := by
                    rcases (hins _).mp hx1 with e | e
                    · exact e
                    · exact absurd e hxn
                  rcases hsep w x hwl hxl hws hxs hxw.symm with e | e
                  · rw [e] at hy
                    exact hQ y hy hc hp
                  · -- `x` is the reverse complement of `w`
                    rw [e] at hy
                    obtain ⟨hyl, hys⟩ := kmer_neighbours_kmer _ y ht.ksize hk1
                      (by rw [length_reverse_complement]; exact hwl)
                      (is_acgt_reverse_complement w hws) hy
                    have hy' := kmer_neighbours_reverse_complement _ y hy
                    rw [reverse_complement_involutive w hws] at hy'
                    have hkeyy := kmer_key_reverse_complement u hsym y hys
                    have hp' : ht.present u (reverse_complement y) := by
                      unfold Hashtable.present; rw [hkeyy]; exact hp
                    have := hQ _ hy' hc hp'
                    rw [hkeyy] at this
                    exact this
                · exact hW.closed hc x hxl hxs hx hx1 y hy hp }

/-! ## Termination -/

theorem mem_all_kmers (k : Nat) (w : List Char) (hw : w.length = k) (hs : is_acgt w) :
    w ∈ all_kmers k := by
  induction k generalizing w with
  | zero =>
    rw [List.length_eq_zero.mp hw]
    exact List.mem_singleton.mpr rfl
  | succ k ih =>
    cases w with
    | nil => simp at hw
    | cons c w =>
      have hw' : w.length = k := by simpa using hw
      have hmem := ih w hw' (fun x hx => hs x (List.mem_cons_of_mem _ hx))
      unfold all_kmers
      rw [List.mem_flatMap]
      refine ⟨w, hmem, ?_⟩
      rcases hs c (List.mem_cons_self _ _) with rfl | rfl | rfl | rfl <;> simp

theorem length_flatMap_four {α : Type} (f g h i : α → α) (l : List α) :
    (l.flatMap (fun w => [f w, g w, h w, i w])).length = 4 * l.length := by
  induction l with
  | nil => rfl
  | cons a l ih =>
    rw [List.flatMap_cons, List.length_append, ih, List.length_cons (a := a)]
    simp only [List.length_cons, List.length_nil]
    omega

theorem length_all_kmers (k : Nat) : (all_kmers k).length = 4 ^ k := by
  induction k with
  | zero => rfl
  | succ k ih =>
    unfold all_kmers
    rw [length_flatMap_four, ih, pow_succ, mul_comm]

theorem unseen_keys_mono (u : Nat → Nat → Nat) (k : Nat) (K K' : List Nat)
    (h : ∀ x ∈ K, x ∈ K') : unseen_keys u k K' ≤ unseen_keys u k K := by
  unfold unseen_keys
  apply Finset.card_le_card
  intro x hx
  rw [Finset.mem_sdiff] at hx ⊢
  exact ⟨hx.1, fun hm => hx.2 (List.mem_toFinset.mpr (h x (List.mem_toFinset.mp hm)))⟩

theorem unseen_keys_insert (u : Nat → Nat → Nat) (k : Nat) (K K' : List Nat) (w : List Char)
    (hw : w.length = k) (hs : is_acgt w) (hn : kmer_key u w ∉ K)
    (h : ∀ x, x ∈ K' ↔ x = kmer_key u w ∨ x ∈ K) :
    unseen_keys u k K' < unseen_keys u k K := by
  unfold unseen_keys
  apply Finset.card_lt_card
  rw [Finset.ssubset_iff_of_subset]
  · refine ⟨kmer_key u w, ?_, ?_⟩
    · rw [Finset.mem_sdiff]
      exact ⟨List.mem_toFinset.mpr (List.mem_map.mpr ⟨w, mem_all_kmers k w hw hs, rfl⟩),
        fun hm => hn (List.mem_toFinset.mp hm)⟩
    · rw [Finset.mem_sdiff]
      intro hx
      exact hx.2 (List.mem_toFinset.mpr ((h _).mpr (Or.inl rfl)))
  · intro x hx
    rw [Finset.mem_sdiff] at hx ⊢
    exact ⟨hx.1, fun hm => hx.2 (List.mem_toFinset.mpr ((h x).mpr
      (Or.inr (List.mem_toFinset.mp hm))))⟩

theorem unseen_keys_le (u : Nat → Nat → Nat) (k : Nat) (K : List Nat) :
    unseen_keys u k K ≤ 4 ^ k := by
  unfold unseen_keys
  calc _ ≤ ((all_kmers k).map (kmer_key u)).toFinset.card :=
        Finset.card_le_card Finset.sdiff_subset
    _ ≤ ((all_kmers k).map (kmer_key u)).length := List.toFinset_card_le _
    _ = 4 ^ k := by rw [List.length_map, length_all_kmers]

/-- A call of `calc_connected_graph_size` at the pair of a k-mer returns when
the depth allowed is more than the number of keys not yet seen. -/
theorem calc_returns (u : Nat → Nat → Nat) (ht : Hashtable) (threshold : Nat)
    (start : List Char) (hsym : key_symmetric u) (hsep : key_separates u ht.ksize)
    (hk1 : 1 ≤ ht.ksize) (hk : ht.ksize ≤ 32) :
    ∀ (depth : Nat) (w : List Char) (s : Nat × List Nat),
      w.length = ht.ksize → is_acgt w → (ht.present u w → ht.connected u start w) →
      unseen_keys u ht.ksize s.2 < depth →
      ∃ s', ht.calc_connected_graph_size u threshold depth (kmer_pair w).1 (kmer_pair w).2 s
        = some s' := by
  intro depth
  induction depth with
  | zero => intro w s _ _ _ h; exact absurd h (Nat.not_lt_zero _)
  | succ depth ih =>
    intro w s hwl hws hwc hfuel
    obtain ⟨count, keeper⟩ := s
    rw [calc_connected_graph_size_succ]
    have hkey : u (kmer_pair w).1 (kmer_pair w).2 = kmer_key u w := rfl
    rw [hkey]
    by_cases hval : ht.counts (kmer_key u w % ht.tablesize) = 0
    · rw [if_pos hval]; exact ⟨_, rfl⟩
    · rw [if_neg hval]
      have hconn := hwc hval
      by_cases hseen : kmer_key u w ∈ keeper
      · rw [if_pos hseen]; exact ⟨_, rfl⟩
      · rw [if_neg hseen]
        by_cases hthr : threshold ≠ 0 ∧ count + 1 ≥ threshold
        · rw [if_pos hthr]; exact ⟨_, rfl⟩
        · rw [if_neg hthr, neighbour_pairs_kmer ht w hwl hk1 hk, List.foldlM_map]
          have hlt := unseen_keys_insert u ht.ksize keeper (set_insert (kmer_key u w) keeper) w
            hwl hws hseen (fun x => mem_set_insert _ _ _)
          apply foldlM_returns
            (fun ck y => ht.calc_connected_graph_size u threshold depth
              (kmer_pair y).1 (kmer_pair y).2 ck)
            (fun s => unseen_keys u ht.ksize s.2 < depth) (kmer_neighbours w)
          · intro y hy s1 hs1
            obtain ⟨hyl, hys⟩ := kmer_neighbours_kmer w y ht.ksize hk1 hwl hws hy
            have hyc : ht.present u y → ht.connected u start y :=
              fun hp => Hashtable.connected.step w y hconn hy hp
            obtain ⟨s2, hrun⟩ := ih y s1 hyl hys hyc hs1
            refine ⟨s2, hrun, ?_⟩
            have hW := (calc_walked u ht threshold start hsym hsep hk1 hk depth y s1 s2
              hyl hys hyc hrun).1
            exact lt_of_le_of_lt (unseen_keys_mono u ht.ksize s1.2 s2.2 hW.mono) hs1
          · show unseen_keys u ht.ksize (set_insert (kmer_key u w) keeper) < depth
            simp only at hfuel
            omega

/-! ## The key `min(f, r)` separates k-mers -/

theorem twobit_repr_injective (a b : Char) (ha : a = 'A' ∨ a = 'C' ∨ a = 'G' ∨ a = 'T')
    (hb : b = 'A' ∨ b = 'C' ∨ b = 'G' ∨ b = 'T') (h : twobit_repr a = twobit_repr b) : a = b := by
  rcases ha with rfl | rfl | rfl | rfl <;> rcases hb with rfl | rfl | rfl | rfl <;>
    first | rfl | (exfalso; revert h; decide)

theorem pack_twobit_repr_injective (w w' : List Char) (hlen : w.length = w'.length)
    (hs : is_acgt w) (hs' : is_acgt w') (h : pack twobit_repr w = pack twobit_repr w') :
    w = w' := by
  induction w generalizing w' with
  | nil =>
    cases w' with
    | nil => rfl
    | cons c' w' => simp at hlen
  | cons c w ih =>
    cases w' with
    | nil => simp at hlen
    | cons c' w' =>
      have hl : w.length = w'.length := by simpa using hlen
      rw [pack_cons, pack_cons, ← hl] at h
      have hp := pack_lt twobit_repr twobit_repr_lt w
      have hp' := pack_lt twobit_repr twobit_repr_lt w'
      rw [← hl] at hp'
      have hc : twobit_repr c = twobit_repr c' := by
        have h1 := congrArg (fun x => x / 4 ^ w.length) h
        simp only at h1
        rw [Nat.mul_comm (twobit_repr c), Nat.mul_comm (twobit_repr c'),
          Nat.mul_add_div (Nat.pos_pow_of_pos _ (by omega)),
          Nat.mul_add_div (Nat.pos_pow_of_pos _ (by omega)),
          Nat.div_eq_of_lt hp, Nat.div_eq_of_lt hp'] at h1
        simpa using h1
      rw [hc] at h
      have hw : pack twobit_repr w = pack twobit_repr w' := Nat.add_left_cancel h
      rw [twobit_repr_injective c c' (hs c (List.mem_cons_self _ _))
          (hs' c' (List.mem_cons_self _ _)) hc,
        ih w' hl (fun x hx => hs x (List.mem_cons_of_mem _ hx))
          (fun x hx => hs' x (List.mem_cons_of_mem _ hx)) hw]

/-- The key `min(f, r)` separates the k-mers of every length. -/
theorem uniqify_rc_min_separates (k : Nat) : key_separates uniqify_rc_min k := by
  intro w w' hwl hwl' hs hs' h
  have e : ∀ x : List Char, is_acgt x →
      (kmer_pair x).2 = pack twobit_repr (reverse_complement x) := by
    intro x hx
    have := kmer_pair_reverse_complement x hx
    exact (congrArg Prod.fst this).symm
  have e1 : ∀ x : List Char, (kmer_pair x).1 = pack twobit_repr x := fun _ => rfl
  unfold kmer_key at h
  rw [e w hs, e w' hs', e1, e1] at h
  have hr := is_acgt_reverse_complement w hs
  have hr' := is_acgt_reverse_complement w' hs'
  have hl := length_reverse_complement w
  have hl' := length_reverse_complement w'
  have hcases : pack twobit_repr w = pack twobit_repr w'
      ∨ pack twobit_repr w = pack twobit_repr (reverse_complement w')
      ∨ pack twobit_repr (reverse_complement w) = pack twobit_repr w'
      ∨ pack twobit_repr (reverse_complement w) = pack twobit_repr (reverse_complement w') := by
    unfold uniqify_rc_min at h
    split_ifs at h
    · exact Or.inl h
    · exact Or.inr (Or.inl h)
    · exact Or.inr (Or.inr (Or.inl h))
    · exact Or.inr (Or.inr (Or.inr h))
  rcases hcases with h1 | h1 | h1 | h1
  · exact Or.inl (pack_twobit_repr_injective w w' (by omega) hs hs' h1).symm
  · have := pack_twobit_repr_injective w _ (by omega) hs hr' h1
    right
    rw [this, reverse_complement_involutive w' hs']
  · exact Or.inr (pack_twobit_repr_injective _ w' (by omega) hr hs' h1).symm
  · have := pack_twobit_repr_injective _ _ (by omega) hr hr' h1
    left
    rw [← reverse_complement_involutive w hs, ← reverse_complement_involutive w' hs', this]

/-! ## The walk from a start k-mer -/

/-- The lists of k-mers whose keys are the members of a list of keys of
k-mers. -/
theorem exists_kmers_of_keys (u : Nat → Nat → Nat) (P : List Char → Prop) (K : List Nat)
    (h : ∀ x ∈ K, ∃ w, P w ∧ kmer_key u w = x) :
    ∃ ws : List (List Char), ws.map (kmer_key u) = K ∧ ∀ w ∈ ws, P w := by
  induction K with
  | nil => exact ⟨[], rfl, fun w hw => by cases hw⟩
  | cons x K ih =>
    obtain ⟨ws, hws, hP⟩ := ih (fun y hy => h y (List.mem_cons_of_mem _ hy))
    obtain ⟨w, hw, hk⟩ := h x (List.mem_cons_self _ _)
    refine ⟨w :: ws, by rw [List.map_cons, hk, hws], ?_⟩
    intro y hy
    rcases List.mem_cons.mp hy with rfl | hy
    · exact hw
    · exact hP y hy

/-- The walk from a start k-mer with count 0 and an empty seen set: it
returns, the keys seen are keys of k-mers of the component, as many as `count`
says, and, unless the threshold has been reached, they are all the keys of the
component. -/
theorem calc_from_start (u : Nat → Nat → Nat) (ht : Hashtable) (threshold : Nat)
    (start : List Char) (depth : Nat) (hsym : key_symmetric u)
    (hsep : key_separates u ht.ksize) (hk1 : 1 ≤ ht.ksize) (hk : ht.ksize ≤ 32)
    (hlen : start.length = ht.ksize) (hs : is_acgt start) (hdepth : 4 ^ ht.ksize < depth) :
    ∃ count seen,
      ht.calc_connected_graph_size u threshold depth (kmer_pair start).1 (kmer_pair start).2
          (0, []) = some (count, seen)
      ∧ (∀ key ∈ seen, ∃ w, ht.connected u start w ∧ kmer_key u w = key)
      ∧ count = seen.length ∧ seen.Nodup
      ∧ ((threshold = 0 ∨ count < threshold) →
          ∀ w, ht.connected u start w → kmer_key u w ∈ seen)
      ∧ (¬ ht.present u start → count = 0 ∧ seen = []) := by
  have hc0 : ht.present u start → ht.connected u start start := Hashtable.connected.start
  obtain ⟨⟨count, seen⟩, hrun⟩ := calc_returns u ht threshold start hsym hsep hk1 hk depth start
    (0, []) hlen hs hc0 (lt_of_le_of_lt (unseen_keys_le u ht.ksize []) hdepth)
  obtain ⟨hW, hQ⟩ := calc_walked u ht threshold start hsym hsep hk1 hk depth start (0, [])
    (count, seen) hlen hs hc0 hrun
  refine ⟨count, seen, hrun, ?_, ?_, hW.nodup List.nodup_nil, ?_, ?_⟩
  · intro key hkey
    rcases hW.sound key hkey with h | h
    · cases h
    · exact h
  · have := hW.count_eq
    simpa using this
  · intro hc w hw
    induction hw with
    | start hp => exact hQ hc hp
    | step w w' hconn hmem hp ih =>
      obtain ⟨hwl, hws⟩ := connected_kmer u ht start w hk1 hlen hs hconn
      exact hW.closed hc w hwl hws ih (fun h => by cases h) w' hmem hp
  · intro hp
    have hpos : 0 < depth := lt_of_le_of_lt (Nat.zero_le _) hdepth
    obtain ⟨depth', rfl⟩ : ∃ d, depth = d + 1 := ⟨depth - 1, by omega⟩
    rw [calc_connected_graph_size_succ] at hrun
    have hval : ht.counts (u (kmer_pair start).1 (kmer_pair start).2 % ht.tablesize) = 0 := by
      by_contra hne
      exact hp hne
    rw [if_pos hval] at hrun
    cases hrun
    exact ⟨rfl, rfl⟩

/-- Whether the count a walk returns reaches `n` when the walk is cut at the
threshold `n` or not cut at all: just when the component has `n` vertices; and
a count below `n` is the number of keys of the whole component. -/
theorem calc_decision (u : Nat → Nat → Nat) (ht : Hashtable) (threshold n : Nat)
    (start : List Char) (depth : Nat) (hsym : key_symmetric u)
    (hsep : key_separates u ht.ksize) (hk1 : 1 ≤ ht.ksize) (hk : ht.ksize ≤ 32)
    (hlen : start.length = ht.ksize) (hs : is_acgt start) (hdepth : 4 ^ ht.ksize < depth)
    (hthr : threshold = 0 ∨ threshold = n) :
    ∃ count seen,
      ht.calc_connected_graph_size u threshold depth (kmer_pair start).1 (kmer_pair start).2
          (0, []) = some (count, seen)
      ∧ count = seen.length ∧ seen.Nodup
      ∧ (∀ key ∈ seen, ∃ w, ht.connected u start w ∧ kmer_key u w = key)
      ∧ (n ≤ count ↔ ht.component_at_least u start n)
      ∧ (count < n → ∀ w, ht.connected u start w → kmer_key u w ∈ seen) := by
  obtain ⟨count, seen, hrun, hsound, hcount, hnodup, hclosed, -⟩ :=
    calc_from_start u ht threshold start depth hsym hsep hk1 hk hlen hs hdepth
  have hbelow : count < n → ∀ w, ht.connected u start w → kmer_key u w ∈ seen := by
    intro hlt
    apply hclosed
    rcases hthr with e | e
    · exact Or.inl e
    · exact Or.inr (by omega)
  refine ⟨count, seen, hrun, hcount, hnodup, hsound, ⟨?_, ?_⟩, hbelow⟩
  · intro hn
    obtain ⟨ws, hws, hP⟩ := exists_kmers_of_keys u (ht.connected u start) seen hsound
    refine ⟨ws.take n, ?_, fun w hw => hP w (List.mem_of_mem_take hw), ?_⟩
    · rw [List.length_take]
      have : ws.length = seen.length := by rw [← hws, List.length_map]
      omega
    · rw [List.map_take, hws]
      exact hnodup.sublist (List.take_sublist _ _)
  · rintro ⟨ws, hwn, hconn, hnd⟩
    by_contra hlt
    have hc : threshold = 0 ∨ count < threshold := by
      rcases hthr with e | e
      · exact Or.inl e
      · exact Or.inr (by omega)
    have hsub : ∀ x ∈ ws.map (kmer_key u), x ∈ seen := by
      intro x hx
      obtain ⟨w, hw, rfl⟩ := List.mem_map.mp hx
      exact hclosed hc w (hconn w hw)
    have hle := (List.subperm_of_subset hnd hsub).length_le
    rw [List.length_map] at hle
    omega

/-! ## check_and_process_read -/

theorem check_read_true_iff (ht : Hashtable) (read : List Char) :
    ht.check_read read = true ↔ (ht.ksize ≤ read.length ∧ is_acgt read) := by
  unfold Hashtable.check_read
  by_cases hlen : read.length < ht.ksize
  · simp only [hlen, if_true, Bool.false_eq_true, false_iff]
    intro h
    omega
  · simp only [hlen, if_false, check_read_loop_iff]
    exact ⟨fun h => ⟨by omega, h⟩, fun h => h.2⟩

/-- C11: for every read that is shorter than k or contains a character outside
A, C, G, T, `check_and_process_read` sets `is_valid` to false, returns 0 and
leaves the table as it is; for every valid read it sets `is_valid` to true and
returns the value and leaves the table that `consume_string` does. -/
theorem check_and_process_read_spec (uniqify_rc : Nat → Nat → Nat) (ht : Hashtable)
    (read : List Char) (lower_bound upper_bound : Nat) :
    ((read.length < ht.ksize ∨ ¬ is_acgt read) →
        ht.check_and_process_read uniqify_rc read lower_bound upper_bound = (0, false, ht))
      ∧ ((ht.ksize ≤ read.length ∧ is_acgt read) →
        ht.check_and_process_read uniqify_rc read lower_bound upper_bound
          = ((ht.consume_string uniqify_rc read lower_bound upper_bound).1, true,
              (ht.consume_string uniqify_rc read lower_bound upper_bound).2)) := by
  constructor
  · intro h
    have hv : ht.check_read read = false := by
      cases hc : ht.check_read read with
      | false => rfl
      | true =>
        have := (check_read_true_iff ht read).mp hc
        rcases h with h | h
        · omega
        · exact absurd this.2 h
    unfold Hashtable.check_and_process_read
    simp [hv]
  · intro h
    have hv : ht.check_read read = true := (check_read_true_iff ht read).mpr h
    unfold Hashtable.check_and_process_read
    simp [hv]

theorem check_and_process_read_spec_witness :
    ((['A', 'N', 'G'].length < (empty_table 2 5).ksize ∨ ¬ is_acgt ['A', 'N', 'G'])
        ∧ (empty_table 2 5).check_and_process_read uniqify_rc_min ['A', 'N', 'G'] 0 0
          = (0, false, empty_table 2 5))
      ∧ (((empty_table 2 5).ksize ≤ ['A', 'C', 'G'].length ∧ is_acgt ['A', 'C', 'G'])
        ∧ (empty_table 2 5).check_and_process_read uniqify_rc_min ['A', 'C', 'G'] 0 0
          = (((empty_table 2 5).consume_string uniqify_rc_min ['A', 'C', 'G'] 0 0).1, true,
              ((empty_table 2 5).consume_string uniqify_rc_min ['A', 'C', 'G'] 0 0).2)) :=
  ⟨⟨Or.inr (by decide),
      (check_and_process_read_spec uniqify_rc_min (empty_table 2 5) ['A', 'N', 'G'] 0 0).1
        (Or.inr (by decide))⟩,
    ⟨⟨by decide, by decide⟩,
      (check_and_process_read_spec uniqify_rc_min (empty_table 2 5) ['A', 'C', 'G'] 0 0).2
        ⟨by decide, by decide⟩⟩⟩

/-! ## calc_connected_graph_size -/

/-- C12, as stated, fails: under the canonical key `f XOR r`, which gives one
key to k-mers that are not reverse complements of each other, the walk misses
keys of the component: with k = 4, after the read "AAACAGA" the walk from ACAG
with threshold 0 returns with count 3 and the keys 125, 190 and 235 seen, and
the k-mer AAAC, which is reached from ACAG through the present k-mer AACA, has
the key 215, which is not seen. The walk inserts its keys at ACAG, CAGA and
GCAG; GCAG has the key 125 of AACA, so the call at AACA finds its key seen and
returns, and AAAC behind it is never visited. -/
theorem calc_connected_graph_size_xor_misses_key :
    xor_walk_table.calc_connected_graph_size uniqify_rc_xor 0 257
        (kmer_pair ['A', 'C', 'A', 'G']).1 (kmer_pair ['A', 'C', 'A', 'G']).2 (0, [])
      = some (3, [125, 190, 235])
      ∧ xor_walk_table.connected uniqify_rc_xor ['A', 'C', 'A', 'G'] ['A', 'A', 'A', 'C']
      ∧ kmer_key uniqify_rc_xor ['A', 'A', 'A', 'C'] = 215 := by
  refine ⟨by decide, ?_, by decide⟩
  exact Hashtable.connected.step ['A', 'A', 'C', 'A'] _
    (Hashtable.connected.step ['A', 'C', 'A', 'G'] _
      (Hashtable.connected.start (by decide)) (by decide) (by decide))
    (by decide) (by decide)

/-- C13, as stated, fails: with k = 2, after the read "CAAG", the k-mers AA, AG
and CA are present and connected, and the walk from AA with threshold 2, count
0 and an empty seen set returns with count 3 and three keys seen, under the key
`min(f, r)` and under the key `f XOR r`. The test on the threshold ends the
call that has brought count to 2; the call at AA goes on with its remaining
neighbours, one of which inserts a third key. Under `min(f, r)` the keys are
inserted at AA, AG and CA; under `f XOR r` at AA, AC (which has the key 15 of
CA) and AG. -/
theorem calc_connected_graph_size_overshoots :
    (walk_table uniqify_rc_min).calc_connected_graph_size uniqify_rc_min 2 17
        (kmer_pair ['A', 'A']).1 (kmer_pair ['A', 'A']).2 (0, []) = some (3, [0, 3, 7])
      ∧ (walk_table uniqify_rc_xor).calc_connected_graph_size uniqify_rc_xor 2 17
        (kmer_pair ['A', 'A']).1 (kmer_pair ['A', 'A']).2 (0, []) = some (3, [5, 10, 15]) := by
  exact ⟨by decide, by decide⟩

/-! ## trim_graphs -/

/-- The walk `trim_graphs` starts for a valid read is the walk from the pair
of its first k-mer. -/
theorem calc_connected_graph_size_kmer_eq (u : Nat → Nat → Nat) (ht : Hashtable)
    (threshold depth : Nat) (kmer : List Char) (ck : Nat × List Nat)
    (hk : ht.ksize ≤ 32) (hlen : kmer.length = ht.ksize) :
    ht.calc_connected_graph_size_kmer u threshold depth kmer ck
      = ht.calc_connected_graph_size u threshold depth (kmer_pair kmer).1 (kmer_pair kmer).2 ck := by
  unfold Hashtable.calc_connected_graph_size_kmer
  rw [hash_init_eq u kmer ht.ksize hk (by omega), List.take_of_length_le (by omega)]
  rfl

/-- The loop of `trim_graphs` when every turn writes its read or nothing. -/
theorem trim_graphs_fold (u : Nat → Nat → Nat) (ht : Hashtable) (depth min_size : Nat)
    (keep : String × List Char → Bool) (reads : List (String × List Char))
    (h : ∀ read ∈ reads, ht.trim_graphs_read u depth min_size read
      = some (if keep read = true then [read] else [])) :
    ∀ outfile, reads.foldlM
      (fun outfile read =>
        (ht.trim_graphs_read u depth min_size read).map (fun written => outfile ++ written))
      outfile = some (outfile ++ reads.filter keep) := by
  induction reads with
  | nil => intro outfile; simp
  | cons read rest ih =>
    intro outfile
    rw [List.foldlM_cons, h read (List.mem_cons_self _ _)]
    have hrest := ih (fun r hr => h r (List.mem_cons_of_mem _ hr))
    by_cases hk : keep read = true
    · rw [if_pos hk, List.filter_cons_of_pos hk]
      show List.foldlM _ (outfile ++ [read]) rest = _
      rw [hrest, List.append_assoc]
      rfl
    · rw [if_neg hk, List.filter_cons_of_neg hk]
      show List.foldlM _ (outfile ++ []) rest = _
      rw [hrest, List.append_nil]

/-- One turn of the loop of `trim_graphs`: the read is written just when it is
valid and the component of its first k-mer has `min_size` vertices, and the
walk not cut at the threshold gives the same answer. -/
theorem trim_graphs_read_spec (u : Nat → Nat → Nat) (ht : Hashtable) (depth min_size : Nat)
    (read : String × List Char) (hsym : key_symmetric u) (hsep : key_separates u ht.ksize)
    (hk1 : 1 ≤ ht.ksize) (hk : ht.ksize ≤ 32) (hdepth : 4 ^ ht.ksize < depth) :
    ∃ b : Bool, ht.trim_graphs_read u depth min_size read = some (if b = true then [read] else [])
      ∧ (b = true ↔ (ht.check_read read.2 = true
          ∧ ht.component_at_least u (read.2.take ht.ksize) min_size))
      ∧ (ht.check_read read.2 = true → ∃ count seen,
          ht.calc_connected_graph_size_kmer u 0 depth (read.2.take ht.ksize) (0, [])
            = some (count, seen) ∧ (b = true ↔ min_size ≤ count)) := by
  by_cases hv : ht.check_read read.2 = true
  · obtain ⟨hlen, hs⟩ := (check_read_true_iff ht read.2).mp hv
    have hl : (read.2.take ht.ksize).length = ht.ksize := by
      rw [List.length_take]; omega
    have hst : is_acgt (read.2.take ht.ksize) := fun c hc => hs c (List.mem_of_mem_take hc)
    obtain ⟨count, seen, hrun, -, -, -, hiff, -⟩ := calc_decision u ht min_size min_size
      (read.2.take ht.ksize) depth hsym hsep hk1 hk hl hst hdepth (Or.inr rfl)
    obtain ⟨count0, seen0, hrun0, -, -, -, hiff0, -⟩ := calc_decision u ht 0 min_size
      (read.2.take ht.ksize) depth hsym hsep hk1 hk hl hst hdepth (Or.inl rfl)
    rw [← calc_connected_graph_size_kmer_eq u ht _ depth _ _ hk hl] at hrun hrun0
    refine ⟨decide (min_size ≤ count), ?_, ?_, ?_⟩
    · unfold Hashtable.trim_graphs_read
      simp only [hv, if_true, hrun, ge_iff_le, decide_eq_true_eq]
      by_cases hc : min_size ≤ count
      · rw [if_pos hc, if_pos hc]
      · rw [if_neg hc, if_neg hc]
    · rw [decide_eq_true_eq, hiff]
      exact ⟨fun h => ⟨hv, h⟩, fun h => h.2⟩
    · intro _
      exact ⟨count0, seen0, hrun0, by rw [decide_eq_true_eq, hiff, hiff0]⟩
  · refine ⟨false, ?_, ?_, fun h => absurd h hv⟩
    · unfold Hashtable.trim_graphs_read
      simp [hv]
    · simp [hv]

/-- C14, as stated, fails: under the canonical key `f XOR r`, which gives one
key to k-mers that are not reverse complements of each other, `trim_graphs`
drops a read of a large component: with k = 4, after the read "AAACGTC" has
been ingested, `trim_graphs` with `min_size` 4 writes nothing for that read,
which is valid and whose first k-mer AAAC is connected to the k-mers AACA, AACG
and ACGT: four k-mers with four different keys. The walk returns with count 3:
it inserts its keys at AAAC, AACA and ACAG; ACAG has the key 190 of AACG, so the
call at AACG finds its key seen and returns, and ACGT behind it is never
visited. -/
theorem trim_graphs_xor_drops_read :
    xor_trim_table.check_read ['A', 'A', 'A', 'C', 'G', 'T', 'C'] = true
      ∧ xor_trim_table.component_at_least uniqify_rc_xor
          (['A', 'A', 'A', 'C', 'G', 'T', 'C'].take xor_trim_table.ksize) 4
      ∧ xor_trim_table.trim_graphs uniqify_rc_xor 257
          [("read1", ['A', 'A', 'A', 'C', 'G', 'T', 'C'])] 4 = some [] := by
  have h0 : xor_trim_table.connected uniqify_rc_xor ['A', 'A', 'A', 'C'] ['A', 'A', 'A', 'C'] :=
    Hashtable.connected.start (by decide)
  have h1 : xor_trim_table.connected uniqify_rc_xor ['A', 'A', 'A', 'C'] ['A', 'A', 'C', 'A'] :=
    Hashtable.connected.step _ _ h0 (by decide) (by decide)
  have h2 : xor_trim_table.connected uniqify_rc_xor ['A', 'A', 'A', 'C'] ['A', 'A', 'C', 'G'] :=
    Hashtable.connected.step _ _ h0 (by decide) (by decide)
  have h3 : xor_trim_table.connected uniqify_rc_xor ['A', 'A', 'A', 'C'] ['A', 'C', 'G', 'T'] :=
    Hashtable.connected.step _ _ h2 (by decide) (by decide)
  refine ⟨by decide, ?_, by decide⟩
  refine ⟨[['A', 'A', 'A', 'C'], ['A', 'A', 'C', 'A'], ['A', 'A', 'C', 'G'],
    ['A', 'C', 'G', 'T']], rfl, ?_, by decide⟩
  intro w hw
  simp only [List.mem_cons, List.mem_singleton, List.not_mem_nil, or_false] at hw
  rcases hw with rfl | rfl | rfl | rfl
  · exact h0
  · exact h1
  · exact h2
  · exact h3

/-! ## The second loop of _reassign_partition_ids -/

theorem Merged.congr {m : Nat} {Q Q' : Nat → Prop} {cells0 rmap0 cells rmap}
    (h : Merged m Q cells0 rmap0 cells rmap) (hQ : ∀ q, Q q ↔ Q' q) :
    Merged m Q' cells0 rmap0 cells rmap := by
  have : Q = Q' := funext fun q => propext (hQ q)
  rw [← this]; exact h

theorem Merged.init (m : Nat) (cells0 : List (Nat × Nat)) (rmap0 : List (Nat × Option (List Nat)))
    (master0 : List Nat) (h : map_find m rmap0 = some (some master0)) :
    Merged m (fun _ => False) cells0 rmap0 cells0 rmap0 where
  cell_merged := fun _ _ _ hq => hq.elim
  cell_kept := fun _ _ => rfl
  erased := fun _ hq => hq.elim
  kept := fun _ _ _ => rfl
  master := ⟨master0, master0, h, h, fun x => by simp⟩

/-- One merge of the set of the id `p`. -/
theorem merge_partition_step (m p : Nat) (Q : Nat → Prop) (cells0 cells : List (Nat × Nat))
    (rmap0 rmap : List (Nat × Option (List Nat))) (s : List Nat)
    (hQ : ∀ q, Q q → q ≠ m) (hM : Merged m Q cells0 rmap0 cells rmap)
    (hp : ¬ Q p) (hpm : p ≠ m) (hs : map_find p rmap0 = some (some s)) :
    ∃ cells' rmap', merge_partition m p cells rmap = some (cells', rmap')
      ∧ Merged m (fun q => Q q ∨ q = p) cells0 rmap0 cells' rmap' := by
  obtain ⟨master0, master, hm0, hm, hmem⟩ := hM.master
  have hfind : map_find p rmap = some (some s) := by rw [hM.kept p hp hpm, hs]
  have hmp : m ≠ p := fun e => hpm e.symm
  have hm1 : map_find m (map_erase p rmap) = some (some master) := by
    rw [map_find_erase_ne _ _ _ hmp, hm]
  obtain ⟨hc, hx⟩ := merge_cells_spec m s cells master
  have hres : merge_partition m p cells rmap
      = some ((merge_cells m s cells master).1,
          map_set m (some (merge_cells m s cells master).2) (map_erase p rmap))
        ∨ (s = [] ∧ merge_partition m p cells rmap = some (cells, map_erase p rmap)) := by
    unfold merge_partition
    rw [hfind]
    cases s with
    | nil => exact Or.inr ⟨rfl, rfl⟩
    | cons a s' => simp only [hm1]; exact Or.inl trivial
  rcases hres with hres | ⟨hnil, hres⟩
  · refine ⟨_, _, hres, ?_⟩
    constructor
    · intro c q s' hq hqs hcs
      rw [hc c]
      by_cases hin : c ∈ s
      · simp [hin]
      · simp only [hin, if_false]
        rcases hq with hq | hq
        · exact hM.cell_merged c q s' hq hqs hcs
        · subst hq; rw [hs] at hqs; cases hqs; exact absurd hcs hin
    · intro c hnot
      rw [hc c]
      have hin : c ∉ s := hnot p s (Or.inr rfl) hs
      simp only [hin, if_false]
      exact hM.cell_kept c (fun q s' hq => hnot q s' (Or.inl hq))
    · intro q hq
      have hqm : q ≠ m := by
        rcases hq with hq | hq
        · exact hQ q hq
        · rw [hq]; exact hpm
      rw [map_find_set_ne _ _ _ _ hqm]
      by_cases hqp : q = p
      · rw [hqp, map_find_erase_eq]
      · rw [map_find_erase_ne _ _ _ hqp]
        rcases hq with hq | hq
        · exact hM.erased q hq
        · exact absurd hq hqp
    · intro q hq hqm
      have hq1 : ¬ Q q := fun h => hq (Or.inl h)
      have hq2 : q ≠ p := fun h => hq (Or.inr h)
      rw [map_find_set_ne _ _ _ _ hqm, map_find_erase_ne _ _ _ hq2]
      exact hM.kept q hq1 hqm
    · refine ⟨master0, _, hm0, map_find_set_eq _ _ _, fun x => ?_⟩
      rw [hx x, hmem x]
      constructor
      · rintro (h | h | ⟨q, s', hq, hqs, hxs⟩)
        · exact Or.inr ⟨p, s, Or.inr rfl, hs, h⟩
        · exact Or.inl h
        · exact Or.inr ⟨q, s', Or.inl hq, hqs, hxs⟩
      · rintro (h | ⟨q, s', hq | hq, hqs, hxs⟩)
        · exact Or.inr (Or.inl h)
        · exact Or.inr (Or.inr ⟨q, s', hq, hqs, hxs⟩)
        · subst hq; rw [hs] at hqs; cases hqs; exact Or.inl hxs
  · subst hnil
    refine ⟨_, _, hres, ?_⟩
    constructor
    · intro c q s' hq hqs hcs
      rcases hq with hq | hq
      · exact hM.cell_merged c q s' hq hqs hcs
      · subst hq; rw [hs] at hqs; cases hqs; simp at hcs
    · intro c hnot
      exact hM.cell_kept c (fun q s' hq => hnot q s' (Or.inl hq))
    · intro q hq
      by_cases hqp : q = p
      · rw [hqp, map_find_erase_eq]
      · rw [map_find_erase_ne _ _ _ hqp]
        rcases hq with hq | hq
        · exact hM.erased q hq
        · exact absurd hq hqp
    · intro q hq hqm
      have hq1 : ¬ Q q := fun h => hq (Or.inl h)
      have hq2 : q ≠ p := fun h => hq (Or.inr h)
      rw [map_find_erase_ne _ _ _ hq2]
      exact hM.kept q hq1 hqm
    · refine ⟨master0, master, hm0, hm1, fun x => ?_⟩
      rw [hmem x]
      constructor
      · rintro (h | ⟨q, s', hq, hqs, hxs⟩)
        · exact Or.inl h
        · exact Or.inr ⟨q, s', Or.inl hq, hqs, hxs⟩
      · rintro (h | ⟨q, s', hq | hq, hqs, hxs⟩)
        · exact Or.inl h
        · exact Or.inr ⟨q, s', hq, hqs, hxs⟩
        · subst hq; rw [hs] at hqs; cases hqs; simp at hxs

/-- The second loop of `_reassign_partition_ids` merges the sets of the ids of
the tagged k-mers that differ from `m`. -/
theorem merge_loop_spec (m : Nat) (pmap : List (Nat × Nat)) (cells0 : List (Nat × Nat))
    (rmap0 : List (Nat × Option (List Nat)))
    (H2 : ∀ p s c, map_find p rmap0 = some (some s) → c ∈ s → map_find c cells0 = some p)
    (tags : List Nat) :
    ∀ (Q : Nat → Prop) (cells : List (Nat × Nat)) (rmap : List (Nat × Option (List Nat))),
      (∀ q, Q q → q ≠ m) → Merged m Q cells0 rmap0 cells rmap →
      (∀ t ∈ tags, ∃ c p s, map_find t pmap = some c ∧ map_find c cells0 = some p
          ∧ map_find p rmap0 = some (some s) ∧ c ∈ s) →
      ∃ cells' rmap', merge_loop m pmap tags cells rmap = some (cells', rmap')
        ∧ Merged m (fun q => Q q ∨ (q ≠ m ∧ ∃ t ∈ tags, ∃ c, map_find t pmap = some c
            ∧ map_find c cells0 = some q)) cells0 rmap0 cells' rmap' := by
  induction tags with
  | nil =>
    intro Q cells rmap _ hM _
    exact ⟨cells, rmap, rfl, hM.congr (fun q => by simp)⟩
  | cons t rest ih =>
    intro Q cells rmap hQ hM htags
    obtain ⟨c, p, s, htc, hcp, hps, hcs⟩ := htags t (List.mem_cons_self _ _)
    have hrest : ∀ t' ∈ rest, ∃ c p s, map_find t' pmap = some c ∧ map_find c cells0 = some p
        ∧ map_find p rmap0 = some (some s) ∧ c ∈ s :=
      fun t' ht' => htags t' (List.mem_cons_of_mem _ ht')
    by_cases hQp : Q p
    · -- the set of `p` is merged already: the cell holds `m`
      have hval : map_find c cells = some m := hM.cell_merged c p s hQp hps hcs
      obtain ⟨cells', rmap', hrun, hM'⟩ := ih Q cells rmap hQ hM hrest
      refine ⟨cells', rmap', ?_, hM'.congr (fun q => ?_)⟩
      · unfold merge_loop
        simp only [htc, hval, ne_eq, not_true_eq_false, if_false]
        exact hrun
      · constructor
        · rintro (h | ⟨hqm, t', ht', c', h1, h2⟩)
          · exact Or.inl h
          · exact Or.inr ⟨hqm, t', List.mem_cons_of_mem _ ht', c', h1, h2⟩
        · rintro (h | ⟨hqm, t', ht', c', h1, h2⟩)
          · exact Or.inl h
          · rcases List.mem_cons.mp ht' with rfl | ht'
            · rw [htc] at h1; cases h1; rw [hcp] at h2; cases h2; exact Or.inl hQp
            · exact Or.inr ⟨hqm, t', ht', c', h1, h2⟩
    · have hval : map_find c cells = some p := by
        rw [hM.cell_kept c (fun q s' hq hqs hcs' => ?_), hcp]
        have := H2 q s' c hqs hcs'
        rw [hcp] at this; cases this
        exact hQp hq
      by_cases hpm : p = m
      · subst hpm
        obtain ⟨cells', rmap', hrun, hM'⟩ := ih Q cells rmap hQ hM hrest
        refine ⟨cells', rmap', ?_, hM'.congr (fun q => ?_)⟩
        · unfold merge_loop
          simp only [htc, hval, ne_eq, not_true_eq_false, if_false]
          exact hrun
        · constructor
          · rintro (h | ⟨hqm, t', ht', c', h1, h2⟩)
            · exact Or.inl h
            · exact Or.inr ⟨hqm, t', List.mem_cons_of_mem _ ht', c', h1, h2⟩
          · rintro (h | ⟨hqm, t', ht', c', h1, h2⟩)
            · exact Or.inl h
            · rcases List.mem_cons.mp ht' with rfl | ht'
              · rw [htc] at h1; cases h1; rw [hcp] at h2; cases h2; exact absurd rfl hqm
              · exact Or.inr ⟨hqm, t', ht', c', h1, h2⟩
      · obtain ⟨cells1, rmap1, hstep, hM1⟩ :=
          merge_partition_step m p Q cells0 cells rmap0 rmap s hQ hM hQp hpm hps
        have hQ1 : ∀ q, (Q q ∨ q = p) → q ≠ m := by
          rintro q (h | h)
          · exact hQ q h
          · rw [h]; exact hpm
        obtain ⟨cells', rmap', hrun, hM'⟩ := ih _ cells1 rmap1 hQ1 hM1 hrest
        refine ⟨cells', rmap', ?_, hM'.congr (fun q => ?_)⟩
        · unfold merge_loop
          simp only [htc, hval, ne_eq, hpm, not_false_eq_true, if_true, hstep]
          exact hrun
        · constructor
          · rintro ((h | h) | ⟨hqm, t', ht', c', h1, h2⟩)
            · exact Or.inl h
            · exact Or.inr ⟨by rw [h]; exact hpm, t, List.mem_cons_self _ _, c, htc, by rw [h]; exact hcp⟩
            · exact Or.inr ⟨hqm, t', List.mem_cons_of_mem _ ht', c', h1, h2⟩
          · rintro (h | ⟨hqm, t', ht', c', h1, h2⟩)
            · exact Or.inl (Or.inl h)
            · rcases List.mem_cons.mp ht' with rfl | ht'
              · rw [htc] at h1; cases h1; rw [hcp] at h2; cases h2; exact Or.inl (Or.inr rfl)
              · exact Or.inr ⟨hqm, t', ht', c', h1, h2⟩

/-- The first loop of `_reassign_partition_ids` yields the smallest of the
starting value and the ids of the tagged k-mers. -/
theorem min_partition_loop_spec (cells pmap : List (Nat × Nat)) (tags : List Nat) :
    ∀ (a : Nat), (∀ t ∈ tags, ∃ c p, map_find t pmap = some c ∧ map_find c cells = some p) →
      ∃ m, min_partition_loop cells pmap tags a = some m ∧ m ≤ a
        ∧ (∀ t ∈ tags, ∀ c p, map_find t pmap = some c → map_find c cells = some p → m ≤ p)
        ∧ (m = a ∨ ∃ t ∈ tags, ∃ c, map_find t pmap = some c ∧ map_find c cells = some m) := by
  induction tags with
  | nil => intro a _; exact ⟨a, rfl, le_refl _, by simp, Or.inl rfl⟩
  | cons t rest ih =>
    intro a htags
    obtain ⟨c, p, htc, hcp⟩ := htags t (List.mem_cons_self _ _)
    obtain ⟨m, hrun, hle, hall, hex⟩ := ih (if p < a then p else a)
      (fun t' ht' => htags t' (List.mem_cons_of_mem _ ht'))
    refine ⟨m, ?_, ?_, ?_, ?_⟩
    · unfold min_partition_loop
      simp only [htc, hcp]
      exact hrun
    · split_ifs at hle <;> omega
    · intro t' ht' c' p' h1 h2
      rcases List.mem_cons.mp ht' with rfl | ht'
      · rw [htc] at h1; cases h1; rw [hcp] at h2; cases h2
        split_ifs at hle <;> omega
      · exact hall t' ht' c' p' h1 h2
    · rcases hex with hex | ⟨t', ht', c', h1, h2⟩
      · by_cases hlt : p < a
        · rw [if_pos hlt] at hex
          exact Or.inr ⟨t, List.mem_cons_self _ _, c, htc, by rw [hex]; exact hcp⟩
        · rw [if_neg hlt] at hex
          exact Or.inl hex
      · exact Or.inr ⟨t', List.mem_cons_of_mem _ ht', c', h1, h2⟩

/-! ## _reassign_partition_ids and assign_partition_id -/

theorem map_find_set (k k' : Nat) {β : Type} (v : β) (m : List (Nat × β)) :
    map_find k' (map_set k v m) = if k' = k then some v else map_find k' m := by
  by_cases h : k' = k
  · subst h; simp [map_find_set_eq]
  · simp [h, map_find_set_ne _ _ _ _ h]

/-- What `_reassign_partition_ids` does in a state with I1 and I2 when the
tagged k-mers are keys of the partition map: it returns, `kmer_f` is bound to
the cell of the first tag, the value returned is the smallest id among the
cells the tags lead to (through the new binding of `kmer_f`), and the sets of
the other ids of the tags are merged into its set. -/
theorem reassign_spec (st : PartitionState) (t0 : Nat) (rest : List Nat) (f : Nat)
    (h1 : I1 st) (h2 : I2 st)
    (hkeys : ∀ t ∈ t0 :: rest, ∃ c, map_find t st.partition_map = some c) :
    ∃ c0 m st', map_find t0 st.partition_map = some c0
      ∧ reassign_partition_ids st (t0 :: rest) f = some (m, st')
      ∧ st'.partition_map = map_set f c0 st.partition_map
      ∧ st'.next_partition_id = st.next_partition_id
      ∧ st'.surrender_set = st.surrender_set
      ∧ (∀ t ∈ t0 :: rest, ∀ c p, map_find t (map_set f c0 st.partition_map) = some c →
          map_find c st.cells = some p → m ≤ p)
      ∧ (∃ t ∈ t0 :: rest, ∃ c, map_find t (map_set f c0 st.partition_map) = some c
          ∧ map_find c st.cells = some m)
      ∧ Merged m (fun q => q ≠ m ∧ ∃ t ∈ t0 :: rest, ∃ c,
            map_find t (map_set f c0 st.partition_map) = some c ∧ map_find c st.cells = some q)
          st.cells st.reverse_pmap st'.cells st'.reverse_pmap := by
  obtain ⟨c0, hc0⟩ := hkeys t0 (List.mem_cons_self _ _)
  obtain ⟨hc0ne, p0, s0, hc0p, hp0s, hc0s⟩ := h1 t0 c0 hc0
  -- every tag leads, through the new binding, to a registered cell
  have htags : ∀ t ∈ t0 :: rest, ∃ c p s, map_find t (map_set f c0 st.partition_map) = some c
      ∧ map_find c st.cells = some p ∧ map_find p st.reverse_pmap = some (some s) ∧ c ∈ s := by
    intro t ht
    rw [map_find_set]
    by_cases htf : t = f
    · exact ⟨c0, p0, s0, by simp [htf], hc0p, hp0s, hc0s⟩
    · obtain ⟨c, hc⟩ := hkeys t ht
      obtain ⟨-, p, s, hcp, hps, hcs⟩ := h1 t c hc
      exact ⟨c, p, s, by simp [htf, hc], hcp, hps, hcs⟩
  obtain ⟨m, hmin, hle, hall, hex⟩ := min_partition_loop_spec st.cells
    (map_set f c0 st.partition_map) rest p0
    (fun t ht => by
      obtain ⟨c, p, s, a, b, -, -⟩ := htags t (List.mem_cons_of_mem _ ht)
      exact ⟨c, p, a, b⟩)
  have ht0 : ∃ c p s, map_find t0 (map_set f c0 st.partition_map) = some c
      ∧ map_find c st.cells = some p ∧ map_find p st.reverse_pmap = some (some s) ∧ c ∈ s :=
    htags t0 (List.mem_cons_self _ _)
  have ht0' : map_find t0 (map_set f c0 st.partition_map) = some c0 := by
    rw [map_find_set]; split_ifs <;> simp [hc0]
  -- `m` is the smallest id of the tags, and it is the id of one of them
  have hall' : ∀ t ∈ t0 :: rest, ∀ c p, map_find t (map_set f c0 st.partition_map) = some c →
      map_find c st.cells = some p → m ≤ p := by
    intro t ht c p a b
    rcases List.mem_cons.mp ht with rfl | ht
    · rw [ht0'] at a; cases a; rw [hc0p] at b; cases b; exact hle
    · exact hall t ht c p a b
  have hex' : ∃ t ∈ t0 :: rest, ∃ c, map_find t (map_set f c0 st.partition_map) = some c
      ∧ map_find c st.cells = some m := by
    rcases hex with hex | ⟨t, ht, c, a, b⟩
    · exact ⟨t0, List.mem_cons_self _ _, c0, ht0', by rw [hex]; exact hc0p⟩
    · exact ⟨t, List.mem_cons_of_mem _ ht, c, a, b⟩
  -- the set of `m` exists
  obtain ⟨tm, htm, cm, htmc, hcmm⟩ := hex'
  obtain ⟨cm', pm, sm, a, b, hms, -⟩ := htags tm htm
  rw [htmc] at a; cases a; rw [hcmm] at b; cases b
  have hinit := Merged.init m st.cells st.reverse_pmap sm hms
  obtain ⟨cells', rmap', hloop, hM⟩ := merge_loop_spec m (map_set f c0 st.partition_map)
    st.cells st.reverse_pmap h2 (t0 :: rest) (fun _ => False) st.cells st.reverse_pmap
    (fun _ hq => hq.elim) hinit htags
  have hM' : Merged m (fun q => q ≠ m ∧ ∃ t ∈ t0 :: rest, ∃ c,
      map_find t (map_set f c0 st.partition_map) = some c ∧ map_find c st.cells = some q)
      st.cells st.reverse_pmap cells' rmap' := hM.congr (fun q => by simp)
  -- the cell of the first tag holds `m` after the loop
  have hthis : map_find c0 cells' = some m := by
    by_cases hp0m : p0 = m
    · rw [hM'.cell_kept c0 (fun q s hq hqs hcs => ?_), hc0p, hp0m]
      have := h2 q s c0 hqs hcs
      rw [hc0p] at this; cases this
      exact hq.1 hp0m
    · exact hM'.cell_merged c0 p0 s0 ⟨hp0m, t0, List.mem_cons_self _ _, c0, ht0', hc0p⟩ hp0s hc0s
  refine ⟨c0, m, ⟨cells', map_set f c0 st.partition_map, rmap', st.next_partition_id,
    st.surrender_set⟩, hc0, ?_, rfl, rfl, rfl, hall', ⟨tm, htm, cm, htmc, hcmm⟩, hM'⟩
  unfold reassign_partition_ids
  simp only [hc0, hc0ne, if_false, hc0p, hmin, hms, hloop, hthis, ne_eq, not_true_eq_false]

/-- The outcome of the union branch in terms of I1, I2 and the id of every
cell a key can lead to. -/
theorem reassign_outcome (st : PartitionState) (t0 : Nat) (rest : List Nat) (f : Nat)
    (h1 : I1 st) (h2 : I2 st)
    (hkeys : ∀ t ∈ t0 :: rest, ∃ c, map_find t st.partition_map = some c) :
    ∃ c0 m st', map_find t0 st.partition_map = some c0
      ∧ reassign_partition_ids st (t0 :: rest) f = some (m, st')
      ∧ st'.partition_map = map_set f c0 st.partition_map
      ∧ st'.next_partition_id = st.next_partition_id
      ∧ st'.surrender_set = st.surrender_set
      ∧ (∀ t ∈ t0 :: rest, ∀ c p, map_find t (map_set f c0 st.partition_map) = some c →
          map_find c st.cells = some p → m ≤ p)
      ∧ (∃ t ∈ t0 :: rest, ∃ c, map_find t (map_set f c0 st.partition_map) = some c
          ∧ map_find c st.cells = some m)
      ∧ I1 st' ∧ I2 st'
      ∧ (∀ x c p, map_find x st.partition_map = some c → map_find c st.cells = some p →
          map_find c st'.cells = some (if (∃ t ∈ t0 :: rest, ∃ c',
              map_find t (map_set f c0 st.partition_map) = some c'
                ∧ map_find c' st.cells = some p) then m else p))
      ∧ (∀ p v, map_find p st'.reverse_pmap = some v → ∃ v', map_find p st.reverse_pmap = some v')
      ∧ (∃ s, map_find m st'.reverse_pmap = some (some s)) := by
  obtain ⟨c0, m, st', hc0, hrun, hpm, hnext, hsur, hall, hex, hM⟩ :=
    reassign_spec st t0 rest f h1 h2 hkeys
  obtain ⟨master0, master, hm0, hm, hmem⟩ := hM.master
  -- the id of a registered cell after the call
  have hcell : ∀ c p s, map_find c st.cells = some p → map_find p st.reverse_pmap = some (some s) →
      c ∈ s → map_find c st'.cells = some (if (∃ t ∈ t0 :: rest, ∃ c',
              map_find t (map_set f c0 st.partition_map) = some c'
                ∧ map_find c' st.cells = some p) then m else p) := by
    intro c p s hcp hps hcs
    by_cases htag : ∃ t ∈ t0 :: rest, ∃ c', map_find t (map_set f c0 st.partition_map) = some c'
        ∧ map_find c' st.cells = some p
    · rw [if_pos htag]
      by_cases hpm' : p = m
      · rw [hM.cell_kept c (fun q s' hq hqs hcs' => ?_), hcp, hpm']
        have := h2 q s' c hqs hcs'
        rw [hcp] at this; cases this
        exact hq.1 hpm'
      · exact hM.cell_merged c p s ⟨hpm', htag⟩ hps hcs
    · rw [if_neg htag, hM.cell_kept c (fun q s' hq hqs hcs' => ?_), hcp]
      have := h2 q s' c hqs hcs'
      rw [hcp] at this; cases this
      exact htag hq.2
  -- a registered cell is registered after the call, under its new id
  have hreg : ∀ c p s, map_find c st.cells = some p → map_find p st.reverse_pmap = some (some s) →
      c ∈ s → ∃ p' s', map_find c st'.cells = some p'
        ∧ map_find p' st'.reverse_pmap = some (some s') ∧ c ∈ s' := by
    intro c p s hcp hps hcs
    have hv := hcell c p s hcp hps hcs
    by_cases htag : ∃ t ∈ t0 :: rest, ∃ c', map_find t (map_set f c0 st.partition_map) = some c'
        ∧ map_find c' st.cells = some p
    · rw [if_pos htag] at hv
      refine ⟨m, master, hv, hm, (hmem c).mpr ?_⟩
      by_cases hpm' : p = m
      · subst hpm'; rw [hm0] at hps; cases hps; exact Or.inl hcs
      · exact Or.inr ⟨p, s, ⟨hpm', htag⟩, hps, hcs⟩
    · rw [if_neg htag] at hv
      by_cases hpm' : p = m
      · subst hpm'; rw [hm0] at hps; cases hps
        exact ⟨p, master, hv, hm, (hmem c).mpr (Or.inl hcs)⟩
      · exact ⟨p, s, hv, by rw [hM.kept p (fun hq => htag hq.2) hpm', hps], hcs⟩
  have hI1 : I1 st' := by
    intro x c hxc
    rw [hpm, map_find_set] at hxc
    by_cases hxf : x = f
    · rw [if_pos hxf] at hxc
      have hcc : c = c0 := (Option.some.inj hxc).symm
      rw [hcc]
      obtain ⟨hne, p, s, a, b, d⟩ := h1 t0 c0 hc0
      exact ⟨hne, hreg c0 p s a b d⟩
    · rw [if_neg hxf] at hxc
      obtain ⟨hne, p, s, a, b, d⟩ := h1 x c hxc
      exact ⟨hne, hreg c p s a b d⟩
  have hI2 : I2 st' := by
    intro p s c hps hcs
    by_cases hpm' : p = m
    · subst hpm'
      rw [hm] at hps; cases hps
      rcases (hmem c).mp hcs with h | ⟨q, s', hq, hqs, hcs'⟩
      · have hcp := h2 p master0 c hm0 h
        rw [hM.cell_kept c (fun q s' hq hqs hcs' => ?_), hcp]
        have := h2 q s' c hqs hcs'
        rw [hcp] at this; cases this
        exact hq.1 rfl
      · exact hM.cell_merged c q s' hq hqs hcs'
    · by_cases hQ : p ≠ m ∧ ∃ t ∈ t0 :: rest, ∃ c', map_find t (map_set f c0 st.partition_map)
          = some c' ∧ map_find c' st.cells = some p
      · rw [hM.erased p hQ] at hps; cases hps
      · rw [hM.kept p hQ hpm'] at hps
        have hcp := h2 p s c hps hcs
        rw [hM.cell_kept c (fun q s' hq hqs hcs' => ?_), hcp]
        have := h2 q s' c hqs hcs'
        rw [hcp] at this; cases this
        exact hQ hq
  refine ⟨c0, m, st', hc0, hrun, hpm, hnext, hsur, hall, hex, hI1, hI2, ?_, ?_, ⟨master, hm⟩⟩
  · intro x c p hxc hcp
    obtain ⟨-, p', s, a, b, d⟩ := h1 x c hxc
    rw [hcp] at a; cases a
    exact hcell c p s hcp b d
  · intro p v hpv
    by_cases hpm' : p = m
    · exact ⟨_, by rw [hpm']; exact hm0⟩
    · by_cases hQ : p ≠ m ∧ ∃ t ∈ t0 :: rest, ∃ c', map_find t (map_set f c0 st.partition_map)
          = some c' ∧ map_find c' st.cells = some p
      · rw [hM.erased p hQ] at hpv; cases hpv
      · rw [hM.kept p hQ hpm'] at hpv; exact ⟨v, hpv⟩

/-- The fresh-allocation branch of `assign_partition_id` when the next id is
not a key of `reverse_pmap`. -/
theorem assign_fresh_outcome (st : PartitionState) (f : Nat) (h1 : I1 st) (h2 : I2 st)
    (hfresh : map_find st.next_partition_id st.reverse_pmap = none) :
    I1 (⟨map_set (fresh_addr st.cells) st.next_partition_id st.cells,
          map_set f (fresh_addr st.cells) st.partition_map,
          map_set st.next_partition_id (some [fresh_addr st.cells]) st.reverse_pmap,
          st.next_partition_id + 1, st.surrender_set⟩ : PartitionState)
      ∧ I2 (⟨map_set (fresh_addr st.cells) st.next_partition_id st.cells,
          map_set f (fresh_addr st.cells) st.partition_map,
          map_set st.next_partition_id (some [fresh_addr st.cells]) st.reverse_pmap,
          st.next_partition_id + 1, st.surrender_set⟩ : PartitionState) := by
  have hfa := map_find_fresh_addr st.cells
  constructor
  · intro x c hxc
    simp only at hxc ⊢
    rw [map_find_set] at hxc
    by_cases hxf : x = f
    · rw [if_pos hxf] at hxc; cases hxc
      exact ⟨fresh_addr_pos _, st.next_partition_id, [fresh_addr st.cells],
        map_find_set_eq _ _ _, map_find_set_eq _ _ _, List.mem_singleton.mpr rfl⟩
    · rw [if_neg hxf] at hxc
      obtain ⟨hne, p, s, a, b, d⟩ := h1 x c hxc
      have hca : c ≠ fresh_addr st.cells := fun e => by rw [e, hfa] at a; cases a
      have hpn : p ≠ st.next_partition_id := fun e => by rw [e, hfresh] at b; cases b
      exact ⟨hne, p, s, by rw [map_find_set_ne _ _ _ _ hca]; exact a,
        by rw [map_find_set_ne _ _ _ _ hpn]; exact b, d⟩
  · intro p s c hps hcs
    simp only at hps ⊢
    rw [map_find_set] at hps
    by_cases hpn : p = st.next_partition_id
    · rw [if_pos hpn] at hps; cases hps
      rw [List.mem_singleton.mp hcs, hpn]
      exact map_find_set_eq _ _ _
    · rw [if_neg hpn] at hps
      have hcp := h2 p s c hps hcs
      have hca : c ≠ fresh_addr st.cells := fun e => by rw [e, hfa] at hcp; cases hcp
      rw [map_find_set_ne _ _ _ _ hca]
      exact hcp

/-! ## Checks that run, and the states reached -/

theorem map_find_mem {β : Type} (k : Nat) (v : β) (m : List (Nat × β))
    (h : map_find k m = some v) : (k, v) ∈ m := by
  induction m with
  | nil => simp [map_find] at h
  | cons e rest ih =>
    unfold map_find at h
    by_cases h1 : e.1 = k
    · simp only [h1, if_true, Option.some.injEq] at h
      have : e = (k, v) := Prod.ext h1 h
      simp [this]
    · simp only [h1, if_false] at h
      exact List.mem_cons_of_mem _ (ih h)

theorem check_I1_sound (st : PartitionState) (h : check_I1 st = true) : I1 st := by
  intro x c hxc
  have hmem := map_find_mem x c _ hxc
  unfold check_I1 at h
  rw [List.all_eq_true] at h
  have hx := h (x, c) hmem
  simp only [Bool.and_eq_true, bne_iff_ne, ne_eq] at hx
  obtain ⟨hne, hx⟩ := hx
  refine ⟨hne, ?_⟩
  cases hcp : map_find c st.cells with
  | none => rw [hcp] at hx; cases hx
  | some p =>
    rw [hcp] at hx
    simp only at hx
    cases hps : map_find p st.reverse_pmap with
    | none => rw [hps] at hx; cases hx
    | some v =>
      cases v with
      | none => rw [hps] at hx; cases hx
      | some s =>
        rw [hps] at hx
        exact ⟨p, s, rfl, hps, by simpa using hx⟩

theorem check_I2_sound (st : PartitionState) (h : check_I2 st = true) : I2 st := by
  intro p s c hps hcs
  have hmem := map_find_mem p (some s) _ hps
  unfold check_I2 at h
  rw [List.all_eq_true] at h
  have hx := h (p, some s) hmem
  simp only [List.all_eq_true, beq_iff_eq] at hx
  exact hx c hcs

theorem not_I1_of_check (st : PartitionState) (x c : Nat)
    (hxc : map_find x st.partition_map = some c)
    (h : ∀ p s, map_find c st.cells = some p → map_find p st.reverse_pmap = some (some s) →
      c ∉ s) : ¬ I1 st := by
  intro h1
  obtain ⟨-, p, s, a, b, d⟩ := h1 x c hxc
  exact h p s a b d

/-- The fresh-allocation branch, run. -/
theorem assign_fresh_eq (st : PartitionState) (f : Nat) (surrender : Bool) :
    assign_partition_id st f [] surrender
      = some (st.next_partition_id,
          ⟨map_set (fresh_addr st.cells) st.next_partition_id st.cells,
            map_set f (fresh_addr st.cells) st.partition_map,
            map_set st.next_partition_id (some [fresh_addr st.cells]) st.reverse_pmap,
            st.next_partition_id + 1,
            if surrender then set_insert st.next_partition_id st.surrender_set
            else st.surrender_set⟩) := by
  unfold assign_partition_id
  cases surrender <;> simp

/-- The union branch, run: `assign_partition_id` adds the value returned to
`surrender_set` when `surrender` is set and leaves the rest to
`_reassign_partition_ids`. -/
theorem assign_union_eq (st st' : PartitionState) (f t0 m : Nat) (rest : List Nat)
    (surrender : Bool) (h : reassign_partition_ids st (t0 :: rest) f = some (m, st')) :
    assign_partition_id st f (t0 :: rest) surrender
      = some (m, ⟨st'.cells, st'.partition_map, st'.reverse_pmap, st'.next_partition_id,
          if surrender then set_insert m st'.surrender_set else st'.surrender_set⟩) := by
  unfold assign_partition_id
  cases surrender <;> simp [h]

theorem allocated_ids_empty : allocated_ids empty_partition_state := by
  refine ⟨?_, ?_, le_refl _, ?_, ?_⟩
  · intro x c h; simp [empty_partition_state, map_find] at h
  · intro p s c h; simp [empty_partition_state, map_find] at h
  · intro p v h; simp [empty_partition_state, map_find] at h
  · intro p h; simp [empty_partition_state] at h

/-- A call of `assign_partition_id` with tags that are keys keeps
`allocated_ids`, returns, and the id it returns is a key of `reverse_pmap`
after the call. -/
theorem allocated_ids_step (st : PartitionState) (f : Nat) (tags : List Nat) (surrender : Bool)
    (h : allocated_ids st)
    (hkeys : ∀ t ∈ tags, ∃ c, map_find t st.partition_map = some c) :
    ∃ r st', assign_partition_id st f tags surrender = some (r, st')
      ∧ allocated_ids st' ∧ (∃ s, map_find r st'.reverse_pmap = some s)
      ∧ (surrender = true → r ∈ st'.surrender_set) := by
  obtain ⟨h1, h2, hn, hr, hs⟩ := h
  cases tags with
  | nil =>
    have hfresh : map_find st.next_partition_id st.reverse_pmap = none := by
      cases hv : map_find st.next_partition_id st.reverse_pmap with
      | none => rfl
      | some v => have := (hr _ v hv).2; omega
    obtain ⟨hI1, hI2⟩ := assign_fresh_outcome st f h1 h2 hfresh
    refine ⟨_, _, assign_fresh_eq st f surrender, ⟨hI1, hI2, ?_, ?_, ?_⟩, ?_, ?_⟩
    · show 1 ≤ st.next_partition_id + 1
      omega
    · intro p v hpv
      simp only at hpv ⊢
      rw [map_find_set] at hpv
      by_cases hp : p = st.next_partition_id
      · omega
      · rw [if_neg hp] at hpv
        have := hr p v hpv
        omega
    · intro p hp
      simp only at hp ⊢
      cases surrender with
      | false => have := hs p hp; omega
      | true =>
        rcases (mem_set_insert _ _ _).mp hp with h | h
        · omega
        · have := hs p h; omega
    · exact ⟨_, map_find_set_eq _ _ _⟩
    · intro hsur
      simp only [hsur, if_true]
      exact (mem_set_insert _ _ _).mpr (Or.inl rfl)
  | cons t0 rest =>
    obtain ⟨c0, m, st', hc0, hrun, hpm, hnext, hsur, hall, hex, hI1, hI2, hcell, hlive, hm⟩ :=
      reassign_outcome st t0 rest f h1 h2 hkeys
    have hmlive : 1 ≤ m ∧ m < st.next_partition_id := by
      obtain ⟨s, hs'⟩ := hm
      obtain ⟨v', hv'⟩ := hlive m _ hs'
      exact hr m v' hv'
    refine ⟨_, _, assign_union_eq st st' f t0 m rest surrender hrun,
      ⟨hI1, hI2, ?_, ?_, ?_⟩, ?_, ?_⟩
    · show 1 ≤ st'.next_partition_id
      rw [hnext]; exact hn
    · intro p v hpv
      show 1 ≤ p ∧ p < st'.next_partition_id
      obtain ⟨v', hv'⟩ := hlive p v hpv
      rw [hnext]; exact hr p v' hv'
    · intro p hp
      show 1 ≤ p ∧ p < st'.next_partition_id
      simp only at hp
      rw [hnext]
      cases surrender with
      | false => simp only [Bool.false_eq_true, if_false, hsur] at hp; exact hs p hp
      | true =>
        simp only [if_true, hsur] at hp
        rcases (mem_set_insert _ _ _).mp hp with h | h
        · rw [h]; exact hmlive
        · exact hs p h
    · obtain ⟨s, hs'⟩ := hm
      exact ⟨_, hs'⟩
    · intro hsur'
      simp only [hsur', if_true]
      exact (mem_set_insert _ _ _).mpr (Or.inl rfl)

theorem allocated_ids_of_reachable (st : PartitionState) (h : Reachable st) :
    allocated_ids st := by
  induction h with
  | empty => exact allocated_ids_empty
  | assign st st' f tags surrender r _ hkeys hrun ih =>
    obtain ⟨r', st'', hrun', hinv, -, -⟩ := allocated_ids_step st f tags surrender ih hkeys
    rw [hrun] at hrun'
    cases hrun'
    exact hinv

/-! ## Properties of assign_partition_id -/

theorem pid_of_eq (st : PartitionState) (x c : Nat) (h : map_find x st.partition_map = some c) :
    pid_of st x = map_find c st.cells := by
  unfold pid_of; rw [h]; rfl

theorem pid_of_some (st : PartitionState) (x p : Nat) (h : pid_of st x = some p) :
    ∃ c, map_find x st.partition_map = some c ∧ map_find c st.cells = some p := by
  unfold pid_of at h
  cases hc : map_find x st.partition_map with
  | none => rw [hc] at h; cases h
  | some c => rw [hc] at h; exact ⟨c, rfl, h⟩

theorem two_partitions_reachable : Reachable two_partitions :=
  Reachable.assign _ _ 20 [] false 2
    (Reachable.assign _ _ 10 [] false 1 Reachable.empty (by simp) rfl) (by simp) rfl

/-- C15, on the code: loading a checkpoint with the one record (k-mer 5, id 1)
into the empty state leaves `next_partition_id` at 1, so the next call
`assign_partition_id(7, {}, false)` hands out the id 1, which is a key of
`reverse_pmap` before the call, and replaces the set of id 1: the cell of key 5
is in no set any more. In the states reached from the empty state by
`assign_partition_id` alone the id handed out is new, `partition_map[f]` is a
cell that holds it, `reverse_pmap[id]` is the singleton of that cell and every
other key keeps its id. -/
theorem assign_after_load_reuses_id :
    load_partitionmap empty_partition_state one_record_file [] = some loaded_state
      ∧ map_find loaded_state.next_partition_id loaded_state.reverse_pmap = some (some [1])
      ∧ assign_partition_id loaded_state 7 [] false
          = some (1, ⟨[(1, 1), (2, 1)], [(5, 1), (7, 2)], [(1, some [2])], 2, []⟩)
      ∧ (∀ st, Reachable st → ∀ f surrender,
          map_find st.next_partition_id st.reverse_pmap = none
          ∧ ∃ st' c, assign_partition_id st f [] surrender = some (st.next_partition_id, st')
            ∧ map_find f st'.partition_map = some c
            ∧ map_find c st'.cells = some st.next_partition_id
            ∧ map_find st.next_partition_id st'.reverse_pmap = some (some [c])
            ∧ ∀ x, x ≠ f → pid_of st' x = pid_of st x) := by
  refine ⟨rfl, rfl, rfl, ?_⟩
  intro st hst f surrender
  obtain ⟨h1, h2, hn, hr, hs⟩ := allocated_ids_of_reachable st hst
  have hfresh : map_find st.next_partition_id st.reverse_pmap = none := by
    cases hv : map_find st.next_partition_id st.reverse_pmap with
    | none => rfl
    | some v => have := (hr _ v hv).2; omega
  refine ⟨hfresh, _, fresh_addr st.cells, assign_fresh_eq st f surrender,
    map_find_set_eq _ _ _, map_find_set_eq _ _ _, map_find_set_eq _ _ _, ?_⟩
  intro x hxf
  show (map_find x (map_set f (fresh_addr st.cells) st.partition_map)).bind
      (fun c => map_find c (map_set (fresh_addr st.cells) st.next_partition_id st.cells))
    = (map_find x st.partition_map).bind (fun c => map_find c st.cells)
  rw [map_find_set_ne _ _ _ _ hxf]
  cases hc : map_find x st.partition_map with
  | none => rfl
  | some c =>
    obtain ⟨-, p, s, a, -, -⟩ := h1 x c hc
    have hca : c ≠ fresh_addr st.cells := fun e => by
      rw [e, map_find_fresh_addr] at a; cases a
    show map_find c (map_set (fresh_addr st.cells) st.next_partition_id st.cells)
      = map_find c st.cells
    rw [map_find_set_ne _ _ _ _ hca]

theorem three_partitions_keys :
    ∀ t ∈ [10, 25], ∃ c, map_find t three_partitions.partition_map = some c := by
  intro t ht
  simp only [List.mem_cons, List.mem_singleton, List.not_mem_nil, or_false] at ht
  rcases ht with rfl | rfl
  · exact ⟨2, rfl⟩
  · exact ⟨3, rfl⟩

/-- C16, as stated, fails: in `three_partitions` (I1 and I2 hold) key 20 has
id 1 and the keys 10 and 25 have the ids 2 and 3; `assign_partition_id(20,
{10, 25}, false)` returns 2, not the id 1 of the cell of `f` = 20. -/
theorem assign_ignores_own_cell :
    I1 three_partitions ∧ I2 three_partitions
      ∧ (∀ t ∈ [10, 25], ∃ c, map_find t three_partitions.partition_map = some c)
      ∧ pid_of three_partitions 20 = some 1
      ∧ pid_of three_partitions 10 = some 2
      ∧ pid_of three_partitions 25 = some 3
      ∧ (assign_partition_id three_partitions 20 [10, 25] false).map Prod.fst = some 2 := by
  exact ⟨check_I1_sound _ (by decide), check_I2_sound _ (by decide), three_partitions_keys,
    rfl, rfl, rfl, rfl⟩

/-- The ids of the tags read through the new binding of `f` are the ids the
tags had, when `f` is not a tag other than the first. -/
theorem tag_find_eq (st : PartitionState) (t0 : Nat) (rest : List Nat) (f c0 : Nat)
    (hc0 : map_find t0 st.partition_map = some c0) (hf : ∀ t ∈ rest, t ≠ f)
    (t : Nat) (ht : t ∈ t0 :: rest) :
    map_find t (map_set f c0 st.partition_map) = map_find t st.partition_map := by
  rw [map_find_set]
  by_cases htf : t = f
  · rw [if_pos htf]
    rcases List.mem_cons.mp ht with h | h
    · rw [h, hc0]
    · exact absurd htf (hf t h)
  · rw [if_neg htf]

/-- C16, amended: for every partition state satisfying I1 and I2 and every
non-empty tag set whose members are keys of the partition map, with `f` not a
tag other than the first one visited, `assign_partition_id(f, tags, surrender)`
returns the minimum of the PartitionIDs held before the call by the cells of
the tagged k-mers; the id of the cell of `f` itself is not taken into
account. -/
theorem assign_returns_min_of_tags (st : PartitionState) (f : Nat) (tags : List Nat)
    (surrender : Bool) (h1 : I1 st) (h2 : I2 st) (hne : tags ≠ [])
    (hkeys : ∀ t ∈ tags, ∃ c, map_find t st.partition_map = some c)
    (hf : ∀ t ∈ tags.tail, t ≠ f) :
    ∃ m st', assign_partition_id st f tags surrender = some (m, st')
      ∧ (∀ t ∈ tags, ∃ p, pid_of st t = some p ∧ m ≤ p)
      ∧ (∃ t ∈ tags, pid_of st t = some m) := by
  cases tags with
  | nil => exact absurd rfl hne
  | cons t0 rest =>
    obtain ⟨c0, m, st', hc0, hrun, -, -, -, hall, hex, -, -, -, -, -⟩ :=
      reassign_outcome st t0 rest f h1 h2 hkeys
    refine ⟨m, _, assign_union_eq st st' f t0 m rest surrender hrun, ?_, ?_⟩
    · intro t ht
      obtain ⟨c, hc⟩ := hkeys t ht
      obtain ⟨-, p, s, hcp, -, -⟩ := h1 t c hc
      refine ⟨p, by rw [pid_of_eq st t c hc]; exact hcp, ?_⟩
      exact hall t ht c p (by rw [tag_find_eq st t0 rest f c0 hc0 hf t ht]; exact hc) hcp
    · obtain ⟨t, ht, c, htc, hcm⟩ := hex
      rw [tag_find_eq st t0 rest f c0 hc0 hf t ht] at htc
      exact ⟨t, ht, by rw [pid_of_eq st t c htc]; exact hcm⟩

theorem assign_returns_min_of_tags_witness :
    I1 three_partitions ∧ I2 three_partitions ∧ [10, 25] ≠ []
      ∧ (∀ t ∈ [10, 25], ∃ c, map_find t three_partitions.partition_map = some c)
      ∧ (∀ t ∈ [10, 25].tail, t ≠ 20)
      ∧ ∃ m st', assign_partition_id three_partitions 20 [10, 25] false = some (m, st')
        ∧ (∀ t ∈ [10, 25], ∃ p, pid_of three_partitions t = some p ∧ m ≤ p)
        ∧ (∃ t ∈ [10, 25], pid_of three_partitions t = some m) :=
  ⟨check_I1_sound _ (by decide), check_I2_sound _ (by decide), by decide,
    three_partitions_keys, by decide,
    assign_returns_min_of_tags three_partitions 20 [10, 25] false
      (check_I1_sound _ (by decide)) (check_I2_sound _ (by decide)) (by decide)
      three_partitions_keys (by decide)⟩

theorem shared_cell_state_keys :
    ∀ t ∈ [10, 20], ∃ c, map_find t shared_cell_state.partition_map = some c := by
  intro t ht
  simp only [List.mem_cons, List.mem_singleton, List.not_mem_nil, or_false] at ht
  rcases ht with rfl | rfl
  · exact ⟨1, rfl⟩
  · exact ⟨2, rfl⟩

/-- C17, as stated, fails: in `shared_cell_state` (I1 and I2 hold) the keys 20
and 30 have id 2 and key 10 has id 1; `assign_partition_id(20, {10, 20},
false)` binds key 20 to the cell of the first tag and returns 1, and key 30,
whose id before the call was that of the tagged key 20, still has id 2. -/
theorem assign_leaves_class_of_rebound_tag :
    I1 shared_cell_state ∧ I2 shared_cell_state
      ∧ (∀ t ∈ [10, 20], ∃ c, map_find t shared_cell_state.partition_map = some c)
      ∧ pid_of shared_cell_state 20 = some 2
      ∧ pid_of shared_cell_state 30 = some 2
      ∧ (assign_partition_id shared_cell_state 20 [10, 20] false).map Prod.fst = some 1
      ∧ (assign_partition_id shared_cell_state 20 [10, 20] false).map
          (fun rs => pid_of rs.2 30) = some (some 2) :=
  ⟨check_I1_sound _ (by decide), check_I2_sound _ (by decide), shared_cell_state_keys,
    rfl, rfl, rfl, rfl⟩

/-- C17, amended: for every partition state satisfying I1 and I2 and every
non-empty tag set of existing keys, with `f` not a tag other than the first
one visited, after `assign_partition_id(f, tags, surrender)` the key `f`, every
tagged key, and every key whose PartitionID before the call equalled that of
some tagged key all resolve to one and the same PartitionID (the value
returned), while every key other than `f` whose previous PartitionID was not
among the tagged ones keeps its PartitionID. -/
theorem assign_union_resolves (st : PartitionState) (f : Nat) (tags : List Nat)
    (surrender : Bool) (h1 : I1 st) (h2 : I2 st) (hne : tags ≠ [])
    (hkeys : ∀ t ∈ tags, ∃ c, map_find t st.partition_map = some c)
    (hf : ∀ t ∈ tags.tail, t ≠ f) :
    ∃ m st', assign_partition_id st f tags surrender = some (m, st')
      ∧ pid_of st' f = some m
      ∧ (∀ t ∈ tags, pid_of st' t = some m)
      ∧ (∀ x p, pid_of st x = some p → (∃ t ∈ tags, pid_of st t = some p) →
          pid_of st' x = some m)
      ∧ (∀ x p, x ≠ f → pid_of st x = some p → (¬ ∃ t ∈ tags, pid_of st t = some p) →
          pid_of st' x = some p) := by
  cases tags with
  | nil => exact absurd rfl hne
  | cons t0 rest =>
    obtain ⟨c0, m, st', hc0, hrun, hpm, -, -, -, -, -, -, hcell, -, -⟩ :=
      reassign_outcome st t0 rest f h1 h2 hkeys
    -- the ids of the tags, read before the call
    have htag : ∀ p, (∃ t ∈ t0 :: rest, ∃ c', map_find t (map_set f c0 st.partition_map) = some c'
        ∧ map_find c' st.cells = some p) ↔ (∃ t ∈ t0 :: rest, pid_of st t = some p) := by
      intro p
      constructor
      · rintro ⟨t, ht, c', a, b⟩
        rw [tag_find_eq st t0 rest f c0 hc0 hf t ht] at a
        exact ⟨t, ht, by rw [pid_of_eq st t c' a]; exact b⟩
      · rintro ⟨t, ht, a⟩
        obtain ⟨c', b, d⟩ := pid_of_some st t p a
        exact ⟨t, ht, c', by rw [tag_find_eq st t0 rest f c0 hc0 hf t ht]; exact b, d⟩
    obtain ⟨-, p0, s0, hc0p, -, -⟩ := h1 t0 c0 hc0
    have hp0 : pid_of st t0 = some p0 := by rw [pid_of_eq st t0 c0 hc0]; exact hc0p
    -- the id of `f` after the call
    have hfm : map_find c0 st'.cells = some m := by
      rw [hcell t0 c0 p0 hc0 hc0p, if_pos ((htag p0).mpr ⟨t0, List.mem_cons_self _ _, hp0⟩)]
    have hpf : pid_of st' f = some m := by
      rw [pid_of_eq st' f c0 (by rw [hpm]; exact map_find_set_eq _ _ _)]; exact hfm
    -- the id after the call of a key other than `f`
    have hother : ∀ x p, x ≠ f → pid_of st x = some p →
        pid_of st' x = some (if (∃ t ∈ t0 :: rest, pid_of st t = some p) then m else p) := by
      intro x p hxf hxp
      obtain ⟨c, a, b⟩ := pid_of_some st x p hxp
      rw [pid_of_eq st' x c (by rw [hpm, map_find_set_ne _ _ _ _ hxf]; exact a), hcell x c p a b]
      by_cases hp : ∃ t ∈ t0 :: rest, pid_of st t = some p
      · rw [if_pos hp, if_pos ((htag p).mpr hp)]
      · rw [if_neg hp, if_neg (fun h => hp ((htag p).mp h))]
    have hall : ∀ x p, pid_of st x = some p → (∃ t ∈ t0 :: rest, pid_of st t = some p) →
        pid_of st' x = some m := by
      intro x p hxp hp
      by_cases hxf : x = f
      · rw [hxf]; exact hpf
      · rw [hother x p hxf hxp, if_pos hp]
    refine ⟨m, _, assign_union_eq st st' f t0 m rest surrender hrun, hpf, ?_, hall, ?_⟩
    · intro t ht
      obtain ⟨c, hc⟩ := hkeys t ht
      obtain ⟨-, p, s, hcp, -, -⟩ := h1 t c hc
      have htp : pid_of st t = some p := by rw [pid_of_eq st t c hc]; exact hcp
      exact hall t p htp ⟨t, ht, htp⟩
    · intro x p hxf hxp hp
      have := hother x p hxf hxp
      rw [if_neg hp] at this
      exact this

theorem assign_union_resolves_witness :
    I1 three_partitions ∧ I2 three_partitions ∧ [10, 25] ≠ []
      ∧ (∀ t ∈ [10, 25], ∃ c, map_find t three_partitions.partition_map = some c)
      ∧ (∀ t ∈ [10, 25].tail, t ≠ 20)
      ∧ ∃ m st', assign_partition_id three_partitions 20 [10, 25] false = some (m, st')
        ∧ pid_of st' 20 = some m
        ∧ (∀ t ∈ [10, 25], pid_of st' t = some m) :=
  ⟨check_I1_sound _ (by decide), check_I2_sound _ (by decide), by decide,
    three_partitions_keys, by decide,
    (assign_union_resolves three_partitions 20 [10, 25] false
      (check_I1_sound _ (by decide)) (check_I2_sound _ (by decide)) (by decide)
      three_partitions_keys (by decide)).imp
      (fun _ h => h.imp (fun _ h' => ⟨h'.1, h'.2.1, h'.2.2.1⟩))⟩

/-- C18, as stated, fails: `loaded_state`, the state after loading the
checkpoint with the one record (k-mer 5, id 1), satisfies I1 and I2, but its
`next_partition_id` is the live id 1; `assign_partition_id(7, {}, false)`
replaces the set of id 1 by the singleton of the new cell, and I1 fails for
key 5. -/
theorem assign_breaks_I1_on_stale_next_id :
    I1 loaded_state ∧ I2 loaded_state
      ∧ assign_partition_id loaded_state 7 [] false
          = some (1, ⟨[(1, 1), (2, 1)], [(5, 1), (7, 2)], [(1, some [2])], 2, []⟩)
      ∧ ¬ I1 ⟨[(1, 1), (2, 1)], [(5, 1), (7, 2)], [(1, some [2])], 2, []⟩ := by
  refine ⟨check_I1_sound _ (by decide), check_I2_sound _ (by decide), rfl, ?_⟩
  apply not_I1_of_check ⟨[(1, 1), (2, 1)], [(5, 1), (7, 2)], [(1, some [2])], 2, []⟩ 5 1 rfl
  intro p s hp hs
  have hp1 : p = 1 := by
    have : map_find 1 [(1, 1), (2, 1)] = some 1 := rfl
    exact (Option.some.inj (hp.symm.trans this))
  subst hp1
  have hs1 : s = [2] := by
    have : map_find 1 [(1, some [2])] = some (some [2]) := rfl
    exact (Option.some.inj (Option.some.inj (hs.symm.trans this)))
  subst hs1
  decide

/-- C18, amended: `assign_partition_id` preserves I1 and I2 when
`next_partition_id` is not a key of `reverse_pmap`: if before the call I1 and
I2 hold, the tag set consists of keys of the partition map and the next id is
not live, then the call returns and both invariants hold again after it, for
the fresh-allocation branch and for the union branch. -/
theorem assign_preserves_I1_I2 (st : PartitionState) (f : Nat) (tags : List Nat)
    (surrender : Bool) (h1 : I1 st) (h2 : I2 st)
    (hkeys : ∀ t ∈ tags, ∃ c, map_find t st.partition_map = some c)
    (hfresh : map_find st.next_partition_id st.reverse_pmap = none) :
    ∃ r st', assign_partition_id st f tags surrender = some (r, st') ∧ I1 st' ∧ I2 st' := by
  cases tags with
  | nil =>
    obtain ⟨hI1, hI2⟩ := assign_fresh_outcome st f h1 h2 hfresh
    exact ⟨_, _, assign_fresh_eq st f surrender, fun x c h => hI1 x c h,
      fun p s c h h' => hI2 p s c h h'⟩
  | cons t0 rest =>
    obtain ⟨c0, m, st', -, hrun, -, -, -, -, -, hI1, hI2, -, -, -⟩ :=
      reassign_outcome st t0 rest f h1 h2 hkeys
    exact ⟨_, _, assign_union_eq st st' f t0 m rest surrender hrun, fun x c h => hI1 x c h,
      fun p s c h h' => hI2 p s c h h'⟩

theorem assign_preserves_I1_I2_witness :
    I1 three_partitions ∧ I2 three_partitions
      ∧ (∀ t ∈ [10, 25], ∃ c, map_find t three_partitions.partition_map = some c)
      ∧ map_find three_partitions.next_partition_id three_partitions.reverse_pmap = none
      ∧ ∃ r st', assign_partition_id three_partitions 20 [10, 25] true = some (r, st')
        ∧ I1 st' ∧ I2 st' :=
  ⟨check_I1_sound _ (by decide), check_I2_sound _ (by decide), three_partitions_keys, rfl,
    assign_preserves_I1_I2 three_partitions 20 [10, 25] true
      (check_I1_sound _ (by decide)) (check_I2_sound _ (by decide)) three_partitions_keys rfl⟩

theorem merged_surrender_state_reachable : Reachable merged_surrender_state := by
  have s1 : Reachable ⟨[(1, 1)], [(10, 1)], [(1, some [1])], 2, []⟩ :=
    Reachable.assign _ _ 10 [] false 1 Reachable.empty (by simp) rfl
  have s2 : Reachable ⟨[(1, 1), (2, 2)], [(10, 1), (20, 2)],
      [(1, some [1]), (2, some [2])], 3, [2]⟩ :=
    Reachable.assign _ _ 20 [] true 2 s1 (by simp) rfl
  refine Reachable.assign _ _ 30 [10, 20] false 1 s2 ?_ rfl
  intro t ht
  simp only [List.mem_cons, List.mem_singleton, List.not_mem_nil, or_false] at ht
  rcases ht with rfl | rfl
  · exact ⟨1, rfl⟩
  · exact ⟨2, rfl⟩

/-- C19, as stated, fails: after `assign_partition_id(10, {}, false)`,
`assign_partition_id(20, {}, true)` and `assign_partition_id(30, {10, 20},
false)` from the empty state, the id 2 is in `surrender_set` and is not a key
of `reverse_pmap`: the merge into id 1 erased it. -/
theorem surrendered_id_not_live_after_merge :
    Reachable merged_surrender_state
      ∧ 2 ∈ merged_surrender_state.surrender_set
      ∧ map_find 2 merged_surrender_state.reverse_pmap = none
      ∧ ¬ I3 merged_surrender_state := by
  refine ⟨merged_surrender_state_reachable, by decide, rfl, ?_⟩
  intro h
  obtain ⟨s, hs⟩ := h 2 (by decide)
  have : map_find 2 merged_surrender_state.reverse_pmap = none := rfl
  rw [this] at hs
  cases hs

/-- C19, amended: in every state reachable from the empty state by a sequence
of `assign_partition_id` calls (with any surrender flags and any tag sets of
existing keys), every PartitionID in `surrender_set` is an id that has been
handed out (at least 1 and below `next_partition_id`), and a call with
`surrender` set returns an id that is in `surrender_set` and live right after
the call; a later merge does not take the id out of `surrender_set`. -/
theorem surrender_ids_allocated (st : PartitionState) (h : Reachable st) :
    (∀ p ∈ st.surrender_set, 1 ≤ p ∧ p < st.next_partition_id)
      ∧ (∀ f tags, (∀ t ∈ tags, ∃ c, map_find t st.partition_map = some c) →
          ∃ r st', assign_partition_id st f tags true = some (r, st')
            ∧ r ∈ st'.surrender_set ∧ (∃ s, map_find r st'.reverse_pmap = some s)
            ∧ ∀ p ∈ st.surrender_set, p ∈ st'.surrender_set) := by
  have hinv := allocated_ids_of_reachable st h
  refine ⟨hinv.2.2.2.2, fun f tags hkeys => ?_⟩
  obtain ⟨r, st', hrun, -, hlive, hsur⟩ := allocated_ids_step st f tags true hinv hkeys
  refine ⟨r, st', hrun, hsur rfl, hlive, ?_⟩
  intro p hp
  cases tags with
  | nil =>
    rw [assign_fresh_eq] at hrun
    cases hrun
    exact (mem_set_insert _ _ _).mpr (Or.inr hp)
  | cons t0 rest =>
    obtain ⟨c0, m, st'', -, hrun', -, -, hs, -, -, -, -, -, -, -⟩ :=
      reassign_outcome st t0 rest f hinv.1 hinv.2.1 hkeys
    rw [assign_union_eq st st'' f t0 m rest true hrun'] at hrun
    cases hrun
    simp only [if_true]
    rw [hs]
    exact (mem_set_insert _ _ _).mpr (Or.inr hp)

theorem surrender_ids_allocated_witness :
    Reachable merged_surrender_state
      ∧ ∀ p ∈ merged_surrender_state.surrender_set,
        1 ≤ p ∧ p < merged_surrender_state.next_partition_id :=
  ⟨merged_surrender_state_reachable,
    (surrender_ids_allocated merged_surrender_state merged_surrender_state_reachable).1⟩

/-! ## Two unions in either order -/

theorem is_min_id_unique (ids : List Nat) (m m' : Nat) (h : is_min_id ids m)
    (h' : is_min_id ids m') : m = m' :=
  Nat.le_antisymm (h.2 m' h'.1) (h'.2 m h.1)

theorem mem_map_relabel (ids1 ids2 : List Nat) (m1 q : Nat) :
    q ∈ ids2.map (relabel ids1 m1)
      ↔ (q = m1 ∧ ∃ p ∈ ids2, p ∈ ids1) ∨ (q ∈ ids2 ∧ q ∉ ids1) := by
  simp only [List.mem_map, relabel]
  constructor
  · rintro ⟨p, hp, rfl⟩
    by_cases h : p ∈ ids1
    · rw [if_pos h]; exact Or.inl ⟨rfl, p, hp, h⟩
    · rw [if_neg h]; exact Or.inr ⟨hp, h⟩
  · rintro (⟨rfl, p, hp, h⟩ | ⟨hq, h⟩)
    · exact ⟨p, hp, by rw [if_pos h]⟩
    · exact ⟨q, hq, by rw [if_neg h]⟩

/-- The smallest id after relabelling, when the two tag sets share an id. -/
theorem is_min_relabel_overlap (ids1 ids2 : List Nat) (m1 m2 : Nat)
    (h1 : is_min_id ids1 m1) (h2 : is_min_id ids2 m2) (hov : ∃ p ∈ ids2, p ∈ ids1) :
    is_min_id (ids2.map (relabel ids1 m1)) (min m1 m2) := by
  constructor
  · rw [mem_map_relabel]
    by_cases hle : m1 ≤ m2
    · exact Or.inl ⟨by omega, hov⟩
    · refine Or.inr ⟨by rw [show min m1 m2 = m2 by omega]; exact h2.1, ?_⟩
      rw [show min m1 m2 = m2 by omega]
      intro hin
      have := h1.2 m2 hin
      omega
  · intro q hq
    rw [mem_map_relabel] at hq
    rcases hq with ⟨rfl, -⟩ | ⟨hq, -⟩
    · omega
    · have := h2.2 q hq
      omega

/-- The smallest id after relabelling, when the two tag sets share no id. -/
theorem is_min_relabel_disjoint (ids1 ids2 : List Nat) (m1 m2 : Nat)
    (h2 : is_min_id ids2 m2) (hov : ¬ ∃ p ∈ ids2, p ∈ ids1) :
    is_min_id (ids2.map (relabel ids1 m1)) m2 := by
  have hno : ∀ p ∈ ids2, p ∉ ids1 := fun p hp h => hov ⟨p, hp, h⟩
  constructor
  · rw [mem_map_relabel]
    exact Or.inr ⟨h2.1, hno m2 h2.1⟩
  · intro q hq
    rw [mem_map_relabel] at hq
    rcases hq with ⟨-, h⟩ | ⟨hq, -⟩
    · exact absurd h hov
    · exact h2.2 q hq

theorem relabel_of_mem {ids : List Nat} {p : Nat} (m : Nat) (h : p ∈ ids) :
    relabel ids m p = m := if_pos h

theorem relabel_of_not_mem {ids : List Nat} {p : Nat} (m : Nat) (h : p ∉ ids) :
    relabel ids m p = p := if_neg h

/-- Relabelling by the first tag set and then by the second, when the two
share an id: every id of either set goes to the smaller minimum. -/
theorem relabel_twice_overlap (ids1 ids2 : List Nat) (m1 m2 mA : Nat)
    (h1 : is_min_id ids1 m1) (h2 : is_min_id ids2 m2)
    (hA : is_min_id (ids2.map (relabel ids1 m1)) mA) (hov : ∃ p ∈ ids2, p ∈ ids1) (p : Nat) :
    mA = min m1 m2
      ∧ relabel (ids2.map (relabel ids1 m1)) mA (relabel ids1 m1 p)
        = if p ∈ ids1 ∨ p ∈ ids2 then min m1 m2 else p := by
  have eA : mA = min m1 m2 :=
    is_min_id_unique _ _ _ hA (is_min_relabel_overlap ids1 ids2 m1 m2 h1 h2 hov)
  refine ⟨eA, ?_⟩
  by_cases hp1 : p ∈ ids1
  · rw [relabel_of_mem m1 hp1,
      relabel_of_mem mA ((mem_map_relabel _ _ _ _).mpr (Or.inl ⟨rfl, hov⟩)), if_pos (Or.inl hp1), eA]
  · rw [relabel_of_not_mem m1 hp1]
    by_cases hp2 : p ∈ ids2
    · rw [relabel_of_mem mA ((mem_map_relabel _ _ _ _).mpr (Or.inr ⟨hp2, hp1⟩)),
        if_pos (Or.inr hp2), eA]
    · rw [relabel_of_not_mem mA, if_neg (fun h => h.elim hp1 hp2)]
      rw [mem_map_relabel]
      rintro (⟨e, -⟩ | ⟨h, -⟩)
      · exact hp1 (e ▸ h1.1)
      · exact hp2 h

/-- Relabelling by the first tag set and then by the second, when the two
share no id: each set goes to its own minimum. -/
theorem relabel_twice_disjoint (ids1 ids2 : List Nat) (m1 m2 mA : Nat)
    (h1 : is_min_id ids1 m1) (h2 : is_min_id ids2 m2)
    (hA : is_min_id (ids2.map (relabel ids1 m1)) mA) (hov : ¬ ∃ p ∈ ids2, p ∈ ids1) (p : Nat) :
    mA = m2
      ∧ relabel (ids2.map (relabel ids1 m1)) mA (relabel ids1 m1 p)
        = if p ∈ ids1 then m1 else if p ∈ ids2 then m2 else p := by
  have eA : mA = m2 :=
    is_min_id_unique _ _ _ hA (is_min_relabel_disjoint ids1 ids2 m1 m2 h2 hov)
  refine ⟨eA, ?_⟩
  by_cases hp1 : p ∈ ids1
  · rw [relabel_of_mem m1 hp1, relabel_of_not_mem mA, if_pos hp1]
    rw [mem_map_relabel]
    rintro (⟨-, h⟩ | ⟨h, -⟩)
    · exact hov h
    · exact hov ⟨m1, h, h1.1⟩
  · rw [relabel_of_not_mem m1 hp1, if_neg hp1]
    by_cases hp2 : p ∈ ids2
    · rw [relabel_of_mem mA ((mem_map_relabel _ _ _ _).mpr (Or.inr ⟨hp2, hp1⟩)), if_pos hp2, eA]
    · rw [relabel_of_not_mem mA, if_neg hp2]
      rw [mem_map_relabel]
      rintro (⟨-, h⟩ | ⟨h, -⟩)
      · exact hov h
      · exact hp2 h

/-- Two relabellings commute. -/
theorem relabel_comm (ids1 ids2 : List Nat) (m1 m2 mA mB : Nat)
    (h1 : is_min_id ids1 m1) (h2 : is_min_id ids2 m2)
    (hA : is_min_id (ids2.map (relabel ids1 m1)) mA)
    (hB : is_min_id (ids1.map (relabel ids2 m2)) mB) :
    (∀ p, relabel (ids2.map (relabel ids1 m1)) mA (relabel ids1 m1 p)
        = relabel (ids1.map (relabel ids2 m2)) mB (relabel ids2 m2 p))
      ∧ relabel (ids2.map (relabel ids1 m1)) mA m1 = mB
      ∧ mA = relabel (ids1.map (relabel ids2 m2)) mB m2 := by
  by_cases hov : ∃ p ∈ ids2, p ∈ ids1
  · have hov' : ∃ p ∈ ids1, p ∈ ids2 := by
      obtain ⟨p, a, b⟩ := hov; exact ⟨p, b, a⟩
    have kA := relabel_twice_overlap ids1 ids2 m1 m2 mA h1 h2 hA hov
    have kB := relabel_twice_overlap ids2 ids1 m2 m1 mB h2 h1 hB hov'
    have eA := (kA 0).1
    have eB : mB = min m1 m2 := by rw [(kB 0).1]; exact Nat.min_comm _ _
    refine ⟨fun p => ?_, ?_, ?_⟩
    · rw [(kA p).2, (kB p).2, Nat.min_comm m2 m1]
      by_cases a : p ∈ ids1 <;> by_cases b : p ∈ ids2 <;> simp [a, b]
    · rw [relabel_of_mem mA ((mem_map_relabel _ _ _ _).mpr (Or.inl ⟨rfl, hov⟩)), eA, eB]
    · rw [relabel_of_mem mB ((mem_map_relabel _ _ _ _).mpr (Or.inl ⟨rfl, hov'⟩)), eA, eB]
  · have hov' : ¬ ∃ p ∈ ids1, p ∈ ids2 := by
      rintro ⟨p, a, b⟩; exact hov ⟨p, b, a⟩
    have kA := relabel_twice_disjoint ids1 ids2 m1 m2 mA h1 h2 hA hov
    have kB := relabel_twice_disjoint ids2 ids1 m2 m1 mB h2 h1 hB hov'
    have eA := (kA 0).1
    have eB := (kB 0).1
    refine ⟨fun p => ?_, ?_, ?_⟩
    · rw [(kA p).2, (kB p).2]
      by_cases a : p ∈ ids1 <;> by_cases b : p ∈ ids2 <;> simp [a, b]
      exact absurd ⟨p, b, a⟩ hov
    · rw [relabel_of_not_mem mA, eB]
      rw [mem_map_relabel]
      rintro (⟨-, h⟩ | ⟨h, -⟩)
      · exact hov h
      · exact hov ⟨m1, h, h1.1⟩
    · rw [relabel_of_not_mem mB, eA]
      rw [mem_map_relabel]
      rintro (⟨-, h⟩ | ⟨h, -⟩)
      · exact hov' h
      · exact hov' ⟨m2, h, h2.1⟩

theorem mem_tag_ids (st : PartitionState) (tags : List Nat) (p : Nat) :
    p ∈ tag_ids st tags ↔ ∃ t ∈ tags, pid_of st t = some p := by
  unfold tag_ids
  rw [List.mem_filterMap]

theorem relabel_congr (ids ids' : List Nat) (m p : Nat) (h : ∀ q, q ∈ ids ↔ q ∈ ids') :
    relabel ids m p = relabel ids' m p := by
  unfold relabel
  by_cases hp : p ∈ ids
  · rw [if_pos hp, if_pos ((h p).mp hp)]
  · rw [if_neg hp, if_neg (fun h' => hp ((h p).mpr h'))]

theorem is_min_id_congr (ids ids' : List Nat) (m : Nat) (h : ∀ q, q ∈ ids ↔ q ∈ ids')
    (hm : is_min_id ids m) : is_min_id ids' m :=
  ⟨(h m).mp hm.1, fun p hp => hm.2 p ((h p).mpr hp)⟩

/-- The union branch for a key `f` that is new to the partition map: the call
returns the smallest id of the tags, keeps I1 and I2, binds `f` to that id and
relabels the id of every other key. -/
theorem assign_union_pid (st : PartitionState) (f : Nat) (tags : List Nat)
    (surrender : Bool) (h1 : I1 st) (h2 : I2 st) (hne : tags ≠ [])
    (hkeys : ∀ t ∈ tags, ∃ c, map_find t st.partition_map = some c)
    (hf : map_find f st.partition_map = none) :
    ∃ m st', assign_partition_id st f tags surrender = some (m, st')
      ∧ I1 st' ∧ I2 st'
      ∧ is_min_id (tag_ids st tags) m
      ∧ (∀ x, x ≠ f → map_find x st'.partition_map = map_find x st.partition_map)
      ∧ (∃ c, map_find f st'.partition_map = some c)
      ∧ pid_of st' f = some m
      ∧ (∀ x, x ≠ f → pid_of st' x = (pid_of st x).map (relabel (tag_ids st tags) m)) := by
  have hft : ∀ t ∈ tags, t ≠ f := fun t ht e => by
    obtain ⟨c, hc⟩ := hkeys t ht
    rw [e, hf] at hc; cases hc
  cases tags with
  | nil => exact absurd rfl hne
  | cons t0 rest =>
    obtain ⟨c0, m, st', hc0, hrun, hpm, -, -, hall, hex, hI1, hI2, hcell, -, -⟩ :=
      reassign_outcome st t0 rest f h1 h2 hkeys
    have hfr : ∀ t ∈ rest, t ≠ f := fun t ht => hft t (List.mem_cons_of_mem _ ht)
    have htag : ∀ p, (∃ t ∈ t0 :: rest, ∃ c', map_find t (map_set f c0 st.partition_map) = some c'
        ∧ map_find c' st.cells = some p) ↔ p ∈ tag_ids st (t0 :: rest) := by
      intro p
      rw [mem_tag_ids]
      constructor
      · rintro ⟨t, ht, c', a, b⟩
        rw [tag_find_eq st t0 rest f c0 hc0 hfr t ht] at a
        exact ⟨t, ht, by rw [pid_of_eq st t c' a]; exact b⟩
      · rintro ⟨t, ht, a⟩
        obtain ⟨c', b, d⟩ := pid_of_some st t p a
        exact ⟨t, ht, c', by rw [tag_find_eq st t0 rest f c0 hc0 hfr t ht]; exact b, d⟩
    have hmin : is_min_id (tag_ids st (t0 :: rest)) m := by
      constructor
      · obtain ⟨t, ht, c, a, b⟩ := hex
        exact (htag m).mp ⟨t, ht, c, a, b⟩
      · intro p hp
        obtain ⟨t, ht, c, a, b⟩ := (htag p).mpr hp
        exact hall t ht c p a b
    obtain ⟨-, p0, s0, hc0p, -, -⟩ := h1 t0 c0 hc0
    have hp0 : pid_of st t0 = some p0 := by rw [pid_of_eq st t0 c0 hc0]; exact hc0p
    have hfm : map_find c0 st'.cells = some m := by
      rw [hcell t0 c0 p0 hc0 hc0p,
        if_pos ((htag p0).mpr ((mem_tag_ids _ _ _).mpr ⟨t0, List.mem_cons_self _ _, hp0⟩))]
    have hfc : map_find f st'.partition_map = some c0 := by
      rw [hpm]; exact map_find_set_eq _ _ _
    refine ⟨m, _, assign_union_eq st st' f t0 m rest surrender hrun, hI1, hI2, hmin, ?_,
      ⟨c0, hfc⟩, ?_, ?_⟩
    · intro x hxf
      show map_find x st'.partition_map = _
      rw [hpm, map_find_set_ne _ _ _ _ hxf]
    · show (map_find f st'.partition_map).bind (fun c => map_find c st'.cells) = some m
      rw [hfc]; exact hfm
    · intro x hxf
      show (map_find x st'.partition_map).bind (fun c => map_find c st'.cells) = _
      rw [hpm, map_find_set_ne _ _ _ _ hxf]
      cases hc : map_find x st.partition_map with
      | none =>
        have : pid_of st x = none := by unfold pid_of; rw [hc]; rfl
        rw [this]; rfl
      | some c =>
        obtain ⟨-, p, s, hcp, -, -⟩ := h1 x c hc
        have hxp : pid_of st x = some p := by rw [pid_of_eq st x c hc]; exact hcp
        rw [hxp]
        show map_find c st'.cells = some (relabel (tag_ids st (t0 :: rest)) m p)
        rw [hcell x c p hc hcp]
        unfold relabel
        by_cases hp : p ∈ tag_ids st (t0 :: rest)
        · rw [if_pos hp, if_pos ((htag p).mpr hp)]
        · rw [if_neg hp, if_neg (fun h => hp ((htag p).mp h))]

/-- The ids of a tag set after a union for a key that is not one of the tags. -/
theorem tag_ids_after (st st' : PartitionState) (f : Nat) (tags : List Nat) (r : Nat → Nat)
    (hft : ∀ t ∈ tags, t ≠ f)
    (hpid : ∀ x, x ≠ f → pid_of st' x = (pid_of st x).map r) :
    tag_ids st' tags = (tag_ids st tags).map r := by
  unfold tag_ids
  rw [List.map_filterMap]
  apply List.filterMap_congr
  intro t ht
  exact hpid t (hft t ht)

/-- Two unions for two new keys, one after the other: both calls return and
every key has the id given by the two relabellings. -/
theorem assign_twice_pid (st : PartitionState) (f1 f2 : Nat) (tags1 tags2 : List Nat)
    (s1 s2 : Bool) (h1 : I1 st) (h2 : I2 st) (hne1 : tags1 ≠ []) (hne2 : tags2 ≠ [])
    (hk1 : ∀ t ∈ tags1, ∃ c, map_find t st.partition_map = some c)
    (hk2 : ∀ t ∈ tags2, ∃ c, map_find t st.partition_map = some c)
    (hf1 : map_find f1 st.partition_map = none) (hf2 : map_find f2 st.partition_map = none)
    (hff : f1 ≠ f2) :
    ∃ m1 st1 mA stA, assign_partition_id st f1 tags1 s1 = some (m1, st1)
      ∧ assign_partition_id st1 f2 tags2 s2 = some (mA, stA)
      ∧ is_min_id (tag_ids st tags1) m1
      ∧ is_min_id ((tag_ids st tags2).map (relabel (tag_ids st tags1) m1)) mA
      ∧ pid_of stA f2 = some mA
      ∧ pid_of stA f1 = some (relabel ((tag_ids st tags2).map (relabel (tag_ids st tags1) m1)) mA m1)
      ∧ (∀ x, x ≠ f1 → x ≠ f2 → pid_of stA x = (pid_of st x).map (fun p =>
          relabel ((tag_ids st tags2).map (relabel (tag_ids st tags1) m1)) mA
            (relabel (tag_ids st tags1) m1 p))) := by
  obtain ⟨m1, st1, hrun1, hI1, hI2, hmin1, hkeep1, -, hpf1, hpid1⟩ :=
    assign_union_pid st f1 tags1 s1 h1 h2 hne1 hk1 hf1
  have hft2 : ∀ t ∈ tags2, t ≠ f1 := fun t ht e => by
    obtain ⟨c, hc⟩ := hk2 t ht
    rw [e, hf1] at hc; cases hc
  have hk2' : ∀ t ∈ tags2, ∃ c, map_find t st1.partition_map = some c := fun t ht => by
    rw [hkeep1 t (hft2 t ht)]; exact hk2 t ht
  have hf2' : map_find f2 st1.partition_map = none := by
    rw [hkeep1 f2 (Ne.symm hff)]; exact hf2
  obtain ⟨mA, stA, hrunA, -, -, hminA, -, -, hpfA, hpidA⟩ :=
    assign_union_pid st1 f2 tags2 s2 hI1 hI2 hne2 hk2' hf2'
  have hids : tag_ids st1 tags2 = (tag_ids st tags2).map (relabel (tag_ids st tags1) m1) :=
    tag_ids_after st st1 f1 tags2 _ hft2 hpid1
  rw [hids] at hminA hpidA
  refine ⟨m1, st1, mA, stA, hrun1, hrunA, hmin1, hminA, hpfA, ?_, ?_⟩
  · rw [hpidA f1 hff, hpf1]; rfl
  · intro x hx1 hx2
    rw [hpidA x hx2, hpid1 x hx1]
    cases pid_of st x <;> rfl

/-- C20, as stated, fails. In `three_partitions` (I1 and I2 hold; key 20 has
id 1, key 10 id 2, key 25 id 3) the requests (25, {10}) and (20, {25}) over
existing keys leave key 20 with id 2 in one order and with id 3 in the other,
in a class with key 25 in one and alone in the other. In `two_partitions` two
requests for the same new key, (30, {10}) and (30, {20}), leave key 30 with
id 2 in one order and with id 1 in the other. And in `shared_cell_state` the
request for key 20 with the tags 10 and 20 leaves key 30 with id 2 when 10 is
visited first and with id 1 when 20 is visited first. -/
theorem assign_order_dependent :
    I1 three_partitions ∧ I2 three_partitions
      ∧ ((assign_partition_id three_partitions 25 [10] false).bind
            (fun rs => assign_partition_id rs.2 20 [25] false)).map
          (fun rs => (pid_of rs.2 10, pid_of rs.2 20, pid_of rs.2 25))
          = some (some 2, some 2, some 2)
      ∧ ((assign_partition_id three_partitions 20 [25] false).bind
            (fun rs => assign_partition_id rs.2 25 [10] false)).map
          (fun rs => (pid_of rs.2 10, pid_of rs.2 20, pid_of rs.2 25))
          = some (some 2, some 3, some 2)
      ∧ I1 two_partitions ∧ I2 two_partitions
      ∧ ((assign_partition_id two_partitions 30 [10] false).bind
            (fun rs => assign_partition_id rs.2 30 [20] false)).map
          (fun rs => (pid_of rs.2 10, pid_of rs.2 20, pid_of rs.2 30))
          = some (some 1, some 2, some 2)
      ∧ ((assign_partition_id two_partitions 30 [20] false).bind
            (fun rs => assign_partition_id rs.2 30 [10] false)).map
          (fun rs => (pid_of rs.2 10, pid_of rs.2 20, pid_of rs.2 30))
          = some (some 1, some 2, some 1)
      ∧ I1 shared_cell_state ∧ I2 shared_cell_state
      ∧ (assign_partition_id shared_cell_state 20 [10, 20] false).map
          (fun rs => pid_of rs.2 30) = some (some 2)
      ∧ (assign_partition_id shared_cell_state 20 [20, 10] false).map
          (fun rs => pid_of rs.2 30) = some (some 1) :=
  ⟨check_I1_sound _ (by decide), check_I2_sound _ (by decide), rfl, rfl,
    check_I1_sound _ (by decide), check_I2_sound _ (by decide), rfl, rfl,
    check_I1_sound _ (by decide), check_I2_sound _ (by decide), rfl, rfl⟩

/-- C20, amended: for every partition state satisfying I1 and I2 and any two
union requests (f1, tags1) and (f2, tags2) with non-empty tag sets of existing
keys and two different keys f1 and f2 that are not yet keys of the partition
map, the calls of `assign_partition_id` return in either order and leave every
key with the same PartitionID (hence the same classes of keys); and the value
one such request returns and the PartitionID it leaves every key with do not
depend on the order in which the members of its tag set are visited. -/
theorem assign_order_independent (st : PartitionState) (f1 f2 : Nat) (tags1 tags2 : List Nat)
    (s1 s2 : Bool) (h1 : I1 st) (h2 : I2 st) (hne1 : tags1 ≠ []) (hne2 : tags2 ≠ [])
    (hk1 : ∀ t ∈ tags1, ∃ c, map_find t st.partition_map = some c)
    (hk2 : ∀ t ∈ tags2, ∃ c, map_find t st.partition_map = some c)
    (hf1 : map_find f1 st.partition_map = none) (hf2 : map_find f2 st.partition_map = none)
    (hff : f1 ≠ f2) :
    (∃ r1 st1 r12 st12 r2 st2 r21 st21,
        assign_partition_id st f1 tags1 s1 = some (r1, st1)
        ∧ assign_partition_id st1 f2 tags2 s2 = some (r12, st12)
        ∧ assign_partition_id st f2 tags2 s2 = some (r2, st2)
        ∧ assign_partition_id st2 f1 tags1 s1 = some (r21, st21)
        ∧ ∀ x, pid_of st12 x = pid_of st21 x)
      ∧ (∀ tags1', (∀ t, t ∈ tags1' ↔ t ∈ tags1) →
          ∃ r st1 st1', assign_partition_id st f1 tags1 s1 = some (r, st1)
            ∧ assign_partition_id st f1 tags1' s1 = some (r, st1')
            ∧ ∀ x, pid_of st1 x = pid_of st1' x) := by
  constructor
  · obtain ⟨m1, st1, mA, stA, hrun1, hrunA, hmin1, hminA, hA2, hA1, hAx⟩ :=
      assign_twice_pid st f1 f2 tags1 tags2 s1 s2 h1 h2 hne1 hne2 hk1 hk2 hf1 hf2 hff
    obtain ⟨m2, st2, mB, stB, hrun2, hrunB, hmin2, hminB, hB1, hB2, hBx⟩ :=
      assign_twice_pid st f2 f1 tags2 tags1 s2 s1 h1 h2 hne2 hne1 hk2 hk1 hf2 hf1 (Ne.symm hff)
    obtain ⟨hc, hc1, hc2⟩ :=
      relabel_comm (tag_ids st tags1) (tag_ids st tags2) m1 m2 mA mB hmin1 hmin2 hminA hminB
    refine ⟨m1, st1, mA, stA, m2, st2, mB, stB, hrun1, hrunA, hrun2, hrunB, ?_⟩
    intro x
    by_cases hx1 : x = f1
    · rw [hx1, hA1, hB1, hc1]
    · by_cases hx2 : x = f2
      · rw [hx2, hA2, hB2, hc2]
      · rw [hAx x hx1 hx2, hBx x hx2 hx1]
        cases pid_of st x with
        | none => rfl
        | some p => exact congrArg some (hc p)
  · intro tags1' hmem
    have hne1' : tags1' ≠ [] := by
      cases tags1 with
      | nil => exact absurd rfl hne1
      | cons t0 rest =>
        intro e
        have := (hmem t0).mpr (List.mem_cons_self _ _)
        rw [e] at this; cases this
    have hk1' : ∀ t ∈ tags1', ∃ c, map_find t st.partition_map = some c :=
      fun t ht => hk1 t ((hmem t).mp ht)
    obtain ⟨m, st1, hrun, -, -, hmin, -, -, hpf, hpid⟩ :=
      assign_union_pid st f1 tags1 s1 h1 h2 hne1 hk1 hf1
    obtain ⟨m', st1', hrun', -, -, hmin', -, -, hpf', hpid'⟩ :=
      assign_union_pid st f1 tags1' s1 h1 h2 hne1' hk1' hf1
    have hids : ∀ q, q ∈ tag_ids st tags1' ↔ q ∈ tag_ids st tags1 := by
      intro q
      rw [mem_tag_ids, mem_tag_ids]
      constructor
      · rintro ⟨t, ht, a⟩; exact ⟨t, (hmem t).mp ht, a⟩
      · rintro ⟨t, ht, a⟩; exact ⟨t, (hmem t).mpr ht, a⟩
    have hmm : m' = m :=
      is_min_id_unique _ _ _ (is_min_id_congr _ _ _ hids hmin') hmin
    rw [hmm] at hrun' hpf' hpid'
    refine ⟨m, st1, st1', hrun, hrun', ?_⟩
    intro x
    by_cases hx : x = f1
    · rw [hx, hpf, hpf']
    · rw [hpid x hx, hpid' x hx]
      cases pid_of st x with
      | none => rfl
      | some p => exact congrArg some (relabel_congr _ _ _ _ (fun q => (hids q).symm))

theorem two_partitions_key_10 :
    ∀ t ∈ [10], ∃ c, map_find t two_partitions.partition_map = some c := by
  intro t ht
  rw [List.mem_singleton.mp ht]
  exact ⟨1, rfl⟩

theorem two_partitions_key_20 :
    ∀ t ∈ [20], ∃ c, map_find t two_partitions.partition_map = some c := by
  intro t ht
  rw [List.mem_singleton.mp ht]
  exact ⟨2, rfl⟩

theorem assign_order_independent_witness :
    I1 two_partitions ∧ I2 two_partitions ∧ [10] ≠ [] ∧ [20] ≠ []
      ∧ (∀ t ∈ [10], ∃ c, map_find t two_partitions.partition_map = some c)
      ∧ (∀ t ∈ [20], ∃ c, map_find t two_partitions.partition_map = some c)
      ∧ map_find 30 two_partitions.partition_map = none
      ∧ map_find 40 two_partitions.partition_map = none
      ∧ 30 ≠ 40
      ∧ ∃ r1 st1 r12 st12 r2 st2 r21 st21,
        assign_partition_id two_partitions 30 [10] false = some (r1, st1)
        ∧ assign_partition_id st1 40 [20] false = some (r12, st12)
        ∧ assign_partition_id two_partitions 40 [20] false = some (r2, st2)
        ∧ assign_partition_id st2 30 [10] false = some (r21, st21)
        ∧ ∀ x, pid_of st12 x = pid_of st21 x :=
  ⟨check_I1_sound _ (by decide), check_I2_sound _ (by decide), by decide, by decide,
    two_partitions_key_10, two_partitions_key_20, rfl, rfl, by decide,
    (assign_order_independent two_partitions 30 40 [10] [20] false false
      (check_I1_sound _ (by decide)) (check_I2_sound _ (by decide)) (by decide) (by decide)
      two_partitions_key_10 two_partitions_key_20 rfl rfl (by decide)).1⟩

/-! ## The NEXT and PREVIOUS steps are inverse to each other -/

/-- C30: for every k in 1..32, every k-mer `x` over A, C, G, T with its pair of
encodings `(f, r)` (`r` the encoding of the reverse complement) and every base
`b`, the NEXT computation of the graph walks gives the pair of `x[1..k) + b`,
the PREVIOUS computation gives the pair of `b + x[0..k-1)`, in both pairs the
second component is the encoding of the reverse complement of the k-mer of the
first, PREVIOUS with the base `x[0]` applied to the result of NEXT gives
`(f, r)` again, and so does NEXT with the base `x[k-1]` applied to the result
of PREVIOUS. -/
theorem next_previous_pair_inverse (ht : Hashtable) (x : List Char) (b : Char)
    (hk1 : 1 ≤ ht.ksize) (hk : ht.ksize ≤ 32) (hx : x.length = ht.ksize) (hs : is_acgt x)
    (hb : b = 'A' ∨ b = 'C' ∨ b = 'G' ∨ b = 'T') :
    ht.next_pair (kmer_pair x).1 (kmer_pair x).2 b = kmer_pair (x.tail ++ [b])
      ∧ ht.previous_pair (kmer_pair x).1 (kmer_pair x).2 b = kmer_pair (b :: x.dropLast)
      ∧ (kmer_pair (x.tail ++ [b])).2 = (kmer_pair (reverse_complement (x.tail ++ [b]))).1
      ∧ (kmer_pair (b :: x.dropLast)).2 = (kmer_pair (reverse_complement (b :: x.dropLast))).1
      ∧ (kmer_pair x).2 = (kmer_pair (reverse_complement x)).1
      ∧ ht.previous_pair (ht.next_pair (kmer_pair x).1 (kmer_pair x).2 b).1
          (ht.next_pair (kmer_pair x).1 (kmer_pair x).2 b).2 (c_str x 0) = kmer_pair x
      ∧ ht.next_pair (ht.previous_pair (kmer_pair x).1 (kmer_pair x).2 b).1
          (ht.previous_pair (kmer_pair x).1 (kmer_pair x).2 b).2 (c_str x (ht.ksize - 1))
          = kmer_pair x := by
  have hnext := next_pair_kmer ht x b hx hk1 hk
  have hprev := previous_pair_kmer ht x b hx hk1 hk
  have hother : ∀ y : List Char, is_acgt y → (kmer_pair y).2 = (kmer_pair (reverse_complement y)).1 :=
    fun y hy => by rw [kmer_pair_reverse_complement y hy]
  have hnb := kmer_neighbours_kmer x (x.tail ++ [b]) ht.ksize hk1 hx hs
    ((mem_kmer_neighbours x _).mpr ⟨b, hb, Or.inl rfl⟩)
  have hpb := kmer_neighbours_kmer x (b :: x.dropLast) ht.ksize hk1 hx hs
    ((mem_kmer_neighbours x _).mpr ⟨b, hb, Or.inr rfl⟩)
  refine ⟨hnext, hprev, hother _ hnb.2, hother _ hpb.2, hother x hs, ?_, ?_⟩
  · rw [hnext, previous_pair_kmer ht _ _ hnb.1 hk1 hk]
    cases x with
    | nil => simp at hx; omega
    | cons c0 w =>
      have : c_str (c0 :: w) 0 = c0 := rfl
      rw [this, List.tail_cons, List.dropLast_concat]
  · rw [hprev, next_pair_kmer ht _ _ hpb.1 hk1 hk, List.tail_cons]
    have hne : x ≠ [] := by
      intro e; rw [e] at hx; simp at hx; omega
    have hlast : c_str x (ht.ksize - 1) = x.getLast hne := by
      unfold c_str
      rw [List.getLast_eq_getElem, List.getD_eq_getElem?_getD,
        List.getElem?_eq_getElem (by omega)]
      simp [hx]
    rw [hlast, List.dropLast_append_getLast hne]

/-- The steps from ACG with the base T, for k = 3. -/
theorem next_previous_pair_inverse_witness :
    1 ≤ (empty_table 3 5).ksize ∧ (empty_table 3 5).ksize ≤ 32
      ∧ ['A', 'C', 'G'].length = (empty_table 3 5).ksize ∧ is_acgt ['A', 'C', 'G']
      ∧ (empty_table 3 5).next_pair (kmer_pair ['A', 'C', 'G']).1 (kmer_pair ['A', 'C', 'G']).2 'T'
          = kmer_pair ['C', 'G', 'T']
      ∧ (empty_table 3 5).previous_pair (kmer_pair ['A', 'C', 'G']).1
          (kmer_pair ['A', 'C', 'G']).2 'T' = kmer_pair ['T', 'A', 'C'] :=
  ⟨by decide, by decide, by decide, by decide,
    (next_previous_pair_inverse (empty_table 3 5) ['A', 'C', 'G'] 'T' (by decide) (by decide)
      (by decide) (by decide) (by decide)).1,
    (next_previous_pair_inverse (empty_table 3 5) ['A', 'C', 'G'] 'T' (by decide) (by decide)
      (by decide) (by decide) (by decide)).2.1⟩

/-! ## consume_fasta -/

theorem check_read_congr (ht ht' : Hashtable) (h : ht.ksize = ht'.ksize) (read : List Char) :
    ht'.check_read read = ht.check_read read := by
  unfold Hashtable.check_read
  rw [h]

/-- The value `consume_string` returns does not depend on the counters. -/
theorem consume_string_fst_congr (u : Nat → Nat → Nat) (ht ht' : Hashtable)
    (h : ht.ksize = ht'.ksize) (s : List Char) (lo hi : Nat) :
    (ht'.consume_string u s lo hi).1 = (ht.consume_string u s lo hi).1 := by
  have hbin : ∀ (bounded : Bool) (bin : Nat) (c c' : Nat → Nat) (n : Nat),
      (ht'.consume_bin bounded lo hi bin c' n).2 = (ht.consume_bin bounded lo hi bin c n).2 := by
    intro bounded bin c c' n
    unfold Hashtable.consume_bin
    by_cases hb : in_bounds bounded lo hi bin = true
    · simp only [hb, if_true]
    · simp only [hb]
      rfl
  have hroll : ∀ a b c, ht'.roll a b c = ht.roll a b c := by
    intro a b c
    unfold Hashtable.roll Hashtable.bitmask
    rw [h]
  have hfold : ∀ (l : List Char) (st st' : ConsumeState),
      st'.h = st.h → st'.r = st.r → st'.n_consumed = st.n_consumed →
      (l.foldl (ht'.consume_string_body u lo hi) st').n_consumed
        = (l.foldl (ht.consume_string_body u lo hi) st).n_consumed := by
    intro l
    induction l with
    | nil => intro st st' _ _ hn; exact hn
    | cons c l ih =>
      intro st st' hh hr hn
      rw [List.foldl_cons, List.foldl_cons]
      apply ih
      · show (ht'.roll st'.h st'.r c).1 = (ht.roll st.h st.r c).1
        rw [hroll, hh, hr]
      · show (ht'.roll st'.h st'.r c).2 = (ht.roll st.h st.r c).2
        rw [hroll, hh, hr]
      · show (ht'.consume_bin _ lo hi _ st'.counts st'.n_consumed).2
          = (ht.consume_bin _ lo hi _ st.counts st.n_consumed).2
        rw [hroll, hh, hr, hn]
        exact hbin _ _ _ _ _
  unfold Hashtable.consume_string
  show ConsumeState.n_consumed _ = ConsumeState.n_consumed _
  rw [← h]
  apply hfold
  · show (hash_init u s ht'.ksize).2.1 = (hash_init u s ht.ksize).2.1
    rw [h]
  · show (hash_init u s ht'.ksize).2.2 = (hash_init u s ht.ksize).2.2
    rw [h]
  · show (ht'.consume_bin _ lo hi _ ht'.counts 0).2 = (ht.consume_bin _ lo hi _ ht.counts 0).2
    rw [← h]
    exact hbin _ _ _ _ _

theorem check_and_process_read_ksize (u : Nat → Nat → Nat) (ht : Hashtable) (read : List Char)
    (lo hi : Nat) : (ht.check_and_process_read u read lo hi).2.2.ksize = ht.ksize := by
  unfold Hashtable.check_and_process_read
  by_cases hv : ht.check_read read = true
  · simp [hv, consume_string_ksize]
  · simp [hv]

/-- The mask that `consume_fasta` builds from `masklist`: the bits of the list
are cleared, the others are set. -/
theorem readmask_from_list (masklist : List Nat) (mask : List Bool) :
    (masklist.foldl (fun mask i => readmask_set mask i false) mask).length = mask.length
      ∧ ∀ i, i < mask.length →
        ((masklist.foldl (fun mask i => readmask_set mask i false) mask).getD i true = false
          ↔ (i ∈ masklist ∨ mask.getD i true = false)) := by
  induction masklist generalizing mask with
  | nil => exact ⟨rfl, fun i _ => by simp⟩
  | cons j rest ih =>
    obtain ⟨hl, hb⟩ := ih (readmask_set mask j false)
    have hlen : (readmask_set mask j false).length = mask.length := by
      simp [readmask_set]
    refine ⟨by rw [List.foldl_cons, hl, hlen], ?_⟩
    intro i hi
    rw [List.foldl_cons, hb i (by rw [hlen]; exact hi)]
    have hget : (readmask_set mask j false).getD i true = false
        ↔ (i = j ∨ mask.getD i true = false) := by
      unfold readmask_set
      rw [List.getD_eq_getElem?_getD, List.getD_eq_getElem?_getD, List.getElem?_set]
      by_cases hij : j = i
      · subst hij
        simp [hi]
      · simp [hij, Ne.symm hij]
    rw [hget, List.mem_cons]
    tauto

/-- The loop of `consume_fasta` when no mask is supplied and the mask is to be
updated. -/
theorem consume_fasta_fold (u : Nat → Nat → Nat) (lo hi : Nat)
    (reads : List (String × List Char)) (st : FastaState) (hmask : st.readmask = none) :
    (reads.foldl (consume_fasta_read u lo hi true) st).readmask = none
      ∧ (reads.foldl (consume_fasta_read u lo hi true) st).ht.ksize = st.ht.ksize
      ∧ (reads.foldl (consume_fasta_read u lo hi true) st).total_reads
          = st.total_reads + reads.length
      ∧ (reads.foldl (consume_fasta_read u lo hi true) st).n_consumed
          = st.n_consumed + ((reads.filter (fun r => st.ht.check_read r.2)).map
              (fun r => (st.ht.consume_string u r.2 lo hi).1)).sum
      ∧ (∀ i, i ∈ (reads.foldl (consume_fasta_read u lo hi true) st).masklist ↔
          (i ∈ st.masklist ∨ ∃ j, ∃ h : j < reads.length, i = st.total_reads + j
            ∧ st.ht.check_read (reads.get ⟨j, h⟩).2 = false)) := by
  induction reads generalizing st with
  | nil =>
    refine ⟨hmask, rfl, rfl, by simp, ?_⟩
    intro i
    simp
  | cons read rest ih =>
    rw [List.foldl_cons]
    -- the state after the first read
    have hstep : (consume_fasta_read u lo hi true st read).readmask = none
        ∧ (consume_fasta_read u lo hi true st read).ht.ksize = st.ht.ksize
        ∧ (consume_fasta_read u lo hi true st read).total_reads = st.total_reads + 1
        ∧ (consume_fasta_read u lo hi true st read).n_consumed
            = st.n_consumed + (if st.ht.check_read read.2 = true
                then (st.ht.consume_string u read.2 lo hi).1 else 0)
        ∧ (consume_fasta_read u lo hi true st read).masklist
            = (if st.ht.check_read read.2 = true then st.masklist
                else st.masklist ++ [st.total_reads]) := by
      unfold consume_fasta_read
      simp only [hmask]
      by_cases hv : st.ht.check_read read.2 = true
      · simp [Hashtable.check_and_process_read, hv, hmask, consume_string_ksize]
      · simp [Hashtable.check_and_process_read, hv, hmask]
    obtain ⟨h1, h2, h3, h4, h5⟩ := hstep
    obtain ⟨i1, i2, i3, i4, i5⟩ := ih (consume_fasta_read u lo hi true st read) h1
    have hcr : ∀ r : List Char, (consume_fasta_read u lo hi true st read).ht.check_read r
        = st.ht.check_read r := fun r => check_read_congr _ _ h2.symm r
    have hcs : ∀ r : List Char,
        ((consume_fasta_read u lo hi true st read).ht.consume_string u r lo hi).1
          = (st.ht.consume_string u r lo hi).1 :=
      fun r => consume_string_fst_congr u _ _ h2.symm r lo hi
    refine ⟨i1, by rw [i2, h2], by rw [i3, h3, List.length_cons]; omega, ?_, ?_⟩
    · rw [i4, h4]
      simp only [hcr, hcs]
      by_cases hv : st.ht.check_read read.2 = true
      · rw [if_pos hv, List.filter_cons_of_pos (by simpa using hv), List.map_cons, List.sum_cons]
        omega
      · rw [if_neg hv, List.filter_cons_of_neg (by simpa using hv)]
        omega
    · intro i
      rw [i5, h5, h3]
      simp only [hcr]
      constructor
      · rintro (hi | ⟨j, hj, rfl, hjv⟩)
        · by_cases hv : st.ht.check_read read.2 = true
          · rw [if_pos hv] at hi; exact Or.inl hi
          · rw [if_neg hv] at hi
            rcases List.mem_append.mp hi with hi | hi
            · exact Or.inl hi
            · refine Or.inr ⟨0, by simp, by rw [List.mem_singleton.mp hi]; rfl, ?_⟩
              simpa using hv
        · exact Or.inr ⟨j + 1, by simp; omega, by omega, by simpa using hjv⟩
      · rintro (hi | ⟨j, hj, rfl, hjv⟩)
        · left
          by_cases hv : st.ht.check_read read.2 = true
          · rw [if_pos hv]; exact hi
          · rw [if_neg hv]; exact List.mem_append_left _ hi
        · cases j with
          | zero =>
            left
            have hv : ¬ st.ht.check_read read.2 = true := by
              simp only [List.get_eq_getElem, List.getElem_cons_zero] at hjv
              rw [hjv]; simp
            rw [if_neg hv]
            exact List.mem_append_right _ (List.mem_singleton.mpr rfl)
          | succ j =>
            right
            refine ⟨j, by simpa using hj, by omega, ?_⟩
            simpa using hjv

/-- C29: for every list of reads, `consume_fasta` called with no read mask
supplied (a pointer to a null pointer) and `update_readmask` set hands back a
mask of as many bits as there are records, in which bit `i` is cleared if and
only if read `i` is invalid (`check_read` fails: shorter than k or with a
character outside A, C, G, T); `total_reads` is the number of records, and
`n_consumed` is the sum of the values `consume_string` returns for the valid
reads (a value that does not depend on the counters). -/
theorem consume_fasta_hands_back_mask (uniqify_rc : Nat → Nat → Nat) (ht : Hashtable)
    (reads : List (String × List Char)) (lower_bound upper_bound : Nat) :
    ∃ ht' mask,
      ht.consume_fasta uniqify_rc reads lower_bound upper_bound (some none) true
        = (ht', reads.length,
            ((reads.filter (fun r => ht.check_read r.2)).map
              (fun r => (ht.consume_string uniqify_rc r.2 lower_bound upper_bound).1)).sum,
            some (some mask))
      ∧ mask.length = reads.length
      ∧ (∀ i, ∀ h : i < reads.length,
          (readmask_get mask i = false ↔ ht.check_read (reads.get ⟨i, h⟩).2 = false))
      ∧ (∀ i, ∀ h : i < reads.length,
          (ht.check_read (reads.get ⟨i, h⟩).2 = false ↔
            ((reads.get ⟨i, h⟩).2.length < ht.ksize ∨ ¬ is_acgt (reads.get ⟨i, h⟩).2))) := by
  obtain ⟨f1, -, f3, f4, f5⟩ := consume_fasta_fold uniqify_rc lower_bound upper_bound reads
    { ht := ht, total_reads := 0, n_consumed := 0, readmask := none, masklist := [] } rfl
  simp only [Nat.zero_add, List.not_mem_nil, false_or] at f3 f4 f5
  obtain ⟨ml, mb⟩ := readmask_from_list
    (reads.foldl (consume_fasta_read uniqify_rc lower_bound upper_bound true)
      { ht := ht, total_reads := 0, n_consumed := 0, readmask := none, masklist := [] }).masklist
    (readmask_new reads.length)
  have hnew : (readmask_new reads.length).length = reads.length := by simp [readmask_new]
  refine ⟨(reads.foldl (consume_fasta_read uniqify_rc lower_bound upper_bound true)
      { ht := ht, total_reads := 0, n_consumed := 0, readmask := none, masklist := [] }).ht,
    (reads.foldl (consume_fasta_read uniqify_rc lower_bound upper_bound true)
      { ht := ht, total_reads := 0, n_consumed := 0, readmask := none,
        masklist := [] }).masklist.foldl (fun mask i => readmask_set mask i false)
      (readmask_new reads.length), ?_, ?_, ?_, ?_⟩
  · unfold Hashtable.consume_fasta
    simp only [f1, f3, f4, if_true]
  · rw [ml, hnew]
  · intro i h
    have hget : ∀ m : List Bool, i < m.length → (readmask_get m i = false ↔ m.getD i true = false) := by
      intro m hm
      unfold readmask_get
      rw [List.getD_eq_getElem?_getD, List.getD_eq_getElem?_getD, List.getElem?_eq_getElem hm]
      simp
    rw [hget _ (by rw [ml, hnew]; exact h), mb i (by rw [hnew]; exact h), f5]
    have hset : ¬ (readmask_new reads.length).getD i true = false := by
      unfold readmask_new
      rw [List.getD_eq_getElem?_getD, List.getElem?_replicate]
      simp [h]
    constructor
    · rintro (⟨j, hj, rfl, hv⟩ | hb)
      · exact hv
      · exact absurd hb hset
    · intro hv
      exact Or.inl ⟨i, h, rfl, hv⟩
  · intro i h
    have := check_read_true_iff ht (reads.get ⟨i, h⟩).2
    constructor
    · intro hv
      by_contra hc
      have : ht.check_read (reads.get ⟨i, h⟩).2 = true :=
        this.mpr ⟨by by_contra h1; exact hc (Or.inl (by omega)),
          by by_contra h2; exact hc (Or.inr h2)⟩
      rw [hv] at this; cases this
    · intro hc
      cases hv : ht.check_read (reads.get ⟨i, h⟩).2 with
      | false => rfl
      | true =>
        have := this.mp hv
        rcases hc with h1 | h2
        · omega
        · exact absurd this.2 h2

/-! ## The checkpoint files -/

theorem le_value_cons (b : Nat) (rest : List Nat) :
    le_value (b :: rest) = b + 256 * le_value rest := rfl

theorem le_value_le_bytes (n x : Nat) : le_value (le_bytes n x) = x % 256 ^ n := by
  induction n generalizing x with
  | zero => simp [le_bytes, le_value, Nat.mod_one]
  | succ n ih =>
    rw [le_bytes, le_value_cons, ih, pow_succ', Nat.mod_mul]

theorem length_le_bytes (n x : Nat) : (le_bytes n x).length = n := by
  induction n generalizing x with
  | zero => rfl
  | succ n ih => rw [le_bytes, List.length_cons, ih]

theorem scan_records_record {σ : Type} (step : σ → Nat → Nat → σ) (x p : Nat)
    (rest : List Nat) (st : σ) :
    scan_records step (le_bytes 8 x ++ le_bytes 4 p ++ rest) st
      = scan_records step rest (step st (x % 2 ^ 64) (p % 2 ^ 32)) := by
  have h8 := le_value_le_bytes 8 x
  have h4 := le_value_le_bytes 4 p
  simp only [le_bytes] at h8 h4
  simp only [le_bytes, List.cons_append, List.nil_append]
  rw [scan_records, h8, h4]
  norm_num

theorem scan_records_encode {σ : Type} (step : σ → Nat → Nat → σ) (records : List (Nat × Nat))
    (st : σ) :
    scan_records step (encode_records records) st
      = some (records.foldl (fun s e => step s (e.1 % 2 ^ 64) (e.2 % 2 ^ 32)) st) := by
  induction records generalizing st with
  | nil => rfl
  | cons e rest ih =>
    have : encode_records (e :: rest) = le_bytes 8 e.1 ++ le_bytes 4 e.2 ++ encode_records rest := by
      simp [encode_records]
    rw [this, scan_records_record, ih, List.foldl_cons]

theorem length_encode_records (records : List (Nat × Nat)) :
    (encode_records records).length = 12 * records.length := by
  induction records with
  | nil => rfl
  | cons e rest ih =>
    have : encode_records (e :: rest) = le_bytes 8 e.1 ++ le_bytes 4 e.2 ++ encode_records rest := by
      simp [encode_records]
    rw [this, List.length_append, List.length_append, length_le_bytes, length_le_bytes, ih,
      List.length_cons]
    omega

/-- A file shorter than one buffer is scanned by one `read`. -/
theorem scan_file_short {σ : Type} (step : σ → Nat → Nat → σ) (file : List Nat) (init : σ)
    (h : file.length < 1000000) : scan_file step file init = scan_records step file init := by
  unfold scan_file
  rw [Nat.div_eq_of_lt h]
  have hr : List.range (0 + 1) = [0] := rfl
  rw [hr]
  simp only [List.foldl_cons, List.foldl_nil, Nat.zero_mul, List.drop_zero, Option.some_bind]
  rw [List.take_of_length_le (by omega)]

theorem exists_cons_of_length (l : List Nat) (n : Nat) (h : l.length = n + 1) :
    ∃ a rest, l = a :: rest ∧ rest.length = n := by
  cases l with
  | nil => simp at h
  | cons a rest => exact ⟨a, rest, rfl, by simpa using h⟩

/-- The loop over the bytes of one `read` does not end at the last byte when
their number is 4 more than a multiple of 12. -/
theorem scan_records_split {σ : Type} (step : σ → Nat → Nat → σ) (n : Nat) :
    ∀ (l : List Nat) (st : σ), l.length = 12 * n + 4 → scan_records step l st = none := by
  induction n with
  | zero =>
    intro l st hl
    have hl' : l.length = 3 + 1 := by omega
    obtain ⟨a0, l0, e0, h0⟩ := exists_cons_of_length l _ hl'
    obtain ⟨a1, l1, e1, h1⟩ := exists_cons_of_length l0 _ h0
    obtain ⟨a2, l2, e2, h2⟩ := exists_cons_of_length l1 _ h1
    obtain ⟨a3, l3, e3, h3⟩ := exists_cons_of_length l2 _ h2
    rw [e0, e1, e2, e3, List.length_eq_zero.mp h3]
    rfl
  | succ n ih =>
    intro l st hl
    have hl' : l.length = (12 * n + 15) + 1 := by omega
    obtain ⟨a0, l0, e0, h0⟩ := exists_cons_of_length l _ hl'
    obtain ⟨a1, l1, e1, h1⟩ := exists_cons_of_length l0 _ h0
    obtain ⟨a2, l2, e2, h2⟩ := exists_cons_of_length l1 _ h1
    obtain ⟨a3, l3, e3, h3⟩ := exists_cons_of_length l2 _ h2
    obtain ⟨a4, l4, e4, h4⟩ := exists_cons_of_length l3 _ h3
    obtain ⟨a5, l5, e5, h5⟩ := exists_cons_of_length l4 _ h4
    obtain ⟨a6, l6, e6, h6⟩ := exists_cons_of_length l5 _ h5
    obtain ⟨a7, l7, e7, h7⟩ := exists_cons_of_length l6 _ h6
    obtain ⟨a8, l8, e8, h8⟩ := exists_cons_of_length l7 _ h7
    obtain ⟨a9, l9, e9, h9⟩ := exists_cons_of_length l8 _ h8
    obtain ⟨a10, l10, e10, h10⟩ := exists_cons_of_length l9 _ h9
    obtain ⟨a11, l11, e11, h11⟩ := exists_cons_of_length l10 _ h10
    rw [e0, e1, e2, e3, e4, e5, e6, e7, e8, e9, e10, e11, scan_records]
    exact ih l11 _ (by omega)

theorem foldl_bind_none {σ α : Type} (f : α → σ → Option σ) (l : List α) :
    l.foldl (fun st j => st.bind (f j)) none = none := by
  induction l with
  | nil => rfl
  | cons a l ih => rw [List.foldl_cons]; exact ih

/-- A file of a million bytes or more is not scanned to its end: the first
`read` delivers 1000000 bytes, which is not a multiple of the 12 bytes of a
record. -/
theorem scan_file_long {σ : Type} (step : σ → Nat → Nat → σ) (file : List Nat) (init : σ)
    (h : 1000000 ≤ file.length) : scan_file step file init = none := by
  unfold scan_file
  rw [List.range_succ_eq_map, List.foldl_cons]
  have hfirst : scan_records step (List.take 1000000 (List.drop (0 * 1000000) file)) init
      = none := by
    apply scan_records_split step 83333
    rw [Nat.zero_mul, List.drop_zero, List.length_take]
    omega
  simp only [Option.some_bind, hfirst]
  exact foldl_bind_none _ _

theorem load_partitionmap_long (st : PartitionState) (infile surrenderfile : List Nat)
    (h : 1000000 ≤ infile.length) : load_partitionmap st infile surrenderfile = none := by
  unfold load_partitionmap
  rw [scan_file_long _ infile [] h]

theorem load_partitionmap_surrender_set (st st' : PartitionState)
    (infile surrenderfile : List Nat)
    (h : load_partitionmap st infile surrenderfile = some st') :
    st'.surrender_set = st.surrender_set := by
  unfold load_partitionmap at h
  cases h1 : scan_file (fun partitions _ p_id => set_insert p_id partitions) infile [] with
  | none => rw [h1] at h; cases h
  | some partitions =>
    rw [h1] at h
    simp only at h
    cases h2 : scan_file
        (fun partition_map kmer p_id =>
          map_set kmer ((map_find p_id (load_cells partitions st.cells st.reverse_pmap).2.1).getD 0)
            partition_map) infile st.partition_map with
    | none => rw [h2] at h; cases h
    | some pm =>
      rw [h2] at h
      cases h
      rfl

/-! ## _checkpoint_partitionmap -/

theorem checkpoint_flush_append (limit : Nat) (fb : List Nat × List Nat) :
    (checkpoint_flush limit fb).1 ++ (checkpoint_flush limit fb).2 = fb.1 ++ fb.2 := by
  unfold checkpoint_flush
  split_ifs
  · simp
  · rfl

theorem checkpoint_close_eq (fb : List Nat × List Nat) : checkpoint_close fb = fb.1 ++ fb.2 := by
  unfold checkpoint_close
  split_ifs with h
  · rfl
  · have : fb.2 = [] := List.length_eq_zero.mp (by simpa using h)
    rw [this, List.append_nil]

theorem checkpoint_pmap_fold (cells : List (Nat × Nat)) (l : List (Nat × Nat))
    (fb : List Nat × List Nat) (hcell : ∀ e ∈ l, ∃ p, map_find e.2 cells = some p) :
    ∃ fb', l.foldlM (checkpoint_record cells) fb = some fb'
      ∧ fb'.1 ++ fb'.2 = fb.1 ++ fb.2
          ++ encode_records (l.map (fun e => (e.1, (map_find e.2 cells).getD 0))) := by
  induction l generalizing fb with
  | nil => exact ⟨fb, rfl, by simp [encode_records]⟩
  | cons e rest ih =>
    obtain ⟨p, hp⟩ := hcell e (List.mem_cons_self _ _)
    obtain ⟨fb', hrun, happ⟩ := ih
      (checkpoint_flush (1000000 - 8 - 4) (fb.1, fb.2 ++ le_bytes 8 e.1 ++ le_bytes 4 p))
      (fun e' he' => hcell e' (List.mem_cons_of_mem _ he'))
    have hrec : checkpoint_record cells fb e
        = some (checkpoint_flush (1000000 - 8 - 4)
            (fb.1, fb.2 ++ le_bytes 8 e.1 ++ le_bytes 4 p)) := by
      unfold checkpoint_record
      simp only [hp]
    refine ⟨fb', ?_, ?_⟩
    · rw [List.foldlM_cons, hrec]
      exact hrun
    · rw [happ, checkpoint_flush_append]
      simp [encode_records, hp, List.append_assoc]

theorem checkpoint_surrender_fold (l : List Nat) (fb : List Nat × List Nat) :
    (l.foldl checkpoint_surrender fb).1 ++ (l.foldl checkpoint_surrender fb).2
      = fb.1 ++ fb.2 ++ l.flatMap (le_bytes 4) := by
  induction l generalizing fb with
  | nil => simp
  | cons p rest ih =>
    rw [List.foldl_cons, ih]
    unfold checkpoint_surrender
    rw [checkpoint_flush_append]
    simp [List.append_assoc]

/-- The files `_checkpoint_partitionmap` writes: the records of the partition
map, and the ids of the surrender set in 4 bytes each. -/
theorem checkpoint_partitionmap_eq (st : PartitionState)
    (hcell : ∀ e ∈ st.partition_map, ∃ p, map_find e.2 st.cells = some p) :
    checkpoint_partitionmap st
      = some (encode_records (partition_records st), st.surrender_set.flatMap (le_bytes 4)) := by
  obtain ⟨fb', hrun, happ⟩ := checkpoint_pmap_fold st.cells st.partition_map ([], []) hcell
  unfold checkpoint_partitionmap
  rw [hrun]
  simp only
  rw [checkpoint_close_eq, checkpoint_close_eq, happ, checkpoint_surrender_fold]
  simp [partition_records]

/-! ## The round trip through the checkpoint files -/

theorem map_find_none_of_not_mem {β : Type} (k : Nat) (m : List (Nat × β))
    (h : k ∉ m.map Prod.fst) : map_find k m = none := by
  cases hf : map_find k m with
  | none => rfl
  | some v => exact absurd (List.mem_map_of_mem Prod.fst (map_find_mem k v m hf)) h

theorem map_find_of_mem_nodup {β : Type} (m : List (Nat × β)) (hnd : (m.map Prod.fst).Nodup)
    (e : Nat × β) (he : e ∈ m) : map_find e.1 m = some e.2 := by
  induction m with
  | nil => simp at he
  | cons a rest ih =>
    rw [List.map_cons, List.nodup_cons] at hnd
    unfold map_find
    rcases List.mem_cons.mp he with h | h
    · rw [h, if_pos rfl]
    · have hne : a.1 ≠ e.1 := fun heq => hnd.1 (heq ▸ List.mem_map_of_mem Prod.fst h)
      rw [if_neg hne]
      exact ih hnd.2 h

/-- The map a loop of assignments `m[e.1] = g e` over a list leaves. -/
theorem foldl_map_set_find {α β : Type} (key : α → Nat) (g : α → β) (l : List α) :
    ∀ (init : List (Nat × β)),
      (∀ x, x ∉ l.map key →
        map_find x (l.foldl (fun pm e => map_set (key e) (g e) pm) init) = map_find x init)
      ∧ ((l.map key).Nodup → ∀ e ∈ l,
        map_find (key e) (l.foldl (fun pm e => map_set (key e) (g e) pm) init) = some (g e)) := by
  induction l with
  | nil => intro init; exact ⟨fun _ _ => rfl, fun _ e he => by simp at he⟩
  | cons a rest ih =>
    intro init
    obtain ⟨ih1, ih2⟩ := ih (map_set (key a) (g a) init)
    constructor
    · intro x hx
      rw [List.map_cons, List.mem_cons, not_or] at hx
      rw [List.foldl_cons, ih1 x hx.2, map_find_set_ne _ _ _ _ hx.1]
    · intro hnd e he
      rw [List.map_cons, List.nodup_cons] at hnd
      rw [List.foldl_cons]
      rcases List.mem_cons.mp he with h | h
      · rw [h, ih1 _ hnd.1, map_find_set_eq]
      · exact ih2 hnd.2 e h

theorem mem_foldl_set_insert {α : Type} (g : α → Nat) (l : List α) (init : List Nat) (x : Nat) :
    x ∈ l.foldl (fun s e => set_insert (g e) s) init ↔ x ∈ init ∨ x ∈ l.map g := by
  induction l generalizing init with
  | nil => simp
  | cons a rest ih =>
    rw [List.foldl_cons, ih, mem_set_insert, List.map_cons, List.mem_cons]
    tauto

/-- The cells the loop over `partitions` makes: every id gets a cell that is
not null and holds the id. -/
theorem load_cells_spec (partitions : List Nat) (cells : List (Nat × Nat))
    (reverse_pmap : List (Nat × Option (List Nat))) :
    (∀ p c, map_find p (load_cells partitions cells reverse_pmap).2.1 = some c →
        c ≠ 0 ∧ map_find c (load_cells partitions cells reverse_pmap).1 = some p)
      ∧ (∀ p ∈ partitions, ∃ c, map_find p (load_cells partitions cells reverse_pmap).2.1 = some c) := by
  unfold load_cells
  have key : ∀ (l : List Nat) (acc : List (Nat × Nat) × List (Nat × Nat) × List (Nat × Option (List Nat))),
      (∀ p c, map_find p acc.2.1 = some c → c ≠ 0 ∧ map_find c acc.1 = some p) →
      (∀ p c, map_find p (l.foldl (fun acc pid =>
          (map_set (fresh_addr acc.1) pid acc.1, map_set pid (fresh_addr acc.1) acc.2.1,
            map_set pid (some [fresh_addr acc.1]) acc.2.2)) acc).2.1 = some c →
          c ≠ 0 ∧ map_find c (l.foldl (fun acc pid =>
          (map_set (fresh_addr acc.1) pid acc.1, map_set pid (fresh_addr acc.1) acc.2.1,
            map_set pid (some [fresh_addr acc.1]) acc.2.2)) acc).1 = some p)
        ∧ (∀ p, (p ∈ l ∨ ∃ c, map_find p acc.2.1 = some c) → ∃ c, map_find p (l.foldl (fun acc pid =>
          (map_set (fresh_addr acc.1) pid acc.1, map_set pid (fresh_addr acc.1) acc.2.1,
            map_set pid (some [fresh_addr acc.1]) acc.2.2)) acc).2.1 = some c) := by
    intro l
    induction l with
    | nil =>
      intro acc hacc
      exact ⟨hacc, fun p hp => hp.elim (fun h => by simp at h) id⟩
    | cons a rest ih =>
      intro acc hacc
      rw [List.foldl_cons]
      have hnext : ∀ p c, map_find p (map_set a (fresh_addr acc.1) acc.2.1) = some c →
          c ≠ 0 ∧ map_find c (map_set (fresh_addr acc.1) a acc.1) = some p := by
        intro p c hpc
        rw [map_find_set] at hpc
        by_cases hpa : p = a
        · rw [if_pos hpa] at hpc
          cases hpc
          exact ⟨fresh_addr_pos _, by rw [hpa]; exact map_find_set_eq _ _ _⟩
        · rw [if_neg hpa] at hpc
          obtain ⟨h0, hc⟩ := hacc p c hpc
          have hne : c ≠ fresh_addr acc.1 := fun e => by
            rw [e, map_find_fresh_addr] at hc; cases hc
          exact ⟨h0, by rw [map_find_set_ne _ _ _ _ hne]; exact hc⟩
      obtain ⟨i1, i2⟩ := ih (map_set (fresh_addr acc.1) a acc.1,
        map_set a (fresh_addr acc.1) acc.2.1, map_set a (some [fresh_addr acc.1]) acc.2.2) hnext
      refine ⟨i1, fun p hp => i2 p ?_⟩
      by_cases hpa : p = a
      · exact Or.inr ⟨fresh_addr acc.1, by rw [hpa]; exact map_find_set_eq _ _ _⟩
      · rcases hp with h | ⟨c, hc⟩
        · exact Or.inl ((List.mem_cons.mp h).resolve_left hpa)
        · exact Or.inr ⟨c, by simp only; rw [map_find_set_ne _ _ _ _ hpa]; exact hc⟩
  obtain ⟨k1, k2⟩ := key partitions (cells, [], reverse_pmap)
    (fun p c h => by simp [map_find] at h)
  exact ⟨k1, fun p hp => k2 p (Or.inl hp)⟩

/-- What `_load_partitionmap` makes of the records of a checkpoint file with
fewer than 83334 records, loaded into the empty state. -/
theorem load_encode_records (records : List (Nat × Nat))
    (hlen : records.length ≤ 83333)
    (hkey : ∀ e ∈ records, e.1 < 2 ^ 64) (hpid : ∀ e ∈ records, e.2 < 2 ^ 32)
    (surrenderfile : List Nat) :
    ∃ cells ppmap rpm,
      load_partitionmap empty_partition_state (encode_records records) surrenderfile
        = some { cells := cells,
                 partition_map := records.foldl
                   (fun pm e => map_set e.1 ((map_find e.2 ppmap).getD 0) pm) [],
                 reverse_pmap := rpm, next_partition_id := 1, surrender_set := [] }
      ∧ (∀ p c, map_find p ppmap = some c → c ≠ 0 ∧ map_find c cells = some p)
      ∧ (∀ e ∈ records, ∃ c, map_find e.2 ppmap = some c) := by
  have hshort : (encode_records records).length < 1000000 := by
    rw [length_encode_records]; omega
  have hfold : ∀ {σ : Type} (step : σ → Nat → Nat → σ) (init : σ),
      records.foldl (fun s e => step s (e.1 % 2 ^ 64) (e.2 % 2 ^ 32)) init
        = records.foldl (fun s e => step s e.1 e.2) init := by
    intro σ step init
    apply List.foldl_ext
    intro s e he
    rw [Nat.mod_eq_of_lt (hkey e he), Nat.mod_eq_of_lt (hpid e he)]
  have h1 : scan_file (fun partitions _ p_id => set_insert p_id partitions)
      (encode_records records) []
        = some (records.foldl (fun s e => set_insert e.2 s) []) := by
    rw [scan_file_short _ _ _ hshort, scan_records_encode]
    exact congrArg some (hfold (fun partitions _ p_id => set_insert p_id partitions) [])
  have hspec := load_cells_spec (records.foldl (fun s e => set_insert e.2 s) []) [] []
  refine ⟨(load_cells (records.foldl (fun s e => set_insert e.2 s) []) [] []).1,
    (load_cells (records.foldl (fun s e => set_insert e.2 s) []) [] []).2.1,
    (load_cells (records.foldl (fun s e => set_insert e.2 s) []) [] []).2.2,
    ?_, hspec.1, fun e he => hspec.2 e.2 ?_⟩
  · unfold load_partitionmap
    rw [h1]
    simp only
    rw [scan_file_short _ _ _ hshort, scan_records_encode]
    have h2 := hfold (fun partition_map kmer p_id =>
      map_set kmer ((map_find p_id
        (load_cells (records.foldl (fun s e => set_insert e.2 s) [])
          empty_partition_state.cells empty_partition_state.reverse_pmap).2.1).getD 0)
        partition_map) empty_partition_state.partition_map
    simp only at h2
    rw [h2]
    rfl
  · rw [mem_foldl_set_insert]
    exact Or.inr (List.mem_map_of_mem _ he)

/-- Saving a state and loading the files into the empty state: what the loaded
state has for the keys of the saved one. -/
theorem checkpoint_load (st : PartitionState)
    (hnd : (st.partition_map.map Prod.fst).Nodup)
    (hlen : st.partition_map.length ≤ 83333)
    (hkey : ∀ e ∈ st.partition_map, e.1 < 2 ^ 64)
    (hcell : ∀ e ∈ st.partition_map, ∃ p, map_find e.2 st.cells = some p ∧ p < 2 ^ 32) :
    ∃ infile surrenderfile st', checkpoint_partitionmap st = some (infile, surrenderfile)
      ∧ load_partitionmap empty_partition_state infile surrenderfile = some st'
      ∧ (∀ x, map_find x st.partition_map = none → map_find x st'.partition_map = none)
      ∧ (∀ x c p, map_find x st.partition_map = some c → map_find c st.cells = some p →
          ∃ c', map_find x st'.partition_map = some c' ∧ c' ≠ 0
            ∧ map_find c' st'.cells = some p
            ∧ ∀ y d, map_find y st'.partition_map = some d → pid_of st y = some p → d = c') := by
  have hsave := checkpoint_partitionmap_eq st
    (fun e he => (hcell e he).imp (fun p hp => hp.1))
  have hrl : (partition_records st).length ≤ 83333 := by
    unfold partition_records; rw [List.length_map]; exact hlen
  have hrk : ∀ e ∈ partition_records st, e.1 < 2 ^ 64 := by
    intro e he
    unfold partition_records at he
    obtain ⟨a, ha, rfl⟩ := List.mem_map.mp he
    exact hkey a ha
  have hrp : ∀ e ∈ partition_records st, e.2 < 2 ^ 32 := by
    intro e he
    unfold partition_records at he
    obtain ⟨a, ha, rfl⟩ := List.mem_map.mp he
    obtain ⟨p, hp, hlt⟩ := hcell a ha
    simp only [hp, Option.getD_some]
    exact hlt
  obtain ⟨cells, ppmap, rpm, hload, hpp, hall⟩ :=
    load_encode_records (partition_records st) hrl hrk hrp (st.surrender_set.flatMap (le_bytes 4))
  have hkeys : (partition_records st).map Prod.fst = st.partition_map.map Prod.fst := by
    unfold partition_records; rw [List.map_map]; rfl
  obtain ⟨f1, f2⟩ := foldl_map_set_find (fun e : Nat × Nat => e.1)
    (fun e : Nat × Nat => (map_find e.2 ppmap).getD 0) (partition_records st) []
  have hrec : ∀ x c p, map_find x st.partition_map = some c → map_find c st.cells = some p →
      (x, p) ∈ partition_records st := by
    intro x c p hx hc
    unfold partition_records
    refine List.mem_map.mpr ⟨(x, c), map_find_mem _ _ _ hx, ?_⟩
    simp only [hc, Option.getD_some]
  have hfind : ∀ x c p, map_find x st.partition_map = some c → map_find c st.cells = some p →
      map_find x ((partition_records st).foldl
        (fun pm e => map_set e.1 ((map_find e.2 ppmap).getD 0) pm) [])
        = some ((map_find p ppmap).getD 0) := by
    intro x c p hx hc
    exact f2 (by rw [hkeys] at *; exact hnd) (x, p) (hrec x c p hx hc)
  refine ⟨_, _, _, hsave, hload, ?_, ?_⟩
  · intro x hx
    have hnot : x ∉ (partition_records st).map (fun e : Nat × Nat => e.1) := by
      intro hmem
      have hmem' : x ∈ st.partition_map.map Prod.fst := hkeys ▸ hmem
      obtain ⟨a, ha, hax⟩ := List.mem_map.mp hmem'
      have := map_find_of_mem_nodup st.partition_map hnd a ha
      rw [hax, hx] at this
      cases this
    exact f1 x hnot
  · intro x c p hx hc
    obtain ⟨c', hc'⟩ := hall (x, p) (hrec x c p hx hc)
    simp only at hc'
    obtain ⟨hne, hcp⟩ := hpp p c' hc'
    refine ⟨c', ?_, hne, hcp, ?_⟩
    · show map_find x ((partition_records st).foldl _ []) = some c'
      rw [hfind x c p hx hc, hc']; rfl
    · intro y d hy hpy
      obtain ⟨cy, hcy, hpcy⟩ := pid_of_some st y p hpy
      have : map_find y ((partition_records st).foldl
        (fun pm e => map_set e.1 ((map_find e.2 ppmap).getD 0) pm) []) = some d := hy
      rw [hfind y cy p hcy hpcy, hc'] at this
      exact (Option.some.inj this).symm

/-- The files of a state of `n` keys in one partition: the partition file has
12 bytes for each key. -/
theorem checkpoint_one_partition_state (n : Nat) :
    ∃ infile surrenderfile,
      checkpoint_partitionmap (one_partition_state n) = some (infile, surrenderfile)
        ∧ infile.length = 12 * n := by
  have hcell : ∀ e ∈ (one_partition_state n).partition_map,
      ∃ p, map_find e.2 (one_partition_state n).cells = some p := by
    intro e he
    unfold one_partition_state at he
    obtain ⟨x, -, rfl⟩ := List.mem_map.mp he
    exact ⟨1, rfl⟩
  refine ⟨_, _, checkpoint_partitionmap_eq _ hcell, ?_⟩
  rw [length_encode_records]
  unfold partition_records one_partition_state
  simp only [List.length_map, List.length_range]

/-! ## Checkpoint and reload -/

/-- The classes of keys under "points to the same cell" are not kept by a round
trip: a state that three calls of `assign_partition_id` reach has the keys 10
and 20 in different cells (1 and 2) that hold the same `PartitionID` 1.
`_checkpoint_partitionmap` writes the id only, and `_load_partitionmap` into
the empty state makes one cell per id: after the round trip the keys 10 and 20
point to the same cell. And a partition map of 83334 entries is written as
1000008 bytes, of which the first `read` of the load delivers 1000000, 4 bytes
more than a whole number of records: the load does not run to its end. -/
theorem checkpoint_load_joins_cells :
    map_find 10 merged_surrender_state.partition_map = some 1
      ∧ map_find 20 merged_surrender_state.partition_map = some 2
      ∧ checkpoint_partitionmap merged_surrender_state = some (merged_surrender_file, [2, 0, 0, 0])
      ∧ (∃ st', load_partitionmap empty_partition_state merged_surrender_file [2, 0, 0, 0]
            = some st'
          ∧ map_find 10 st'.partition_map = some 1 ∧ map_find 20 st'.partition_map = some 1)
      ∧ (∃ infile surrenderfile,
          checkpoint_partitionmap (one_partition_state 83334) = some (infile, surrenderfile)
            ∧ infile.length = 12 * 83334
            ∧ load_partitionmap empty_partition_state infile surrenderfile = none) := by
  refine ⟨rfl, rfl, rfl, ⟨_, rfl, rfl, rfl⟩, ?_⟩
  obtain ⟨infile, surrenderfile, hsave, hlen⟩ := checkpoint_one_partition_state 83334
  exact ⟨infile, surrenderfile, hsave, hlen,
    load_partitionmap_long _ _ _ (by rw [hlen]; decide)⟩

/-- The round trip of a partition file that one `read` delivers whole: for a
partition map of at most 83333 entries with distinct keys below 2^64 whose
cells all hold a `PartitionID` below 2^32, `_checkpoint_partitionmap` writes
its files and `_load_partitionmap` loads them into the empty state; the loaded
partition map has the same keys, every key has the same `PartitionID`, no cell
is null, and two keys point to the same cell exactly when they had the same
`PartitionID` before the save. -/
theorem checkpoint_load_round_trip (st : PartitionState)
    (hnd : (st.partition_map.map Prod.fst).Nodup)
    (hlen : st.partition_map.length ≤ 83333)
    (hkey : ∀ e ∈ st.partition_map, e.1 < 2 ^ 64)
    (hcell : ∀ e ∈ st.partition_map, ∃ p, map_find e.2 st.cells = some p ∧ p < 2 ^ 32) :
    ∃ infile surrenderfile st', checkpoint_partitionmap st = some (infile, surrenderfile)
      ∧ load_partitionmap empty_partition_state infile surrenderfile = some st'
      ∧ (∀ x, (map_find x st'.partition_map).isSome = (map_find x st.partition_map).isSome)
      ∧ (∀ x, pid_of st' x = pid_of st x)
      ∧ (∀ x c, map_find x st'.partition_map = some c → c ≠ 0)
      ∧ (∀ x y c d, map_find x st'.partition_map = some c →
          map_find y st'.partition_map = some d → (c = d ↔ pid_of st x = pid_of st y)) := by
  obtain ⟨infile, surrenderfile, st', hsave, hload, hnone, hsome⟩ :=
    checkpoint_load st hnd hlen hkey hcell
  have hres : ∀ x c, map_find x st.partition_map = some c → ∃ p, map_find c st.cells = some p := by
    intro x c hx
    obtain ⟨p, hp, -⟩ := hcell (x, c) (map_find_mem _ _ _ hx)
    exact ⟨p, hp⟩
  have hback : ∀ x c', map_find x st'.partition_map = some c' →
      ∃ c p, map_find x st.partition_map = some c ∧ map_find c st.cells = some p := by
    intro x c' hx'
    cases hx : map_find x st.partition_map with
    | none => rw [hnone x hx] at hx'; cases hx'
    | some c =>
      obtain ⟨p, hp⟩ := hres x c hx
      exact ⟨c, p, rfl, hp⟩
  refine ⟨infile, surrenderfile, st', hsave, hload, ?_, ?_, ?_, ?_⟩
  · intro x
    cases hx : map_find x st.partition_map with
    | none => rw [hnone x hx]
    | some c =>
      obtain ⟨p, hp⟩ := hres x c hx
      obtain ⟨c', hc', -⟩ := hsome x c p hx hp
      rw [hc']
      rfl
  · intro x
    cases hx : map_find x st.partition_map with
    | none =>
      unfold pid_of
      rw [hnone x hx, hx]
      rfl
    | some c =>
      obtain ⟨p, hp⟩ := hres x c hx
      obtain ⟨c', hc', -, hcp, -⟩ := hsome x c p hx hp
      rw [pid_of_eq st' x c' hc', pid_of_eq st x c hx, hcp, hp]
  · intro x c' hx'
    obtain ⟨c, p, hx, hp⟩ := hback x c' hx'
    obtain ⟨c'', hc'', hne, -⟩ := hsome x c p hx hp
    rw [hx'] at hc''
    cases hc''
    exact hne
  · intro x y c' d' hx' hy'
    obtain ⟨c, p, hx, hp⟩ := hback x c' hx'
    obtain ⟨d, q, hy, hq⟩ := hback y d' hy'
    obtain ⟨c'', hc'', -, hcp, hsame⟩ := hsome x c p hx hp
    obtain ⟨d'', hd'', -, hdq, -⟩ := hsome y d q hy hq
    rw [hx'] at hc''; cases hc''
    rw [hy'] at hd''; cases hd''
    rw [pid_of_eq st x c hx, pid_of_eq st y d hy, hp, hq]
    constructor
    · intro hcd
      rw [hcd, hdq] at hcp
      exact hcp.symm
    · intro hpq
      have hpq' : q = p := (Option.some.inj hpq).symm
      refine (hsame y d' hy' ?_).symm
      rw [pid_of_eq st y d hy, hq, hpq']

/-- The round trip at `merged_surrender_state`. -/
theorem checkpoint_load_round_trip_witness :
    ∃ infile surrenderfile st',
      checkpoint_partitionmap merged_surrender_state = some (infile, surrenderfile)
      ∧ load_partitionmap empty_partition_state infile surrenderfile = some st'
      ∧ (∀ x, (map_find x st'.partition_map).isSome
          = (map_find x merged_surrender_state.partition_map).isSome)
      ∧ (∀ x, pid_of st' x = pid_of merged_surrender_state x)
      ∧ (∀ x c, map_find x st'.partition_map = some c → c ≠ 0)
      ∧ (∀ x y c d, map_find x st'.partition_map = some c →
          map_find y st'.partition_map = some d →
            (c = d ↔ pid_of merged_surrender_state x = pid_of merged_surrender_state y)) :=
  checkpoint_load_round_trip merged_surrender_state (by decide) (by decide) (by decide)
    (fun e he => by
      simp only [merged_surrender_state, List.mem_cons, List.mem_singleton, List.mem_nil_iff,
        or_false] at he
      rcases he with rfl | rfl | rfl <;> exact ⟨1, rfl, by decide⟩)

/-- C22: the surrender set {2} of `merged_surrender_state` is written to the
surrender file as the four bytes of the id 2, and `_load_partitionmap` into the
empty state leaves the surrender set empty: its third loop tests `infile.eof()`,
which the second pass has left true, and reads `infile`, so the surrender file
is never read. -/
theorem load_drops_surrender_set :
    merged_surrender_state.surrender_set = [2]
      ∧ checkpoint_partitionmap merged_surrender_state = some (merged_surrender_file, [2, 0, 0, 0])
      ∧ (load_partitionmap empty_partition_state merged_surrender_file [2, 0, 0, 0]).map
          (fun st => st.surrender_set) = some [] :=
  ⟨rfl, rfl, rfl⟩

/-! ## The loop of partition_find_all_tags -/

theorem is_tagged_kmer_some (pm : List (Nat × Nat)) (f r t : Nat)
    (h : is_tagged_kmer pm f r = some t) : (t = f ∨ t = r) ∧ (map_find t pm).isSome := by
  unfold is_tagged_kmer at h
  cases hf : map_find f pm with
  | some c =>
    rw [hf] at h
    have e : f = t := Option.some.inj h
    rw [← e]
    exact ⟨Or.inl rfl, by rw [hf]; rfl⟩
  | none =>
    rw [hf] at h
    cases hr : map_find r pm with
    | some c =>
      rw [hr] at h
      have e : r = t := Option.some.inj h
      rw [← e]
      exact ⟨Or.inr rfl, by rw [hr]; rfl⟩
    | none => rw [hr] at h; cases h

theorem is_tagged_kmer_none (pm : List (Nat × Nat)) (f r : Nat) :
    is_tagged_kmer pm f r = none ↔ map_find f pm = none ∧ map_find r pm = none := by
  unfold is_tagged_kmer
  cases hf : map_find f pm with
  | some c => simp
  | none =>
    cases hr : map_find r pm with
    | some c => simp
    | none => simp

theorem is_tagged_kmer_swap (pm : List (Nat × Nat)) (f r : Nat) :
    is_tagged_kmer pm r f = none ↔ is_tagged_kmer pm f r = none := by
  rw [is_tagged_kmer_none, is_tagged_kmer_none]
  exact And.comm

theorem foldl_push {α : Type} (p : α → Prop) [DecidablePred p] (g : α → List Nat)
    (l : List α) (q : List Nat) :
    l.foldl (fun q a => if p a then q ++ g a else q) q
      = q ++ (l.filter (fun a => decide (p a))).flatMap g := by
  induction l generalizing q with
  | nil => simp
  | cons a rest ih =>
    rw [List.foldl_cons, ih]
    by_cases h : p a
    · simp [h, List.filter_cons]
    · simp [h, List.filter_cons]

/-- The queue after the pushes of a turn. -/
theorem push_neighbours_eq (u : Nat → Nat → Nat) (ht : Hashtable) (f r : Nat) (q : List Nat) :
    ht.push_neighbours u f r q
      = q ++ ((ht.neighbour_pairs f r).filter
          (fun fr => decide (ht.get_count (u fr.1 fr.2) ≠ 0))).flatMap (fun fr => [fr.1, fr.2]) := by
  unfold Hashtable.push_neighbours
  exact foldl_push (fun fr : Nat × Nat => ht.get_count (u fr.1 fr.2) ≠ 0)
    (fun fr => [fr.1, fr.2]) _ q

theorem length_flatMap_pair {α : Type} (g h : α → Nat) (l : List α) :
    (l.flatMap (fun a => [g a, h a])).length = 2 * l.length := by
  induction l with
  | nil => rfl
  | cons a rest ih =>
    rw [List.flatMap_cons, List.length_append, ih, List.length_cons, List.length_cons,
      List.length_cons, List.length_nil]
    omega

/-- A turn pushes an even number of entries, at most 16. -/
theorem length_push_neighbours (u : Nat → Nat → Nat) (ht : Hashtable) (f r : Nat)
    (q : List Nat) :
    ∃ m, m ≤ 8 ∧ (ht.push_neighbours u f r q).length = q.length + 2 * m := by
  rw [push_neighbours_eq, List.length_append, length_flatMap_pair]
  refine ⟨_, ?_, rfl⟩
  exact le_trans (List.length_filter_le _ _) (le_of_eq rfl)

/-- The three ways a turn of the loop can go. -/
theorem find_tags_turn_cases (u : Nat → Nat → Nat) (ht : Hashtable) (pm : List (Nat × Nat))
    (st st' : FindTagsState) (h : ht.find_tags_turn u pm st = some st') :
    ∃ f r q, st.node_q = f :: r :: q
      ∧ ((u f r ∈ st.keeper ∧ st' = { st with node_q := q })
        ∨ (u f r ∉ st.keeper ∧ st.first = false
            ∧ ∃ t, is_tagged_kmer pm f r = some t
              ∧ st' = { st with node_q := q, keeper := set_insert (u f r) st.keeper,
                                tagged_kmers := set_insert t st.tagged_kmers })
        ∨ (u f r ∉ st.keeper ∧ (st.first = true ∨ is_tagged_kmer pm f r = none)
            ∧ st' = { st with node_q := ht.push_neighbours u f r q,
                              keeper := set_insert (u f r) st.keeper, first := false })) := by
  unfold Hashtable.find_tags_turn at h
  match hq : st.node_q with
  | [] => rw [hq] at h; cases h
  | [_] => rw [hq] at h; cases h
  | f :: r :: q =>
    rw [hq] at h
    simp only at h
    refine ⟨f, r, q, rfl, ?_⟩
    by_cases hk : u f r ∈ st.keeper
    · left
      have hdc : do_continue (u f r) st.keeper = false := by
        unfold do_continue; simp [hk]
      rw [hdc] at h
      simp only [Bool.not_false, if_true] at h
      exact ⟨hk, (Option.some.inj h).symm⟩
    · right
      have hdc : do_continue (u f r) st.keeper = true := by
        unfold do_continue; simp [hk]
      rw [hdc] at h
      simp only [Bool.not_true, Bool.false_eq_true, if_false] at h
      cases hfirst : st.first with
      | true =>
        right
        rw [hfirst] at h
        simp only [Bool.not_true, Bool.false_eq_true, if_false] at h
        exact ⟨hk, Or.inl rfl, (Option.some.inj h).symm⟩
      | false =>
        rw [hfirst] at h
        simp only [Bool.not_false, if_true] at h
        cases htag : is_tagged_kmer pm f r with
        | some t =>
          left
          rw [htag] at h
          exact ⟨hk, rfl, t, rfl, (Option.some.inj h).symm⟩
        | none =>
          right
          rw [htag] at h
          exact ⟨hk, Or.inr rfl, (Option.some.inj h).symm⟩

theorem find_tags_turn_total (u : Nat → Nat → Nat) (ht : Hashtable) (pm : List (Nat × Nat))
    (st st' : FindTagsState) (h : ht.find_tags_turn u pm st = some st') :
    st'.total = st.total ∧ st'.surrender = st.surrender := by
  obtain ⟨f, r, q, -, h1 | h1 | h1⟩ := find_tags_turn_cases u ht pm st st' h
  · rw [h1.2]; exact ⟨rfl, rfl⟩
  · obtain ⟨-, -, t, -, e⟩ := h1
    rw [e]; exact ⟨rfl, rfl⟩
  · rw [h1.2.2]; exact ⟨rfl, rfl⟩

/-- A turn returns when the queue has at least two entries. -/
theorem find_tags_turn_returns (u : Nat → Nat → Nat) (ht : Hashtable) (pm : List (Nat × Nat))
    (st : FindTagsState) (f r : Nat) (q : List Nat) (hq : st.node_q = f :: r :: q) :
    ∃ st', ht.find_tags_turn u pm st = some st' := by
  unfold Hashtable.find_tags_turn
  rw [hq]
  simp only
  by_cases hd : (!do_continue (u f r) st.keeper) = true
  · rw [if_pos hd]; exact ⟨_, rfl⟩
  · rw [if_neg hd]
    cases (if (!st.first) = true then is_tagged_kmer pm f r else none) with
    | none => exact ⟨_, rfl⟩
    | some t => exact ⟨_, rfl⟩

theorem find_tags_turn_even (u : Nat → Nat → Nat) (ht : Hashtable) (pm : List (Nat × Nat))
    (st st' : FindTagsState) (h : ht.find_tags_turn u pm st = some st')
    (he : st.node_q.length % 2 = 0) : st'.node_q.length % 2 = 0 := by
  obtain ⟨f, r, q, hq, h1 | h1 | h1⟩ := find_tags_turn_cases u ht pm st st' h
  · rw [h1.2]; rw [hq] at he; simp only [List.length_cons] at he ⊢; omega
  · obtain ⟨-, -, t, -, e⟩ := h1
    rw [e]; rw [hq] at he; simp only [List.length_cons] at he ⊢; omega
  · rw [h1.2.2]
    obtain ⟨m, -, hm⟩ := length_push_neighbours u ht f r q
    rw [hq] at he
    simp only [List.length_cons] at he ⊢
    rw [hm]; omega

/-- The loop returns: it surrenders when `total` passes
`PARTITION_MAX_TAG_EXAMINED`, before the turns allowed run out. -/
theorem find_tags_loop_returns (u : Nat → Nat → Nat) (ht : Hashtable) (pm : List (Nat × Nat)) :
    ∀ (fuel : Nat) (st : FindTagsState), st.node_q.length % 2 = 0 →
      st.total ≤ PARTITION_MAX_TAG_EXAMINED → PARTITION_MAX_TAG_EXAMINED < st.total + fuel →
      ∃ st', ht.find_tags_loop u pm fuel st = some st' := by
  intro fuel
  induction fuel with
  | zero => intro st _ h1 h2; omega
  | succ fuel ih =>
    intro st he h1 h2
    unfold Hashtable.find_tags_loop
    by_cases hq : st.node_q = []
    · rw [if_pos hq]; exact ⟨_, rfl⟩
    · rw [if_neg hq]
      simp only
      split_ifs with hb
      · exact ⟨_, rfl⟩
      · have hb1 : st.total + 1 ≤ PARTITION_MAX_TAG_EXAMINED := by
          by_contra hc
          exact hb (Or.inl (by omega))
        obtain ⟨f, r, q, hq'⟩ : ∃ f r q, st.node_q = f :: r :: q := by
          cases hn : st.node_q with
          | nil => exact absurd hn hq
          | cons a t =>
            cases t with
            | nil => rw [hn] at he; simp at he
            | cons b t' => exact ⟨a, b, t', rfl⟩
        obtain ⟨st1, hst1⟩ := find_tags_turn_returns u ht pm
          { st with total := st.total + 1 } f r q hq'
        have ht1 := find_tags_turn_total u ht pm _ st1 hst1
        have he1 := find_tags_turn_even u ht pm _ st1 hst1 he
        obtain ⟨st', hst'⟩ := ih st1 he1 (by rw [ht1.1]; exact hb1)
          (by rw [ht1.1]; simp only; omega)
        refine ⟨st', ?_⟩
        rw [hst1]
        exact hst'

/-- What every turn keeps holds when the loop ends; and the loop ends with an
empty queue unless it surrenders. -/
theorem find_tags_loop_inv (u : Nat → Nat → Nat) (ht : Hashtable) (pm : List (Nat × Nat))
    (I : FindTagsState → Prop)
    (htotal : ∀ st, I st → I { st with total := st.total + 1 })
    (hsurr : ∀ st, I st → I { st with surrender := true })
    (hturn : ∀ st st', I st → ht.find_tags_turn u pm st = some st' → I st') :
    ∀ (fuel : Nat) (st st' : FindTagsState), I st →
      ht.find_tags_loop u pm fuel st = some st' →
      I st' ∧ (st'.surrender = false → st'.node_q = [] ∧ st.surrender = false) := by
  intro fuel
  induction fuel with
  | zero => intro st st' _ h; cases h
  | succ fuel ih =>
    intro st st' hI h
    unfold Hashtable.find_tags_loop at h
    by_cases hq : st.node_q = []
    · rw [if_pos hq] at h
      cases h
      exact ⟨hI, fun hs => ⟨hq, hs⟩⟩
    · rw [if_neg hq] at h
      simp only at h
      split_ifs at h with hb
      · cases h
        exact ⟨hsurr _ (htotal _ hI), fun hs => by cases hs⟩
      · cases hst1 : ht.find_tags_turn u pm { st with total := st.total + 1 } with
        | none => rw [hst1] at h; cases h
        | some st1 =>
          rw [hst1] at h
          obtain ⟨i1, i2⟩ := ih st1 st' (hturn _ st1 (htotal _ hI) hst1) h
          have ht1 := find_tags_turn_total u ht pm _ st1 hst1
          refine ⟨i1, fun hs => ⟨(i2 hs).1, ?_⟩⟩
          have := (i2 hs).2
          rw [ht1.2] at this
          exact this

/-- The queue at the top of the loop has at most 14 entries more than
`PARTITION_ALL_TAG_DEPTH`. -/
theorem find_tags_after_queue (u : Nat → Nat → Nat) (ht : Hashtable) (pm : List (Nat × Nat)) :
    ∀ (n : Nat) (st st' : FindTagsState),
      st.node_q.length ≤ PARTITION_ALL_TAG_DEPTH + 14 →
      ht.find_tags_after u pm n st = some st' →
      st'.node_q.length ≤ PARTITION_ALL_TAG_DEPTH + 14 := by
  intro n
  induction n with
  | zero =>
    intro st st' hst h
    unfold Hashtable.find_tags_after at h
    cases h
    exact hst
  | succ n ih =>
    intro st st' hst h
    unfold Hashtable.find_tags_after at h
    by_cases hq : st.node_q = []
    · rw [if_pos hq] at h
      cases h
      exact hst
    · rw [if_neg hq] at h
      simp only at h
      split_ifs at h with hb
      · cases h
        exact hst
      · cases hst1 : ht.find_tags_turn u pm { st with total := st.total + 1 } with
        | none => rw [hst1] at h; cases h
        | some st1 =>
          rw [hst1] at h
          refine ih st1 st' ?_ h
          have hlen : st.node_q.length ≤ PARTITION_ALL_TAG_DEPTH := by
            by_contra hc
            exact hb (Or.inr (by omega))
          obtain ⟨f, r, q, hq', h1 | h1 | h1⟩ := find_tags_turn_cases u ht pm _ st1 hst1
          · rw [h1.2]
            simp only at hq' ⊢
            rw [hq'] at hlen
            simp only [List.length_cons] at hlen
            omega
          · obtain ⟨-, -, t, -, e⟩ := h1
            rw [e]
            simp only at hq' ⊢
            rw [hq'] at hlen
            simp only [List.length_cons] at hlen
            omega
          · rw [h1.2.2]
            obtain ⟨m, hm8, hm⟩ := length_push_neighbours u ht f r q
            simp only at hq' ⊢
            rw [hq'] at hlen
            simp only [List.length_cons] at hlen
            rw [hm]
            omega

/-- The loop ends in a state that `find_tags_after` comes to, or in that state
with `total` incremented and `surrender` set. -/
theorem find_tags_loop_after (u : Nat → Nat → Nat) (ht : Hashtable) (pm : List (Nat × Nat)) :
    ∀ (fuel : Nat) (st st' : FindTagsState), ht.find_tags_loop u pm fuel st = some st' →
      ∃ n st'', n ≤ fuel ∧ ht.find_tags_after u pm n st = some st''
        ∧ (st' = st'' ∨ st' = { st'' with total := st''.total + 1, surrender := true }) := by
  intro fuel
  induction fuel with
  | zero => intro st st' h; cases h
  | succ fuel ih =>
    intro st st' h
    unfold Hashtable.find_tags_loop at h
    by_cases hq : st.node_q = []
    · rw [if_pos hq] at h
      cases h
      exact ⟨0, st, Nat.zero_le _, rfl, Or.inl rfl⟩
    · rw [if_neg hq] at h
      simp only at h
      split_ifs at h with hb
      · cases h
        exact ⟨0, st, Nat.zero_le _, rfl, Or.inr rfl⟩
      · cases hst1 : ht.find_tags_turn u pm { st with total := st.total + 1 } with
        | none => rw [hst1] at h; cases h
        | some st1 =>
          rw [hst1] at h
          obtain ⟨n, st'', hn, hafter, hres⟩ := ih st1 st' h
          refine ⟨n + 1, st'', by omega, ?_, hres⟩
          unfold Hashtable.find_tags_after
          rw [if_neg hq]
          simp only
          rw [if_neg hb, hst1]
          exact hafter

/-! ## The queue and the start of partition_find_all_tags -/

set_option maxRecDepth 100000

/-- C28, as stated, fails: in the table with k = 6 and one bin after the read
"AAAAAA", the search of `partition_find_all_tags` from AAAAAA with an empty
partition map has 508 entries in its queue at the top of the loop after 67
turns under the key min(f, r), and after 83 turns under the key f XOR r: more
than `PARTITION_ALL_TAG_DEPTH` = 500. The size of the queue is tested once a
turn, before the two pops and the up to sixteen pushes of the turn. -/
theorem find_all_tags_queue_exceeds_depth :
    (Hashtable.find_tags_after uniqify_rc_min (one_bin_walk_table uniqify_rc_min) [] 67
      (find_tags_init (kmer_pair ['A', 'A', 'A', 'A', 'A', 'A']).1
        (kmer_pair ['A', 'A', 'A', 'A', 'A', 'A']).2 [] false)).map
        (fun st => st.node_q.length) = some 508
      ∧ (Hashtable.find_tags_after uniqify_rc_xor (one_bin_walk_table uniqify_rc_xor) [] 83
        (find_tags_init (kmer_pair ['A', 'A', 'A', 'A', 'A', 'A']).1
          (kmer_pair ['A', 'A', 'A', 'A', 'A', 'A']).2 [] false)).map
          (fun st => st.node_q.length) = some 508 := by
  constructor <;> decide!

/-- C28, amended: at the top of the loop of `partition_find_all_tags`, after
any number of turns, the queue holds at most `PARTITION_ALL_TAG_DEPTH` + 14 =
514 entries; and when it holds more than `PARTITION_ALL_TAG_DEPTH` entries there
the loop makes no further turn: it sets `surrender` and ends. -/
theorem find_all_tags_queue_bound (uniqify_rc : Nat → Nat → Nat) (ht : Hashtable)
    (partition_map : List (Nat × Nat)) (kmer_f kmer_r : Nat) (tagged_kmers : List Nat)
    (surrender : Bool) (n : Nat) (st : FindTagsState)
    (h : ht.find_tags_after uniqify_rc partition_map n
      (find_tags_init kmer_f kmer_r tagged_kmers surrender) = some st) :
    st.node_q.length ≤ PARTITION_ALL_TAG_DEPTH + 14
      ∧ (PARTITION_ALL_TAG_DEPTH < st.node_q.length →
          ∀ turns, ht.find_tags_loop uniqify_rc partition_map (turns + 1) st
            = some { st with total := st.total + 1, surrender := true }) := by
  refine ⟨find_tags_after_queue uniqify_rc ht partition_map n _ st
    (by unfold find_tags_init PARTITION_ALL_TAG_DEPTH; simp) h, ?_⟩
  intro hlen turns
  unfold Hashtable.find_tags_loop
  have hq : st.node_q ≠ [] := by
    intro e
    rw [e] at hlen
    exact absurd hlen (by decide)
  rw [if_neg hq]
  simp only
  rw [if_pos (Or.inr hlen)]

/-- The bound at the top of the loop after two turns of the
search from AAAAAA in the table with one bin. -/
theorem find_all_tags_queue_bound_witness :
    ∃ st, Hashtable.find_tags_after uniqify_rc_min (one_bin_walk_table uniqify_rc_min) [] 2
          (find_tags_init 0 1365 [] false) = some st
      ∧ st.node_q.length ≤ PARTITION_ALL_TAG_DEPTH + 14
      ∧ (PARTITION_ALL_TAG_DEPTH < st.node_q.length →
          ∀ turns, (one_bin_walk_table uniqify_rc_min).find_tags_loop uniqify_rc_min [] (turns + 1) st
            = some { st with total := st.total + 1, surrender := true }) := by
  have hsome : (Hashtable.find_tags_after uniqify_rc_min (one_bin_walk_table uniqify_rc_min) [] 2
      (find_tags_init 0 1365 [] false)).isSome = true := by decide
  obtain ⟨st, hst⟩ := Option.isSome_iff_exists.mp hsome
  exact ⟨st, hst, find_all_tags_queue_bound uniqify_rc_min (one_bin_walk_table uniqify_rc_min) []
    0 1365 [] false 2 st hst⟩

/-- C24, as stated, fails: with k = 2, after `do_truncated_partition` over the
one read "AA" the forward encoding 0 of AA is a key of the partition map, and
`partition_find_all_tags` from the pair of AA returns `tagged_kmers` = {0}: a
start that is a key matches itself, in the test before the search. The same
under both keys. -/
theorem find_all_tags_start_matches_itself :
    (kmer_pair ['A', 'A']).1 = 0
      ∧ (do_truncated_partition uniqify_rc_min (empty_table 2 1000003) empty_partition_state
          [("read", ['A', 'A'])]).bind
          (fun hs => hs.1.partition_find_all_tags uniqify_rc_min hs.2.partition_map
            (kmer_pair ['A', 'A']).1 (kmer_pair ['A', 'A']).2 [] false) = some ([0], false)
      ∧ (do_truncated_partition uniqify_rc_xor (empty_table 2 1000003) empty_partition_state
          [("read", ['A', 'A'])]).bind
          (fun hs => hs.1.partition_find_all_tags uniqify_rc_xor hs.2.partition_map
            (kmer_pair ['A', 'A']).1 (kmer_pair ['A', 'A']).2 [] false) = some ([0], false) := by
  refine ⟨by decide, by decide, by decide⟩

/-- C24, amended: when neither `f` nor `r` of the start is a key of the
partition map, `partition_find_all_tags` returns, keeps what `tagged_kmers`
held and adds keys of the partition map only, so it adds neither `f` nor `r`;
when `f` or `r` is a key, it returns at once with that key added to
`tagged_kmers`. -/
theorem find_all_tags_start (uniqify_rc : Nat → Nat → Nat) (ht : Hashtable)
    (partition_map : List (Nat × Nat)) (kmer_f kmer_r : Nat) (tagged_kmers : List Nat)
    (surrender : Bool) :
    (map_find kmer_f partition_map = none ∧ map_find kmer_r partition_map = none →
      ∃ tags s, ht.partition_find_all_tags uniqify_rc partition_map kmer_f kmer_r tagged_kmers
            surrender = some (tags, s)
        ∧ (∀ t ∈ tagged_kmers, t ∈ tags)
        ∧ (∀ t ∈ tags, t ∈ tagged_kmers ∨ (map_find t partition_map).isSome)
        ∧ (kmer_f ∈ tags → kmer_f ∈ tagged_kmers) ∧ (kmer_r ∈ tags → kmer_r ∈ tagged_kmers))
      ∧ (∀ t, is_tagged_kmer partition_map kmer_f kmer_r = some t →
          ht.partition_find_all_tags uniqify_rc partition_map kmer_f kmer_r tagged_kmers
            surrender = some (set_insert t tagged_kmers, surrender)) := by
  constructor
  · intro hfr
    have hstart : is_tagged_kmer partition_map kmer_f kmer_r = none :=
      (is_tagged_kmer_none _ _ _).mpr hfr
    obtain ⟨st', hst'⟩ := find_tags_loop_returns uniqify_rc ht partition_map
      (PARTITION_MAX_TAG_EXAMINED + 1) (find_tags_init kmer_f kmer_r tagged_kmers surrender)
      (by unfold find_tags_init; simp) (Nat.zero_le _) (by simp [find_tags_init])
    have hinv := find_tags_loop_inv uniqify_rc ht partition_map
      (fun st => (∀ t ∈ tagged_kmers, t ∈ st.tagged_kmers)
        ∧ ∀ t ∈ st.tagged_kmers, t ∈ tagged_kmers ∨ (map_find t partition_map).isSome)
      (fun st h => h) (fun st h => h)
      (fun st st1 hI hturn => by
        obtain ⟨f, r, q, -, h1 | h1 | h1⟩ :=
          find_tags_turn_cases uniqify_rc ht partition_map st st1 hturn
        · rw [h1.2]; exact hI
        · obtain ⟨-, -, t, htag, e⟩ := h1
          rw [e]
          refine ⟨fun x hx => (mem_set_insert _ _ _).mpr (Or.inr (hI.1 x hx)), fun x hx => ?_⟩
          rcases (mem_set_insert _ _ _).mp hx with hxt | hxt
          · rw [hxt]; exact Or.inr (is_tagged_kmer_some _ _ _ _ htag).2
          · exact hI.2 x hxt
        · rw [h1.2.2]; exact hI)
      (PARTITION_MAX_TAG_EXAMINED + 1) (find_tags_init kmer_f kmer_r tagged_kmers surrender) st'
      ⟨fun t ht => ht, fun t ht => Or.inl ht⟩ hst'
    refine ⟨st'.tagged_kmers, st'.surrender, ?_, hinv.1.1, hinv.1.2, ?_, ?_⟩
    · unfold Hashtable.partition_find_all_tags
      rw [hstart]
      simp only
      rw [hst']
      rfl
    · intro hmem
      rcases hinv.1.2 _ hmem with h | h
      · exact h
      · rw [hfr.1] at h; cases h
    · intro hmem
      rcases hinv.1.2 _ hmem with h | h
      · exact h
      · rw [hfr.2] at h; cases h
  · intro t htag
    unfold Hashtable.partition_find_all_tags
    rw [htag]

/-- The search from AA in the table after the read "CAAG", with an empty
partition map and with the partition map that has the key 0. -/
theorem find_all_tags_start_witness :
    (∃ tags s, (walk_table uniqify_rc_min).partition_find_all_tags uniqify_rc_min [] 0 5 [] false
          = some (tags, s)
        ∧ (∀ t ∈ ([] : List Nat), t ∈ tags)
        ∧ (∀ t ∈ tags, t ∈ ([] : List Nat) ∨ (map_find t ([] : List (Nat × Nat))).isSome)
        ∧ (0 ∈ tags → 0 ∈ ([] : List Nat)) ∧ (5 ∈ tags → 5 ∈ ([] : List Nat)))
      ∧ (walk_table uniqify_rc_min).partition_find_all_tags uniqify_rc_min [(0, 1)] 0 5 [] false
          = some (set_insert 0 [], false) :=
  ⟨(find_all_tags_start uniqify_rc_min (walk_table uniqify_rc_min) [] 0 5 [] false).1 ⟨rfl, rfl⟩,
   (find_all_tags_start uniqify_rc_min (walk_table uniqify_rc_min) [(0, 1)] 0 5 [] false).2 0 rfl⟩

/-! ## What the search of partition_find_all_tags finds -/

theorem queue_of_cons (y : List Char) (ys : List (List Char)) :
    queue_of (y :: ys) = (kmer_pair y).1 :: (kmer_pair y).2 :: queue_of ys := rfl

theorem queue_of_append (xs ys : List (List Char)) :
    queue_of (xs ++ ys) = queue_of xs ++ queue_of ys := by
  unfold queue_of
  exact List.flatMap_append _ _ _

theorem flatMap_filter_map_pair (l : List (List Char)) (p : Nat × Nat → Bool) :
    ((l.map kmer_pair).filter p).flatMap (fun fr => [fr.1, fr.2])
      = queue_of (l.filter (fun y => p (kmer_pair y))) := by
  induction l with
  | nil => rfl
  | cons a rest ih =>
    rw [List.map_cons, List.filter_cons, List.filter_cons]
    cases hp : p (kmer_pair a) with
    | true =>
      simp only [if_true]
      rw [List.flatMap_cons, ih, queue_of_cons]
      rfl
    | false =>
      simp only [Bool.false_eq_true, if_false]
      exact ih

/-- The queue after the pushes of a turn at the pair of a k-mer: the pairs of
its present neighbours are added. -/
theorem push_neighbours_kmer (u : Nat → Nat → Nat) (ht : Hashtable) (y : List Char)
    (hy : y.length = ht.ksize) (hk1 : 1 ≤ ht.ksize) (hk : ht.ksize ≤ 32) (q : List Nat) :
    ht.push_neighbours u (kmer_pair y).1 (kmer_pair y).2 q
      = q ++ queue_of ((kmer_neighbours y).filter (fun w => decide (ht.present u w))) := by
  rw [push_neighbours_eq, neighbour_pairs_kmer ht y hy hk1 hk, flatMap_filter_map_pair]
  rfl

theorem present_congr (u : Nat → Nat → Nat) (ht : Hashtable) (a b : List Char)
    (h : kmer_key u a = kmer_key u b) : ht.present u a ↔ ht.present u b := by
  unfold Hashtable.present
  rw [h]

/-- Two k-mers with the same key are tagged or untagged together, a tag of one
is the forward or the reverse encoding of the other, and each neighbour of one
has the key of a neighbour of the other. -/
theorem same_key_tag (u : Nat → Nat → Nat) (pm : List (Nat × Nat)) (k : Nat)
    (hsym : key_symmetric u) (hsep : key_separates u k) (hk1 : 1 ≤ k)
    (y v : List Char) (hyl : y.length = k) (hys : is_acgt y)
    (hvl : v.length = k) (hvs : is_acgt v) (hkey : kmer_key u v = kmer_key u y) :
    (kmer_tag pm v = none ↔ kmer_tag pm y = none)
      ∧ (∀ t, (t = (kmer_pair y).1 ∨ t = (kmer_pair y).2) →
          (t = (kmer_pair v).1 ∨ t = (kmer_pair v).2))
      ∧ (∀ w ∈ kmer_neighbours v, ∃ w' ∈ kmer_neighbours y, kmer_key u w' = kmer_key u w) := by
  rcases hsep y v hyl hvl hys hvs hkey.symm with e | e
  · subst e
    exact ⟨Iff.rfl, fun t h => h, fun w hw => ⟨w, hw, rfl⟩⟩
  · have hp := kmer_pair_reverse_complement y hys
    refine ⟨?_, ?_, ?_⟩
    · unfold kmer_tag
      rw [e, hp]
      exact is_tagged_kmer_swap pm _ _
    · intro t ht
      rw [e, hp]
      exact ht.symm
    · intro w hw
      have hwv := kmer_neighbours_kmer v w k hk1 hvl hvs hw
      have hrc := kmer_neighbours_reverse_complement v w hw
      rw [e, reverse_complement_involutive y hys] at hrc
      exact ⟨reverse_complement w, hrc, kmer_key_reverse_complement u hsym w hwv.2⟩

/-- The step of the invariant of the search: the front k-mer `y0` of the queue
has been taken, its key is in `keeper`, and, if the key was new, its tag has
been recorded or its present neighbours have been queued. -/
theorem search_inv_step (u : Nat → Nat → Nat) (ht : Hashtable) (pm : List (Nat × Nat))
    (start : List Char) (hsym : key_symmetric u) (hsep : key_separates u ht.ksize)
    (hk1 : 1 ≤ ht.ksize) (st st' : FindTagsState) (y0 : List Char) (ys ys' : List (List Char))
    (hI : SearchInv u ht pm start st (y0 :: ys))
    (hq : st'.node_q = queue_of ys') (hsub : ∀ y ∈ ys, y ∈ ys')
    (hvalid : ∀ y ∈ ys', y.length = ht.ksize ∧ is_acgt y)
    (hfirst : st'.first = true → st.first = true ∧ ys' = ys)
    (hkeep : ∀ x, x ∈ st'.keeper ↔ x = kmer_key u y0 ∨ x ∈ st.keeper)
    (htags : ∀ t ∈ st.tagged_kmers, t ∈ st'.tagged_kmers)
    (hnew : kmer_key u y0 ∉ st.keeper →
      (kmer_tag pm y0 ≠ none → ∃ t ∈ st'.tagged_kmers,
        (t = (kmer_pair y0).1 ∨ t = (kmer_pair y0).2) ∧ (map_find t pm).isSome)
      ∧ (kmer_tag pm y0 = none → ∀ w ∈ kmer_neighbours y0, ht.present u w → w ∈ ys')) :
    SearchInv u ht pm start st' ys' := by
  have hy0 := hI.kmers y0 (List.mem_cons_self _ _)
  have adjust : ∀ x, (x ∈ st.keeper ∨ ∃ y ∈ y0 :: ys, kmer_key u y = x) →
      (x ∈ st'.keeper ∨ ∃ y ∈ ys', kmer_key u y = x) := by
    intro x hx
    rcases hx with h | ⟨y, hy, hyx⟩
    · exact Or.inl ((hkeep x).mpr (Or.inr h))
    · rcases List.mem_cons.mp hy with h | h
      · exact Or.inl ((hkeep x).mpr (Or.inl (by rw [← hyx, h])))
      · exact Or.inr ⟨y, hsub y h, hyx⟩
  refine ⟨hvalid, hq, ?_, adjust _ hI.start_seen, ?_, ?_⟩
  · intro hf y hy
    obtain ⟨hf', e⟩ := hfirst hf
    rw [e] at hy
    exact hI.first hf' y (List.mem_cons_of_mem _ hy)
  · intro v hvl hvs hv htag
    rcases (hkeep _).mp hv with h | h
    · by_cases hold : kmer_key u y0 ∈ st.keeper
      · obtain ⟨t, ht1, ht2⟩ := hI.recorded v hvl hvs (h ▸ hold) htag
        exact ⟨t, htags t ht1, ht2⟩
      · obtain ⟨s1, s2, -⟩ := same_key_tag u pm ht.ksize hsym hsep hk1 y0 v hy0.1 hy0.2 hvl hvs h
        obtain ⟨t, ht1, ht2, ht3⟩ := (hnew hold).1 (fun hn => htag (s1.mpr hn))
        exact ⟨t, ht1, s2 t ht2, ht3⟩
    · obtain ⟨t, ht1, ht2⟩ := hI.recorded v hvl hvs h htag
      exact ⟨t, htags t ht1, ht2⟩
  · intro v hvl hvs hv htag w hw hpw
    by_cases hold : kmer_key u v ∈ st.keeper
    · exact adjust _ (hI.covered v hvl hvs hold htag w hw hpw)
    · have h : kmer_key u v = kmer_key u y0 := ((hkeep _).mp hv).resolve_right hold
      obtain ⟨s1, -, s3⟩ := same_key_tag u pm ht.ksize hsym hsep hk1 y0 v hy0.1 hy0.2 hvl hvs h
      obtain ⟨w', hw', hkw⟩ := s3 w hw
      have hpw' : ht.present u w' := (present_congr u ht w' w hkw).mpr hpw
      exact Or.inr ⟨w', (hnew (h ▸ hold)).2 (s1.mp htag) w' hw' hpw', hkw⟩

/-- A turn of the loop keeps the invariant of the search. -/
theorem search_inv_turn (u : Nat → Nat → Nat) (ht : Hashtable) (pm : List (Nat × Nat))
    (start : List Char) (hsym : key_symmetric u) (hsep : key_separates u ht.ksize)
    (hk1 : 1 ≤ ht.ksize) (hk : ht.ksize ≤ 32) (st st' : FindTagsState)
    (hI : ∃ ys, SearchInv u ht pm start st ys)
    (hturn : ht.find_tags_turn u pm st = some st') :
    ∃ ys', SearchInv u ht pm start st' ys' := by
  obtain ⟨ys, hI⟩ := hI
  obtain ⟨f, r, q, hq, hcase⟩ := find_tags_turn_cases u ht pm st st' hturn
  have hqueue := hI.queue
  rw [hq] at hqueue
  cases ys with
  | nil => cases hqueue
  | cons y0 ys =>
    rw [queue_of_cons] at hqueue
    have hf : f = (kmer_pair y0).1 := by injection hqueue
    have hr : r = (kmer_pair y0).2 := by
      injection hqueue with _ h2
      injection h2
    have hqq : q = queue_of ys := by
      injection hqueue with _ h2
      injection h2
    have hkey : u f r = kmer_key u y0 := by rw [hf, hr]; rfl
    have hy0 := hI.kmers y0 (List.mem_cons_self _ _)
    have hvalid : ∀ y ∈ ys, y.length = ht.ksize ∧ is_acgt y :=
      fun y hy => hI.kmers y (List.mem_cons_of_mem _ hy)
    rcases hcase with ⟨hin, e⟩ | ⟨hnin, hfirst, t, htag, e⟩ | ⟨hnin, hopen, e⟩
    · refine ⟨ys, search_inv_step u ht pm start hsym hsep hk1 st st' y0 ys ys hI
        (by rw [e]; exact hqq) (fun y hy => hy) hvalid
        (fun h => ⟨by rw [e] at h; exact h, rfl⟩) ?_ (by rw [e]; exact fun t ht => ht) ?_⟩
      · intro x
        rw [e]
        constructor
        · exact fun h => Or.inr h
        · rintro (h | h)
          · rw [h, ← hkey]; exact hin
          · exact h
      · intro hn
        exact absurd (hkey ▸ hin) hn
    · refine ⟨ys, search_inv_step u ht pm start hsym hsep hk1 st st' y0 ys ys hI
        (by rw [e]; exact hqq) (fun y hy => hy) hvalid
        (fun h => by rw [e] at h; simp only at h; rw [hfirst] at h; cases h) ?_
        (by rw [e]; exact fun x hx => (mem_set_insert _ _ _).mpr (Or.inr hx)) ?_⟩
      · intro x
        rw [e]
        simp only
        rw [mem_set_insert, hkey]
      · intro _
        have htag' : kmer_tag pm y0 = some t := by
          unfold kmer_tag; rw [← hf, ← hr]; exact htag
        refine ⟨fun _ => ⟨t, ?_, ?_, (is_tagged_kmer_some _ _ _ _ htag).2⟩,
          fun hn => by rw [hn] at htag'; cases htag'⟩
        · rw [e]; exact (mem_set_insert _ _ _).mpr (Or.inl rfl)
        · rw [← hf, ← hr]; exact (is_tagged_kmer_some _ _ _ _ htag).1
    · have htag : kmer_tag pm y0 = none := by
        rcases hopen with h | h
        · exact hI.first h y0 (List.mem_cons_self _ _)
        · unfold kmer_tag; rw [← hf, ← hr]; exact h
      refine ⟨ys ++ (kmer_neighbours y0).filter (fun w => decide (ht.present u w)),
        search_inv_step u ht pm start hsym hsep hk1 st st' y0 ys _ hI ?_
        (fun y hy => List.mem_append_left _ hy) ?_
        (fun h => by rw [e] at h; cases h) ?_ (by rw [e]; exact fun t ht => ht) ?_⟩
      · rw [e]
        simp only
        rw [hf, hr, push_neighbours_kmer u ht y0 hy0.1 hk1 hk, hqq, queue_of_append]
      · intro y hy
        rcases List.mem_append.mp hy with h | h
        · exact hvalid y h
        · exact kmer_neighbours_kmer y0 y ht.ksize hk1 hy0.1 hy0.2 (List.mem_filter.mp h).1
      · intro x
        rw [e]
        simp only
        rw [mem_set_insert, hkey]
      · intro _
        refine ⟨fun hn => absurd htag hn, fun _ w hw hpw => ?_⟩
        exact List.mem_append_right _ (List.mem_filter.mpr ⟨hw, by simpa using hpw⟩)

/-- The search that does not surrender records every tagged k-mer it comes
to. -/
theorem search_finds (u : Nat → Nat → Nat) (ht : Hashtable) (pm : List (Nat × Nat))
    (start : List Char) (tagged_kmers : List Nat) (surrender : Bool)
    (hsym : key_symmetric u) (hsep : key_separates u ht.ksize)
    (hk1 : 1 ≤ ht.ksize) (hk : ht.ksize ≤ 32)
    (hlen : start.length = ht.ksize) (hs : is_acgt start)
    (hstart : kmer_tag pm start = none)
    (fuel : Nat) (st' : FindTagsState)
    (hrun : ht.find_tags_loop u pm fuel
      (find_tags_init (kmer_pair start).1 (kmer_pair start).2 tagged_kmers surrender) = some st')
    (hsurr : st'.surrender = false) :
    ∀ w, ht.search_reaches u pm start w →
      (w.length = ht.ksize ∧ is_acgt w ∧ kmer_key u w ∈ st'.keeper)
        ∧ (kmer_tag pm w ≠ none → ∃ t ∈ st'.tagged_kmers,
            (t = (kmer_pair w).1 ∨ t = (kmer_pair w).2) ∧ (map_find t pm).isSome) := by
  have hinit : ∃ ys, SearchInv u ht pm start
      (find_tags_init (kmer_pair start).1 (kmer_pair start).2 tagged_kmers surrender) ys := by
    refine ⟨[start], ?_⟩
    refine ⟨?_, rfl, ?_, Or.inr ⟨start, List.mem_singleton.mpr rfl, rfl⟩, ?_, ?_⟩
    · intro y hy; rw [List.mem_singleton.mp hy]; exact ⟨hlen, hs⟩
    · intro _ y hy; rw [List.mem_singleton.mp hy]; exact hstart
    · intro v _ _ hv; cases hv
    · intro v _ _ hv; cases hv
  have hinv := find_tags_loop_inv u ht pm (fun st => ∃ ys, SearchInv u ht pm start st ys)
    (fun st ⟨ys, h⟩ => ⟨ys, ⟨h.kmers, h.queue, h.first, h.start_seen, h.recorded, h.covered⟩⟩)
    (fun st ⟨ys, h⟩ => ⟨ys, ⟨h.kmers, h.queue, h.first, h.start_seen, h.recorded, h.covered⟩⟩)
    (fun st st1 hI hturn => search_inv_turn u ht pm start hsym hsep hk1 hk st st1 hI hturn)
    fuel _ st' hinit hrun
  obtain ⟨⟨ys, hI⟩, hend⟩ := hinv
  have hq := (hend hsurr).1
  have hys : ys = [] := by
    have := hI.queue
    rw [hq] at this
    cases ys with
    | nil => rfl
    | cons y ys => cases this
  subst hys
  have hseen : ∀ x, (x ∈ st'.keeper ∨ ∃ y ∈ ([] : List (List Char)), kmer_key u y = x) →
      x ∈ st'.keeper := by
    rintro x (h | ⟨y, hy, -⟩)
    · exact h
    · cases hy
  have hrec : ∀ w, w.length = ht.ksize → is_acgt w → kmer_key u w ∈ st'.keeper →
      kmer_tag pm w ≠ none → ∃ t ∈ st'.tagged_kmers,
        (t = (kmer_pair w).1 ∨ t = (kmer_pair w).2) ∧ (map_find t pm).isSome :=
    fun w h1 h2 h3 h4 => hI.recorded w h1 h2 h3 h4
  intro w hw
  induction hw with
  | first w hmem hp =>
    have hv := kmer_neighbours_kmer start w ht.ksize hk1 hlen hs hmem
    have hk := hseen _ (hI.covered start hlen hs (hseen _ hI.start_seen) hstart w hmem hp)
    exact ⟨⟨hv.1, hv.2, hk⟩, hrec w hv.1 hv.2 hk⟩
  | step v w _ htag hmem hp ih =>
    obtain ⟨⟨hvl, hvs, hvk⟩, -⟩ := ih
    have hv := kmer_neighbours_kmer v w ht.ksize hk1 hvl hvs hmem
    have hk := hseen _ (hI.covered v hvl hvs hvk htag w hmem hp)
    exact ⟨⟨hv.1, hv.2, hk⟩, hrec w hv.1 hv.2 hk⟩

/-! ## The tags partition_find_all_tags collects -/

set_option maxRecDepth 100000

/-- C23, as stated, fails: with k = 3 and 1000003 bins, after
`do_truncated_partition` over the reads "GGG" and "TGG" the partition map has
the keys 31 (TGG) and 63 (GGG). The read "ATG" is counted and
`partition_find_all_tags` is called at the pair (7, 33) of ATG: it returns
`tagged_kmers` = {31} with `surrender` = false. GGG is tagged and is reached
from ATG by the path ATG, TGG, GGG of k-mers with a non-zero count, but neither
its forward encoding 63 nor its reverse encoding 42 is in `tagged_kmers`: the
search does not go on from the tagged k-mer TGG. The same under both keys. -/
theorem find_all_tags_misses_tag :
    (kmer_pair ['A', 'T', 'G'] = (7, 33) ∧ kmer_pair ['G', 'G', 'G'] = (63, 42)
      ∧ ['T', 'G', 'G'] ∈ kmer_neighbours ['A', 'T', 'G']
      ∧ ['G', 'G', 'G'] ∈ kmer_neighbours ['T', 'G', 'G'])
    ∧ (do_truncated_partition uniqify_rc_min (empty_table 3 1000003) empty_partition_state
        [("read1", ['G', 'G', 'G']), ("read2", ['T', 'G', 'G'])]).map
        (fun hs =>
          let ht := (hs.1.check_and_process_read uniqify_rc_min ['A', 'T', 'G'] 0 0).2.2
          (hs.2.partition_map,
            ht.partition_find_all_tags uniqify_rc_min hs.2.partition_map 7 33 [] false,
            decide (ht.present uniqify_rc_min ['A', 'T', 'G']),
            decide (ht.present uniqify_rc_min ['T', 'G', 'G']),
            decide (ht.present uniqify_rc_min ['G', 'G', 'G'])))
        = some ([(31, 1), (63, 1)], some ([31], false), true, true, true)
    ∧ (do_truncated_partition uniqify_rc_xor (empty_table 3 1000003) empty_partition_state
        [("read1", ['G', 'G', 'G']), ("read2", ['T', 'G', 'G'])]).map
        (fun hs =>
          let ht := (hs.1.check_and_process_read uniqify_rc_xor ['A', 'T', 'G'] 0 0).2.2
          (hs.2.partition_map,
            ht.partition_find_all_tags uniqify_rc_xor hs.2.partition_map 7 33 [] false,
            decide (ht.present uniqify_rc_xor ['A', 'T', 'G']),
            decide (ht.present uniqify_rc_xor ['T', 'G', 'G']),
            decide (ht.present uniqify_rc_xor ['G', 'G', 'G'])))
        = some ([(31, 1), (63, 1)], some ([31], false), true, true, true) := by
  refine ⟨⟨by decide, by decide, by decide, by decide⟩, by decide, by decide⟩

/-- C23, amended: when the start k-mer is not tagged and
`partition_find_all_tags` returns with `surrender` = false, `tagged_kmers`
contains, by its forward or its reverse encoding, a key of the partition map
for every tagged k-mer that is reached from the start by a path of k-mers with
non-zero count on which no k-mer before the last is tagged. For 1 ≤ k ≤ 32 and
a canonical key that is symmetric and separates k-mers up to reverse
complement. -/
theorem find_all_tags_complete (uniqify_rc : Nat → Nat → Nat) (ht : Hashtable)
    (partition_map : List (Nat × Nat)) (start : List Char) (tagged_kmers tags : List Nat)
    (surrender : Bool)
    (hsym : key_symmetric uniqify_rc) (hsep : key_separates uniqify_rc ht.ksize)
    (hk1 : 1 ≤ ht.ksize) (hk : ht.ksize ≤ 32)
    (hlen : start.length = ht.ksize) (hs : is_acgt start)
    (hstart : kmer_tag partition_map start = none)
    (hrun : ht.partition_find_all_tags uniqify_rc partition_map (kmer_pair start).1
      (kmer_pair start).2 tagged_kmers surrender = some (tags, false)) :
    ∀ w, ht.search_reaches uniqify_rc partition_map start w →
      kmer_tag partition_map w ≠ none →
      ∃ t ∈ tags, (t = (kmer_pair w).1 ∨ t = (kmer_pair w).2)
        ∧ (map_find t partition_map).isSome := by
  unfold Hashtable.partition_find_all_tags at hrun
  unfold kmer_tag at hstart
  rw [hstart] at hrun
  simp only at hrun
  cases hloop : ht.find_tags_loop uniqify_rc partition_map (PARTITION_MAX_TAG_EXAMINED + 1)
      (find_tags_init (kmer_pair start).1 (kmer_pair start).2 tagged_kmers surrender) with
  | none => rw [hloop] at hrun; cases hrun
  | some st' =>
    rw [hloop] at hrun
    simp only [Option.map_some', Option.some.injEq, Prod.mk.injEq] at hrun
    intro w hw htag
    have := (search_finds uniqify_rc ht partition_map start tagged_kmers surrender hsym hsep
      hk1 hk hlen hs hstart _ st' hloop hrun.2 w hw).2 htag
    rw [hrun.1] at this
    exact this

/-- The search from CA in the table after the read "CAAG",
when AG is tagged: it goes through AA and records the tag 3 of AG. -/
theorem find_all_tags_complete_witness :
    ∃ t ∈ [3], (t = (kmer_pair ['A', 'G']).1 ∨ t = (kmer_pair ['A', 'G']).2)
      ∧ (map_find t [(3, 1)]).isSome :=
  find_all_tags_complete uniqify_rc_min (walk_table uniqify_rc_min) [(3, 1)] ['C', 'A'] [] [3]
    false uniqify_rc_min_comm (uniqify_rc_min_separates _) (by decide) (by decide) rfl
    (by decide) (by decide) (by decide) ['A', 'G']
    (Hashtable.search_reaches.step ['A', 'A'] ['A', 'G']
      (Hashtable.search_reaches.first ['A', 'A'] (by decide) (by decide))
      (by decide) (by decide) (by decide))
    (by decide)

/-- C25: with k = 3 and 1000003 bins, `do_truncated_partition` over the reads
"AAA", "ACA" and "ATGTT", from the empty table and the empty partition state,
leaves the surrender set empty (no call of `partition_find_all_tags` has
surrendered) and the first k-mers AAA, ACA and ATG with the `PartitionID`s 1, 2
and 2, though in the final table ACA and ATG are connected to AAA (AAA, AAC,
ACA, CAT, ATG: the third read brings AAC as the reverse complement of GTT).
The search for the third read stops at the tagged k-mer TGT, the reverse
complement of ACA, and never comes to AAA. The same under both keys. -/
theorem truncated_partition_splits_component :
    (∃ st, do_truncated_partition uniqify_rc_min (empty_table 3 1000003)
        empty_partition_state
        [("read1", ['A', 'A', 'A']), ("read2", ['A', 'C', 'A']),
          ("read3", ['A', 'T', 'G', 'T', 'T'])] = some (split_table uniqify_rc_min, st)
      ∧ st.surrender_set = []
      ∧ pid_of st (kmer_pair ['A', 'A', 'A']).1 = some 1
      ∧ pid_of st (kmer_pair ['A', 'C', 'A']).1 = some 2
      ∧ pid_of st (kmer_pair ['A', 'T', 'G']).1 = some 2
      ∧ (split_table uniqify_rc_min).connected uniqify_rc_min ['A', 'A', 'A'] ['A', 'C', 'A']
      ∧ (split_table uniqify_rc_min).connected uniqify_rc_min ['A', 'A', 'A'] ['A', 'T', 'G'])
    ∧ (∃ st, do_truncated_partition uniqify_rc_xor (empty_table 3 1000003)
        empty_partition_state
        [("read1", ['A', 'A', 'A']), ("read2", ['A', 'C', 'A']),
          ("read3", ['A', 'T', 'G', 'T', 'T'])] = some (split_table uniqify_rc_xor, st)
      ∧ st.surrender_set = []
      ∧ pid_of st (kmer_pair ['A', 'A', 'A']).1 = some 1
      ∧ pid_of st (kmer_pair ['A', 'C', 'A']).1 = some 2
      ∧ pid_of st (kmer_pair ['A', 'T', 'G']).1 = some 2
      ∧ (split_table uniqify_rc_xor).connected uniqify_rc_xor ['A', 'A', 'A'] ['A', 'C', 'A']
      ∧ (split_table uniqify_rc_xor).connected uniqify_rc_xor ['A', 'A', 'A'] ['A', 'T', 'G']) := by
  constructor
  · refine ⟨_, rfl, by decide, by decide, by decide, by decide, ?_⟩
    have h0 : (split_table uniqify_rc_min).connected uniqify_rc_min ['A', 'A', 'A'] ['A', 'A', 'A'] :=
      Hashtable.connected.start (by decide)
    have h1 := Hashtable.connected.step ['A', 'A', 'A'] ['A', 'A', 'C'] h0 (by decide) (by decide)
    have h2 := Hashtable.connected.step ['A', 'A', 'C'] ['A', 'C', 'A'] h1 (by decide) (by decide)
    have h3 := Hashtable.connected.step ['A', 'C', 'A'] ['C', 'A', 'T'] h2 (by decide) (by decide)
    have h4 := Hashtable.connected.step ['C', 'A', 'T'] ['A', 'T', 'G'] h3 (by decide) (by decide)
    exact ⟨h2, h4⟩
  · refine ⟨_, rfl, by decide, by decide, by decide, by decide, ?_⟩
    have h0 : (split_table uniqify_rc_xor).connected uniqify_rc_xor ['A', 'A', 'A'] ['A', 'A', 'A'] :=
      Hashtable.connected.start (by decide)
    have h1 := Hashtable.connected.step ['A', 'A', 'A'] ['A', 'A', 'C'] h0 (by decide) (by decide)
    have h2 := Hashtable.connected.step ['A', 'A', 'C'] ['A', 'C', 'A'] h1 (by decide) (by decide)
    have h3 := Hashtable.connected.step ['A', 'C', 'A'] ['C', 'A', 'T'] h2 (by decide) (by decide)
    have h4 := Hashtable.connected.step ['C', 'A', 'T'] ['A', 'T', 'G'] h3 (by decide) (by decide)
    exact ⟨h2, h4⟩

/-! ## Connected components -/

theorem connected_present_start (u : Nat → Nat → Nat) (ht : Hashtable) (a b : List Char)
    (h : ht.connected u a b) : ht.present u a := by
  induction h with
  | start hp => exact hp
  | step _ _ _ _ _ ih => exact ih

theorem connected_present (u : Nat → Nat → Nat) (ht : Hashtable) (a b : List Char)
    (h : ht.connected u a b) : ht.present u b := by
  cases h with
  | start hp => exact hp
  | step _ _ _ _ hp => exact hp

theorem connected_trans (u : Nat → Nat → Nat) (ht : Hashtable) (a b c : List Char)
    (h1 : ht.connected u a b) (h2 : ht.connected u b c) : ht.connected u a c := by
  induction h2 with
  | start _ => exact h1
  | step w w' _ hmem hp ih => exact Hashtable.connected.step w w' ih hmem hp

/-- The neighbour relation of k-mers is symmetric. -/
theorem kmer_neighbours_symm (w y : List Char) (hw : w ≠ []) (hs : is_acgt w)
    (hy : y ∈ kmer_neighbours w) : w ∈ kmer_neighbours y := by
  rw [mem_kmer_neighbours] at hy ⊢
  obtain ⟨b, hb, h | h⟩ := hy
  · -- `y = w.tail ++ [b]`: `w` is `y` moved one base to the left
    cases w with
    | nil => exact absurd rfl hw
    | cons c t =>
      refine ⟨c, hs c (List.mem_cons_self _ _), Or.inr ?_⟩
      rw [h]
      simp
  · -- `y = b :: w.dropLast`: `w` is `y` moved one base to the right
    refine ⟨w.getLast hw, hs _ (List.getLast_mem hw), Or.inl ?_⟩
    rw [h]
    simp only [List.tail_cons]
    exact (List.dropLast_append_getLast hw).symm

theorem connected_symm (u : Nat → Nat → Nat) (ht : Hashtable) (a b : List Char)
    (hk1 : 1 ≤ ht.ksize) (hlen : a.length = ht.ksize) (hs : is_acgt a)
    (h : ht.connected u a b) : ht.connected u b a := by
  induction h with
  | start hp => exact Hashtable.connected.start hp
  | step w w' hw hmem hp ih =>
    have hv := connected_kmer u ht a w hk1 hlen hs hw
    have hne : w ≠ [] := by
      intro e
      rw [e] at hv
      simp at hv
      omega
    have hback : ht.connected u w' w :=
      Hashtable.connected.step w' w (Hashtable.connected.start hp)
        (kmer_neighbours_symm w w' hne hv.2 hmem) (connected_present u ht a w hw)
    exact connected_trans u ht w' w a hback ih

theorem present_reverse_complement (u : Nat → Nat → Nat) (hsym : key_symmetric u)
    (ht : Hashtable) (w : List Char) (hs : is_acgt w) (hp : ht.present u w) :
    ht.present u (reverse_complement w) := by
  unfold Hashtable.present
  rw [kmer_key_reverse_complement u hsym w hs]
  exact hp

theorem connected_reverse_complement (u : Nat → Nat → Nat) (hsym : key_symmetric u)
    (ht : Hashtable) (a b : List Char)
    (hk1 : 1 ≤ ht.ksize) (hlen : a.length = ht.ksize) (hs : is_acgt a)
    (h : ht.connected u a b) :
    ht.connected u (reverse_complement a) (reverse_complement b) := by
  induction h with
  | start hp => exact Hashtable.connected.start (present_reverse_complement u hsym ht a hs hp)
  | step w w' hw hmem hp ih =>
    have hv := kmer_neighbours_kmer w w' ht.ksize hk1
      (connected_kmer u ht a w hk1 hlen hs hw).1 (connected_kmer u ht a w hk1 hlen hs hw).2 hmem
    exact Hashtable.connected.step _ _ ih (kmer_neighbours_reverse_complement w w' hmem)
      (present_reverse_complement u hsym ht w' hv.2 hp)

theorem same_component_refl (u : Nat → Nat → Nat) (ht : Hashtable) (w : List Char)
    (hp : ht.present u w) : ht.same_component u w w :=
  ⟨w, Hashtable.connected.start hp, rfl⟩

theorem same_component_present (u : Nat → Nat → Nat) (ht : Hashtable) (a b : List Char)
    (h : ht.same_component u a b) : ht.present u a ∧ ht.present u b := by
  obtain ⟨v, hv, hkey⟩ := h
  exact ⟨connected_present_start u ht a v hv,
    (present_congr u ht v b hkey).mp (connected_present u ht a v hv)⟩

theorem same_component_symm (u : Nat → Nat → Nat) (ht : Hashtable)
    (hsym : key_symmetric u) (hsep : key_separates u ht.ksize) (hk1 : 1 ≤ ht.ksize)
    (a b : List Char) (hal : a.length = ht.ksize) (has : is_acgt a)
    (hbl : b.length = ht.ksize) (hbs : is_acgt b)
    (h : ht.same_component u a b) : ht.same_component u b a := by
  obtain ⟨v, hv, hkey⟩ := h
  have hvv := connected_kmer u ht a v hk1 hal has hv
  rcases hsep b v hbl hvv.1 hbs hvv.2 hkey.symm with e | e
  · rw [e] at hv
    exact ⟨a, connected_symm u ht a b hk1 hal has hv, rfl⟩
  · rw [e] at hv
    have h1 := connected_reverse_complement u hsym ht a _ hk1 hal has hv
    rw [reverse_complement_involutive b hbs] at h1
    have h2 := connected_symm u ht _ b hk1
      (by rw [length_reverse_complement]; exact hal) (is_acgt_reverse_complement a has) h1
    exact ⟨reverse_complement a, h2, kmer_key_reverse_complement u hsym a has⟩

theorem same_component_trans (u : Nat → Nat → Nat) (ht : Hashtable)
    (hsym : key_symmetric u) (hsep : key_separates u ht.ksize) (hk1 : 1 ≤ ht.ksize)
    (a b c : List Char) (hal : a.length = ht.ksize) (has : is_acgt a)
    (hbl : b.length = ht.ksize) (hbs : is_acgt b)
    (h1 : ht.same_component u a b) (h2 : ht.same_component u b c) :
    ht.same_component u a c := by
  obtain ⟨v, hv, hkey⟩ := h1
  obtain ⟨v', hv', hkey'⟩ := h2
  have hvv := connected_kmer u ht a v hk1 hal has hv
  have hvv' := connected_kmer u ht b v' hk1 hbl hbs hv'
  rcases hsep b v hbl hvv.1 hbs hvv.2 hkey.symm with e | e
  · rw [e] at hv
    exact ⟨v', connected_trans u ht a b v' hv hv', hkey'⟩
  · rw [e] at hv
    have h3 := connected_reverse_complement u hsym ht b v' hk1 hbl hbs hv'
    exact ⟨reverse_complement v', connected_trans u ht a _ _ hv h3,
      by rw [kmer_key_reverse_complement u hsym v' hvv'.2]; exact hkey'⟩

/-- Being in the same component depends on the keys of the two k-mers only. -/
theorem same_component_key (u : Nat → Nat → Nat) (ht : Hashtable) (a b b' : List Char)
    (hkey : kmer_key u b = kmer_key u b') (h : ht.same_component u a b) :
    ht.same_component u a b' := by
  obtain ⟨v, hv, hk⟩ := h
  exact ⟨v, hv, hk.trans hkey⟩

/-! ## The walk of partition_set_id -/

/-- A loop that may fail, whose every turn returns from a state that satisfies
`I`, keeps `I`, relates the state before to the state after by a preorder `R`,
and establishes for its element a property `Q` that later turns keep. -/
theorem foldlM_except_run {σ α ε : Type} (step : σ → α → Except ε σ) (R : σ → σ → Prop)
    (Q : α → σ → Prop) (I : σ → Prop) (hrefl : ∀ s, R s s)
    (htrans : ∀ a b c, R a b → R b c → R a c)
    (hQ : ∀ a s s', Q a s → R s s' → Q a s') (l : List α)
    (hstep : ∀ a ∈ l, ∀ s, I s → ∃ s', step s a = Except.ok s' ∧ R s s' ∧ Q a s' ∧ I s') :
    ∀ s, I s → ∃ s', l.foldlM step s = Except.ok s' ∧ R s s' ∧ I s' ∧ ∀ a ∈ l, Q a s' := by
  induction l with
  | nil =>
    intro s hs
    exact ⟨s, rfl, hrefl s, hs, fun a ha => by cases ha⟩
  | cons a rest ih =>
    intro s hs
    obtain ⟨s1, h1, hR1, hQ1, hI1⟩ := hstep a (List.mem_cons_self _ _) s hs
    obtain ⟨s', h', hR', hI', hQ'⟩ := ih (fun b hb => hstep b (List.mem_cons_of_mem _ hb)) s1 hI1
    refine ⟨s', ?_, htrans _ _ _ hR1 hR', hI', ?_⟩
    · rw [List.foldlM_cons, h1]
      exact h'
    · intro b hb
      rcases List.mem_cons.mp hb with rfl | hb
      · exact hQ _ _ _ hQ1 hR'
      · exact hQ' b hb

/-- The block of `partition_set_id` for one encoding, when the cell of the
encoding is null or `partition_id`: the `assert` holds, and the encoding has the
cell `partition_id` afterwards if it is a key of the map. -/
theorem tag_cell_spec (pm : List (Nat × Nat)) (x pid : Nat)
    (hsafe : ∀ c, map_find x pm = some c → c = 0 ∨ c = pid) :
    ∃ pm', tag_cell pm x pid = some pm'
      ∧ (∀ y, y ≠ x → map_find y pm' = map_find y pm)
      ∧ (map_find x pm = none → map_find x pm' = none)
      ∧ (∀ c, map_find x pm = some c → map_find x pm' = some pid) := by
  unfold tag_cell
  rcases Option.eq_none_or_eq_some (map_find x pm) with hx | ⟨c, hx⟩
  · rw [hx]
    refine ⟨pm, rfl, fun _ _ => rfl, fun _ => hx, ?_⟩
    intro c hc
    cases hc
  · rw [hx]
    simp only
    by_cases hc : c ≠ 0
    · have hcp : c = pid := (hsafe c hx).resolve_left hc
      rw [if_pos hc, if_pos hcp]
      refine ⟨pm, rfl, fun _ _ => rfl, ?_, ?_⟩
      · intro h; cases h
      · intro c' _; rw [hx, hcp]
    · rw [if_neg hc]
      refine ⟨_, rfl, fun y hy => map_find_set_ne _ _ _ _ hy, ?_, ?_⟩
      · intro h; cases h
      · intro c' _; exact map_find_set_eq _ _ _

/-- The two blocks of `partition_set_id` for `kmer_f` and `kmer_r`. -/
theorem tag_cells_spec (pm : List (Nat × Nat)) (f r pid : Nat)
    (hf : ∀ c, map_find f pm = some c → c = 0 ∨ c = pid)
    (hr : ∀ c, map_find r pm = some c → c = 0 ∨ c = pid) :
    ∃ pm1 pm2, tag_cell pm f pid = some pm1 ∧ tag_cell pm1 r pid = some pm2
      ∧ (∀ x, x ≠ f → x ≠ r → map_find x pm2 = map_find x pm)
      ∧ (∀ x, map_find x pm = none → map_find x pm2 = none)
      ∧ (∀ x, (x = f ∨ x = r) → ∀ c, map_find x pm = some c → map_find x pm2 = some pid) := by
  obtain ⟨pm1, h1, a1, b1, c1⟩ := tag_cell_spec pm f pid hf
  have hr1 : ∀ c, map_find r pm1 = some c → c = 0 ∨ c = pid := by
    intro c hc
    by_cases hrf : r = f
    · cases hfc : map_find f pm with
      | none => rw [hrf, b1 hfc] at hc; cases hc
      | some c0 =>
        rw [hrf, c1 c0 hfc] at hc
        exact Or.inr (Option.some.inj hc).symm
    · rw [a1 r hrf] at hc
      exact hr c hc
  obtain ⟨pm2, h2, a2, b2, c2⟩ := tag_cell_spec pm1 r pid hr1
  refine ⟨pm1, pm2, h1, h2, ?_, ?_, ?_⟩
  · intro x hxf hxr
    rw [a2 x hxr, a1 x hxf]
  · intro x hx
    have hx1 : map_find x pm1 = none := by
      by_cases hxf : x = f
      · rw [hxf] at hx ⊢; exact b1 hx
      · rw [a1 x hxf]; exact hx
    by_cases hxr : x = r
    · rw [hxr] at hx1 ⊢; exact b2 hx1
    · rw [a2 x hxr]; exact hx1
  · intro x hx c hc
    have hx1 : ∃ c1, map_find x pm1 = some c1 ∧ (x = f → c1 = pid) := by
      by_cases hxf : x = f
      · rw [hxf] at hc ⊢; exact ⟨pid, c1 c hc, fun _ => rfl⟩
      · exact ⟨c, by rw [a1 x hxf]; exact hc, fun e => absurd e hxf⟩
    obtain ⟨c1', hc1, hcf⟩ := hx1
    by_cases hxr : x = r
    · rw [hxr] at hc1 ⊢; exact c2 c1' hc1
    · rw [a2 x hxr, hc1, hcf (hx.resolve_right hxr)]

theorem set_walked_refl (u : Nat → Nat → Nat) (ht : Hashtable) (pid : Nat)
    (start : List Char) (s : List Nat × List (Nat × Nat)) : SetWalked u ht pid start s s :=
  { mono := fun _ h => h
    sound := fun _ h => Or.inl h
    closed := fun _ _ _ h hn => absurd h hn
    absent := fun _ h => h
    values := fun _ _ h => Or.inl h
    tagged := fun _ _ _ h hn => absurd h hn }

theorem set_walked_trans {u : Nat → Nat → Nat} {ht : Hashtable} {pid : Nat}
    {start : List Char} {a b c : List Nat × List (Nat × Nat)}
    (h1 : SetWalked u ht pid start a b) (h2 : SetWalked u ht pid start b c) :
    SetWalked u ht pid start a c :=
  { mono := fun x hx => h2.mono x (h1.mono x hx)
    sound := fun x hx => by
      rcases h2.sound x hx with h | h
      · exact h1.sound x h
      · exact Or.inr h
    closed := fun x hxl hxs hx hxn y hy hp => by
      by_cases hxb : kmer_key u x ∈ b.1
      · exact h2.mono _ (h1.closed x hxl hxs hxb hxn y hy hp)
      · exact h2.closed x hxl hxs hx hxb y hy hp
    absent := fun x hx => h2.absent x (h1.absent x hx)
    values := fun x c0 hx => by
      rcases h1.values x c0 hx with h | ⟨hc0, hpid, v, hvl, hvs, hvb, hva, hxv⟩
      · rcases h2.values x c0 h with h' | ⟨hc0, hpid, v, hvl, hvs, hvc, hvb, hxv⟩
        · exact Or.inl h'
        · exact Or.inr ⟨hc0, hpid, v, hvl, hvs, hvc, fun hva => hvb (h1.mono _ hva), hxv⟩
      · refine Or.inr ⟨hc0, ?_, v, hvl, hvs, h2.mono _ hvb, hva, hxv⟩
        rcases h2.values x pid hpid with h' | ⟨-, h', -⟩
        · exact h'
        · exact h'
    tagged := fun v hvl hvs hvc hva x hxv c0 hx => by
      by_cases hvb : kmer_key u v ∈ b.1
      · have hb := h1.tagged v hvl hvs hvb hva x hxv c0 hx
        rcases h2.values x pid hb with h' | ⟨-, h', -⟩
        · exact h'
        · exact h'
      · rcases h1.values x c0 hx with h | ⟨-, h, -⟩
        · exact h2.tagged v hvl hvs hvc hvb x hxv c0 h
        · exact h2.tagged v hvl hvs hvc hvb x hxv pid h }

/-- One call of `partition_set_id`, unfolded. -/
theorem partition_set_id_succ (u : Nat → Nat → Nat) (ht : Hashtable)
    (pid depth kmer_f kmer_r : Nat) (keeper : List Nat) (pm : List (Nat × Nat)) :
    ht.partition_set_id u pid (depth + 1) kmer_f kmer_r (keeper, pm)
      = if ht.counts (u kmer_f kmer_r % ht.tablesize) = 0 then Except.ok (keeper, pm)
        else if u kmer_f kmer_r ∈ keeper then Except.ok (keeper, pm)
        else
          match tag_cell pm kmer_f pid with
          | none => Except.error Failure.assertion
          | some pm1 =>
            match tag_cell pm1 kmer_r pid with
            | none => Except.error Failure.assertion
            | some pm2 =>
              (ht.neighbour_pairs kmer_f kmer_r).foldlM
                (fun kp fr => ht.partition_set_id u pid depth fr.1 fr.2 kp)
                (set_insert (u kmer_f kmer_r) keeper, pm2) := by
  rfl

theorem foldlM_map_except {α β σ ε : Type} (f : α → β) (g : σ → β → Except ε σ) (l : List α)
    (s : σ) : (l.map f).foldlM g s = l.foldlM (fun s a => g s (f a)) s := by
  induction l generalizing s with
  | nil => rfl
  | cons a rest ih =>
    rw [List.map_cons, List.foldlM_cons, List.foldlM_cons]
    cases g s (f a) with
    | error e => rfl
    | ok s1 => exact ih s1

/-- A call of `partition_set_id` at the pair of a k-mer returns, with no
`assert` failing, when the depth allowed is more than the number of keys not yet
seen and the cells of the k-mers of the component are null or `partition_id`;
and what it does to `(keeper, partition_map)`. -/
theorem partition_set_id_walk (u : Nat → Nat → Nat) (ht : Hashtable) (pid : Nat)
    (start : List Char) (hsym : key_symmetric u) (hsep : key_separates u ht.ksize)
    (hk1 : 1 ≤ ht.ksize) (hk : ht.ksize ≤ 32) :
    ∀ (depth : Nat) (w : List Char) (s : List Nat × List (Nat × Nat)),
      w.length = ht.ksize → is_acgt w → (ht.present u w → ht.connected u start w) →
      (∀ v, ht.connected u start v → ∀ x, (x = (kmer_pair v).1 ∨ x = (kmer_pair v).2) →
        ∀ c, map_find x s.2 = some c → c = 0 ∨ c = pid) →
      unseen_keys u ht.ksize s.1 < depth →
      ∃ s', ht.partition_set_id u pid depth (kmer_pair w).1 (kmer_pair w).2 s = Except.ok s'
        ∧ SetWalked u ht pid start s s' ∧ (ht.present u w → kmer_key u w ∈ s'.1) := by
  intro depth
  induction depth with
  | zero => intro w s _ _ _ _ h; exact absurd h (Nat.not_lt_zero _)
  | succ depth ih =>
    intro w s hwl hws hwc hsafe hfuel
    obtain ⟨keeper, pm⟩ := s
    rw [partition_set_id_succ]
    have hkey : u (kmer_pair w).1 (kmer_pair w).2 = kmer_key u w := rfl
    rw [hkey]
    by_cases hval : ht.counts (kmer_key u w % ht.tablesize) = 0
    · rw [if_pos hval]
      exact ⟨_, rfl, set_walked_refl _ _ _ _ _, fun hp => absurd hval hp⟩
    · rw [if_neg hval]
      have hpres : ht.present u w := hval
      have hconn := hwc hpres
      by_cases hseen : kmer_key u w ∈ keeper
      · rw [if_pos hseen]
        exact ⟨_, rfl, set_walked_refl _ _ _ _ _, fun _ => hseen⟩
      · rw [if_neg hseen]
        have hins : ∀ x, x ∈ set_insert (kmer_key u w) keeper ↔ x = kmer_key u w ∨ x ∈ keeper :=
          fun x => mem_set_insert _ _ _
        obtain ⟨pm1, pm2, ht1, ht2, p1, p3, p2⟩ := tag_cells_spec pm (kmer_pair w).1
          (kmer_pair w).2 pid (hsafe w hconn _ (Or.inl rfl)) (hsafe w hconn _ (Or.inr rfl))
        rw [ht1]
        simp only
        rw [ht2]
        simp only
        rw [neighbour_pairs_kmer ht w hwl hk1 hk, foldlM_map_except]
        have hlt := unseen_keys_insert u ht.ksize keeper (set_insert (kmer_key u w) keeper) w
          hwl hws hseen hins
        -- every value of the map is what it was or `pid`
        have hpm2 : ∀ x c, map_find x pm2 = some c → c = pid ∨ map_find x pm = some c := by
          intro x c hc
          by_cases hx : x = (kmer_pair w).1 ∨ x = (kmer_pair w).2
          · cases hx0 : map_find x pm with
            | none => rw [p3 x hx0] at hc; cases hc
            | some c0 =>
              rw [p2 x hx c0 hx0] at hc
              exact Or.inl (Option.some.inj hc).symm
          · rw [not_or] at hx
            rw [p1 x hx.1 hx.2] at hc
            exact Or.inr hc
        have hfold := foldlM_except_run
          (fun kp y => ht.partition_set_id u pid depth (kmer_pair y).1 (kmer_pair y).2 kp)
          (SetWalked u ht pid start)
          (fun y s' => ht.present u y → kmer_key u y ∈ s'.1)
          (fun s => (∀ v, ht.connected u start v →
              ∀ x, (x = (kmer_pair v).1 ∨ x = (kmer_pair v).2) →
              ∀ c, map_find x s.2 = some c → c = 0 ∨ c = pid)
            ∧ unseen_keys u ht.ksize s.1 < depth)
          (set_walked_refl u ht pid start) (fun _ _ _ => set_walked_trans)
          (fun y s1 s2 hq hW hp => hW.mono _ (hq hp))
          (kmer_neighbours w)
          (fun y hy s1 hs1 => by
            obtain ⟨hyl, hys⟩ := kmer_neighbours_kmer w y ht.ksize hk1 hwl hws hy
            obtain ⟨s2, hrun, hW, hQ⟩ := ih y s1 hyl hys
              (fun hp => Hashtable.connected.step w y hconn hy hp) hs1.1 hs1.2
            refine ⟨s2, hrun, hW, hQ, ?_, ?_⟩
            · intro v hv x hx c hc
              cases hx1 : map_find x s1.2 with
              | none => rw [hW.absent x hx1] at hc; cases hc
              | some c1 =>
                rcases hW.values x c1 hx1 with h | ⟨-, h, -⟩
                · rw [h] at hc
                  cases hc
                  exact hs1.1 v hv x hx c hx1
                · rw [h] at hc
                  exact Or.inr (Option.some.inj hc).symm
            · exact lt_of_le_of_lt (unseen_keys_mono u ht.ksize s1.1 s2.1 hW.mono) hs1.2)
          (set_insert (kmer_key u w) keeper, pm2)
          ⟨fun v hv x hx c hc => by
              rcases hpm2 x c hc with h | h
              · exact Or.inr h
              · exact hsafe v hv x hx c h,
            by simp only at hfuel ⊢; omega⟩
        obtain ⟨s', hrun, hW, -, hQ⟩ := hfold
        have hmemw : kmer_key u w ∈ s'.1 := hW.mono _ ((hins _).mpr (Or.inl rfl))
        refine ⟨s', hrun, ?_, fun _ => hmemw⟩
        -- the value of an encoding of `w` after the walk
        have hwtag : ∀ x, (x = (kmer_pair w).1 ∨ x = (kmer_pair w).2) →
            ∀ c, map_find x pm = some c → map_find x s'.2 = some pid := by
          intro x hx c hc
          rcases hW.values x pid (p2 x hx c hc) with h | ⟨-, h, -⟩
          · exact h
          · exact h
        exact
          { mono := fun x hx => hW.mono x ((hins x).mpr (Or.inr hx))
            sound := fun x hx => by
              rcases hW.sound x hx with hx | hx
              · rcases (hins x).mp hx with e | hx
                · exact Or.inr ⟨w, hconn, e.symm⟩
                · exact Or.inl hx
              · exact Or.inr hx
            closed := fun x hxl hxs hx hxn y hy hp => by
              by_cases hx1 : kmer_key u x ∈ set_insert (kmer_key u w) keeper
              · have hxw : kmer_key u x = kmer_key u w := by
                  rcases (hins _).mp hx1 with e | e
                  · exact e
                  · exact absurd e hxn
                obtain ⟨-, -, s3⟩ := same_key_tag u pm ht.ksize hsym hsep hk1 w x hwl hws hxl hxs hxw
                obtain ⟨y', hy', hky⟩ := s3 y hy
                have := hQ y' hy' ((present_congr u ht y' y hky).mpr hp)
                rw [hky] at this
                exact this
              · exact hW.closed x hxl hxs hx hx1 y hy hp
            absent := fun x hx => hW.absent x (p3 x hx)
            values := fun x c hc => by
              by_cases hx : x = (kmer_pair w).1 ∨ x = (kmer_pair w).2
              · have hnow := hwtag x hx c hc
                rcases hsafe w hconn x hx c hc with h0 | hp
                · exact Or.inr ⟨h0, hnow, w, hwl, hws, hmemw, hseen, hx⟩
                · rw [hp]; exact Or.inl hnow
              · rw [not_or] at hx
                have h2 : map_find x pm2 = some c := by rw [p1 x hx.1 hx.2]; exact hc
                rcases hW.values x c h2 with h | ⟨h0, hp, v, hvl, hvs, hvk, hvn, hxv⟩
                · exact Or.inl h
                · exact Or.inr ⟨h0, hp, v, hvl, hvs, hvk,
                    fun hk' => hvn ((hins _).mpr (Or.inr hk')), hxv⟩
            tagged := fun v hvl hvs hvk hvn x hxv c hc => by
              by_cases hv1 : kmer_key u v ∈ set_insert (kmer_key u w) keeper
              · have hvw : kmer_key u v = kmer_key u w := by
                  rcases (hins _).mp hv1 with e | e
                  · exact e
                  · exact absurd e hvn
                obtain ⟨-, s2, -⟩ := same_key_tag u pm ht.ksize hsym hsep hk1 v w hvl hvs hwl hws
                  hvw.symm
                exact hwtag x (s2 x hxv) c hc
              · have h2 : ∃ c', map_find x pm2 = some c' := by
                  by_cases hx : x = (kmer_pair w).1 ∨ x = (kmer_pair w).2
                  · exact ⟨pid, p2 x hx c hc⟩
                  · rw [not_or] at hx
                    exact ⟨c, by rw [p1 x hx.1 hx.2]; exact hc⟩
                obtain ⟨c', hc'⟩ := h2
                exact hW.tagged v hvl hvs hvk hv1 x hxv c' hc' }

/-! ## The second loop of do_exact_partition -/

theorem revtwobit_repr_twobit_repr (c : Char) (hc : c = 'A' ∨ c = 'C' ∨ c = 'G' ∨ c = 'T') :
    revtwobit_repr (twobit_repr c) = c := by
  rcases hc with rfl | rfl | rfl | rfl <;> decide

/-- `_revhash` gives back the k-mer of a forward encoding. -/
theorem revhash_pack (w : List Char) (hs : is_acgt w) :
    revhash (pack twobit_repr w) w.length = w := by
  induction w using List.reverseRecOn with
  | nil => rfl
  | append_singleton l a ih =>
    have hl : is_acgt l := fun c hc => hs c (List.mem_append_left _ hc)
    have ha := hs a (List.mem_append_right _ (List.mem_singleton.mpr rfl))
    have hlt := twobit_repr_lt a
    rw [pack_append_singleton, List.length_append, List.length_singleton, revhash]
    have h1 : (4 * pack twobit_repr l + twobit_repr a) >>> 2 = pack twobit_repr l := by
      rw [Nat.shiftRight_eq_div_pow]; omega
    have h2 : (4 * pack twobit_repr l + twobit_repr a) &&& 3 = twobit_repr a := by
      have := Nat.and_pow_two_sub_one_eq_mod (4 * pack twobit_repr l + twobit_repr a) 2
      simp at this
      rw [this]; omega
    rw [h1, h2, ih hl, revtwobit_repr_twobit_repr a ha]

/-- `_hash` of a k-mer gives its pair. -/
theorem hash_init_kmer (u : Nat → Nat → Nat) (w : List Char) (k : Nat) (hk : k ≤ 32)
    (hw : w.length = k) :
    hash_init u w k = (kmer_key u w, (kmer_pair w).1, (kmer_pair w).2) := by
  rw [hash_init_eq u w k hk (by omega), ← hw, List.take_length]
  rfl

/-- A k-mer whose forward encoding is the forward or the reverse encoding of
another has the key of the other. -/
theorem key_of_encoding (u : Nat → Nat → Nat) (hsym : key_symmetric u) (w v : List Char)
    (hlen : w.length = v.length) (hws : is_acgt w) (hvs : is_acgt v)
    (h : (kmer_pair w).1 = (kmer_pair v).1 ∨ (kmer_pair w).1 = (kmer_pair v).2) :
    kmer_key u w = kmer_key u v := by
  rcases h with h | h
  · rw [pack_twobit_repr_injective w v hlen hws hvs h]
  · have hp := kmer_pair_reverse_complement v hvs
    have h' : pack twobit_repr w = pack twobit_repr (reverse_complement v) := by
      have : (kmer_pair (reverse_complement v)).1 = (kmer_pair v).2 := by rw [hp]
      exact h.trans this.symm
    rw [pack_twobit_repr_injective w _ (by rw [length_reverse_complement]; exact hlen) hws
      (is_acgt_reverse_complement v hvs) h']
    exact kmer_key_reverse_complement u hsym v hvs

theorem map_find_of_mem_keys {β : Type} (x : Nat) (m : List (Nat × β))
    (h : x ∈ m.map Prod.fst) : map_find x m ≠ none := by
  induction m with
  | nil => simp at h
  | cons e rest ih =>
    unfold map_find
    by_cases he : e.1 = x
    · rw [if_pos he]; exact fun h => by cases h
    · rw [if_neg he]
      rw [List.map_cons, List.mem_cons] at h
      exact ih (h.resolve_left (fun e' => he e'.symm))

/-- The seen set of a walk from `start` with an empty seen set holds the keys
of the component of `start`. -/
theorem set_walked_component (u : Nat → Nat → Nat) (ht : Hashtable) (pid : Nat)
    (start : List Char) (hk1 : 1 ≤ ht.ksize) (hlen : start.length = ht.ksize)
    (hs : is_acgt start) (pm : List (Nat × Nat)) (s' : List Nat × List (Nat × Nat))
    (hW : SetWalked u ht pid start ([], pm) s') (hstart : kmer_key u start ∈ s'.1) :
    ∀ v, v.length = ht.ksize → (kmer_key u v ∈ s'.1 ↔ ht.same_component u start v) := by
  have hall : ∀ v, ht.connected u start v → kmer_key u v ∈ s'.1 := by
    intro v hv
    induction hv with
    | start _ => exact hstart
    | step w w' hw hmem hp ih =>
      have hwv := connected_kmer u ht start w hk1 hlen hs hw
      exact hW.closed w hwv.1 hwv.2 ih (fun h => by cases h) w' hmem hp
  intro v _
  constructor
  · intro hv
    rcases hW.sound _ hv with h | h
    · cases h
    · exact h
  · rintro ⟨v', hv', hkey⟩
    rw [← hkey]
    exact hall v' hv'

/-- A turn of the second loop of `do_exact_partition` at a key of the map
returns, keeps the invariant of the loop, keeps the cells that are not null, and
leaves the key with a cell that is not null. -/
theorem exact_key_step (u : Nat → Nat → Nat) (ht : Hashtable) (pm0 : List (Nat × Nat))
    (depth : Nat) (hsym : key_symmetric u) (hsep : key_separates u ht.ksize)
    (hk1 : 1 ≤ ht.ksize) (hk : ht.ksize ≤ 32) (hdepth : 4 ^ ht.ksize < depth)
    (hkey : ∀ x, map_find x pm0 ≠ none →
      ∃ w : List Char, w.length = ht.ksize ∧ is_acgt w ∧ ht.present u w ∧ x = (kmer_pair w).1)
    (es : ExactState) (x : Nat) (hx : map_find x pm0 ≠ none) (hI : ExactInv u ht pm0 es) :
    ∃ es', ht.do_exact_partition_key u depth es x = Except.ok es'
      ∧ ExactInv u ht pm0 es'
      ∧ (∀ y c, map_find y es.partition_map = some c → c ≠ 0 →
          map_find y es'.partition_map = some c)
      ∧ (∃ c, map_find x es'.partition_map = some c ∧ c ≠ 0) := by
  obtain ⟨w, hwl, hws, hwp, hxw⟩ := hkey x hx
  rcases Option.eq_none_or_eq_some (map_find x es.partition_map) with hnone | ⟨c0, hfind⟩
  · exact absurd ((hI.keys x).mp hnone) hx
  by_cases hc0 : c0 ≠ 0
  · refine ⟨es, ?_, hI, fun y c h _ => h, c0, hfind, hc0⟩
    unfold Hashtable.do_exact_partition_key
    rw [hfind]
    obtain ⟨n, rfl⟩ := Nat.exists_eq_succ_of_ne_zero hc0
    rfl
  · have hc0' : c0 = 0 := by omega
    subst hc0'
    -- a key of the map is the forward encoding of a present k-mer
    have hkey' : ∀ y c, map_find y es.partition_map = some c →
        ∃ v : List Char, v.length = ht.ksize ∧ is_acgt v ∧ ht.present u v
          ∧ y = (kmer_pair v).1 := by
      intro y c hy
      apply hkey y
      intro hn
      rw [(hI.keys y).mpr hn] at hy
      cases hy
    -- no cell of the component of `w` is set
    have hF6 : ∀ v : List Char, v.length = ht.ksize → is_acgt v → ht.same_component u w v →
        ∀ c, map_find (kmer_pair v).1 es.partition_map = some c → c = 0 := by
      intro v hvl hvs hsc c hc
      by_contra hne
      have := hI.closed v w hvl hvs hwl hws c hc hne
        (same_component_symm u ht hsym hsep hk1 w v hwl hws hvl hvs hsc) 0 (hxw ▸ hfind)
      exact hne this.symm
    have hsafe : ∀ v, ht.connected u w v → ∀ y, (y = (kmer_pair v).1 ∨ y = (kmer_pair v).2) →
        ∀ c, map_find y (([], es.partition_map) : List Nat × List (Nat × Nat)).2 = some c →
          c = 0 ∨ c = fresh_addr es.cells := by
      intro v hv y hy c hc
      have hvv := connected_kmer u ht w v hk1 hwl hws hv
      obtain ⟨w', hwl', hws', -, hyw'⟩ := hkey' y c hc
      have hk' : kmer_key u w' = kmer_key u v :=
        key_of_encoding u hsym w' v (by rw [hwl', hvv.1]) hws' hvv.2 (hyw' ▸ hy)
      exact Or.inl (hF6 w' hwl' hws' ⟨v, hv, hk'.symm⟩ c (hyw' ▸ hc))
    obtain ⟨s', hrun, hW, hwK⟩ := partition_set_id_walk u ht (fresh_addr es.cells) w hsym hsep
      hk1 hk depth w ([], es.partition_map) hwl hws (fun _ => Hashtable.connected.start hwp)
      hsafe (lt_of_le_of_lt (unseen_keys_le u ht.ksize []) hdepth)
    have hwK' := hwK hwp
    have hcomp := set_walked_component u ht (fresh_addr es.cells) w hk1 hwl hws
      es.partition_map s' hW hwK'
    have hpid0 := fresh_addr_pos es.cells
    have hfresh := map_find_fresh_addr es.cells
    have hF1 : ∀ y c, map_find y es.partition_map = some c → c ≠ 0 →
        map_find y s'.2 = some c := by
      intro y c hy hc
      rcases hW.values y c hy with h | ⟨h, -⟩
      · exact h
      · exact absurd h hc
    have hF2 : ∀ v : List Char, v.length = ht.ksize → is_acgt v →
        map_find (kmer_pair v).1 es.partition_map = some 0 →
        ∀ c, map_find (kmer_pair v).1 s'.2 = some c → c ≠ 0 →
          c = fresh_addr es.cells ∧ ht.same_component u w v := by
      intro v hvl hvs hv c hc hne
      rcases hW.values _ 0 hv with h | ⟨-, h, v', hvl', hvs', hvk', -, hxv⟩
      · rw [h] at hc
        exact absurd (Option.some.inj hc).symm hne
      · rw [h] at hc
        refine ⟨(Option.some.inj hc).symm, (hcomp v hvl).mp ?_⟩
        rw [key_of_encoding u hsym v v' (by rw [hvl, hvl']) hvs hvs' hxv]
        exact hvk'
    have hF3 : ∀ v : List Char, v.length = ht.ksize → is_acgt v → ht.same_component u w v →
        ∀ c, map_find (kmer_pair v).1 es.partition_map = some c →
          map_find (kmer_pair v).1 s'.2 = some (fresh_addr es.cells) := by
      intro v hvl hvs hsc c hc
      exact hW.tagged v hvl hvs ((hcomp v hvl).mpr hsc) (fun h => by cases h) _ (Or.inl rfl) c hc
    have hF4 : ∀ y c', map_find y s'.2 = some c' →
        ∃ c, map_find y es.partition_map = some c
          ∧ ((c' = c) ∨ (c = 0 ∧ c' = fresh_addr es.cells)) := by
      intro y c' hy
      rcases Option.eq_none_or_eq_some (map_find y es.partition_map) with hn | ⟨c, hc⟩
      · rw [hW.absent y hn] at hy; cases hy
      · refine ⟨c, hc, ?_⟩
        rcases hW.values y c hc with h | ⟨h0, h, -⟩
        · rw [h] at hy; exact Or.inl (Option.some.inj hy).symm
        · rw [h] at hy; exact Or.inr ⟨h0, (Option.some.inj hy).symm⟩
    have hF5 : ∀ y c, map_find y es.partition_map = some c → c ≠ 0 →
        c ≠ fresh_addr es.cells := by
      intro y c hy hc e
      obtain ⟨p, hp⟩ := hI.allocated y c hy hc
      rw [e, hfresh] at hp
      cases hp
    refine ⟨{ cells := map_set (fresh_addr es.cells) es.next_partition_id es.cells,
              partition_map := s'.2, next_partition_id := es.next_partition_id + 1 },
      ?_, ?_, hF1, fresh_addr es.cells, ?_, hpid0⟩
    · unfold Hashtable.do_exact_partition_key
      rw [hfind]
      simp only
      have hrev : revhash x ht.ksize = w := by
        rw [hxw, ← hwl]
        exact revhash_pack w hws
      rw [hrev, hash_init_kmer u w ht.ksize hk hwl]
      simp only
      rw [hrun]
    · obtain ⟨reps, hrl, hrv, hrp, hrc⟩ := hI.count
      refine ⟨?_, ?_, ?_, ?_, ?_⟩
      · intro y
        rw [← hI.keys y]
        constructor
        · intro hn
          rcases Option.eq_none_or_eq_some (map_find y es.partition_map) with h | ⟨c, h⟩
          · exact h
          · rcases hW.values y c h with h' | ⟨-, h', -⟩
            · rw [h'] at hn; cases hn
            · rw [h'] at hn; cases hn
        · exact hW.absent y
      · intro y c' hy hc'
        simp only at hy ⊢
        obtain ⟨c, hc, h | ⟨-, h⟩⟩ := hF4 y c' hy
        · rw [h] at hc' ⊢
          obtain ⟨p, hp⟩ := hI.allocated y c hc hc'
          exact ⟨p, by rw [map_find_set_ne _ _ _ _ (hF5 y c hc hc')]; exact hp⟩
        · rw [h]
          exact ⟨_, map_find_set_eq _ _ _⟩
      · intro w1 w2 h1l h1s h2l h2s c hc hne hsc c' hc'
        simp only at hc hc'
        obtain ⟨c1, hc1, hcase1⟩ := hF4 _ c hc
        obtain ⟨c2, hc2, -⟩ := hF4 _ c' hc'
        by_cases h10 : c1 = 0
        · rw [h10] at hc1
          obtain ⟨hcp, hsc1⟩ := hF2 w1 h1l h1s hc1 c hc hne
          have hsc2 := same_component_trans u ht hsym hsep hk1 w w1 w2 hwl hws h1l h1s hsc1 hsc
          have := hF3 w2 h2l h2s hsc2 c2 hc2
          rw [this] at hc'
          rw [hcp]
          exact (Option.some.inj hc').symm
        · have hcc : c = c1 := by
            rcases hcase1 with h | ⟨h, -⟩
            · exact h
            · exact absurd h h10
          have h2 := hI.closed w1 w2 h1l h1s h2l h2s c1 hc1 h10 hsc c2 hc2
          have := hF1 _ c2 hc2 (by rw [h2]; exact h10)
          rw [this] at hc'
          rw [hcc, ← h2]
          exact (Option.some.inj hc').symm
      · intro w1 w2 h1l h1s h2l h2s c hc hc' hne
        simp only at hc hc'
        obtain ⟨c1, hc1, hcase1⟩ := hF4 _ c hc
        obtain ⟨c2, hc2, hcase2⟩ := hF4 _ c hc'
        by_cases h10 : c1 = 0
        · rw [h10] at hc1
          obtain ⟨hcp, hsc1⟩ := hF2 w1 h1l h1s hc1 c hc hne
          by_cases h20 : c2 = 0
          · rw [h20] at hc2
            obtain ⟨-, hsc2⟩ := hF2 w2 h2l h2s hc2 c hc' hne
            exact same_component_trans u ht hsym hsep hk1 w1 w w2 h1l h1s hwl hws
              (same_component_symm u ht hsym hsep hk1 w w1 hwl hws h1l h1s hsc1) hsc2
          · have hcc : c = c2 := by
              rcases hcase2 with h | ⟨h, -⟩
              · exact h
              · exact absurd h h20
            exact absurd (hcc ▸ hcp) (hF5 _ c2 hc2 h20)
        · have hcc : c = c1 := by
            rcases hcase1 with h | ⟨h, -⟩
            · exact h
            · exact absurd h h10
          by_cases h20 : c2 = 0
          · rw [h20] at hc2
            obtain ⟨hcp, -⟩ := hF2 w2 h2l h2s hc2 c hc' hne
            exact absurd (hcc ▸ hcp) (hF5 _ c1 hc1 h10)
          · have hcc2 : c = c2 := by
              rcases hcase2 with h | ⟨h, -⟩
              · exact h
              · exact absurd h h20
            exact hI.sound w1 w2 h1l h1s h2l h2s c1 hc1 (by rw [← hcc, hcc2]; exact hc2) h10
      · refine ⟨reps ++ [w], ?_, ?_, ?_, ?_⟩
        · rw [List.length_append, List.length_singleton]
          simp only
          omega
        · intro r hr
          rcases List.mem_append.mp hr with h | h
          · obtain ⟨a, b, c, hc, hne⟩ := hrv r h
            exact ⟨a, b, c, hF1 _ c hc hne, hne⟩
          · rw [List.mem_singleton.mp h]
            exact ⟨hwl, hws, fresh_addr es.cells,
              hF3 w hwl hws (same_component_refl u ht w hwp) 0 (hxw ▸ hfind), hpid0⟩
        · rw [List.pairwise_append]
          refine ⟨hrp, List.pairwise_singleton _ _, ?_⟩
          intro r hr b hb hsc
          rw [List.mem_singleton.mp hb] at hsc
          obtain ⟨a, b', c, hc, hne⟩ := hrv r hr
          have := hI.closed r w a b' hwl hws c hc hne hsc 0 (hxw ▸ hfind)
          exact hne this.symm
        · intro w1 h1l h1s c hc hne
          simp only at hc
          obtain ⟨c1, hc1, hcase1⟩ := hF4 _ c hc
          by_cases h10 : c1 = 0
          · rw [h10] at hc1
            obtain ⟨-, hsc1⟩ := hF2 w1 h1l h1s hc1 c hc hne
            exact ⟨w, List.mem_append_right _ (List.mem_singleton.mpr rfl), hsc1⟩
          · obtain ⟨r, hr, hsc⟩ := hrc w1 h1l h1s c1 hc1 h10
            exact ⟨r, List.mem_append_left _ hr, hsc⟩
    · simp only
      rw [hxw]
      exact hF3 w hwl hws (same_component_refl u ht w hwp) 0 (hxw ▸ hfind)

/-- The second loop of `do_exact_partition` over a partition map of null cells
whose keys are forward encodings of present k-mers returns, with no `assert`
failing; it leaves every key with a cell that is not null, and the invariant of
the loop. -/
theorem exact_loop (u : Nat → Nat → Nat) (ht : Hashtable) (pm0 : List (Nat × Nat))
    (cells0 : List (Nat × Nat)) (depth : Nat)
    (hsym : key_symmetric u) (hsep : key_separates u ht.ksize)
    (hk1 : 1 ≤ ht.ksize) (hk : ht.ksize ≤ 32) (hdepth : 4 ^ ht.ksize < depth)
    (hkey : ∀ x, map_find x pm0 ≠ none →
      ∃ w : List Char, w.length = ht.ksize ∧ is_acgt w ∧ ht.present u w ∧ x = (kmer_pair w).1)
    (hnull : ∀ x c, map_find x pm0 = some c → c = 0) :
    ∃ es, (pm0.map Prod.fst).foldlM (ht.do_exact_partition_key u depth)
          { cells := cells0, partition_map := pm0, next_partition_id := 1 } = Except.ok es
      ∧ ExactInv u ht pm0 es
      ∧ (∀ x, map_find x pm0 ≠ none → ∃ c, map_find x es.partition_map = some c ∧ c ≠ 0) := by
  have hinit : ExactInv u ht pm0
      { cells := cells0, partition_map := pm0, next_partition_id := 1 } :=
    { keys := fun _ => Iff.rfl
      allocated := fun x c hc hne => absurd (hnull x c hc) hne
      closed := fun w _ _ _ _ _ c hc hne => absurd (hnull _ c hc) hne
      sound := fun w _ _ _ _ _ c hc _ hne => absurd (hnull _ c hc) hne
      count := by
        refine ⟨[], rfl, ?_, List.Pairwise.nil, ?_⟩
        · intro r hr
          cases hr
        · intro w _ _ c hc hne
          exact absurd (hnull _ c hc) hne }
  obtain ⟨es, hrun, -, hI, hQ⟩ := foldlM_except_run (ht.do_exact_partition_key u depth)
    (fun es es' => ∀ y c, map_find y es.partition_map = some c → c ≠ 0 →
      map_find y es'.partition_map = some c)
    (fun x es => ∃ c, map_find x es.partition_map = some c ∧ c ≠ 0)
    (ExactInv u ht pm0)
    (fun _ _ _ h _ => h) (fun _ _ _ h1 h2 y c hy hc => h2 y c (h1 y c hy hc) hc)
    (fun x es es' ⟨c, hc, hne⟩ hR => ⟨c, hR x c hc hne, hne⟩)
    (pm0.map Prod.fst)
    (fun x hx es hI => by
      obtain ⟨es', h1, h2, h3, h4⟩ := exact_key_step u ht pm0 depth hsym hsep hk1 hk hdepth hkey
        es x (map_find_of_mem_keys x pm0 hx) hI
      exact ⟨es', h1, h3, h4, h2⟩)
    _ hinit
  refine ⟨es, hrun, hI, fun x hx => hQ x ?_⟩
  rcases Option.eq_none_or_eq_some (map_find x pm0) with h | ⟨c, h⟩
  · exact absurd h hx
  · exact map_find_some_mem _ _ _ h

/-! ## The first loop of do_exact_partition -/

theorem window_key_zero (u : Nat → Nat → Nat) (k : Nat) (s : List Char) (hk : k ≤ 32)
    (hlen : k ≤ s.length) : window_key u k s 0 = kmer_key u (s.take k) := by
  unfold window_key
  rw [List.drop_zero, hash_init_eq u s k hk hlen]
  rfl

/-- What ingesting a valid read does to the counters: none passes 255, none
falls to zero, and the first k-mer of the read has a non-zero count. -/
theorem consume_string_present (u : Nat → Nat → Nat) (ht : Hashtable) (s : List Char)
    (hk1 : 1 ≤ ht.ksize) (hk : ht.ksize ≤ 32) (hc : ∀ b, ht.counts b ≤ 255)
    (hlen : ht.ksize ≤ s.length) :
    (∀ b, (ht.consume_string u s 0 0).2.counts b ≤ 255)
      ∧ (∀ b, ht.counts b ≠ 0 → (ht.consume_string u s 0 0).2.counts b ≠ 0)
      ∧ (ht.consume_string u s 0 0).2.present u (s.take ht.ksize) := by
  have heq := fun j => consume_string_counts_eq u ht s 0 0 j hk1 hk hc hlen
  refine ⟨?_, ?_, ?_⟩
  · intro b
    rw [heq b]
    exact Nat.min_le_left _ _
  · intro b hb
    rw [heq b]
    have : 1 ≤ ht.counts b := Nat.one_le_iff_ne_zero.mpr hb
    omega
  · unfold Hashtable.present
    rw [consume_string_tablesize, heq]
    have hpos : 0 < (List.range (s.length - ht.ksize + 1)).countP
        (fun i => passes_bounds 0 0 (window_key u ht.ksize s i)
          && decide (window_key u ht.ksize s i % ht.tablesize
              = kmer_key u (s.take ht.ksize) % ht.tablesize)) := by
      rw [List.countP_pos_iff]
      refine ⟨0, List.mem_range.mpr (by omega), ?_⟩
      rw [window_key_zero u ht.ksize s hk hlen]
      simp [passes_bounds]
    omega

theorem first_kmers_cons (ht : Hashtable) (read : String × List Char)
    (reads : List (String × List Char)) :
    first_kmers ht (read :: reads)
      = if ht.check_read read.2 = true then read.2.take ht.ksize :: first_kmers ht reads
        else first_kmers ht reads := by
  unfold first_kmers
  by_cases h : ht.check_read read.2 = true
  · rw [if_pos h, List.filter_cons_of_pos (by simpa using h), List.map_cons]
  · rw [if_neg h, List.filter_cons_of_neg (by simpa using h)]

theorem first_kmers_congr (ht ht' : Hashtable) (h : ht.ksize = ht'.ksize)
    (reads : List (String × List Char)) : first_kmers ht' reads = first_kmers ht reads := by
  unfold first_kmers
  rw [h]
  congr 1
  apply List.filter_congr
  intro read _
  exact check_read_congr ht ht' h read.2

/-- The first k-mers of the valid reads are k-mers over A, C, G, T. -/
theorem first_kmers_valid (ht : Hashtable) (reads : List (String × List Char)) :
    ∀ w ∈ first_kmers ht reads, w.length = ht.ksize ∧ is_acgt w := by
  intro w hw
  unfold first_kmers at hw
  obtain ⟨read, hr, rfl⟩ := List.mem_map.mp hw
  have hv := (List.mem_filter.mp hr).2
  obtain ⟨hlen, hs⟩ := (check_read_true_iff ht read.2).mp hv
  exact ⟨by rw [List.length_take]; omega, fun c hc => hs c (List.mem_of_mem_take hc)⟩

theorem hash_forward_take (s : List Char) (k : Nat) (hk : k ≤ 32) (hlen : k ≤ s.length) :
    hash_forward (s.take k) k = (kmer_pair (s.take k)).1 := by
  unfold hash_forward
  rw [hash_init_eq _ _ k hk (by rw [List.length_take]; omega), List.take_take, Nat.min_self]
  rfl

/-- The table and the partition map after the first loop of
`do_exact_partition`. -/
theorem exact_reads_fold (u : Nat → Nat → Nat) (reads : List (String × List Char)) :
    ∀ (ht : Hashtable) (pm : List (Nat × Nat)), 1 ≤ ht.ksize → ht.ksize ≤ 32 →
      (∀ b, ht.counts b ≤ 255) →
      (reads.foldl (do_exact_partition_read u) (ht, pm)).1.ksize = ht.ksize
      ∧ (reads.foldl (do_exact_partition_read u) (ht, pm)).1.tablesize = ht.tablesize
      ∧ (∀ b, ht.counts b ≠ 0 → (reads.foldl (do_exact_partition_read u) (ht, pm)).1.counts b ≠ 0)
      ∧ (∀ w ∈ first_kmers ht reads,
          (reads.foldl (do_exact_partition_read u) (ht, pm)).1.present u w
          ∧ map_find (kmer_pair w).1 (reads.foldl (do_exact_partition_read u) (ht, pm)).2
              = some 0)
      ∧ (∀ x, (∀ w ∈ first_kmers ht reads, x ≠ (kmer_pair w).1) →
          map_find x (reads.foldl (do_exact_partition_read u) (ht, pm)).2 = map_find x pm) := by
  induction reads with
  | nil =>
    intro ht pm _ _ _
    refine ⟨rfl, rfl, fun _ h => h, ?_, fun _ _ => rfl⟩
    intro w hw
    cases hw
  | cons read rest ih =>
    intro ht pm hk1 hk hc
    rw [List.foldl_cons, first_kmers_cons]
    by_cases hv : ht.check_read read.2 = true
    · -- a valid read
      obtain ⟨hlen, hs⟩ := (check_read_true_iff ht read.2).mp hv
      have hstep : do_exact_partition_read u (ht, pm) read
          = ((ht.consume_string u read.2 0 0).2,
              map_set (kmer_pair (read.2.take ht.ksize)).1 0 pm) := by
        unfold do_exact_partition_read Hashtable.check_and_process_read
        simp only [hv, Bool.not_true, Bool.false_eq_true, if_false, if_true]
        rw [consume_string_ksize, hash_forward_take read.2 ht.ksize hk hlen]
      rw [hstep, if_pos hv]
      obtain ⟨c1, c2, c3⟩ := consume_string_present u ht read.2 hk1 hk hc hlen
      obtain ⟨i1, i2, i3, i4, i5⟩ := ih (ht.consume_string u read.2 0 0).2
        (map_set (kmer_pair (read.2.take ht.ksize)).1 0 pm) hk1 hk c1
      rw [first_kmers_congr ht _ (consume_string_ksize u ht read.2 0 0).symm rest] at i4 i5
      refine ⟨i1, i2, fun b hb => i3 b (c2 b hb), ?_, ?_⟩
      · intro w hw
        rcases List.mem_cons.mp hw with h | h
        · rw [h]
          refine ⟨?_, ?_⟩
          · unfold Hashtable.present at c3 ⊢
            rw [i2]
            exact i3 _ c3
          · by_cases hlater : ∃ w' ∈ first_kmers ht rest,
                (kmer_pair (read.2.take ht.ksize)).1 = (kmer_pair w').1
            · obtain ⟨w', hw', e⟩ := hlater
              have := (i4 w' hw').2
              rw [← e] at this
              exact this
            · rw [i5 _ (fun w' hw' e => hlater ⟨w', hw', e⟩)]
              exact map_find_set_eq _ _ _
        · exact i4 w h
      · intro x hx
        rw [i5 x (fun w hw => hx w (List.mem_cons_of_mem _ hw))]
        exact map_find_set_ne _ _ _ _ (hx _ (List.mem_cons_self _ _))
    · -- an invalid read
      have hstep : do_exact_partition_read u (ht, pm) read = (ht, pm) := by
        unfold do_exact_partition_read Hashtable.check_and_process_read
        simp [hv]
      rw [hstep, if_neg hv]
      exact ih ht pm hk1 hk hc

/-! ## do_exact_partition from the empty table -/

/-- What `do_exact_partition` does from the empty table and the empty
partition state, for a depth of recursion above `4 ^ k`: it returns, no `assert`
fails, and every first k-mer of a valid read has a non-zero count and a cell
that is not null; two of them have the same cell exactly when they are in the
same component; and the value returned is the length of a list of first k-mers,
one from each component that holds a first k-mer. -/
theorem exact_partition_run (u : Nat → Nat → Nat) (k T depth : Nat)
    (reads : List (String × List Char)) (hsym : key_symmetric u) (hsep : key_separates u k)
    (hk1 : 1 ≤ k) (hk : k ≤ 32) (hdepth : 4 ^ k < depth) :
    ∃ n ht cells pm,
      do_exact_partition u (empty_table k T) empty_partition_state depth reads
        = Except.ok (n, ht, cells, pm)
      ∧ ht.ksize = k
      ∧ (∀ w ∈ first_kmers (empty_table k T) reads, w.length = k ∧ is_acgt w ∧ ht.present u w
          ∧ ∃ c, map_find (kmer_pair w).1 pm = some c ∧ c ≠ 0)
      ∧ (∀ x, (∀ w ∈ first_kmers (empty_table k T) reads, x ≠ (kmer_pair w).1) →
          map_find x pm = none)
      ∧ (∀ w ∈ first_kmers (empty_table k T) reads, ∀ w' ∈ first_kmers (empty_table k T) reads,
          (map_find (kmer_pair w).1 pm = map_find (kmer_pair w').1 pm
            ↔ ht.same_component u w w'))
      ∧ ∃ reps : List (List Char), reps.length = n
        ∧ (∀ r ∈ reps, r ∈ first_kmers (empty_table k T) reads)
        ∧ reps.Pairwise (fun a b => ¬ ht.same_component u a b)
        ∧ (∀ w ∈ first_kmers (empty_table k T) reads, ∃ r ∈ reps, ht.same_component u r w) := by
  obtain ⟨f1, f2, -, f4, f5⟩ := exact_reads_fold u reads (empty_table k T) [] hk1 hk
    (fun _ => Nat.zero_le _)
  have hvalid := first_kmers_valid (empty_table k T) reads
  -- the table and the partition map after the first loop
  generalize hhp : reads.foldl (do_exact_partition_read u) (empty_table k T, []) = hp
    at f1 f2 f4 f5
  have hksize : hp.1.ksize = k := f1
  -- a key of the map is the forward encoding of a first k-mer
  have hfirst : ∀ x, map_find x hp.2 ≠ none →
      ∃ w ∈ first_kmers (empty_table k T) reads, x = (kmer_pair w).1 := by
    intro x hx
    by_contra hno
    push_neg at hno
    exact hx (f5 x hno)
  have hkey : ∀ x, map_find x hp.2 ≠ none →
      ∃ w : List Char, w.length = hp.1.ksize ∧ is_acgt w ∧ hp.1.present u w
        ∧ x = (kmer_pair w).1 := by
    intro x hx
    obtain ⟨w, hw, e⟩ := hfirst x hx
    exact ⟨w, by rw [hksize]; exact (hvalid w hw).1, (hvalid w hw).2, (f4 w hw).1, e⟩
  have hnull : ∀ x c, map_find x hp.2 = some c → c = 0 := by
    intro x c hc
    obtain ⟨w, hw, e⟩ := hfirst x (by rw [hc]; exact fun h => by cases h)
    rw [e, (f4 w hw).2] at hc
    exact (Option.some.inj hc).symm
  obtain ⟨es, hrun, hI, hset⟩ := exact_loop u hp.1 hp.2 [] depth hsym (hksize ▸ hsep)
    (hksize ▸ hk1) (hksize ▸ hk) (hksize ▸ hdepth) hkey hnull
  have hcell : ∀ w ∈ first_kmers (empty_table k T) reads,
      ∃ c, map_find (kmer_pair w).1 es.partition_map = some c ∧ c ≠ 0 := by
    intro w hw
    apply hset
    rw [(f4 w hw).2]
    exact fun h => by cases h
  have hlen : ∀ w ∈ first_kmers (empty_table k T) reads, w.length = hp.1.ksize :=
    fun w hw => by rw [hksize]; exact (hvalid w hw).1
  obtain ⟨reps, hrl, hrv, hrp, hrc⟩ := hI.count
  refine ⟨es.next_partition_id - 1, hp.1, es.cells, es.partition_map, ?_, hksize, ?_, ?_, ?_,
    reps, by omega, ?_, hrp, ?_⟩
  · unfold do_exact_partition
    show (match (List.map Prod.fst
        (reads.foldl (do_exact_partition_read u) (empty_table k T, [])).2).foldlM
          ((reads.foldl (do_exact_partition_read u)
            (empty_table k T, [])).1.do_exact_partition_key u depth)
          { cells := [], partition_map :=
              (reads.foldl (do_exact_partition_read u) (empty_table k T, [])).2,
            next_partition_id := 1 } with
      | Except.error e => Except.error e
      | Except.ok es => Except.ok (es.next_partition_id - 1,
          (reads.foldl (do_exact_partition_read u) (empty_table k T, [])).1, es.cells,
          es.partition_map)) = _
    rw [hhp, hrun]
  · intro w hw
    exact ⟨(hvalid w hw).1, (hvalid w hw).2, (f4 w hw).1, hcell w hw⟩
  · intro x hx
    exact (hI.keys x).mpr (f5 x hx)
  · intro w hw w' hw'
    obtain ⟨c, hc, hne⟩ := hcell w hw
    obtain ⟨c', hc', -⟩ := hcell w' hw'
    constructor
    · intro h
      rw [hc, hc'] at h
      have hcc : c' = c := (Option.some.inj h).symm
      exact hI.sound w w' (hlen w hw) (hvalid w hw).2 (hlen w' hw') (hvalid w' hw').2 c hc
        (hcc ▸ hc') hne
    · intro hsc
      rw [hc, hc', hI.closed w w' (hlen w hw) (hvalid w hw).2 (hlen w' hw') (hvalid w' hw').2
        c hc hne hsc c' hc']
  · intro r hr
    obtain ⟨hrl', hrs, c, hc, -⟩ := hrv r hr
    obtain ⟨w, hw, e⟩ := hfirst (kmer_pair r).1
      (fun hn => by rw [(hI.keys _).mpr hn] at hc; cases hc)
    have : r = w := pack_twobit_repr_injective r w (by rw [hrl', hlen w hw]) hrs
      (hvalid w hw).2 e
    rw [this]
    exact hw
  · intro w hw
    obtain ⟨c, hc, hne⟩ := hcell w hw
    exact hrc w (hlen w hw) (hvalid w hw).2 c hc hne

/-! ## Exact partitioning -/

set_option maxRecDepth 1000000

/-- C26, as stated, fails: with k = 5 and a table of 10 bins,
`do_exact_partition` over the reads "AAAAAAAAAA" and "CCCCCCCCCC", from the
empty table and the empty partition map, returns 1 under the key min(f, r): the
counters of AAAAA and CCCCC are shared with k-mers that join the two in the
count graph, which has one component. -/
theorem exact_partition_example_one :
    exact_partitions uniqify_rc_min (empty_table 5 10) 1025 scenario_reads = some 1 := by
  decide!

/-- C26, amended: for 1 ≤ k ≤ 32 and a canonical key that is symmetric and
separates k-mers up to reverse complement, `do_exact_partition` over any list of
reads, from the empty table and the empty partition map, returns; every first
k-mer of a valid read has a cell that is not null, two of them have the same
cell if and only if they lie in the same component of the resulting count
graph, and the value returned is the number of components that contain a first
k-mer of a valid read: the length of a list of first k-mers with one from each
such component. For k = 5, a table of 1000000 bins and the reads "AAAAAAAAAA"
and "CCCCCCCCCC" the value is 2 under the key min(f, r). -/
theorem exact_partition_components (uniqify_rc : Nat → Nat → Nat) (k T depth : Nat)
    (reads : List (String × List Char))
    (hsym : key_symmetric uniqify_rc) (hsep : key_separates uniqify_rc k)
    (hk1 : 1 ≤ k) (hk : k ≤ 32) (hdepth : 4 ^ k < depth) :
    (∃ n ht cells pm,
      do_exact_partition uniqify_rc (empty_table k T) empty_partition_state depth reads
        = Except.ok (n, ht, cells, pm)
      ∧ (∀ w ∈ first_kmers (empty_table k T) reads, ht.present uniqify_rc w
          ∧ ∃ c, map_find (kmer_pair w).1 pm = some c ∧ c ≠ 0)
      ∧ (∀ w ∈ first_kmers (empty_table k T) reads, ∀ w' ∈ first_kmers (empty_table k T) reads,
          (map_find (kmer_pair w).1 pm = map_find (kmer_pair w').1 pm
            ↔ ht.same_component uniqify_rc w w'))
      ∧ ∃ reps : List (List Char), reps.length = n
        ∧ (∀ r ∈ reps, r ∈ first_kmers (empty_table k T) reads)
        ∧ reps.Pairwise (fun a b => ¬ ht.same_component uniqify_rc a b)
        ∧ (∀ w ∈ first_kmers (empty_table k T) reads,
            ∃ r ∈ reps, ht.same_component uniqify_rc r w))
    ∧ exact_partitions uniqify_rc_min (empty_table 5 1000000) 1025 scenario_reads = some 2 := by
  refine ⟨?_, by decide⟩
  obtain ⟨n, ht, cells, pm, hrun, -, h1, -, h2, h3⟩ :=
    exact_partition_run uniqify_rc k T depth reads hsym hsep hk1 hk hdepth
  exact ⟨n, ht, cells, pm, hrun, fun w hw => ⟨(h1 w hw).2.2.1, (h1 w hw).2.2.2⟩, h2, h3⟩

/-- The amended statement at k = 5, a table of 1000000 bins and
the reads of scenario 3, under the key min(f, r). -/
theorem exact_partition_components_witness :
    (∃ n ht cells pm,
      do_exact_partition uniqify_rc_min (empty_table 5 1000000) empty_partition_state 1025
        scenario_reads = Except.ok (n, ht, cells, pm)
      ∧ (∀ w ∈ first_kmers (empty_table 5 1000000) scenario_reads, ht.present uniqify_rc_min w
          ∧ ∃ c, map_find (kmer_pair w).1 pm = some c ∧ c ≠ 0)
      ∧ (∀ w ∈ first_kmers (empty_table 5 1000000) scenario_reads,
          ∀ w' ∈ first_kmers (empty_table 5 1000000) scenario_reads,
          (map_find (kmer_pair w).1 pm = map_find (kmer_pair w').1 pm
            ↔ ht.same_component uniqify_rc_min w w'))
      ∧ ∃ reps : List (List Char), reps.length = n
        ∧ (∀ r ∈ reps, r ∈ first_kmers (empty_table 5 1000000) scenario_reads)
        ∧ reps.Pairwise (fun a b => ¬ ht.same_component uniqify_rc_min a b)
        ∧ (∀ w ∈ first_kmers (empty_table 5 1000000) scenario_reads,
            ∃ r ∈ reps, ht.same_component uniqify_rc_min r w))
    ∧ exact_partitions uniqify_rc_min (empty_table 5 1000000) 1025 scenario_reads = some 2 :=
  exact_partition_components uniqify_rc_min 5 1000000 1025 scenario_reads uniqify_rc_min_comm
    (uniqify_rc_min_separates 5) (by decide) (by decide) (by decide)

/-- For 1 ≤ k ≤ 32 and a canonical key that is symmetric and separates
k-mers up to reverse complement, `do_exact_partition` over any list of reads,
from the empty table and the empty partition map, returns: no
`assert(existing == partition_id)` of `partition_set_id` fails, and the
recursion nests no deeper than `4 ^ k` + 1 calls. -/
theorem exact_partition_no_assert (uniqify_rc : Nat → Nat → Nat) (k T depth : Nat)
    (reads : List (String × List Char))
    (hsym : key_symmetric uniqify_rc) (hsep : key_separates uniqify_rc k)
    (hk1 : 1 ≤ k) (hk : k ≤ 32) (hdepth : 4 ^ k < depth) :
    ∃ result,
      do_exact_partition uniqify_rc (empty_table k T) empty_partition_state depth reads
        = Except.ok result
      ∧ exact_failure uniqify_rc (empty_table k T) depth reads = none := by
  obtain ⟨n, ht, cells, pm, hrun, -⟩ :=
    exact_partition_run uniqify_rc k T depth reads hsym hsep hk1 hk hdepth
  refine ⟨_, hrun, ?_⟩
  unfold exact_failure
  rw [hrun]

/-- Exact partitioning of the reads "AA" and "TA" with k = 2
under the key min(f, r). -/
theorem exact_partition_no_assert_witness :
    ∃ result,
      do_exact_partition uniqify_rc_min (empty_table 2 1000003) empty_partition_state 17
        [("read1", ['A', 'A']), ("read2", ['T', 'A'])] = Except.ok result
      ∧ exact_failure uniqify_rc_min (empty_table 2 1000003) 17
        [("read1", ['A', 'A']), ("read2", ['T', 'A'])] = none :=
  exact_partition_no_assert uniqify_rc_min 2 1000003 17
    [("read1", ['A', 'A']), ("read2", ['T', 'A'])] uniqify_rc_min_comm
    (uniqify_rc_min_separates 2) (by decide) (by decide) (by decide)

/-- A table with the same number of bins in which no count has fallen to zero
keeps every path. -/
theorem connected_mono (u : Nat → Nat → Nat) (ht ht' : Hashtable)
    (hT : ht'.tablesize = ht.tablesize) (hc : ∀ b, ht.counts b ≠ 0 → ht'.counts b ≠ 0)
    (a b : List Char) (h : ht.connected u a b) : ht'.connected u a b := by
  have hp : ∀ w, ht.present u w → ht'.present u w := by
    intro w hw
    unfold Hashtable.present at hw ⊢
    rw [hT]
    exact hc _ hw
  induction h with
  | start h0 => exact Hashtable.connected.start (hp _ h0)
  | step w w' _ hn hw ih => exact Hashtable.connected.step w w' ih hn (hp _ hw)

theorem joined_refl (u : Nat → Nat → Nat) (ht : Hashtable) (w : List Char)
    (hp : ht.present u w) : ht.joined u w w :=
  Or.inl (Hashtable.connected.start hp)

theorem joined_mono (u : Nat → Nat → Nat) (ht ht' : Hashtable)
    (hT : ht'.tablesize = ht.tablesize) (hc : ∀ b, ht.counts b ≠ 0 → ht'.counts b ≠ 0)
    (a b : List Char) (h : ht.joined u a b) : ht'.joined u a b := by
  rcases h with h | h
  · exact Or.inl (connected_mono u ht ht' hT hc _ _ h)
  · exact Or.inr (connected_mono u ht ht' hT hc _ _ h)

theorem joined_symm (u : Nat → Nat → Nat) (hsym : key_symmetric u) (ht : Hashtable)
    (a b : List Char) (hk1 : 1 ≤ ht.ksize) (hlen : a.length = ht.ksize) (hs : is_acgt a)
    (hbs : is_acgt b) (h : ht.joined u a b) : ht.joined u b a := by
  rcases h with h | h
  · exact Or.inl (connected_symm u ht a b hk1 hlen hs h)
  · have h1 := connected_reverse_complement u hsym ht a _ hk1 hlen hs h
    rw [reverse_complement_involutive b hbs] at h1
    exact Or.inr (connected_symm u ht _ b hk1
      (by rw [length_reverse_complement]; exact hlen) (is_acgt_reverse_complement a hs) h1)

theorem joined_trans (u : Nat → Nat → Nat) (hsym : key_symmetric u) (ht : Hashtable)
    (a b c : List Char) (hk1 : 1 ≤ ht.ksize) (hbl : b.length = ht.ksize) (hbs : is_acgt b)
    (hcs : is_acgt c) (h1 : ht.joined u a b) (h2 : ht.joined u b c) : ht.joined u a c := by
  rcases h1 with h1 | h1
  · rcases h2 with h2 | h2
    · exact Or.inl (connected_trans u ht a b c h1 h2)
    · exact Or.inr (connected_trans u ht a b _ h1 h2)
  · rcases h2 with h2 | h2
    · exact Or.inr (connected_trans u ht a _ _ h1
        (connected_reverse_complement u hsym ht b c hk1 hbl hbs h2))
    · have h3 := connected_reverse_complement u hsym ht b _ hk1 hbl hbs h2
      rw [reverse_complement_involutive c hcs] at h3
      exact Or.inl (connected_trans u ht a _ c h1 h3)

/-- Two k-mers in one component in the sense of `joined` are in the same
component in the sense of `same_component`. -/
theorem joined_same_component (u : Nat → Nat → Nat) (hsym : key_symmetric u) (ht : Hashtable)
    (a b : List Char) (hbs : is_acgt b) (h : ht.joined u a b) : ht.same_component u a b := by
  rcases h with h | h
  · exact ⟨b, h, rfl⟩
  · exact ⟨_, h, kmer_key_reverse_complement u hsym b hbs⟩

/-- A k-mer is joined to the k-mer of which it is the forward or the reverse
encoding. -/
theorem joined_of_encoding (u : Nat → Nat → Nat) (ht : Hashtable) (a v w : List Char)
    (hvl : v.length = ht.ksize) (hvs : is_acgt v) (hwl : w.length = ht.ksize) (hws : is_acgt w)
    (hav : ht.connected u a v)
    (h : (kmer_pair w).1 = (kmer_pair v).1 ∨ (kmer_pair w).1 = (kmer_pair v).2) :
    ht.joined u a w := by
  rcases h with h | h
  · have : w = v := pack_twobit_repr_injective w v (by rw [hwl, hvl]) hws hvs h
    rw [this]
    exact Or.inl hav
  · have e : (kmer_pair w).1 = (kmer_pair (reverse_complement v)).1 := by
      rw [kmer_pair_reverse_complement v hvs]
      exact h
    have : w = reverse_complement v := pack_twobit_repr_injective w _
      (by rw [hwl, length_reverse_complement, hvl]) hws (is_acgt_reverse_complement v hvs) e
    rw [this]
    refine Or.inr ?_
    rw [reverse_complement_involutive v hvs]
    exact hav

/-! ## The tags of partition_find_all_tags are tags of the component of the start -/

/-- One turn of the search keeps: the queue holds pairs of k-mers connected to
`start`, and every tag recorded was given at the call or is a key of the
partition map that encodes a k-mer connected to `start`. -/
theorem find_tags_sound_turn (u : Nat → Nat → Nat) (ht : Hashtable) (pm : List (Nat × Nat))
    (start : List Char) (tags0 : List Nat) (hk1 : 1 ≤ ht.ksize) (hk : ht.ksize ≤ 32)
    (st st' : FindTagsState)
    (hI : ∃ ys, st.node_q = queue_of ys
      ∧ (∀ y ∈ ys, y.length = ht.ksize ∧ is_acgt y ∧ ht.connected u start y)
      ∧ ∀ t ∈ st.tagged_kmers, t ∈ tags0 ∨ ht.found_tag u pm start t)
    (hturn : ht.find_tags_turn u pm st = some st') :
    ∃ ys, st'.node_q = queue_of ys
      ∧ (∀ y ∈ ys, y.length = ht.ksize ∧ is_acgt y ∧ ht.connected u start y)
      ∧ ∀ t ∈ st'.tagged_kmers, t ∈ tags0 ∨ ht.found_tag u pm start t := by
  obtain ⟨ys, hqueue, hys, htags⟩ := hI
  obtain ⟨f, r, q, hq, hcase⟩ := find_tags_turn_cases u ht pm st st' hturn
  rw [hq] at hqueue
  cases ys with
  | nil => cases hqueue
  | cons y0 ys =>
    rw [queue_of_cons] at hqueue
    have hf : f = (kmer_pair y0).1 := by injection hqueue
    have hr : r = (kmer_pair y0).2 := by
      injection hqueue with _ h2
      injection h2
    have hqq : q = queue_of ys := by
      injection hqueue with _ h2
      injection h2
    have hy0 := hys y0 (List.mem_cons_self _ _)
    have hrest : ∀ y ∈ ys, y.length = ht.ksize ∧ is_acgt y ∧ ht.connected u start y :=
      fun y hy => hys y (List.mem_cons_of_mem _ hy)
    rcases hcase with ⟨_, e⟩ | ⟨_, _, t, htag, e⟩ | ⟨_, _, e⟩
    · refine ⟨ys, by rw [e]; exact hqq, hrest, ?_⟩
      rw [e]
      exact htags
    · refine ⟨ys, by rw [e]; exact hqq, hrest, ?_⟩
      rw [e]
      intro x hx
      rcases (mem_set_insert _ _ _).mp hx with h | h
      · refine Or.inr ⟨?_, y0, hy0.1, hy0.2.1, hy0.2.2, ?_⟩
        · rw [h]; exact (is_tagged_kmer_some _ _ _ _ htag).2
        · rw [h, ← hf, ← hr]; exact (is_tagged_kmer_some _ _ _ _ htag).1
      · exact htags x h
    · refine ⟨ys ++ (kmer_neighbours y0).filter (fun w => decide (ht.present u w)), ?_, ?_, ?_⟩
      · rw [e]
        simp only
        rw [hf, hr, push_neighbours_kmer u ht y0 hy0.1 hk1 hk, hqq, queue_of_append]
      · intro y hy
        rcases List.mem_append.mp hy with h | h
        · exact hrest y h
        · obtain ⟨hmem, hp⟩ := List.mem_filter.mp h
          obtain ⟨hl, hs⟩ := kmer_neighbours_kmer y0 y ht.ksize hk1 hy0.1 hy0.2.1 hmem
          exact ⟨hl, hs, Hashtable.connected.step y0 y hy0.2.2 hmem (by simpa using hp)⟩
      · rw [e]
        exact htags

/-- Every tag `partition_find_all_tags` hands back for a present k-mer
`start` was in `tagged_kmers` at the call or is a key of the partition map that
is the forward or the reverse encoding of a k-mer connected to `start`; and the
function returns. -/
theorem partition_find_all_tags_sound (u : Nat → Nat → Nat) (ht : Hashtable)
    (pm : List (Nat × Nat)) (start : List Char) (tags0 : List Nat) (surrender0 : Bool)
    (hk1 : 1 ≤ ht.ksize) (hk : ht.ksize ≤ 32)
    (hlen : start.length = ht.ksize) (hs : is_acgt start) (hp : ht.present u start) :
    ∃ tags surrender,
      ht.partition_find_all_tags u pm (kmer_pair start).1 (kmer_pair start).2 tags0 surrender0
        = some (tags, surrender)
      ∧ (∀ t ∈ tags, t ∈ tags0 ∨ ht.found_tag u pm start t)
      ∧ (kmer_tag pm start ≠ none → ∃ t ∈ tags, ht.found_tag u pm start t
          ∧ (t = (kmer_pair start).1 ∨ t = (kmer_pair start).2)
          ∧ ((map_find (kmer_pair start).1 pm).isSome → t = (kmer_pair start).1)
          ∧ tags = set_insert t tags0) := by
  unfold Hashtable.partition_find_all_tags
  cases htag : is_tagged_kmer pm (kmer_pair start).1 (kmer_pair start).2 with
  | some t =>
    have ht1 := is_tagged_kmer_some _ _ _ _ htag
    have hfound : ht.found_tag u pm start t :=
      ⟨ht1.2, start, hlen, hs, Hashtable.connected.start hp, ht1.1⟩
    refine ⟨_, _, rfl, ?_, fun _ => ⟨t, (mem_set_insert _ _ _).mpr (Or.inl rfl), hfound, ht1.1,
      ?_, rfl⟩⟩
    · intro x hx
      rcases (mem_set_insert _ _ _).mp hx with h | h
      · rw [h]; exact Or.inr hfound
      · exact Or.inl h
    · intro hsome
      unfold is_tagged_kmer at htag
      cases hm : map_find (kmer_pair start).1 pm with
      | none => rw [hm] at hsome; cases hsome
      | some c =>
        rw [hm] at htag
        injection htag with h
        exact h.symm
  | none =>
    obtain ⟨st', hrun⟩ := find_tags_loop_returns u ht pm (PARTITION_MAX_TAG_EXAMINED + 1)
      (find_tags_init (kmer_pair start).1 (kmer_pair start).2 tags0 surrender0)
      (by unfold find_tags_init; simp)
      (by unfold find_tags_init; simp)
      (by unfold find_tags_init; simp)
    have hinv := find_tags_loop_inv u ht pm
      (fun st => ∃ ys, st.node_q = queue_of ys
        ∧ (∀ y ∈ ys, y.length = ht.ksize ∧ is_acgt y ∧ ht.connected u start y)
        ∧ ∀ t ∈ st.tagged_kmers, t ∈ tags0 ∨ ht.found_tag u pm start t)
      (fun st h => h) (fun st h => h)
      (fun st st1 hI hturn => find_tags_sound_turn u ht pm start tags0 hk1 hk st st1 hI hturn)
      _ _ st'
      ⟨[start], rfl, fun y hy => by
          rw [List.mem_singleton.mp hy]
          exact ⟨hlen, hs, Hashtable.connected.start hp⟩,
        fun t ht => Or.inl ht⟩ hrun
    obtain ⟨⟨ys, -, -, htags⟩, -⟩ := hinv
    rw [hrun]
    refine ⟨_, _, rfl, htags, fun hn => ?_⟩
    exact absurd htag hn

/-! ## What assign_partition_id does to the ids the keys resolve to -/

/-- The call `assign_partition_id(f, {}, surrender)`: `f` resolves to the new
id, which no key resolved to, and every other key resolves as before. -/
theorem assign_fresh_pid (st : PartitionState) (f : Nat) (surrender : Bool)
    (h : allocated_ids st) :
    ∃ r st', assign_partition_id st f [] surrender = some (r, st')
      ∧ (∀ x, x ≠ f → map_find x st'.partition_map = map_find x st.partition_map)
      ∧ pid_of st' f = some st.next_partition_id
      ∧ (∀ x, x ≠ f → pid_of st' x = pid_of st x)
      ∧ (∀ x p, pid_of st x = some p → p < st.next_partition_id) := by
  obtain ⟨h1, h2, -, hlive, -⟩ := h
  have hold : ∀ x p, pid_of st x = some p → p < st.next_partition_id := by
    intro x p hx
    obtain ⟨c, hc, hp⟩ := pid_of_some st x p hx
    obtain ⟨-, p', s, hp', hs, -⟩ := h1 x c hc
    rw [hp] at hp'
    injection hp' with e
    rw [← e] at hs
    exact (hlive p _ hs).2
  refine ⟨_, _, assign_fresh_eq st f surrender, ?_, ?_, ?_, hold⟩
  · intro x hx
    exact map_find_set_ne _ _ _ _ hx
  · unfold pid_of
    simp only
    rw [map_find_set_eq]
    exact map_find_set_eq _ _ _
  · intro x hx
    unfold pid_of
    simp only
    rw [map_find_set_ne _ _ _ _ hx]
    cases hc : map_find x st.partition_map with
    | none => rfl
    | some c =>
      obtain ⟨-, p', s, hp', -, -⟩ := h1 x c hc
      have hne : c ≠ fresh_addr st.cells := by
        intro e
        rw [e, map_find_fresh_addr] at hp'
        cases hp'
      exact map_find_set_ne _ _ _ _ hne

/-- The call `assign_partition_id(f, {f}, surrender)` when `f` is a key of the
partition map: every key resolves as before. -/
theorem assign_self_pid (st : PartitionState) (f : Nat) (surrender : Bool)
    (h1 : I1 st) (h2 : I2 st) (c0 : Nat) (hf : map_find f st.partition_map = some c0) :
    ∃ r st', assign_partition_id st f [f] surrender = some (r, st')
      ∧ (∀ x, map_find x st'.partition_map = map_find x st.partition_map)
      ∧ (∀ x, pid_of st' x = pid_of st x) := by
  obtain ⟨c0', m, st', hc0, hrun, hpm, -, -, -, hex, -, -, hcell, -, -⟩ :=
    reassign_outcome st f [] f h1 h2
      (fun t ht => by rw [List.mem_singleton.mp ht]; exact ⟨c0, hf⟩)
  rw [hf] at hc0
  injection hc0 with e0
  subst e0
  have hm : map_find c0 st.cells = some m := by
    obtain ⟨t, ht, c, hc, hcm⟩ := hex
    rw [List.mem_singleton.mp ht, map_find_set_eq] at hc
    injection hc with e
    rw [e]
    exact hcm
  have hmap : ∀ x, map_find x st'.partition_map = map_find x st.partition_map := by
    intro x
    rw [hpm, map_find_set]
    split_ifs with hx
    · rw [hx, hf]
    · rfl
  refine ⟨_, _, assign_union_eq st st' f f m [] surrender hrun, hmap, ?_⟩
  intro x
  unfold pid_of
  simp only
  rw [hmap x]
  cases hc : map_find x st.partition_map with
  | none => rfl
  | some c =>
    obtain ⟨-, p, s, hp, -, -⟩ := h1 x c hc
    have := hcell x c p hc hp
    show map_find c st'.cells = map_find c st.cells
    rw [this, hp]
    split_ifs with hcond
    · obtain ⟨t, ht, c', hc', hp'⟩ := hcond
      rw [List.mem_singleton.mp ht, map_find_set_eq] at hc'
      injection hc' with e
      rw [← e, hm] at hp'
      exact hp'
    · rfl

/-- What `assign_partition_id` does to the ids, whatever the tags: the key `f`
resolves to an id `m`, every other key to the image under a map `ρ` of the id it
resolved to; an id that `ρ` takes to `m`, and two different ids that `ρ` takes
to one id, are ids of tags. -/
theorem assign_relabels (st : PartitionState) (f : Nat) (tags : List Nat) (surrender : Bool)
    (h : allocated_ids st)
    (hkeys : ∀ t ∈ tags, ∃ c, map_find t st.partition_map = some c)
    (hself : (map_find f st.partition_map).isSome → tags = [f]) :
    ∃ r st' m, ∃ ρ : Nat → Nat, assign_partition_id st f tags surrender = some (r, st')
      ∧ allocated_ids st'
      ∧ (∀ x, x ≠ f → map_find x st'.partition_map = map_find x st.partition_map)
      ∧ pid_of st' f = some m
      ∧ (∀ x, x ≠ f → pid_of st' x = (pid_of st x).map ρ)
      ∧ (∀ x p, pid_of st x = some p → ρ p = m → ∃ t ∈ tags, pid_of st t = some p)
      ∧ (∀ x y p q, pid_of st x = some p → pid_of st y = some q → ρ p = ρ q →
          p = q ∨ ((∃ t ∈ tags, pid_of st t = some p) ∧ (∃ t ∈ tags, pid_of st t = some q))) := by
  obtain ⟨r, st', hrun, hal, -, -⟩ := allocated_ids_step st f tags surrender h hkeys
  cases hfk : map_find f st.partition_map with
  | some c0 =>
    have htags := hself (by rw [hfk]; rfl)
    subst htags
    obtain ⟨r2, st2, hrun2, hmap, hpid⟩ := assign_self_pid st f surrender h.1 h.2.1 c0 hfk
    have e := hrun.symm.trans hrun2
    injection e with e
    injection e with e1 e2
    subst e2
    obtain ⟨-, p, s, hp, -, -⟩ := h.1 f c0 hfk
    have hpf : pid_of st f = some p := by rw [pid_of_eq st f c0 hfk]; exact hp
    refine ⟨r, st', p, id, hrun, hal, fun x _ => hmap x, by rw [hpid]; exact hpf,
      fun x _ => by rw [hpid, Option.map_id, id], ?_, ?_⟩
    · intro x p' _ e
      exact ⟨f, List.mem_singleton.mpr rfl, by rw [show p' = p from e]; exact hpf⟩
    · intro x y p' q' _ _ e
      exact Or.inl e
  | none =>
    cases tags with
    | nil =>
      obtain ⟨r2, st2, hrun2, hmap, hpf, hpid, hold⟩ := assign_fresh_pid st f surrender h
      have e := hrun.symm.trans hrun2
      injection e with e
      injection e with e1 e2
      subst e2
      refine ⟨r, st', st.next_partition_id, id, hrun, hal, hmap, hpf,
        fun x hx => by rw [hpid x hx, Option.map_id, id], ?_, ?_⟩
      · intro x p hx e
        have := hold x p hx
        have e' : p = st.next_partition_id := e
        omega
      · intro x y p' q' _ _ e
        exact Or.inl e
    | cons t0 rest =>
      obtain ⟨m, st2, hrun2, -, -, hmin, hmap, -, hpf, hpid⟩ :=
        assign_union_pid st f (t0 :: rest) surrender h.1 h.2.1 (List.cons_ne_nil _ _) hkeys hfk
      have e := hrun.symm.trans hrun2
      injection e with e
      injection e with e1 e2
      subst e2
      refine ⟨r, st', m, relabel (tag_ids st (t0 :: rest)) m, hrun, hal, hmap, hpf, hpid, ?_, ?_⟩
      · intro x p _ e
        by_cases hp : p ∈ tag_ids st (t0 :: rest)
        · exact (mem_tag_ids _ _ _).mp hp
        · rw [relabel_of_not_mem m hp] at e
          rw [e] at hp
          exact absurd hmin.1 hp
      · intro x y p q _ _ e
        by_cases hp : p ∈ tag_ids st (t0 :: rest)
        · by_cases hq : q ∈ tag_ids st (t0 :: rest)
          · exact Or.inr ⟨(mem_tag_ids _ _ _).mp hp, (mem_tag_ids _ _ _).mp hq⟩
          · rw [relabel_of_mem m hp, relabel_of_not_mem m hq] at e
            rw [← e] at hq
            exact absurd hmin.1 hq
        · by_cases hq : q ∈ tag_ids st (t0 :: rest)
          · rw [relabel_of_not_mem m hp, relabel_of_mem m hq] at e
            rw [e] at hp
            exact absurd hmin.1 hp
          · rw [relabel_of_not_mem m hp, relabel_of_not_mem m hq] at e
            exact Or.inl e

/-! ## do_truncated_partition joins only k-mers of one component -/

theorem truncated_inv_table (u : Nat → Nat → Nat) (ht ht' : Hashtable) (st : PartitionState)
    (hk : ht'.ksize = ht.ksize) (hT : ht'.tablesize = ht.tablesize)
    (hc : ∀ b, ht.counts b ≠ 0 → ht'.counts b ≠ 0) (hmax : ∀ b, ht'.counts b ≤ 255)
    (h : TruncatedInv u ht st) : TruncatedInv u ht' st := by
  refine ⟨h.ids, hmax, ?_, ?_⟩
  · intro x c hx
    obtain ⟨w, hwl, hws, hwp, e⟩ := h.keys x c hx
    refine ⟨w, by rw [hk]; exact hwl, hws, ?_, e⟩
    unfold Hashtable.present at hwp ⊢
    rw [hT]
    exact hc _ hwp
  · intro w w' p hwl hws hwl' hws' hp hp'
    rw [hk] at hwl hwl'
    exact joined_mono u ht ht' hT hc _ _ (h.sound w w' p hwl hws hwl' hws' hp hp')

/-- The search for tags from a present k-mer `s` and the call of
`assign_partition_id` with what it found return, and keep the invariant of
`do_truncated_partition`. -/
theorem truncated_inv_assign (u : Nat → Nat → Nat) (hsym : key_symmetric u) (ht : Hashtable)
    (st : PartitionState) (s : List Char) (hk1 : 1 ≤ ht.ksize) (hk : ht.ksize ≤ 32)
    (hlen : s.length = ht.ksize) (hs : is_acgt s) (hp : ht.present u s)
    (h : TruncatedInv u ht st) :
    ∃ tags surrender r st',
      ht.partition_find_all_tags u st.partition_map (kmer_pair s).1 (kmer_pair s).2 [] false
        = some (tags, surrender)
      ∧ assign_partition_id st (kmer_pair s).1 tags surrender = some (r, st')
      ∧ TruncatedInv u ht st'
      ∧ (∀ x, (map_find x st.partition_map).isSome → (map_find x st'.partition_map).isSome)
      ∧ (map_find (kmer_pair s).1 st'.partition_map).isSome := by
  obtain ⟨tags, surrender, hfind, htags, hstart⟩ :=
    partition_find_all_tags_sound u ht st.partition_map s [] false hk1 hk hlen hs hp
  have hfound : ∀ t ∈ tags, ht.found_tag u st.partition_map s t := by
    intro t htm
    rcases htags t htm with h0 | h0
    · cases h0
    · exact h0
  have hkeys : ∀ t ∈ tags, ∃ c, map_find t st.partition_map = some c :=
    fun t htm => Option.isSome_iff_exists.mp (hfound t htm).1
  have hself : (map_find (kmer_pair s).1 st.partition_map).isSome → tags = [(kmer_pair s).1] := by
    intro hsome
    have hne : kmer_tag st.partition_map s ≠ none := by
      intro hn
      have := ((is_tagged_kmer_none _ _ _).mp hn).1
      rw [this] at hsome
      cases hsome
    obtain ⟨t, -, -, -, htf, e⟩ := hstart hne
    rw [e, htf hsome]
    rfl
  obtain ⟨r, st', m, ρ, hrun, hal, hmap, hpf, hpid, hρm, hρ⟩ :=
    assign_relabels st (kmer_pair s).1 tags surrender h.ids hkeys hself
  have hfkey : (map_find (kmer_pair s).1 st'.partition_map).isSome := by
    obtain ⟨c, hc, -⟩ := pid_of_some st' _ _ hpf
    rw [hc]; rfl
  -- a k-mer whose key resolved to the id of a tag is in the component of `s`
  have hjoin : ∀ w : List Char, w.length = ht.ksize → is_acgt w → ∀ p,
      pid_of st (kmer_pair w).1 = some p → (∃ t ∈ tags, pid_of st t = some p) →
      ht.joined u s w := by
    intro w hwl hws p hwp ⟨t, htm, htp⟩
    obtain ⟨-, v, hvl, hvs, hsv, htv⟩ := hfound t htm
    obtain ⟨c, hc⟩ := hkeys t htm
    obtain ⟨wt, hwtl, hwts, -, e⟩ := h.keys t c hc
    have h1 : ht.joined u s wt :=
      joined_of_encoding u ht s v wt hvl hvs hwtl hwts hsv (by rw [e]; exact htv)
    have h2 : ht.joined u wt w :=
      h.sound wt w p hwtl hwts hwl hws (by rw [e]; exact htp) hwp
    exact joined_trans u hsym ht s wt w hk1 hwtl hwts hws h1 h2
  have hold : ∀ w : List Char, (kmer_pair w).1 ≠ (kmer_pair s).1 → ∀ q,
      pid_of st' (kmer_pair w).1 = some q →
      ∃ p, pid_of st (kmer_pair w).1 = some p ∧ ρ p = q := by
    intro w hw q hq
    rw [hpid _ hw] at hq
    exact Option.map_eq_some'.mp hq
  have hsame : ∀ w : List Char, w.length = ht.ksize → is_acgt w →
      (kmer_pair w).1 = (kmer_pair s).1 → w = s :=
    fun w hwl hws e => pack_twobit_repr_injective w s (by rw [hwl, hlen]) hws hs e
  refine ⟨tags, surrender, r, st', hfind, hrun, ⟨hal, h.counts, ?_, ?_⟩, ?_, hfkey⟩
  · intro x c hx
    by_cases hxf : x = (kmer_pair s).1
    · exact ⟨s, hlen, hs, hp, hxf.symm⟩
    · rw [hmap x hxf] at hx
      exact h.keys x c hx
  · intro w w' q hwl hws hwl' hws' hq hq'
    by_cases hw : (kmer_pair w).1 = (kmer_pair s).1
    · have ew := hsame w hwl hws hw
      rw [hw, hpf] at hq
      injection hq with eq
      by_cases hw' : (kmer_pair w').1 = (kmer_pair s).1
      · rw [ew, hsame w' hwl' hws' hw']
        exact joined_refl u ht s hp
      · obtain ⟨p', hp', e'⟩ := hold w' hw' q hq'
        rw [ew]
        exact hjoin w' hwl' hws' p' hp' (hρm _ p' hp' (by rw [e', eq]))
    · obtain ⟨p, hp1, e⟩ := hold w hw q hq
      by_cases hw' : (kmer_pair w').1 = (kmer_pair s).1
      · have ew' := hsame w' hwl' hws' hw'
        rw [hw', hpf] at hq'
        injection hq' with eq
        rw [ew']
        exact joined_symm u hsym ht s w hk1 hlen hs hws
          (hjoin w hwl hws p hp1 (hρm _ p hp1 (by rw [e, eq])))
      · obtain ⟨p', hp', e'⟩ := hold w' hw' q hq'
        rcases hρ _ _ p p' hp1 hp' (by rw [e, e']) with hpp | ⟨ht1, ht2⟩
        · rw [← hpp] at hp'
          exact h.sound w w' p hwl hws hwl' hws' hp1 hp'
        · have j1 := hjoin w hwl hws p hp1 ht1
          have j2 := hjoin w' hwl' hws' p' hp' ht2
          exact joined_trans u hsym ht w s w' hk1 hlen hs hws'
            (joined_symm u hsym ht s w hk1 hlen hs hws j1) j2
  · intro x hx
    by_cases hxf : x = (kmer_pair s).1
    · rw [hxf]; exact hfkey
    · rw [hmap x hxf]; exact hx

/-- One pass through the loop of `do_truncated_partition` returns and keeps the
invariant. -/
theorem truncated_inv_read (u : Nat → Nat → Nat) (hsym : key_symmetric u) (ht : Hashtable)
    (st : PartitionState) (read : String × List Char) (hk1 : 1 ≤ ht.ksize) (hk : ht.ksize ≤ 32)
    (h : TruncatedInv u ht st) :
    ∃ ht' st', do_truncated_partition_read u (ht, st) read = some (ht', st')
      ∧ TruncatedInv u ht' st' ∧ ht'.ksize = ht.ksize ∧ ht'.tablesize = ht.tablesize
      ∧ (∀ b, ht.counts b ≠ 0 → ht'.counts b ≠ 0)
      ∧ (∀ x, (map_find x st.partition_map).isSome → (map_find x st'.partition_map).isSome)
      ∧ (ht.check_read read.2 = true →
          (map_find (kmer_pair (read.2.take ht.ksize)).1 st'.partition_map).isSome) := by
  by_cases hv : ht.check_read read.2 = true
  · obtain ⟨hlen, hs⟩ := (check_read_true_iff ht read.2).mp hv
    obtain ⟨c1, c2, c3⟩ := consume_string_present u ht read.2 hk1 hk h.counts hlen
    have hks := consume_string_ksize u ht read.2 0 0
    have hT := consume_string_tablesize u ht read.2 0 0
    have hsl : (read.2.take ht.ksize).length = ht.ksize := by
      rw [List.length_take]; omega
    have hss : is_acgt (read.2.take ht.ksize) := fun c hc => hs c (List.mem_of_mem_take hc)
    have hinv := truncated_inv_table u ht (ht.consume_string u read.2 0 0).2 st hks hT c2 c1 h
    obtain ⟨tags, surrender, r, st', hfind, hrun, hinv', hkeep, hkey⟩ :=
      truncated_inv_assign u hsym (ht.consume_string u read.2 0 0).2 st (read.2.take ht.ksize)
        (by rw [hks]; exact hk1) (by rw [hks]; exact hk) (by rw [hks]; exact hsl) hss c3 hinv
    refine ⟨(ht.consume_string u read.2 0 0).2, st', ?_, hinv', hks, hT, c2, hkeep,
      fun _ => hkey⟩
    unfold do_truncated_partition_read Hashtable.check_and_process_read
    simp only [hv, Bool.not_true, Bool.false_eq_true, if_false, if_true]
    rw [hks, hash_init_kmer u _ ht.ksize hk hsl]
    simp only
    rw [hfind]
    simp only
    rw [hrun]
  · refine ⟨ht, st, ?_, h, rfl, rfl, fun _ hb => hb, fun _ hx => hx, fun hc => absurd hc hv⟩
    unfold do_truncated_partition_read Hashtable.check_and_process_read
    simp [hv]

/-- The run of `do_truncated_partition` over a list of reads returns and keeps
the invariant; the first k-mer of every valid read is a key of the partition
map on return. -/
theorem truncated_inv_fold (u : Nat → Nat → Nat) (hsym : key_symmetric u)
    (reads : List (String × List Char)) :
    ∀ (ht : Hashtable) (st : PartitionState), 1 ≤ ht.ksize → ht.ksize ≤ 32 →
      TruncatedInv u ht st →
      ∃ ht' st', do_truncated_partition u ht st reads = some (ht', st')
        ∧ TruncatedInv u ht' st' ∧ ht'.ksize = ht.ksize ∧ ht'.tablesize = ht.tablesize
        ∧ (∀ x, (map_find x st.partition_map).isSome → (map_find x st'.partition_map).isSome)
        ∧ (∀ w ∈ first_kmers ht reads, (map_find (kmer_pair w).1 st'.partition_map).isSome) := by
  induction reads with
  | nil =>
    intro ht st _ _ h
    exact ⟨ht, st, rfl, h, rfl, rfl, fun _ hx => hx, fun w hw => by cases hw⟩
  | cons read rest ih =>
    intro ht st hk1 hk h
    obtain ⟨ht1, st1, hrun1, hinv1, hks1, hT1, -, hkeep1, hkey1⟩ :=
      truncated_inv_read u hsym ht st read hk1 hk h
    obtain ⟨ht', st', hrun, hinv, hks, hT, hkeep, hkeys⟩ :=
      ih ht1 st1 (by rw [hks1]; exact hk1) (by rw [hks1]; exact hk) hinv1
    refine ⟨ht', st', ?_, hinv, hks.trans hks1, hT.trans hT1,
      fun x hx => hkeep x (hkeep1 x hx), ?_⟩
    · unfold do_truncated_partition
      rw [List.foldlM_cons, hrun1]
      exact hrun
    · intro w hw
      rw [first_kmers_cons] at hw
      rw [first_kmers_congr ht ht1 hks1.symm rest] at hkeys
      by_cases hv : ht.check_read read.2 = true
      · rw [if_pos hv] at hw
        rcases List.mem_cons.mp hw with e | hw
        · rw [e]; exact hkeep _ (hkey1 hv)
        · exact hkeys w hw
      · rw [if_neg hv] at hw
        exact hkeys w hw

theorem truncated_inv_empty (u : Nat → Nat → Nat) (k T : Nat) :
    TruncatedInv u (empty_table k T) empty_partition_state := by
  refine ⟨allocated_ids_empty, fun _ => Nat.zero_le _, ?_, ?_⟩
  · intro x c hx
    cases hx
  · intro w w' p _ _ _ _ hp
    cases hp

/-- C31: for 1 <= k <= 32 and a canonical key with
`canonical(f, r) = canonical(r, f)`, `do_truncated_partition` over any list of
reads, from the empty table and the empty partition state, returns; the first
k-mer of every valid read then resolves to a `PartitionID`, and two first
k-mers of valid reads that resolve to the same `PartitionID` lie in one
connected component of the final count graph, a k-mer and its reverse
complement being one vertex: one is reachable from the other, or from its
reverse complement, through k-mers with a non-zero count. And in every table,
for every partition map and every start k-mer with a non-zero count,
`partition_find_all_tags` called with an empty tag set returns, and every tag
it hands back is a key of the partition map and the forward or the reverse
encoding of a k-mer connected to the start. -/
theorem truncated_partition_sound (uniqify_rc : Nat → Nat → Nat) (k T : Nat)
    (reads : List (String × List Char)) (hsym : key_symmetric uniqify_rc)
    (hk1 : 1 ≤ k) (hk : k ≤ 32) :
    (∃ ht st,
      do_truncated_partition uniqify_rc (empty_table k T) empty_partition_state reads
        = some (ht, st)
      ∧ (∀ w ∈ first_kmers (empty_table k T) reads, ∃ p, pid_of st (kmer_pair w).1 = some p)
      ∧ (∀ w ∈ first_kmers (empty_table k T) reads,
          ∀ w' ∈ first_kmers (empty_table k T) reads, ∀ p,
          pid_of st (kmer_pair w).1 = some p → pid_of st (kmer_pair w').1 = some p →
          ht.joined uniqify_rc w w' ∧ ht.same_component uniqify_rc w w'))
    ∧ (∀ (ht : Hashtable) (partition_map : List (Nat × Nat)) (start : List Char) (surrender : Bool),
        ht.ksize = k → start.length = k → is_acgt start → ht.present uniqify_rc start →
        ∃ tags surrender',
          ht.partition_find_all_tags uniqify_rc partition_map (kmer_pair start).1
            (kmer_pair start).2 [] surrender = some (tags, surrender')
          ∧ ∀ t ∈ tags, ht.found_tag uniqify_rc partition_map start t) := by
  constructor
  · obtain ⟨ht, st, hrun, hinv, hks, -, -, hkeys⟩ :=
      truncated_inv_fold uniqify_rc hsym reads (empty_table k T) empty_partition_state hk1 hk
        (truncated_inv_empty uniqify_rc k T)
    have hvalid := first_kmers_valid (empty_table k T) reads
    refine ⟨ht, st, hrun, ?_, ?_⟩
    · intro w hw
      obtain ⟨c, hc⟩ := Option.isSome_iff_exists.mp (hkeys w hw)
      obtain ⟨-, p, s, hp, -, -⟩ := hinv.ids.1 _ c hc
      exact ⟨p, by rw [pid_of_eq st _ c hc]; exact hp⟩
    · intro w hw w' hw' p hp hp'
      have hj := hinv.sound w w' p (by rw [hks]; exact (hvalid w hw).1) (hvalid w hw).2
        (by rw [hks]; exact (hvalid w' hw').1) (hvalid w' hw').2 hp hp'
      exact ⟨hj, joined_same_component uniqify_rc hsym ht w w' (hvalid w' hw').2 hj⟩
  · intro ht pm start surrender hks hlen hs hp
    obtain ⟨tags, surrender', hfind, htags, -⟩ :=
      partition_find_all_tags_sound uniqify_rc ht pm start [] surrender
        (by rw [hks]; exact hk1) (by rw [hks]; exact hk) (by rw [hks]; exact hlen) hs hp
    refine ⟨tags, surrender', hfind, fun t htm => ?_⟩
    rcases htags t htm with h0 | h0
    · cases h0
    · exact h0

theorem truncated_partition_sound_witness :
    key_symmetric uniqify_rc_min ∧ 1 ≤ 3 ∧ 3 ≤ 32
    ∧ (∃ ht st,
      do_truncated_partition uniqify_rc_min (empty_table 3 1000003) empty_partition_state
        [("read1", ['G', 'G', 'G', 'C']), ("read2", ['T', 'G', 'G'])] = some (ht, st)
      ∧ (∀ w ∈ first_kmers (empty_table 3 1000003)
            [("read1", ['G', 'G', 'G', 'C']), ("read2", ['T', 'G', 'G'])],
          ∃ p, pid_of st (kmer_pair w).1 = some p)
      ∧ (∀ w ∈ first_kmers (empty_table 3 1000003)
            [("read1", ['G', 'G', 'G', 'C']), ("read2", ['T', 'G', 'G'])],
          ∀ w' ∈ first_kmers (empty_table 3 1000003)
            [("read1", ['G', 'G', 'G', 'C']), ("read2", ['T', 'G', 'G'])], ∀ p,
          pid_of st (kmer_pair w).1 = some p → pid_of st (kmer_pair w').1 = some p →
          ht.joined uniqify_rc_min w w' ∧ ht.same_component uniqify_rc_min w w'))
    ∧ (∀ (ht : Hashtable) (partition_map : List (Nat × Nat)) (start : List Char)
        (surrender : Bool),
        ht.ksize = 3 → start.length = 3 → is_acgt start → ht.present uniqify_rc_min start →
        ∃ tags surrender',
          ht.partition_find_all_tags uniqify_rc_min partition_map (kmer_pair start).1
            (kmer_pair start).2 [] surrender = some (tags, surrender')
          ∧ ∀ t ∈ tags, ht.found_tag uniqify_rc_min partition_map start t) :=
  ⟨uniqify_rc_min_comm, by decide, by decide,
    truncated_partition_sound uniqify_rc_min 3 1000003
      [("read1", ['G', 'G', 'G', 'C']), ("read2", ['T', 'G', 'G'])] uniqify_rc_min_comm
      (by decide) (by decide)⟩

/-! ## Termination of calc_connected_graph_size -/

/-- A loop that may fail, whose every turn returns from a state that satisfies
`I`, keeps `I`, and relates the state before to the state after by a preorder
`R`. -/
theorem foldlM_option_run {σ α : Type} (step : σ → α → Option σ) (R : σ → σ → Prop)
    (I : σ → Prop) (hrefl : ∀ s, R s s) (htrans : ∀ a b c, R a b → R b c → R a c)
    (l : List α)
    (hstep : ∀ a ∈ l, ∀ s, I s → ∃ s', step s a = some s' ∧ R s s' ∧ I s') :
    ∀ s, I s → ∃ s', l.foldlM step s = some s' ∧ R s s' ∧ I s' := by
  induction l with
  | nil => intro s hs; exact ⟨s, rfl, hrefl s, hs⟩
  | cons a rest ih =>
    intro s hs
    obtain ⟨s1, h1, hR1, hI1⟩ := hstep a (List.mem_cons_self _ _) s hs
    obtain ⟨s', h', hR', hI'⟩ := ih (fun b hb => hstep b (List.mem_cons_of_mem _ hb)) s1 hI1
    exact ⟨s', by rw [List.foldlM_cons, h1]; exact h', htrans _ _ _ hR1 hR', hI'⟩

/-- Two loops that may fail, the turns of the first being the turns of the
second with a tally beside the state. -/
theorem foldlM_erase {σ τ α : Type} (g : σ × τ → α → Option (σ × τ)) (h : σ → α → Option σ)
    (l : List α) (hstep : ∀ a ∈ l, ∀ s n, (g (s, n) a).map Prod.fst = h s a) :
    ∀ s n, (l.foldlM g (s, n)).map Prod.fst = l.foldlM h s := by
  induction l with
  | nil => intro s n; rfl
  | cons a rest ih =>
    intro s n
    rw [List.foldlM_cons, List.foldlM_cons]
    have h1 := hstep a (List.mem_cons_self _ _) s n
    cases hg : g (s, n) a with
    | none =>
      rw [hg] at h1
      rw [← h1]
      rfl
    | some sn =>
      rw [hg] at h1
      rw [← h1]
      obtain ⟨s1, n1⟩ := sn
      exact ih (fun b hb => hstep b (List.mem_cons_of_mem _ hb)) s1 n1

/-- Without its tally, `calc_connected_graph_size_tally` is
`calc_connected_graph_size`. -/
theorem calc_connected_graph_size_tally_erase (u : Nat → Nat → Nat) (ht : Hashtable)
    (threshold : Nat) :
    ∀ (depth kmer_f kmer_r : Nat) (s : Nat × List Nat) (n : Nat),
      (ht.calc_connected_graph_size_tally u threshold depth kmer_f kmer_r (s, n)).map Prod.fst
        = ht.calc_connected_graph_size u threshold depth kmer_f kmer_r s := by
  intro depth
  induction depth with
  | zero => intro f r s n; rfl
  | succ depth ih =>
    intro f r s n
    obtain ⟨count, keeper⟩ := s
    rw [calc_connected_graph_size_succ]
    unfold Hashtable.calc_connected_graph_size_tally
    simp only
    by_cases hval : ht.counts (u f r % ht.tablesize) = 0
    · rw [if_pos hval, if_pos hval]; rfl
    · rw [if_neg hval, if_neg hval]
      by_cases hseen : u f r ∈ keeper
      · rw [if_pos hseen, if_pos hseen]; rfl
      · rw [if_neg hseen, if_neg hseen]
        by_cases hthr : threshold ≠ 0 ∧ count + 1 ≥ threshold
        · rw [if_pos hthr, if_pos hthr]; rfl
        · rw [if_neg hthr, if_neg hthr]
          exact foldlM_erase _ _ _ (fun fr _ s n => ih fr.1 fr.2 s n) _ _

theorem tallied_refl (u : Nat → Nat → Nat) (ht : Hashtable) (s : (Nat × List Nat) × Nat) :
    Tallied u ht s s :=
  { mono := fun _ h => h
    count_le := le_refl _
    count_eq := rfl
    unseen_eq := rfl
    tally_le := le_refl _
    tally_mono := le_refl _ }

theorem tallied_trans {u : Nat → Nat → Nat} {ht : Hashtable} {a b c : (Nat × List Nat) × Nat}
    (h1 : Tallied u ht a b) (h2 : Tallied u ht b c) : Tallied u ht a c :=
  { mono := fun x hx => h2.mono x (h1.mono x hx)
    count_le := le_trans h1.count_le h2.count_le
    count_eq := by have := h1.count_eq; have := h2.count_eq; omega
    unseen_eq := by have := h1.unseen_eq; have := h2.unseen_eq; omega
    tally_le := by have := h1.tally_le; have := h2.tally_le; omega
    tally_mono := le_trans h1.tally_mono h2.tally_mono }

/-- Inserting the key of a k-mer with a non-zero count that was not seen takes
one from the number of keys with a non-zero count that are not seen. -/
theorem unseen_present_insert (u : Nat → Nat → Nat) (ht : Hashtable) (keeper : List Nat)
    (w : List Char) (hw : w.length = ht.ksize) (hs : is_acgt w) (hp : ht.present u w)
    (hn : kmer_key u w ∉ keeper) :
    ht.unseen_present u (set_insert (kmer_key u w) keeper) + 1 = ht.unseen_present u keeper := by
  unfold Hashtable.unseen_present
  have hset : (set_insert (kmer_key u w) keeper).toFinset
      = insert (kmer_key u w) keeper.toFinset := by
    ext x
    rw [List.mem_toFinset, mem_set_insert, Finset.mem_insert, List.mem_toFinset]
  have hmem : kmer_key u w ∈ (((all_kmers ht.ksize).filter
      (fun w => decide (ht.present u w))).map (kmer_key u)).toFinset \ keeper.toFinset := by
    rw [Finset.mem_sdiff, List.mem_toFinset, List.mem_toFinset]
    exact ⟨List.mem_map.mpr ⟨w, List.mem_filter.mpr ⟨mem_all_kmers _ w hw hs, by simpa using hp⟩,
      rfl⟩, hn⟩
  rw [hset, Finset.sdiff_insert, Finset.card_erase_of_mem hmem]
  have := Finset.card_pos.mpr ⟨_, hmem⟩
  omega

theorem unseen_present_le (u : Nat → Nat → Nat) (ht : Hashtable) (keeper : List Nat) :
    ht.unseen_present u keeper ≤ 4 ^ ht.ksize := by
  unfold Hashtable.unseen_present
  calc _ ≤ (((all_kmers ht.ksize).filter (fun w => decide (ht.present u w))).map
          (kmer_key u)).toFinset.card := Finset.card_le_card Finset.sdiff_subset
    _ ≤ (((all_kmers ht.ksize).filter (fun w => decide (ht.present u w))).map
          (kmer_key u)).length := List.toFinset_card_le _
    _ ≤ (all_kmers ht.ksize).length := by
        rw [List.length_map]; exact List.length_filter_le _ _
    _ = 4 ^ ht.ksize := length_all_kmers _

/-- A call of `calc_connected_graph_size` at the pair of a k-mer returns when
the depth allowed is more than the number of keys with a non-zero count that
are not yet seen; and what it does to `count`, `keeper` and the tally. -/
theorem calc_tallied (u : Nat → Nat → Nat) (ht : Hashtable) (threshold : Nat)
    (hk1 : 1 ≤ ht.ksize) (hk : ht.ksize ≤ 32) :
    ∀ (depth : Nat) (w : List Char) (s : (Nat × List Nat) × Nat),
      w.length = ht.ksize → is_acgt w → ht.unseen_present u s.1.2 < depth →
      ∃ s', ht.calc_connected_graph_size_tally u threshold depth (kmer_pair w).1 (kmer_pair w).2 s
          = some s' ∧ Tallied u ht s s' := by
  intro depth
  induction depth with
  | zero => intro w s _ _ h; exact absurd h (Nat.not_lt_zero _)
  | succ depth ih =>
    intro w s hwl hws hfuel
    obtain ⟨⟨count, keeper⟩, tally⟩ := s
    unfold Hashtable.calc_connected_graph_size_tally
    simp only
    have hkey : u (kmer_pair w).1 (kmer_pair w).2 = kmer_key u w := rfl
    rw [hkey]
    by_cases hval : ht.counts (kmer_key u w % ht.tablesize) = 0
    · rw [if_pos hval]; exact ⟨_, rfl, tallied_refl _ _ _⟩
    · rw [if_neg hval]
      by_cases hseen : kmer_key u w ∈ keeper
      · rw [if_pos hseen]; exact ⟨_, rfl, tallied_refl _ _ _⟩
      · rw [if_neg hseen]
        have hins := unseen_present_insert u ht keeper w hwl hws hval hseen
        have hlen := length_set_insert _ _ hseen
        by_cases hthr : threshold ≠ 0 ∧ count + 1 ≥ threshold
        · rw [if_pos hthr]
          refine ⟨_, rfl, ?_⟩
          exact
            { mono := fun x hx => (mem_set_insert _ _ _).mpr (Or.inr hx)
              count_le := Nat.le_succ _
              count_eq := by show count + 1 + keeper.length = count + _; rw [hlen]; omega
              unseen_eq := by
                show count + 1 + ht.unseen_present u (set_insert (kmer_key u w) keeper) = _
                simp only at hins ⊢
                omega
              tally_le := by show tally + count ≤ tally + (count + 1); omega
              tally_mono := le_refl _ }
        · rw [if_neg hthr, neighbour_pairs_kmer ht w hwl hk1 hk, List.foldlM_map]
          obtain ⟨s', hrun, hT, -⟩ := foldlM_option_run
            (fun ckt y => ht.calc_connected_graph_size_tally u threshold depth
              (kmer_pair y).1 (kmer_pair y).2 ckt)
            (Tallied u ht) (fun s => ht.unseen_present u s.1.2 < depth)
            (tallied_refl u ht) (fun _ _ _ => tallied_trans)
            (kmer_neighbours w)
            (fun y hy s1 hs1 => by
              obtain ⟨hyl, hys⟩ := kmer_neighbours_kmer w y ht.ksize hk1 hwl hws hy
              obtain ⟨s2, hrun, hT⟩ := ih y s1 hyl hys hs1
              refine ⟨s2, hrun, hT, ?_⟩
              have := hT.unseen_eq
              have := hT.count_le
              omega)
            ((count + 1, set_insert (kmer_key u w) keeper), tally + 1)
            (by simp only at hfuel ⊢; omega)
          refine ⟨s', hrun, ?_⟩
          exact
            { mono := fun x hx => hT.mono x ((mem_set_insert _ _ _).mpr (Or.inr hx))
              count_le := le_trans (Nat.le_succ _) hT.count_le
              count_eq := by
                have := hT.count_eq
                simp only at this ⊢
                rw [hlen] at this
                omega
              unseen_eq := by
                have := hT.unseen_eq
                simp only at this hins ⊢
                omega
              tally_le := by
                have := hT.tally_le
                simp only at this ⊢
                omega
              tally_mono := by
                have := hT.tally_mono
                simp only at this ⊢
                omega }

/-- C32: for every table with 1 <= k <= 32, every canonical-key function, every
start k-mer over A, C, G, T, every threshold, every initial count and every
initial seen set, `calc_connected_graph_size` returns when the recursion may
nest deeper than the number of canonical keys of k-mers with a non-zero count
that are absent from the initial seen set (at most `4 ^ k`). On return the seen
set holds every key it held, count has grown by exactly the number of keys
inserted, each inserted key is one of the keys with a non-zero count that were
absent from the seen set (their number falls by the increase of count), and
the number of calls that recursed, which the tally of
`calc_connected_graph_size_tally` counts, is at most the increase of count and
so at most the number of keys with a non-zero count absent from the initial
seen set. -/
theorem calc_connected_graph_size_terminates (uniqify_rc : Nat → Nat → Nat) (ht : Hashtable)
    (threshold : Nat) (start : List Char) (count : Nat) (keeper : List Nat) (depth : Nat)
    (hk1 : 1 ≤ ht.ksize) (hk : ht.ksize ≤ 32)
    (hlen : start.length = ht.ksize) (hs : is_acgt start)
    (hdepth : ht.unseen_present uniqify_rc keeper < depth) :
    ht.unseen_present uniqify_rc keeper ≤ 4 ^ ht.ksize
    ∧ ∃ count' keeper' calls,
      ht.calc_connected_graph_size uniqify_rc threshold depth (kmer_pair start).1
          (kmer_pair start).2 (count, keeper) = some (count', keeper')
      ∧ ht.calc_connected_graph_size_tally uniqify_rc threshold depth (kmer_pair start).1
          (kmer_pair start).2 ((count, keeper), 0) = some ((count', keeper'), calls)
      ∧ (∀ key ∈ keeper, key ∈ keeper')
      ∧ count' = count + (keeper'.length - keeper.length)
      ∧ keeper.length ≤ keeper'.length
      ∧ ht.unseen_present uniqify_rc keeper'
          = ht.unseen_present uniqify_rc keeper - (count' - count)
      ∧ count' - count ≤ ht.unseen_present uniqify_rc keeper
      ∧ calls ≤ count' - count
      ∧ calls ≤ ht.unseen_present uniqify_rc keeper := by
  refine ⟨unseen_present_le _ _ _, ?_⟩
  obtain ⟨⟨⟨count', keeper'⟩, calls⟩, hrun, hT⟩ :=
    calc_tallied uniqify_rc ht threshold hk1 hk depth start ((count, keeper), 0) hlen hs hdepth
  have herase := calc_connected_graph_size_tally_erase uniqify_rc ht threshold depth
    (kmer_pair start).1 (kmer_pair start).2 (count, keeper) 0
  rw [hrun] at herase
  have h1 := hT.count_le
  have h2 := hT.count_eq
  have h3 := hT.unseen_eq
  have h4 := hT.tally_le
  simp only at h1 h2 h3 h4
  refine ⟨count', keeper', calls, herase.symm, hrun, hT.mono, ?_, ?_, ?_, ?_, ?_, ?_⟩ <;> omega

theorem calc_connected_graph_size_terminates_witness :
    1 ≤ (walk_table uniqify_rc_min).ksize ∧ (walk_table uniqify_rc_min).ksize ≤ 32
      ∧ ['A', 'A'].length = (walk_table uniqify_rc_min).ksize ∧ is_acgt ['A', 'A']
      ∧ (walk_table uniqify_rc_min).unseen_present uniqify_rc_min [] < 17
      ∧ (walk_table uniqify_rc_min).unseen_present uniqify_rc_min []
          ≤ 4 ^ (walk_table uniqify_rc_min).ksize
      ∧ ∃ count' keeper' calls,
        (walk_table uniqify_rc_min).calc_connected_graph_size uniqify_rc_min 0 17
            (kmer_pair ['A', 'A']).1 (kmer_pair ['A', 'A']).2 (0, []) = some (count', keeper')
        ∧ (walk_table uniqify_rc_min).calc_connected_graph_size_tally uniqify_rc_min 0 17
            (kmer_pair ['A', 'A']).1 (kmer_pair ['A', 'A']).2 ((0, []), 0)
            = some ((count', keeper'), calls)
        ∧ (∀ key ∈ ([] : List Nat), key ∈ keeper')
        ∧ count' = 0 + (keeper'.length - ([] : List Nat).length)
        ∧ ([] : List Nat).length ≤ keeper'.length
        ∧ (walk_table uniqify_rc_min).unseen_present uniqify_rc_min keeper'
            = (walk_table uniqify_rc_min).unseen_present uniqify_rc_min [] - (count' - 0)
        ∧ count' - 0 ≤ (walk_table uniqify_rc_min).unseen_present uniqify_rc_min []
        ∧ calls ≤ count' - 0
        ∧ calls ≤ (walk_table uniqify_rc_min).unseen_present uniqify_rc_min [] :=
  ⟨by decide, by decide, by decide, by decide,
    lt_of_le_of_lt (unseen_present_le _ _ _) (by decide),
    calc_connected_graph_size_terminates uniqify_rc_min (walk_table uniqify_rc_min) 0 ['A', 'A']
      0 [] 17 (by decide) (by decide) (by decide) (by decide)
      (lt_of_le_of_lt (unseen_present_le _ _ _) (by decide))⟩

/-! ## get_min_count and get_max_count on a string shorter than k -/

/-- The call of `_hash` fails on a string shorter than `k`: the character at
the position of its length is the terminator. -/
theorem hash_init_checked_short (u : Nat → Nat → Nat) (s : List Char) (k : Nat)
    (h : s.length < k) : hash_init_checked u s k = none := by
  unfold hash_init_checked
  have hbad : ((List.range k).all (fun i => is_valid_dna (c_str s i))) = false := by
    rw [List.all_eq_false]
    refine ⟨s.length, List.mem_range.mpr h, ?_⟩
    have : c_str s s.length = Char.ofNat 0 := by
      unfold c_str
      rw [List.getD_eq_default _ _ (le_refl _)]
    rw [this]
    decide
  rw [hbad]
  rfl

/-- The call of `_hash` returns on a string of `k` or more bases, with the
value of `hash_init`. -/
theorem hash_init_checked_valid (u : Nat → Nat → Nat) (s : List Char) (k : Nat)
    (hlen : k ≤ s.length) (hs : is_acgt s) :
    hash_init_checked u s k = some (hash_init u s k) := by
  unfold hash_init_checked
  have hok : ((List.range k).all (fun i => is_valid_dna (c_str s i))) = true := by
    rw [List.all_eq_true]
    intro i hi
    have hi' : i < s.length := lt_of_lt_of_le (List.mem_range.mp hi) hlen
    have : c_str s i = s.get ⟨i, hi'⟩ := by
      unfold c_str
      rw [List.getD_eq_getElem _ _ hi']
      rfl
    rw [this]
    exact (is_valid_dna_iff _).mpr (hs _ (List.get_mem _ _ _))
  rw [hok]
  rfl

/-- On a string of `k` or more bases the functions with the failure of `_hash`
return what `get_min_count` and `get_max_count` return. -/
theorem get_min_max_count_checked_valid (u : Nat → Nat → Nat) (ht : Hashtable) (s : List Char)
    (lo hi : Nat) (hlen : ht.ksize ≤ s.length) (hs : is_acgt s) :
    ht.get_min_count_checked u s lo hi = some (ht.get_min_count u s lo hi).1
      ∧ ht.get_max_count_checked u s lo hi = some (ht.get_max_count u s lo hi).1 := by
  unfold Hashtable.get_min_count_checked Hashtable.get_max_count_checked
  rw [hash_init_checked_valid u s ht.ksize hlen hs]
  exact ⟨rfl, rfl⟩

/-- C9, as stated, fails: with k = 2, the string "A" is shorter than k, and
neither `get_min_count` nor `get_max_count` returns a value for it, in the
empty table of five bins or in any other: the second of the two characters that
`_hash` reads is the terminator of the string, and `_hash` fails on it. Under
both canonical keys. -/
theorem get_min_max_count_short_counterexample :
    ['A'].length < (empty_table 2 5).ksize
      ∧ c_str ['A'] 1 = Char.ofNat 0 ∧ is_valid_dna (c_str ['A'] 1) = false
      ∧ (empty_table 2 5).get_min_count_checked uniqify_rc_xor ['A'] 0 0 = none
      ∧ (empty_table 2 5).get_max_count_checked uniqify_rc_xor ['A'] 0 0 = none
      ∧ (empty_table 2 5).get_min_count_checked uniqify_rc_min ['A'] 0 0 = none
      ∧ (empty_table 2 5).get_max_count_checked uniqify_rc_min ['A'] 0 0 = none := by
  decide

/-- C9, amended: for every table, every canonical key, all bounds and every
string that is empty or shorter than k, neither `get_min_count` nor
`get_max_count` returns a value, so neither `MAX_COUNT` nor 0: both call
`_hash` on the first k characters of the buffer before any test of the length;
one of these characters is the terminator of the string, on which `_hash`
fails. `check_read` is false for such a string. -/
theorem get_min_max_count_short_fails (uniqify_rc : Nat → Nat → Nat) (ht : Hashtable)
    (s : List Char) (lower_bound upper_bound : Nat) (hlen : s.length < ht.ksize) :
    ht.check_read s = false
      ∧ ht.get_min_count_checked uniqify_rc s lower_bound upper_bound = none
      ∧ ht.get_max_count_checked uniqify_rc s lower_bound upper_bound = none
      ∧ ht.get_min_count_checked uniqify_rc s lower_bound upper_bound ≠ some MAX_COUNT
      ∧ ht.get_max_count_checked uniqify_rc s lower_bound upper_bound ≠ some 0 := by
  have h0 : ht.check_read s = false := by
    cases hc : ht.check_read s with
    | false => rfl
    | true =>
      have := ((check_read_true_iff ht s).mp hc).1
      omega
  have h1 : ht.get_min_count_checked uniqify_rc s lower_bound upper_bound = none := by
    unfold Hashtable.get_min_count_checked
    rw [hash_init_checked_short uniqify_rc s ht.ksize hlen]
  have h2 : ht.get_max_count_checked uniqify_rc s lower_bound upper_bound = none := by
    unfold Hashtable.get_max_count_checked
    rw [hash_init_checked_short uniqify_rc s ht.ksize hlen]
  refine ⟨h0, h1, h2, ?_, ?_⟩
  · rw [h1]; exact fun h => by cases h
  · rw [h2]; exact fun h => by cases h

/-- The empty string with k = 3, in the empty table of five bins and with
active bounds. -/
theorem get_min_max_count_short_fails_witness :
    ([] : List Char).length < (empty_table 3 5).ksize
      ∧ (empty_table 3 5).check_read [] = false
      ∧ (empty_table 3 5).get_min_count_checked uniqify_rc_min [] 1000 2000 = none
      ∧ (empty_table 3 5).get_max_count_checked uniqify_rc_min [] 1000 2000 = none
      ∧ (empty_table 3 5).get_min_count_checked uniqify_rc_min [] 1000 2000 ≠ some MAX_COUNT
      ∧ (empty_table 3 5).get_max_count_checked uniqify_rc_min [] 1000 2000 ≠ some 0 :=
  ⟨by decide,
    get_min_max_count_short_fails uniqify_rc_min (empty_table 3 5) [] 1000 2000 (by decide)⟩

/-! ## The walk under an arbitrary canonical key -/

/-- What a call of `calc_connected_graph_size` at the pair of a k-mer does to
the seen set when it returns, whatever the canonical key: the seen set keeps
its members and stays without repetition, every new member is the key of a
k-mer connected to `start`, and the key of the k-mer of the call is a member
when the k-mer has a non-zero count. -/
theorem calc_visited (u : Nat → Nat → Nat) (ht : Hashtable) (threshold : Nat)
    (start : List Char) (hk1 : 1 ≤ ht.ksize) (hk : ht.ksize ≤ 32) :
    ∀ (depth : Nat) (w : List Char) (s s' : Nat × List Nat),
      w.length = ht.ksize → is_acgt w → (ht.present u w → ht.connected u start w) →
      ht.calc_connected_graph_size u threshold depth (kmer_pair w).1 (kmer_pair w).2 s = some s' →
      ((∀ x ∈ s.2, x ∈ s'.2) ∧ (s.2.Nodup → s'.2.Nodup)
        ∧ (∀ x ∈ s'.2, x ∈ s.2 ∨ ∃ v, ht.connected u start v ∧ kmer_key u v = x))
      ∧ (ht.present u w → kmer_key u w ∈ s'.2) := by
  intro depth
  induction depth with
  | zero =>
    intro w s s' _ _ _ h
    cases h
  | succ depth ih =>
    intro w s s' hwl hws hwc h
    obtain ⟨count, keeper⟩ := s
    rw [calc_connected_graph_size_succ] at h
    have hkey : u (kmer_pair w).1 (kmer_pair w).2 = kmer_key u w := rfl
    rw [hkey] at h
    by_cases hval : ht.counts (kmer_key u w % ht.tablesize) = 0
    · rw [if_pos hval] at h
      cases h
      exact ⟨⟨fun _ hx => hx, fun hn => hn, fun _ hx => Or.inl hx⟩, fun hp => absurd hval hp⟩
    · rw [if_neg hval] at h
      have hconn := hwc hval
      by_cases hseen : kmer_key u w ∈ keeper
      · rw [if_pos hseen] at h
        cases h
        exact ⟨⟨fun _ hx => hx, fun hn => hn, fun _ hx => Or.inl hx⟩, fun _ => hseen⟩
      · rw [if_neg hseen] at h
        have hins : ∀ x, x ∈ set_insert (kmer_key u w) keeper ↔ x = kmer_key u w ∨ x ∈ keeper :=
          fun x => mem_set_insert _ _ _
        have hnew : ∀ x ∈ set_insert (kmer_key u w) keeper,
            x ∈ keeper ∨ ∃ v, ht.connected u start v ∧ kmer_key u v = x := by
          intro x hx
          rcases (hins x).mp hx with e | hx
          · exact Or.inr ⟨w, hconn, e.symm⟩
          · exact Or.inl hx
        by_cases hthr : threshold ≠ 0 ∧ count + 1 ≥ threshold
        · rw [if_pos hthr] at h
          cases h
          exact ⟨⟨fun x hx => (hins x).mpr (Or.inr hx),
            fun hn => nodup_set_insert _ _ hseen hn, hnew⟩,
            fun _ => (hins _).mpr (Or.inl rfl)⟩
        · rw [if_neg hthr, neighbour_pairs_kmer ht w hwl hk1 hk, List.foldlM_map] at h
          have hfold := foldlM_walk
            (fun ck y => ht.calc_connected_graph_size u threshold depth
              (kmer_pair y).1 (kmer_pair y).2 ck)
            (fun (a b : Nat × List Nat) => (∀ x ∈ a.2, x ∈ b.2) ∧ (a.2.Nodup → b.2.Nodup)
              ∧ (∀ x ∈ b.2, x ∈ a.2 ∨ ∃ v, ht.connected u start v ∧ kmer_key u v = x))
            (fun _ _ => True)
            (fun _ => ⟨fun _ hx => hx, fun hn => hn, fun _ hx => Or.inl hx⟩)
            (fun a b c hab hbc => ⟨fun x hx => hbc.1 x (hab.1 x hx),
              fun hn => hbc.2.1 (hab.2.1 hn),
              fun x hx => by
                rcases hbc.2.2 x hx with hx | hx
                · exact hab.2.2 x hx
                · exact Or.inr hx⟩)
            (fun _ _ _ _ _ => trivial)
            (kmer_neighbours w)
            (fun y hy s1 s2 hrun => by
              obtain ⟨hyl, hys⟩ := kmer_neighbours_kmer w y ht.ksize hk1 hwl hws hy
              exact ⟨(ih y s1 s2 hyl hys
                (fun hp => Hashtable.connected.step w y hconn hy hp) hrun).1, trivial⟩)
            _ s' h
          obtain ⟨⟨hmono, hnd, hsound⟩, -⟩ := hfold
          refine ⟨⟨fun x hx => hmono x ((hins x).mpr (Or.inr hx)),
            fun hn => hnd (nodup_set_insert _ _ hseen hn), ?_⟩,
            fun _ => hmono _ ((hins _).mpr (Or.inl rfl))⟩
          intro x hx
          rcases hsound x hx with hx | hx
          · exact hnew x hx
          · exact Or.inr hx

/-- The walk from a start k-mer with count 0 and an empty seen set, whatever the
canonical key: it returns when the recursion may nest deeper than `4 ^ k`, the
keys seen are keys of k-mers of the component of the start, without
repetition and as many as `count` says, the key of a start with a non-zero
count is seen, and a start with count 0 leaves count 0 and the seen set
empty. -/
theorem calc_from_start_any (u : Nat → Nat → Nat) (ht : Hashtable) (threshold : Nat)
    (start : List Char) (depth : Nat) (hk1 : 1 ≤ ht.ksize) (hk : ht.ksize ≤ 32)
    (hlen : start.length = ht.ksize) (hs : is_acgt start) (hdepth : 4 ^ ht.ksize < depth) :
    ∃ count seen,
      ht.calc_connected_graph_size u threshold depth (kmer_pair start).1 (kmer_pair start).2
          (0, []) = some (count, seen)
      ∧ (∀ key ∈ seen, ∃ w, ht.connected u start w ∧ kmer_key u w = key)
      ∧ count = seen.length ∧ seen.Nodup
      ∧ (ht.present u start → kmer_key u start ∈ seen)
      ∧ (¬ ht.present u start → count = 0 ∧ seen = []) := by
  have hc0 : ht.present u start → ht.connected u start start := Hashtable.connected.start
  obtain ⟨⟨⟨count, seen⟩, calls⟩, hrunT, hT⟩ := calc_tallied u ht threshold hk1 hk depth start
    ((0, []), 0) hlen hs (lt_of_le_of_lt (unseen_present_le u ht []) hdepth)
  have hrun := calc_connected_graph_size_tally_erase u ht threshold depth
    (kmer_pair start).1 (kmer_pair start).2 (0, []) 0
  rw [hrunT] at hrun
  have hrun' : ht.calc_connected_graph_size u threshold depth (kmer_pair start).1
      (kmer_pair start).2 (0, []) = some (count, seen) := hrun.symm
  obtain ⟨⟨-, hnd, hsound⟩, hstart⟩ := calc_visited u ht threshold start hk1 hk depth start
    (0, []) (count, seen) hlen hs hc0 hrun'
  refine ⟨count, seen, hrun', ?_, ?_, hnd List.nodup_nil, hstart, ?_⟩
  · intro key hkey
    rcases hsound key hkey with h | h
    · cases h
    · exact h
  · have := hT.count_eq
    simpa using this
  · intro hp
    have hpos : 0 < depth := lt_of_le_of_lt (Nat.zero_le _) hdepth
    obtain ⟨depth', rfl⟩ : ∃ d, depth = d + 1 := ⟨depth - 1, by omega⟩
    rw [calc_connected_graph_size_succ] at hrun'
    have hval : ht.counts (u (kmer_pair start).1 (kmer_pair start).2 % ht.tablesize) = 0 := by
      by_contra hne
      exact hp hne
    rw [if_pos hval] at hrun'
    cases hrun'
    exact ⟨rfl, rfl⟩

/-- C12, amended: for every table with 1 <= k <= 32, every canonical key and
every start k-mer over A, C, G, T, `calc_connected_graph_size` called with
threshold 0, count 0 and an empty seen set returns, when the recursion may nest
deeper than `4 ^ k`; the seen set then holds, without repetition, canonical
keys of k-mers reachable from the start through k-mers with a non-zero count
under the 8-neighbour relation, count is the number of keys seen, the key of a
start with a non-zero count is seen, and a start with count 0 leaves count 0
and the seen set empty. When the canonical key is symmetric and separates
k-mers (two k-mers with one key are equal or reverse complements, as with
`min(f, r)`), the seen set is exactly the set of the keys of the reachable
k-mers. -/
theorem calc_connected_graph_size_component (uniqify_rc : Nat → Nat → Nat) (ht : Hashtable)
    (start : List Char) (depth : Nat) (hk1 : 1 ≤ ht.ksize) (hk : ht.ksize ≤ 32)
    (hlen : start.length = ht.ksize) (hs : is_acgt start) (hdepth : 4 ^ ht.ksize < depth) :
    ∃ count seen,
      ht.calc_connected_graph_size uniqify_rc 0 depth (kmer_pair start).1 (kmer_pair start).2
          (0, []) = some (count, seen)
      ∧ (∀ key ∈ seen, ∃ w, ht.connected uniqify_rc start w ∧ kmer_key uniqify_rc w = key)
      ∧ count = seen.length ∧ seen.Nodup
      ∧ (ht.present uniqify_rc start → kmer_key uniqify_rc start ∈ seen)
      ∧ (¬ ht.present uniqify_rc start → count = 0 ∧ seen = [])
      ∧ (key_symmetric uniqify_rc → key_separates uniqify_rc ht.ksize →
          ∀ key, key ∈ seen ↔
            ∃ w, ht.connected uniqify_rc start w ∧ kmer_key uniqify_rc w = key) := by
  obtain ⟨count, seen, hrun, hsound, hcount, hnodup, hstart, hzero⟩ :=
    calc_from_start_any uniqify_rc ht 0 start depth hk1 hk hlen hs hdepth
  refine ⟨count, seen, hrun, hsound, hcount, hnodup, hstart, hzero, ?_⟩
  intro hsym hsep key
  obtain ⟨count2, seen2, hrun2, -, -, -, hclosed, -⟩ :=
    calc_from_start uniqify_rc ht 0 start depth hsym hsep hk1 hk hlen hs hdepth
  have e := hrun.symm.trans hrun2
  injection e with e
  injection e with e1 e2
  subst e2
  refine ⟨hsound key, ?_⟩
  rintro ⟨w, hw, rfl⟩
  exact hclosed (Or.inl rfl) w hw

/-- The walk from AA in the table after the read "CAAG", under the key
`min(f, r)`, which is symmetric and separates k-mers. -/
theorem calc_connected_graph_size_component_witness :
    1 ≤ (walk_table uniqify_rc_min).ksize ∧ (walk_table uniqify_rc_min).ksize ≤ 32
      ∧ ['A', 'A'].length = (walk_table uniqify_rc_min).ksize ∧ is_acgt ['A', 'A']
      ∧ 4 ^ (walk_table uniqify_rc_min).ksize < 17
      ∧ key_symmetric uniqify_rc_min
      ∧ key_separates uniqify_rc_min (walk_table uniqify_rc_min).ksize
      ∧ ∃ count seen,
        (walk_table uniqify_rc_min).calc_connected_graph_size uniqify_rc_min 0 17
            (kmer_pair ['A', 'A']).1 (kmer_pair ['A', 'A']).2 (0, []) = some (count, seen)
        ∧ (∀ key ∈ seen, ∃ w, (walk_table uniqify_rc_min).connected uniqify_rc_min
            ['A', 'A'] w ∧ kmer_key uniqify_rc_min w = key)
        ∧ count = seen.length ∧ seen.Nodup
        ∧ (∀ key, key ∈ seen ↔ ∃ w, (walk_table uniqify_rc_min).connected uniqify_rc_min
            ['A', 'A'] w ∧ kmer_key uniqify_rc_min w = key) :=
  ⟨by decide, by decide, by decide, by decide, by decide, uniqify_rc_min_comm,
    uniqify_rc_min_separates _,
    (calc_connected_graph_size_component uniqify_rc_min (walk_table uniqify_rc_min) ['A', 'A'] 17
      (by decide) (by decide) (by decide) (by decide) (by decide)).imp
      (fun _ h => h.imp (fun _ h' => ⟨h'.1, h'.2.1, h'.2.2.1, h'.2.2.2.1,
        h'.2.2.2.2.2.2 uniqify_rc_min_comm (uniqify_rc_min_separates _)⟩))⟩

/-- C13, amended: for every table with 1 <= k <= 32, every canonical key, every
start k-mer and every threshold N > 0, `calc_connected_graph_size` started with
count 0 and an empty seen set returns, when the recursion may nest deeper than
`4 ^ k`; the call that brings count to N visits no neighbour, but the calls
that are open go on with their remaining neighbours, so count may pass N. On
return count is the number of keys seen, every key seen is the key of a k-mer
of the start's component, and a count of N or more shows that the component
has at least N vertices. When the canonical key is symmetric and separates
k-mers (as `min(f, r)` does), count is at least N whenever the component has
at least N vertices, and a count below N is the number of keys of the whole
component. -/
theorem calc_connected_graph_size_threshold (uniqify_rc : Nat → Nat → Nat) (ht : Hashtable)
    (start : List Char) (depth N : Nat) (hk1 : 1 ≤ ht.ksize) (hk : ht.ksize ≤ 32)
    (hlen : start.length = ht.ksize) (hs : is_acgt start) (hdepth : 4 ^ ht.ksize < depth)
    (hN : 0 < N) :
    (∀ (d f r count : Nat) (seen : List Nat),
        ht.counts (uniqify_rc f r % ht.tablesize) ≠ 0 → uniqify_rc f r ∉ seen → N ≤ count + 1 →
        ht.calc_connected_graph_size uniqify_rc N (d + 1) f r (count, seen)
          = some (count + 1, set_insert (uniqify_rc f r) seen))
      ∧ ∃ count seen,
        ht.calc_connected_graph_size uniqify_rc N depth (kmer_pair start).1 (kmer_pair start).2
            (0, []) = some (count, seen)
        ∧ count = seen.length ∧ seen.Nodup
        ∧ (∀ key ∈ seen, ∃ w, ht.connected uniqify_rc start w ∧ kmer_key uniqify_rc w = key)
        ∧ (N ≤ count → ht.component_at_least uniqify_rc start N)
        ∧ (key_symmetric uniqify_rc → key_separates uniqify_rc ht.ksize →
            (ht.component_at_least uniqify_rc start N → N ≤ count)
            ∧ (count < N →
                ∀ w, ht.connected uniqify_rc start w → kmer_key uniqify_rc w ∈ seen)) := by
  constructor
  · intro d f r count seen hval hseen hcount
    rw [calc_connected_graph_size_succ, if_neg hval, if_neg hseen,
      if_pos ⟨Nat.pos_iff_ne_zero.mp hN, hcount⟩]
  · obtain ⟨count, seen, hrun, hsound, hcount, hnodup, -, -⟩ :=
      calc_from_start_any uniqify_rc ht N start depth hk1 hk hlen hs hdepth
    refine ⟨count, seen, hrun, hcount, hnodup, hsound, ?_, ?_⟩
    · intro hn
      obtain ⟨ws, hws, hP⟩ := exists_kmers_of_keys uniqify_rc (ht.connected uniqify_rc start)
        seen hsound
      refine ⟨ws.take N, ?_, fun w hw => hP w (List.mem_of_mem_take hw), ?_⟩
      · rw [List.length_take]
        have : ws.length = seen.length := by rw [← hws, List.length_map]
        omega
      · rw [List.map_take, hws]
        exact hnodup.sublist (List.take_sublist _ _)
    · intro hsym hsep
      obtain ⟨count2, seen2, hrun2, -, -, -, hiff, hbelow⟩ :=
        calc_decision uniqify_rc ht N N start depth hsym hsep hk1 hk hlen hs hdepth (Or.inr rfl)
      have e := hrun.symm.trans hrun2
      injection e with e
      injection e with e1 e2
      subst e1
      subst e2
      exact ⟨hiff.mpr, hbelow⟩

/-- The walk from AA with threshold 2 in the table after the read "CAAG", under
the key `min(f, r)`. -/
theorem calc_connected_graph_size_threshold_witness :
    1 ≤ (walk_table uniqify_rc_min).ksize ∧ (walk_table uniqify_rc_min).ksize ≤ 32
      ∧ ['A', 'A'].length = (walk_table uniqify_rc_min).ksize ∧ is_acgt ['A', 'A']
      ∧ 4 ^ (walk_table uniqify_rc_min).ksize < 17 ∧ 0 < 2
      ∧ key_symmetric uniqify_rc_min
      ∧ key_separates uniqify_rc_min (walk_table uniqify_rc_min).ksize
      ∧ ∃ count seen,
        (walk_table uniqify_rc_min).calc_connected_graph_size uniqify_rc_min 2 17
            (kmer_pair ['A', 'A']).1 (kmer_pair ['A', 'A']).2 (0, []) = some (count, seen)
        ∧ count = seen.length ∧ seen.Nodup
        ∧ (∀ key ∈ seen, ∃ w, (walk_table uniqify_rc_min).connected uniqify_rc_min
            ['A', 'A'] w ∧ kmer_key uniqify_rc_min w = key)
        ∧ (2 ≤ count → (walk_table uniqify_rc_min).component_at_least uniqify_rc_min
            ['A', 'A'] 2)
        ∧ ((walk_table uniqify_rc_min).component_at_least uniqify_rc_min ['A', 'A'] 2 →
            2 ≤ count) :=
  ⟨by decide, by decide, by decide, by decide, by decide, by decide, uniqify_rc_min_comm,
    uniqify_rc_min_separates _,
    (calc_connected_graph_size_threshold uniqify_rc_min (walk_table uniqify_rc_min) ['A', 'A']
      17 2 (by decide) (by decide) (by decide) (by decide) (by decide) (by decide)).2.imp
      (fun _ h => h.imp (fun _ h' => ⟨h'.1, h'.2.1, h'.2.2.1, h'.2.2.2.1, h'.2.2.2.2.1,
        (h'.2.2.2.2.2 uniqify_rc_min_comm (uniqify_rc_min_separates _)).1⟩))⟩

/-- One turn of the loop of `trim_graphs`, whatever the canonical key: a read
is written only if it is valid and the component of its first k-mer has
`min_size` vertices. -/
theorem trim_graphs_read_any (u : Nat → Nat → Nat) (ht : Hashtable) (depth min_size : Nat)
    (read : String × List Char)
    (hk1 : 1 ≤ ht.ksize) (hk : ht.ksize ≤ 32) (hdepth : 4 ^ ht.ksize < depth) :
    ∃ b : Bool, ht.trim_graphs_read u depth min_size read = some (if b = true then [read] else [])
      ∧ (b = true → (ht.check_read read.2 = true
          ∧ ht.component_at_least u (read.2.take ht.ksize) min_size)) := by
  by_cases hv : ht.check_read read.2 = true
  · obtain ⟨hlen, hs⟩ := (check_read_true_iff ht read.2).mp hv
    have hl : (read.2.take ht.ksize).length = ht.ksize := by
      rw [List.length_take]; omega
    have hst : is_acgt (read.2.take ht.ksize) := fun c hc => hs c (List.mem_of_mem_take hc)
    obtain ⟨count, seen, hrun, hsound, hcount, hnodup, -, -⟩ :=
      calc_from_start_any u ht min_size (read.2.take ht.ksize) depth hk1 hk hl hst hdepth
    rw [← calc_connected_graph_size_kmer_eq u ht _ depth _ _ hk hl] at hrun
    refine ⟨decide (min_size ≤ count), ?_, ?_⟩
    · unfold Hashtable.trim_graphs_read
      simp only [hv, if_true, hrun, ge_iff_le, decide_eq_true_eq]
      by_cases hc : min_size ≤ count
      · rw [if_pos hc, if_pos hc]
      · rw [if_neg hc, if_neg hc]
    · intro hb
      rw [decide_eq_true_eq] at hb
      refine ⟨hv, ?_⟩
      obtain ⟨ws, hws, hP⟩ := exists_kmers_of_keys u (ht.connected u (read.2.take ht.ksize))
        seen hsound
      refine ⟨ws.take min_size, ?_, fun w hw => hP w (List.mem_of_mem_take hw), ?_⟩
      · rw [List.length_take]
        have : ws.length = seen.length := by rw [← hws, List.length_map]
        omega
      · rw [List.map_take, hws]
        exact hnodup.sublist (List.take_sublist _ _)
  · refine ⟨false, ?_, ?_⟩
    · unfold Hashtable.trim_graphs_read
      simp [hv]
    · intro h
      cases h

/-- C14, amended: for every table with 1 <= k <= 32, every canonical key, every
`min_size` and every list of input reads, `trim_graphs` returns, when the
recursion of the walk may nest deeper than `4 ^ k`, and writes to the output a
selection of the reads, in their order; every read written is valid
(`check_read`) and its first k-mer has a connected component of at least
`min_size` vertices. When the canonical key is symmetric and separates k-mers
(as `min(f, r)` does), the reads written are exactly the valid reads whose
first k-mer has a component of at least `min_size` vertices, and for every
valid read the walk without threshold returns a count that is at least
`min_size` just when the read is written, so cutting the walk at `min_size`
does not change the decision. -/
theorem trim_graphs_keeps (uniqify_rc : Nat → Nat → Nat) (ht : Hashtable)
    (reads : List (String × List Char)) (min_size depth : Nat)
    (hk1 : 1 ≤ ht.ksize) (hk : ht.ksize ≤ 32) (hdepth : 4 ^ ht.ksize < depth) :
    ∃ keep : String × List Char → Bool,
      ht.trim_graphs uniqify_rc depth reads min_size = some (reads.filter keep)
      ∧ (∀ read, keep read = true → (ht.check_read read.2 = true
          ∧ ht.component_at_least uniqify_rc (read.2.take ht.ksize) min_size))
      ∧ (key_symmetric uniqify_rc → key_separates uniqify_rc ht.ksize →
          (∀ read, keep read = true ↔ (ht.check_read read.2 = true
            ∧ ht.component_at_least uniqify_rc (read.2.take ht.ksize) min_size))
          ∧ (∀ read, ht.check_read read.2 = true → ∃ count seen,
              ht.calc_connected_graph_size_kmer uniqify_rc 0 depth (read.2.take ht.ksize)
                (0, []) = some (count, seen) ∧ (keep read = true ↔ min_size ≤ count))) := by
  have hread := fun read =>
    trim_graphs_read_any uniqify_rc ht depth min_size read hk1 hk hdepth
  refine ⟨fun read => (hread read).choose, ?_, ?_, ?_⟩
  · unfold Hashtable.trim_graphs
    have := trim_graphs_fold uniqify_rc ht depth min_size (fun read => (hread read).choose) reads
      (fun read _ => (hread read).choose_spec.1) []
    rw [this, List.nil_append]
  · intro read
    exact (hread read).choose_spec.2
  · intro hsym hsep
    have hsame : ∀ read, ∃ b : Bool, (hread read).choose = b
        ∧ (b = true ↔ (ht.check_read read.2 = true
          ∧ ht.component_at_least uniqify_rc (read.2.take ht.ksize) min_size))
        ∧ (ht.check_read read.2 = true → ∃ count seen,
          ht.calc_connected_graph_size_kmer uniqify_rc 0 depth (read.2.take ht.ksize) (0, [])
            = some (count, seen) ∧ (b = true ↔ min_size ≤ count)) := by
      intro read
      obtain ⟨b, hb, h1, h2⟩ :=
        trim_graphs_read_spec uniqify_rc ht depth min_size read hsym hsep hk1 hk hdepth
      refine ⟨b, ?_, h1, h2⟩
      have e := (hread read).choose_spec.1.symm.trans hb
      injection e with e
      cases hc : (hread read).choose <;> cases b <;> simp_all
    constructor
    · intro read
      obtain ⟨b, e, h1, -⟩ := hsame read
      show (hread read).choose = true ↔ _
      rw [e]
      exact h1
    · intro read hv
      obtain ⟨b, e, -, h2⟩ := hsame read
      obtain ⟨count, seen, hrun, hiff⟩ := h2 hv
      refine ⟨count, seen, hrun, ?_⟩
      show (hread read).choose = true ↔ _
      rw [e]
      exact hiff

/-- The reads "AAG", "ANG" and "CCC" with `min_size` 2 in the table after the
read "CAAG", under the key `min(f, r)`. -/
theorem trim_graphs_keeps_witness :
    1 ≤ (walk_table uniqify_rc_min).ksize ∧ (walk_table uniqify_rc_min).ksize ≤ 32
      ∧ 4 ^ (walk_table uniqify_rc_min).ksize < 17
      ∧ key_symmetric uniqify_rc_min
      ∧ key_separates uniqify_rc_min (walk_table uniqify_rc_min).ksize
      ∧ ∃ keep : String × List Char → Bool,
        (walk_table uniqify_rc_min).trim_graphs uniqify_rc_min 17
            [("read1", ['A', 'A', 'G']), ("read2", ['A', 'N', 'G']), ("read3", ['C', 'C', 'C'])] 2
          = some ([("read1", ['A', 'A', 'G']), ("read2", ['A', 'N', 'G']),
              ("read3", ['C', 'C', 'C'])].filter keep)
        ∧ (∀ read, keep read = true ↔ ((walk_table uniqify_rc_min).check_read read.2 = true
            ∧ (walk_table uniqify_rc_min).component_at_least uniqify_rc_min
                (read.2.take (walk_table uniqify_rc_min).ksize) 2)) :=
  ⟨by decide, by decide, by decide, uniqify_rc_min_comm, uniqify_rc_min_separates _,
    (trim_graphs_keeps uniqify_rc_min (walk_table uniqify_rc_min)
      [("read1", ['A', 'A', 'G']), ("read2", ['A', 'N', 'G']), ("read3", ['C', 'C', 'C'])] 2 17
      (by decide) (by decide) (by decide)).imp
      (fun _ h => ⟨h.1, (h.2.2 uniqify_rc_min_comm (uniqify_rc_min_separates _)).1⟩)⟩

/-! ## The load of a partition file of a million bytes or more -/

theorem one_partition_state_cells (n : Nat) :
    ∀ e ∈ (one_partition_state n).partition_map,
      ∃ p, map_find e.2 (one_partition_state n).cells = some p := by
  intro e he
  unfold one_partition_state at he
  obtain ⟨x, -, rfl⟩ := List.mem_map.mp he
  exact ⟨1, rfl⟩

theorem one_partition_state_length (n : Nat) :
    (one_partition_state n).partition_map.length = n := by
  unfold one_partition_state
  simp only [List.length_map, List.length_range]

/-- C21: for every partition state whose partition map has 83334 entries or
more, all cells non-null, `_checkpoint_partitionmap` writes a partition file of
12 bytes for each entry, and `_load_partitionmap` does not load it: the first
`read` delivers 1000000 bytes, which is 4 bytes more than 83333 records, and
the loop over the records runs past the bytes delivered. No partition map is
handed back, so neither the keys nor their `PartitionID`s are those before the
save. -/
theorem checkpoint_load_long_map (st : PartitionState)
    (hcell : ∀ e ∈ st.partition_map, ∃ p, map_find e.2 st.cells = some p)
    (hlen : 83334 ≤ st.partition_map.length) :
    ∃ infile surrenderfile, checkpoint_partitionmap st = some (infile, surrenderfile)
      ∧ infile.length = 12 * st.partition_map.length
      ∧ load_partitionmap empty_partition_state infile surrenderfile = none := by
  have hl : (encode_records (partition_records st)).length = 12 * st.partition_map.length := by
    rw [length_encode_records]
    unfold partition_records
    rw [List.length_map]
  refine ⟨_, _, checkpoint_partitionmap_eq st hcell, hl, ?_⟩
  exact load_partitionmap_long _ _ _ (by rw [hl]; omega)

/-- The state with the 83334 keys 0 .. 83333 in one partition. -/
theorem checkpoint_load_long_map_witness :
    (∀ e ∈ (one_partition_state 83334).partition_map,
        ∃ p, map_find e.2 (one_partition_state 83334).cells = some p)
      ∧ 83334 ≤ (one_partition_state 83334).partition_map.length
      ∧ ∃ infile surrenderfile,
        checkpoint_partitionmap (one_partition_state 83334) = some (infile, surrenderfile)
        ∧ infile.length = 12 * (one_partition_state 83334).partition_map.length
        ∧ load_partitionmap empty_partition_state infile surrenderfile = none :=
  ⟨one_partition_state_cells 83334, le_of_eq (one_partition_state_length 83334).symm,
    checkpoint_load_long_map (one_partition_state 83334) (one_partition_state_cells 83334)
      (le_of_eq (one_partition_state_length 83334).symm)⟩

/-! ## The search under the key f XOR r -/

set_option maxRecDepth 100000

/-- Under the canonical key `f XOR r`, which gives one key to k-mers that are
not reverse complements of each other, the search misses a tagged neighbour of
its start: with k = 2 and 1000003 bins, after `do_truncated_partition` over the
read "AA" the partition map has the key 0 (AA). The read "AC" is counted and
`partition_find_all_tags` is called at the pair (2, 13) of AC: it returns with
no tag and `surrender` = false, although AA is a neighbour of AC, has a
non-zero count and is tagged. The search comes to CC, which has the key 5 of
AA, before it comes to AA, and takes AA for visited. -/
theorem find_all_tags_xor_misses_neighbour :
    (kmer_pair ['A', 'C'] = (2, 13) ∧ kmer_pair ['A', 'A'] = (0, 5)
      ∧ ['A', 'A'] ∈ kmer_neighbours ['A', 'C']
      ∧ kmer_key uniqify_rc_xor ['A', 'A'] = 5 ∧ kmer_key uniqify_rc_xor ['C', 'C'] = 5
      ∧ kmer_tag [(0, 1)] ['A', 'A'] = some 0 ∧ kmer_tag [(0, 1)] ['A', 'C'] = none)
    ∧ (do_truncated_partition uniqify_rc_xor (empty_table 2 1000003) empty_partition_state
        [("read1", ['A', 'A'])]).map
        (fun hs =>
          let ht := (hs.1.check_and_process_read uniqify_rc_xor ['A', 'C'] 0 0).2.2
          (hs.2.partition_map,
            ht.partition_find_all_tags uniqify_rc_xor hs.2.partition_map 2 13 [] false,
            decide (ht.present uniqify_rc_xor ['A', 'A'])))
        = some ([(0, 1)], some ([], false), true) := by
  refine ⟨⟨by decide, by decide, by decide, by decide, by decide, by decide, by decide⟩,
    by decide⟩

end khmer
